import Mathlib

/-!
# deweight: weighted-to-unweighted model counting

A shallow embedding of the `deweight` tool (`src/deweight/src`): the `Rational`
weight type, the `Formula` container, the `chain_formula` encoder, the two
reduction drivers `reduce` and `reduce_dyadic`, and the weight-format state
machine of the DIMACS parser.

Conventions of the embedding.

* `int` values are `Int`.  An operation whose C++ behaviour is undefined
  (a shift `1 << e` that does not fit the 32-bit `int`, a division by zero, an
  index past the end of a vector) makes the embedded function return `none`.
  The `int` arithmetic of `Rational::round` is 32-bit: the dividend
  `num * new_denom` (`+ denom - 1`) is reduced by `wrap32`, as the compiled
  program computes it.
* Variable ids are `Nat` inside a `Formula` (`size_t` in the source) and `Int`
  where the source holds them as `int` literals; the conversions between the
  two are the identity for ids below `2^31`.
* The formula body is a string of lines in the source.  Here a line written by
  `add_clause` keeps its literals, every other line keeps its text.
-/

namespace Deweight

/-! ## Rational (rational.h, rational.cc) -/

/-- A weight: numerator and denominator, never simplified implicitly. -/
structure Rational where
  num : Int
  denom : Int
deriving DecidableEq, Repr

/-- The rounding policies of `Rational::round`. -/
inductive RoundingStrategy where
  | up
  | down
  | near
deriving DecidableEq, Repr

/-- The loop of `std::__gcd`: `while (n != 0) { t = m % n; m = n; n = t; }`,
with the truncating remainder of C++. -/
def gcdLoop : Nat → Int → Int → Int
  | 0, m, _ => m
  | fuel + 1, m, n => if n = 0 then m else gcdLoop fuel n (Int.tmod m n)

/-- The function `std::__gcd` on `int`.  The remainder is smaller in absolute
value than the divisor, so `|n| + 1` rounds always reach `n = 0`. -/
def std_gcd (m n : Int) : Int := gcdLoop (n.natAbs + 1) m n

/-- Integer division `a / b` of C++ (truncating); undefined for `b = 0`. -/
def idiv (a b : Int) : Option Int := if b = 0 then none else some (Int.tdiv a b)

/-- The shift `1 << e` on a 32-bit `int`: it fits only for `e < 31`. -/
def shl1 (e : Nat) : Option Int := if e < 31 then some (2 ^ e) else none

/-- The method `Rational::complement`. -/
def Rational.complement (r : Rational) : Rational := ⟨r.denom - r.num, r.denom⟩

/-- The method `Rational::simplify`: divide both parts by `std::__gcd`. -/
def Rational.simplify (r : Rational) : Option Rational := do
  let gcd := std_gcd r.num r.denom
  let n ← idiv r.num gcd
  let d ← idiv r.denom gcd
  pure ⟨n, d⟩

/-- The result of 32-bit `int` arithmetic: the exact value reduced modulo `2^32`
into `-2^31 .. 2^31 - 1` (two's complement). -/
def wrap32 (x : Int) : Int := (x + 2 ^ 31) % 2 ^ 32 - 2 ^ 31

/-- The `up` case of `Rational::round`:
`new_num = (num * new_denom + denom - 1) / denom`, the dividend computed in
32-bit `int`. -/
def Rational.roundUp (r : Rational) (new_denom : Int) : Option Rational := do
  let new_num ← idiv (wrap32 (r.num * new_denom + r.denom - 1)) r.denom
  pure ⟨if new_num = new_denom then new_num - 1 else new_num, new_denom⟩

/-- The `down` case of `Rational::round`: `new_num = (num * new_denom) / denom`,
the dividend computed in 32-bit `int`. -/
def Rational.roundDown (r : Rational) (new_denom : Int) : Option Rational := do
  let new_num ← idiv (wrap32 (r.num * new_denom)) r.denom
  pure ⟨if new_num = 0 then new_num + 1 else new_num, new_denom⟩

/-- The method `Rational::round`.  The `near` case compares two distances in
`double` arithmetic; `closer lb ub r` stands for the outcome of
`std::abs(lb.value() - value()) < std::abs(ub.value() - value())`. -/
def Rational.round (closer : Rational → Rational → Rational → Bool)
    (r : Rational) (new_denom : Int) : RoundingStrategy → Option Rational
  | .up => r.roundUp new_denom
  | .down => r.roundDown new_denom
  | .near => do
      let ub ← r.roundUp new_denom
      let lb ← r.roundDown new_denom
      pure (if closer lb ub r then lb else ub)

/-- The exact value of a weight, as a rational number. -/
def Rational.toRat (r : Rational) : ℚ := (r.num : ℚ) / (r.denom : ℚ)

/-! ## Formula (formula.h, formula.cc) -/

/-- A clause: its literals in order. -/
abbrev Clause := List Int

/-- One line of the formula body. -/
inductive BodyLine where
  | clause (lits : Clause)
  | text (s : String)
deriving DecidableEq, Repr

/-- The class `Formula`. -/
structure Formula where
  num_variables : Nat
  num_clauses : Nat
  body : List BodyLine
  independent_support : List Int
  weights : List (Int × Rational)
deriving DecidableEq, Repr

/-- The formula of a default-constructed object: all members empty. -/
def Formula.empty : Formula := ⟨0, 0, [], [], []⟩

/-- Conversion of an `int` to `size_t`. -/
def toSizeT (x : Int) : Nat := (x % 2 ^ 64).toNat

/-- The method `Formula::set_header`. -/
def Formula.set_header (f : Formula) (num_variables num_clauses : Int) : Formula :=
  { f with num_variables := toSizeT num_variables, num_clauses := toSizeT num_clauses }

/-- The method `Formula::add_clause`. -/
def Formula.add_clause (f : Formula) (literals : Clause) : Formula :=
  { f with body := f.body ++ [BodyLine.clause literals], num_clauses := f.num_clauses + 1 }

/-- The method `Formula::add_comment`. -/
def Formula.add_comment (f : Formula) (comment : String) : Formula :=
  { f with body := f.body ++ [BodyLine.text ("c " ++ comment)] }

/-- The method `Formula::add_variable`: the formula with one more variable, and
the id of that variable. -/
def Formula.add_variable (f : Formula) : Formula × Nat :=
  ({ f with num_variables := f.num_variables + 1 }, f.num_variables + 1)

/-- The method `Formula::get_weight`: absent entries default to `1/1`. -/
def Formula.get_weight (f : Formula) (literal : Int) : Rational :=
  match f.weights.lookup literal with
  | none => ⟨1, 1⟩
  | some w => w

/-- The method `Formula::set_weight`: `emplace` keeps an entry that exists. -/
def Formula.set_weight (f : Formula) (literal : Int) (weight : Rational) : Formula :=
  match f.weights.lookup literal with
  | none => { f with weights := f.weights ++ [(literal, weight)] }
  | some _ => f

/-- The method `Formula::is_valid_literal`. -/
def Formula.is_valid_literal (f : Formula) (literal : Int) : Bool :=
  decide (literal ≠ 0) && decide (literal.natAbs ≤ f.num_variables)

/-- The method `Formula::add_independent_support`. -/
def Formula.add_independent_support (f : Formula) (var : Int) : Formula :=
  { f with independent_support := f.independent_support ++ [var] }

/-- The method `Formula::has_independent_support`. -/
def Formula.has_independent_support (f : Formula) : Bool :=
  decide (0 < f.independent_support.length)

/-- The clauses of the body, in order. -/
def Formula.clauses (f : Formula) : List Clause :=
  f.body.filterMap fun l => match l with
    | BodyLine.clause c => some c
    | BodyLine.text _ => none

/-! ## chain_formula (main.cc) -/

/-- The loop `while ((num_solutions & (1 << bit)) == 0) bit++`. -/
def skipZeroBits (num_solutions : Int) : Nat → Nat → Option Nat
  | 0, _ => none
  | fuel + 1, bit => do
      let s ← shl1 bit
      if Int.land num_solutions s = 0 then skipZeroBits num_solutions fuel (bit + 1)
      else pure bit

/-- The loop `for (; bit < vars.size(); bit++)` of `chain_formula`, over the
variables `vars[bit], vars[bit+1], ...` that are left. -/
def chainLoop (num_solutions : Int) : List Int → Nat → List Clause → Option (List Clause)
  | [], _, clauses => some clauses
  | v :: rest, bit, clauses => do
      let s ← shl1 bit
      if Int.land num_solutions s > 0 then
        chainLoop num_solutions rest (bit + 1) (clauses.map fun c => c ++ [v])
      else
        chainLoop num_solutions rest (bit + 1) (clauses ++ [[v]])

/-- The function `chain_formula`.  `vars` holds the `int` value that
`static_cast<int>` gives for each entry of the vector. -/
def chain_formula (vars : List Int) (num_solutions : Int) : Option (List Clause) :=
  if num_solutions = 0 then
    match vars with
    | [] => none
    | v :: _ => some [[v], [-v]]
  else do
    let full ← shl1 vars.length
    if num_solutions = full then pure []
    else if num_solutions ≥ full then pure []
    else do
      let bit ← skipZeroBits num_solutions 32 0
      let v ← vars[bit]?
      chainLoop num_solutions (vars.drop (bit + 1)) (bit + 1) [[v]]

/-! ## The reduction drivers (main.cc) -/

/-- The free variables of both drivers: the independent support, or all
variables `1..num_variables` when there is none. -/
def free_variables (f : Formula) : List Int :=
  if f.independent_support.length = 0 then
    (List.range' 1 f.num_variables).map Int.ofNat
  else f.independent_support

/-- One round of allocation: `add_variable`, registered in the independent
support when the formula has one. -/
def alloc_one (f : Formula) (vars : List Int) : Formula × List Int :=
  let (f1, v) := f.add_variable
  let f2 := if f1.has_independent_support then f1.add_independent_support (v : Int) else f1
  (f2, vars ++ [(v : Int)])

/-- The loop `while ((1 << log) < pos_sol || (1 << log) < neg_sol)` of `reduce`. -/
def allocate (pos_sol neg_sol : Int) : Nat → Nat → Formula → List Int → Option (Formula × List Int)
  | 0, _, _, _ => none
  | fuel + 1, log, f, vars => do
      let s ← shl1 log
      if s < pos_sol ∨ s < neg_sol then
        let (f2, vars2) := alloc_one f vars
        allocate pos_sol neg_sol fuel (log + 1) f2 vars2
      else pure (f, vars)

/-- The loop `for (auto &clause : ...) { clause.insert(clause.begin(), guard);
formula->add_clause(clause); }`. -/
def add_guarded (guard : Int) : List Clause → Formula → Formula
  | [], f => f
  | c :: cs, f => add_guarded guard cs (f.add_clause (guard :: c))

/-- The clauses one branch of `reduce` adds: the unit clause of the guard when
the count is `0`, the guarded chain formula otherwise. -/
def reduce_branch (f : Formula) (guard : Int) (vars : List Int) (sol : Int) : Option Formula :=
  if sol = 0 then pure (f.add_clause [guard])
  else do
    let cs ← chain_formula vars sol
    pure (add_guarded guard cs f)

/-- The clauses that `reduce_branch` appends to the formula. -/
def branch_clauses (guard : Int) (vars : List Int) (sol : Int) : Option (List Clause) :=
  if sol = 0 then some [[guard]]
  else (chain_formula vars sol).map fun cs => cs.map fun c => guard :: c

/-- The common denominator step of `reduce`: the two counts and the
denominator before simplification. -/
def common_denom (pos neg : Rational) : Int × Int × Int :=
  if pos.denom = neg.denom then (pos.num, neg.num, pos.denom)
  else (pos.num * neg.denom, neg.num * pos.denom, pos.denom * neg.denom)

/-- The counts `pos_sol`, `neg_sol` and the denominator `denom` that `reduce`
computes for a pair of weights, after division by their gcd. -/
def reduced_counts (pos neg : Rational) : Option (Int × Int × Int) := do
  let (pos_sol, neg_sol, denom) := common_denom pos neg
  let gcd := std_gcd (std_gcd pos_sol neg_sol) denom
  let pos_sol ← idiv pos_sol gcd
  let neg_sol ← idiv neg_sol gcd
  let denom ← idiv denom gcd
  pure (pos_sol, neg_sol, denom)

/-- The body of the loop over the free variables in `reduce`. -/
def reduce_step (f : Formula) (net_denom : Int) (var : Int) : Option (Formula × Int) := do
  let pos := f.get_weight var
  let neg := f.get_weight (-var)
  let (pos_sol, neg_sol, denom) ← reduced_counts pos neg
  if pos_sol < 0 ∨ neg_sol < 0 then pure (f, net_denom)
  else do
    let (f1, vars) ← allocate pos_sol neg_sol 32 0 f []
    let f2 ← reduce_branch f1 (-var) vars pos_sol
    let f3 ← reduce_branch f2 var vars neg_sol
    pure (f3, net_denom * denom)

/-- The loop `for (int var : free_variables)` of `reduce`. -/
def reduce_loop : List Int → Formula → Int → Option (Formula × Int)
  | [], f, net_denom => some (f, net_denom)
  | var :: rest, f, net_denom => do
      let (f2, d2) ← reduce_step f net_denom var
      reduce_loop rest f2 d2

/-- The function `reduce`: the rewritten formula and the net denominator. -/
def reduce (f : Formula) : Option (Formula × Int) :=
  reduce_loop (free_variables f) f 1

/-- The loop `while ((1 << bits_needed) < approx.denom) bits_needed++`. -/
def bitsNeeded (denom : Int) : Nat → Nat → Option Nat
  | 0, _ => none
  | fuel + 1, bits_needed => do
      let s ← shl1 bits_needed
      if s < denom then bitsNeeded denom fuel (bits_needed + 1) else pure bits_needed

/-- The loop `for (int i = 0; i < bits_needed; i++)` that allocates the
auxiliary variables of `reduce_dyadic`. -/
def allocate_n : Nat → Formula → List Int → Formula × List Int
  | 0, f, vars => (f, vars)
  | n + 1, f, vars =>
      let (f2, vars2) := alloc_one f vars
      allocate_n n f2 vars2

/-- The function `to_string` of rational.h. -/
def Rational.to_string (r : Rational) : String := toString r.num ++ "/" ++ toString r.denom

/-- The body of the loop over the free variables in `reduce_dyadic`. -/
def reduce_dyadic_step (closer : Rational → Rational → Rational → Bool)
    (bits_per_var : Int) (rounding : RoundingStrategy)
    (f : Formula) (result : Int) (var : Int) : Option (Formula × Int) := do
  let pos ← (f.get_weight var).simplify
  let neg ← (f.get_weight (-var)).simplify
  if pos.denom ≠ neg.denom ∨ pos.num + neg.num ≠ pos.denom then pure (f, result)
  else if pos.num < 0 ∨ neg.num < 0 then pure (f, result)
  else if pos.num = 1 ∧ neg.num = 1 ∧ pos.denom = 1 then pure (f, result * 2)
  else do
    let new_denom ← if bits_per_var < 0 then none else shl1 bits_per_var.toNat
    let rounded ← pos.round closer new_denom rounding
    let approx ← rounded.simplify
    let bits_needed ← bitsNeeded approx.denom 32 0
    let f1 := f.add_comment
      ("adjust w " ++ toString var ++ " " ++ pos.to_string ++ " to " ++ approx.to_string)
    if approx.num = 1 ∧ approx.denom = 2 then pure (f1, result * 2)
    else do
      let (f2, vars) := allocate_n bits_needed f1 []
      let cs ← chain_formula vars approx.num
      let f3 := add_guarded (-var) cs f2
      let cs2 ← chain_formula (vars.map fun v => -v) approx.complement.num
      let f4 := add_guarded var cs2 f3
      pure (f4, result * approx.denom)

/-- The loop `for (int var : free_variables)` of `reduce_dyadic`. -/
def reduce_dyadic_loop (closer : Rational → Rational → Rational → Bool)
    (bits_per_var : Int) (rounding : RoundingStrategy) :
    List Int → Formula → Int → Option (Formula × Int)
  | [], f, result => some (f, result)
  | var :: rest, f, result => do
      let (f2, r2) ← reduce_dyadic_step closer bits_per_var rounding f result var
      reduce_dyadic_loop closer bits_per_var rounding rest f2 r2

/-- The function `reduce_dyadic`: the rewritten formula and the factor. -/
def reduce_dyadic (closer : Rational → Rational → Rational → Bool)
    (f : Formula) (bits_per_var : Int) (rounding : RoundingStrategy) : Option (Formula × Int) :=
  reduce_dyadic_loop closer bits_per_var rounding (free_variables f) f 1

/-! ## The DIMACS parser (formula.cc, rational.cc) -/

/-- The enumeration `WeightFormat`. -/
inductive WeightFormat where
  | detect
  | cachet
  | cachet_or_mc20
  | minic2d
  | mc20
deriving DecidableEq, Repr

/-- The decimal branch of `Rational::parse`: the loop over the characters. -/
def parseDecimal : List Char → Int → Int → Bool → Rational
  | [], numerator, denominator, _ => ⟨numerator, denominator⟩
  | c :: cs, numerator, denominator, seen_decimal =>
      if c = '.' ∧ seen_decimal = false then parseDecimal cs numerator denominator true
      else if '0' ≤ c ∧ c ≤ '9' then
        parseDecimal cs (numerator * 10 + ((c.toNat : Int) - 48))
          (if seen_decimal then denominator * 10 else denominator) seen_decimal
      else ⟨1, 0⟩

/-- The fraction branch of `Rational::parse`: the loop over the characters. -/
def parseFraction : List Char → Int → Int → Bool → Rational
  | [], numerator, denominator, _ => ⟨numerator, denominator⟩
  | c :: cs, numerator, denominator, seen_slash =>
      if c = '/' ∧ seen_slash = false then parseFraction cs numerator denominator true
      else if '0' ≤ c ∧ c ≤ '9' then
        if seen_slash then
          parseFraction cs numerator (denominator * 10 + ((c.toNat : Int) - 48)) seen_slash
        else
          parseFraction cs (numerator * 10 + ((c.toNat : Int) - 48)) denominator seen_slash
      else ⟨1, 0⟩

/-- The function `Rational::parse`. -/
def Rational.parse (rational : String) : Rational :=
  if rational.toList.contains '/' then parseFraction rational.toList 0 0 false
  else parseDecimal rational.toList 0 1 false

/-- One round of the parser loop, as the stream reader presents it.  The reader
(`StreamBuffer`) is not part of the sources at hand, so each round carries the
answers of the reader to the calls the parser makes in that round.

* `p ok nv nc`: first character `p`; `ok` is the answer of `consume("p cnf ")`,
  `nv` and `nc` are the two integers `parseInt` returns.
* `w ok literal entry`: first character `w`; `ok` is the answer of
  `consume("w ")`, `literal` the integer of `parseInt`, `entry` the token of
  `parseString`.
* `c space entry ints tokens rest`: first character `c`; `space` is the answer
  of `consume(" ")`, `entry` the token of `parseString`, `ints` the integers
  that the following `parseInt` calls return up to the first `0`, `tokens i`
  the token of the `i`-th following `parseString` call, `rest` the text that
  `appendLine` copies.
* `other line`: any other first character; `line` is what `appendLine` copies
  into the body (a clause line keeps its literals). -/
inductive InputLine where
  | p (ok : Bool) (nv nc : Int)
  | w (ok : Bool) (literal : Int) (entry : String)
  | c (space : Bool) (entry : String) (ints : List Int) (tokens : Nat → String) (rest : String)
  | other (line : BodyLine)

/-- What one round of the parser loop does: go on with the next round, or
return from the constructor. -/
inductive Step where
  | next (f : Formula) (weights : WeightFormat)
  | stop (f : Formula) (weights : WeightFormat)

/-- The formula a step leaves. -/
def Step.formula : Step → Formula
  | .next f _ => f
  | .stop f _ => f

/-- The weight format a step leaves. -/
def Step.format : Step → WeightFormat
  | .next _ w => w
  | .stop _ w => w

/-- Whether the step returns from the constructor. -/
def Step.stopped : Step → Bool
  | .next _ _ => false
  | .stop _ _ => true

/-- The first `switch (weights)` of the `w` case: `none` for the abort under
`minic2d`, else the format after it. -/
def w_switch : WeightFormat → Option WeightFormat
  | .minic2d => none
  | .detect => some .cachet_or_mc20
  | .mc20 => some .mc20
  | .cachet_or_mc20 => some .cachet_or_mc20
  | .cachet => some .cachet

/-- The block `if (literal < 0) ...` of the `w` case: `none` for the abort under
`cachet`, else the formula and format after it. -/
def w_negative (f : Formula) (weights : WeightFormat) (literal : Int) :
    Option (Formula × WeightFormat) :=
  if literal < 0 then
    if weights = .cachet then none
    else if weights = .cachet_or_mc20 then
      some (f.add_comment "detected weight format: mc20", .mc20)
    else some (f, weights)
  else some (f, weights)

/-- The block from `in->parseString(entry)` on in the `w` case. -/
def w_entry (f : Formula) (weights : WeightFormat) (literal : Int) (entry : String) : Step :=
  if entry = "-1" then
    match weights with
    | .cachet_or_mc20 =>
        .next (((f.add_comment "detected weight format: cachet").set_weight literal ⟨1, 1⟩).set_weight
          (-literal) ⟨1, 1⟩) .cachet
    | .cachet => .next ((f.set_weight literal ⟨1, 1⟩).set_weight (-literal) ⟨1, 1⟩) .cachet
    | _ => .stop (f.set_header 0 0) weights
  else .next (f.set_weight literal (Rational.parse entry)) weights

/-- The case `'w'` of the parser loop. -/
def parse_w (f : Formula) (weights : WeightFormat) (ok : Bool) (literal : Int)
    (entry : String) : Step :=
  if ok = false then .stop (f.set_header 0 0) weights
  else
    match w_switch weights with
    | none => .stop (f.set_header 0 0) weights
    | some w1 =>
        if f.is_valid_literal literal = false then .stop (f.set_header 0 0) w1
        else
          match w_negative f w1 literal with
          | none => .stop (f.set_header 0 0) w1
          | some (f2, w2) => w_entry f2 w2 literal entry

/-- The loop of the `c weights` case: for `i = 1..num_variables` one token for
the literal `i`, then one for `-i`. -/
def read_weights (tokens : Nat → String) : List Nat → Formula → Formula
  | [], f => f
  | i :: rest, f =>
      read_weights tokens rest
        ((f.set_weight (i : Int) (Rational.parse (tokens (2 * (i - 1))))).set_weight
          (-(i : Int)) (Rational.parse (tokens (2 * (i - 1) + 1))))

/-- The loop `while (variable != 0)` of the `c ind` case. -/
def read_ind : List Int → Formula → Formula
  | [], f => f
  | var :: rest, f =>
      if var = 0 then f else read_ind rest (f.add_independent_support var)

/-- The case `'c'` of the parser loop. -/
def parse_c (f : Formula) (weights : WeightFormat) (space : Bool) (entry : String)
    (ints : List Int) (tokens : Nat → String) (rest : String) : Step :=
  if space = false then .next { f with body := f.body ++ [BodyLine.text "c"] } weights
  else if entry = "ind" then .next (read_ind ints f) weights
  else if entry = "weights" ∧ (weights = .detect ∨ weights = .minic2d) then
    let f1 := if weights = .detect then f.add_comment "detected weight format: minic2d" else f
    .next (read_weights tokens (List.range' 1 f1.num_variables) f1) .minic2d
  else .next { f with body := f.body ++ [BodyLine.text ("c " ++ entry ++ " " ++ rest)] } weights

/-- One round of the parser loop on a line. -/
def parse_line (f : Formula) (weights : WeightFormat) : InputLine → Step
  | .p ok nv nc =>
      if ok = false then .stop (f.set_header 0 0) weights
      else .next (f.set_header nv nc) weights
  | .w ok literal entry => parse_w f weights ok literal entry
  | .c space entry ints tokens rest => parse_c f weights space entry ints tokens rest
  | .other line => .next { f with body := f.body ++ [line] } weights

/-- The body of the loop `for (int i = 1; i <= num_variables_; i++)` of the
end-of-input case. -/
def finalize_var (f : Formula) (i : Nat) : Formula :=
  match f.weights.lookup (i : Int) with
  | some weight =>
      match f.weights.lookup (-(i : Int)) with
      | none => f.set_weight (-(i : Int)) weight.complement
      | some _ => f
  | none => (f.set_weight (i : Int) ⟨1, 2⟩).set_weight (-(i : Int)) ⟨1, 2⟩

/-- The loop of the end-of-input case under `cachet`. -/
def finalize (f : Formula) : Formula :=
  (List.range' 1 f.num_variables).foldl finalize_var f

/-- The case `EOF` of the parser loop. -/
def parse_eof (f : Formula) : WeightFormat → Formula × WeightFormat
  | .detect => (f, .detect)
  | .minic2d => (f, .minic2d)
  | .mc20 => (f, .mc20)
  | .cachet_or_mc20 => (finalize (f.add_comment "detected weight format: cachet"), .cachet)
  | .cachet => (finalize f, .cachet)

/-- The rounds of the parser loop on the lines of the input: `stop` when a round
returns from the constructor, `next` with the state reached when the lines are
used up and the end of the input is next. -/
def parse_lines : List InputLine → Formula → WeightFormat → Step
  | [], f, weights => .next f weights
  | line :: rest, f, weights =>
      match parse_line f weights line with
      | .next f2 w2 => parse_lines rest f2 w2
      | .stop f2 w2 => .stop f2 w2

/-- The parser loop `for (;;)`: the formula and the weight format when the
constructor returns, after an aborting line or at the end of the input. -/
def parse_loop (input : List InputLine) (f : Formula) (weights : WeightFormat) :
    Formula × WeightFormat :=
  match parse_lines input f weights with
  | .next f2 w2 => parse_eof f2 w2
  | .stop f2 w2 => (f2, w2)

/-- In the weight map, a weight for a negative literal comes with one for the
positive literal of the same variable.  The parser keeps this as long as the
format is `detect`, `cachet_or_mc20` or `cachet`. -/
def weights_paired (ws : List (Int × Rational)) : Prop :=
  ∀ l : Int, 0 < l → ws.lookup l = none → ws.lookup (-l) = none

/-- The transitions of the weight format that the specification lists, each
with the event that triggers it (`none` is the end of the input). -/
def allowed_transition (line : Option InputLine) (s t : WeightFormat) : Prop :=
  (s = .detect ∧ t = .cachet_or_mc20 ∧ ∃ ok literal entry, line = some (.w ok literal entry)) ∨
  (s = .cachet_or_mc20 ∧ t = .mc20 ∧
    ∃ ok literal entry, line = some (.w ok literal entry) ∧ literal < 0) ∨
  (s = .cachet_or_mc20 ∧ t = .cachet ∧
    ((∃ ok literal, line = some (.w ok literal "-1")) ∨ line = none)) ∨
  (s = .detect ∧ t = .minic2d ∧
    ∃ space ints tokens rest, line = some (.c space "weights" ints tokens rest))

/-- The constructor `Formula::Formula(in, weights)`. -/
def Formula.parse (input : List InputLine) (weights : WeightFormat) : Formula :=
  (parse_loop input Formula.empty weights).1

/-! ## Semantics of clauses and model counts -/

/-- Truth of a literal under an assignment of the variables. -/
def litTrue (a : Nat → Bool) (l : Int) : Bool :=
  if 0 < l then a l.natAbs else !(a l.natAbs)

/-- A clause holds when one of its literals does. -/
def clauseSat (a : Nat → Bool) (c : Clause) : Bool := c.any (litTrue a)

/-- A clause set holds when all its clauses do. -/
def cnfSat (a : Nat → Bool) (cs : List Clause) : Bool := cs.all (clauseSat a)

/-- Sum of `F` over all assignments that agree with `a` outside `vs`: each
variable of `vs` in turn takes the values false and true. -/
def sumAsg {M : Type} [Add M] (F : (Nat → Bool) → M) : List Nat → (Nat → Bool) → M
  | [], a => F a
  | v :: vs, a =>
      sumAsg F vs (Function.update a v false) + sumAsg F vs (Function.update a v true)

/-- Indicator of the models of `cs`: `1` on a satisfying assignment, else `0`. -/
def satInd (cs : List Clause) (a : Nat → Bool) : Nat := if cnfSat a cs then 1 else 0

/-- The number of assignments of the variables `vs` that satisfy `cs`. -/
def modelCount (vs : List Nat) (cs : List Clause) : Nat :=
  sumAsg (satInd cs) vs (fun _ => false)

/-- The variables of a list of literals. -/
def varsOf (lits : List Int) : List Nat := lits.map Int.natAbs

/-- The weight of the literal of `var` that the assignment makes true. -/
def litWeight (f : Formula) (a : Nat → Bool) (var : Int) : ℚ :=
  if a var.natAbs then (f.get_weight var).toRat else (f.get_weight (-var)).toRat

/-- The product, over the listed variables, of the weight of the literal the
assignment makes true. -/
def weightProduct (f : Formula) (a : Nat → Bool) : List Int → ℚ
  | [] => 1
  | var :: rest => litWeight f a var * weightProduct f a rest

/-- Sum of `W` over the assignments of the variables `1..n` that satisfy `cs`. -/
def weightedSum (n : Nat) (cs : List Clause) (W : (Nat → Bool) → ℚ) : ℚ :=
  sumAsg (fun a => if cnfSat a cs then W a else 0) (List.range' 1 n) (fun _ => false)

/-- The weighted model count of a formula: the sum, over the assignments of its
variables that satisfy its clauses, of the product over the free variables of
the weight of the literal made true. -/
def wmc (f : Formula) : ℚ :=
  weightedSum f.num_variables f.clauses (fun a => weightProduct f a (free_variables f))

/-- The `int` computations of `reduce` on a pair of weights stay in range: the
cross products fit 32 bits, and the two counts are at most `2^30`, so that the
shifts `1 << log` of the allocation loop fit as well. -/
def countsFit (pos neg : Rational) : Bool :=
  decide ((common_denom pos neg).1 < 2 ^ 31) && decide ((common_denom pos neg).2.1 < 2 ^ 31)
    && decide ((common_denom pos neg).2.2 < 2 ^ 31) &&
  match reduced_counts pos neg with
  | some (p, q, _) => decide (p ≤ 2 ^ 30) && decide (q ≤ 2 ^ 30)
  | none => true

/-- The rounded weight `approx` of `reduce_dyadic` before its simplification:
the simplified weight, rounded to the denominator `2^bits_per_var`. -/
def approx_weight (closer : Rational → Rational → Rational → Bool) (bits_per_var : Int)
    (rounding : RoundingStrategy) (w : Rational) : Option Rational := do
  let pos ← w.simplify
  let new_denom ← if bits_per_var < 0 then none else shl1 bits_per_var.toNat
  pos.round closer new_denom rounding

/-- The weight of the literal of `var` that the assignment makes true, when the
weight of the positive literal is replaced by `approx` and the weight of the
negative literal by `1 - approx`. -/
def roundedLitWeight (closer : Rational → Rational → Rational → Bool) (bits_per_var : Int)
    (rounding : RoundingStrategy) (f : Formula) (a : Nat → Bool) (var : Int) : ℚ :=
  match approx_weight closer bits_per_var rounding (f.get_weight var) with
  | some approx => if a var.natAbs then approx.toRat else 1 - approx.toRat
  | none => 0

/-- The product of the rounded weights over the listed variables. -/
def roundedProduct (closer : Rational → Rational → Rational → Bool) (bits_per_var : Int)
    (rounding : RoundingStrategy) (f : Formula) (a : Nat → Bool) : List Int → ℚ
  | [] => 1
  | var :: rest =>
      roundedLitWeight closer bits_per_var rounding f a var
        * roundedProduct closer bits_per_var rounding f a rest

/-- The weighted model count of a formula with the rounded weights. -/
def wmc_rounded (closer : Rational → Rational → Rational → Bool) (bits_per_var : Int)
    (rounding : RoundingStrategy) (f : Formula) : ℚ :=
  weightedSum f.num_variables f.clauses
    (fun a => roundedProduct closer bits_per_var rounding f a (free_variables f))

/-- The hypotheses of the dyadic reduction on one free variable: it is a
variable of the formula, and its pair of weights is probabilistic (after
simplification the denominators agree and the numerators add up to the
denominator) with the positive weight strictly between 0 and 1; the last
condition keeps `num * new_denom + denom - 1` within the `int` range. -/
def probVar (bits_per_var : Int) (f : Formula) (var : Int) : Bool :=
  decide (0 < var) && decide (var.natAbs ≤ f.num_variables) &&
  match (f.get_weight var).simplify, (f.get_weight (-var)).simplify with
  | some pos, some neg =>
      decide (pos.denom = neg.denom) && decide (pos.num + neg.num = pos.denom) &&
      decide (0 < pos.num) && decide (pos.num < pos.denom) &&
      decide (pos.num * 2 ^ bits_per_var.toNat + pos.denom ≤ 2 ^ 31)
  | _, _ => false

/-- The hypotheses of the exact reduction on one free variable: it is a variable
of the formula, its two weights have a non-negative numerator and a positive
denominator, and the `int` computations on them stay in range. -/
def goodVar (f : Formula) (var : Int) : Prop :=
  0 < var ∧ var.natAbs ≤ f.num_variables ∧
  0 ≤ (f.get_weight var).num ∧ 0 < (f.get_weight var).denom ∧
  0 ≤ (f.get_weight (-var)).num ∧ 0 < (f.get_weight (-var)).denom ∧
  countsFit (f.get_weight var) (f.get_weight (-var)) = true

instance (f : Formula) (var : Int) : Decidable (goodVar f var) := by
  unfold goodVar
  infer_instance

/-- Whether a character is a decimal digit. -/
def is_digit (c : Char) : Bool := decide ('0' ≤ c ∧ c ≤ '9')

/-- The integer written by a string of decimal digits, most significant digit
first (0 for the empty string). -/
def digitsValue (ds : List Char) : Int :=
  ds.foldl (fun n c => n * 10 + ((c.toNat : Int) - 48)) 0

/-- Specification predicate for the independent support across a driver run
from `f` to `g`: the auxiliary variables are the ids `f.num_variables + 1, ...,
g.num_variables` in allocation order; when `f` tracks an independent support,
`g` holds it followed by exactly these ids, and when `f` has none, so has `g`. -/
def support_extended (f g : Formula) : Prop :=
  f.num_variables ≤ g.num_variables ∧
  g.independent_support
    = if f.independent_support = [] then []
      else f.independent_support
        ++ (List.range' (f.num_variables + 1) (g.num_variables - f.num_variables)).map Int.ofNat

/-! ## The type `double` (IEEE 754 binary64, round to nearest even) -/

/-- A value of type `double`: a finite number `(-1)^neg * m * 2^e`, an
infinity, or a NaN.  The exponent range is not modelled: the operands here are
quotients and differences of converted `int`s, far from overflow and
underflow. -/
inductive Double where
  | fin (neg : Bool) (m : Nat) (e : Int)
  | inf (neg : Bool)
  | nan
deriving DecidableEq, Repr

/-- Number of bits of `n` minus one, for `n > 0` (`fuel` at least that many). -/
def log2Fuel : Nat → Nat → Nat
  | 0, _ => 0
  | fuel + 1, n => if 2 ≤ n then log2Fuel fuel (n / 2) + 1 else 0

/-- The numerator of `n / d * 2^(-e)` as a fraction of naturals. -/
def scaleNum (n : Nat) (e : Int) : Nat := if 0 ≤ e then n else n * 2 ^ (-e).toNat

/-- The denominator of `n / d * 2^(-e)` as a fraction of naturals. -/
def scaleDen (d : Nat) (e : Int) : Nat := if 0 ≤ e then d * 2 ^ e.toNat else d

/-- The integer nearest to `a / b`, the even one of the two on a tie. -/
def roundEven (a b : Nat) : Nat :=
  if 2 * (a % b) < b then a / b
  else if b < 2 * (a % b) then a / b + 1
  else if a / b % 2 = 0 then a / b
  else a / b + 1

/-- Round to nearest, ties to even, of the positive fraction `n / d` to a
significand of 53 bits: the pair `(m, e)` of the result `m * 2^e`, with
`2^52 ≤ m ≤ 2^53`.  The exponent `e` is the one for which `n / d * 2^(-e)`
lies in `[2^52, 2^53)`. -/
def round53 (n d : Nat) : Nat × Int :=
  if n = 0 ∨ d = 0 then (0, 0)
  else
    let e0 : Int := (log2Fuel n n : Int) - (log2Fuel d d : Int) - 52
    let e : Int := if scaleNum n e0 / scaleDen d e0 < 2 ^ 52 then e0 - 1 else e0
    (roundEven (scaleNum n e) (scaleDen d e), e)

/-- The conversion `static_cast<double>(i)` of an integer (exact below `2^53`). -/
def Double.ofInt (i : Int) : Double :=
  let (m, e) := round53 i.natAbs 1
  .fin (decide (i < 0)) m e

/-- The operator `/` on `double`. -/
def Double.div : Double → Double → Double
  | .nan, _ => .nan
  | _, .nan => .nan
  | .inf _, .inf _ => .nan
  | .inf s, .fin t _ _ => .inf (xor s t)
  | .fin s _ _, .inf t => .fin (xor s t) 0 0
  | .fin s m1 e1, .fin t m2 e2 =>
      if m2 = 0 then (if m1 = 0 then .nan else .inf (xor s t))
      else
        let (m, e) := round53 m1 m2
        .fin (xor s t) m (e + e1 - e2)

/-- The exact value of a finite `double`, as an integer multiple of `2^e0`
for an `e0` not above its exponent. -/
def Double.scaled (neg : Bool) (m : Nat) (e e0 : Int) : Int :=
  (if neg then -1 else 1) * (m : Int) * 2 ^ (e - e0).toNat

/-- The operator `-` on `double`. -/
def Double.sub : Double → Double → Double
  | .nan, _ => .nan
  | _, .nan => .nan
  | .inf s, .inf t => if s = t then .nan else .inf s
  | .inf s, .fin _ _ _ => .inf s
  | .fin _ _ _, .inf t => .inf (!t)
  | .fin s m1 e1, .fin t m2 e2 =>
      let e0 := min e1 e2
      let x : Int := Double.scaled s m1 e1 e0 - Double.scaled t m2 e2 e0
      let (m, e) := round53 x.natAbs 1
      .fin (decide (x < 0)) m (e + e0)

/-- The function `std::abs` on `double`. -/
def Double.abs : Double → Double
  | .nan => .nan
  | .inf _ => .inf false
  | .fin _ m e => .fin false m e

/-- The operator `<` on `double`. -/
def Double.lt : Double → Double → Bool
  | .nan, _ => false
  | _, .nan => false
  | .inf s, .inf t => s && !t
  | .inf s, .fin _ _ _ => s
  | .fin _ _ _, .inf t => !t
  | .fin s m1 e1, .fin t m2 e2 =>
      decide (Double.scaled s m1 e1 (min e1 e2) < Double.scaled t m2 e2 (min e1 e2))

/-- The method `Rational::value`. -/
def Rational.value (r : Rational) : Double :=
  Double.div (Double.ofInt r.num) (Double.ofInt r.denom)

/-- The test `std::abs(lb.value() - value()) < std::abs(ub.value() - value())`
of the `near` case of `Rational::round`. -/
def near_closer (lb ub r : Rational) : Bool :=
  Double.lt (Double.abs (Double.sub lb.value r.value))
    (Double.abs (Double.sub ub.value r.value))

/-- The exact value of a finite `double` (`0` stands in for infinities and
NaN, which have none). -/
def Double.toRat : Double → ℚ
  | .fin neg m e => (if neg then -1 else 1) * (m : ℚ) * (2 : ℚ) ^ e
  | _ => 0

/-- A rational number that a `double` holds exactly: `±k * 2^z` with a
significand `k` below `2^53`. -/
def representable (q : ℚ) : Prop := ∃ (k : Nat) (z : Int), k < 2 ^ 53 ∧ |q| = (k : ℚ) * (2 : ℚ) ^ z

/-- The binary value of an assignment on a list of literals: the sum over `i`
of `2^i` for each `vars[i]` that the assignment makes true. -/
def binValue (a : Nat → Bool) : List Int → Nat
  | [] => 0
  | v :: rest => (if litTrue a v then 1 else 0) + 2 * binValue a rest

/-- The ids that one line names for the independent support: those of a
`c ind` line before its terminating 0, and none for every other line. -/
def ind_ids_line : InputLine → List Int
  | .c true entry ints _ _ =>
      if entry = "ind" then ints.takeWhile (fun v => decide (v ≠ 0)) else []
  | _ => []

/-- The ids named on the `c ind` lines of an input, in file order and with
their repetitions. -/
def ind_ids : List InputLine → List Int
  | [] => []
  | line :: rest => ind_ids_line line ++ ind_ids rest

/-- The number of clause lines among body lines. -/
def clause_count (lines : List BodyLine) : Nat :=
  (lines.filter fun l => match l with
    | BodyLine.clause _ => true
    | BodyLine.text _ => false).length

/-- Specification predicate for the header across a driver run from `f` to
`g`: no variable is lost, the body of `g` is the body of `f` followed by the
lines appended, and the clause count has grown by the number of clause lines
among them. -/
def header_extended (f g : Formula) : Prop :=
  f.num_variables ≤ g.num_variables ∧
  ∃ added : List BodyLine, g.body = f.body ++ added ∧
    g.num_clauses = f.num_clauses + clause_count added

/-! ## The dexor tool (src/tools/dexor: formula.h, formula.cc) -/

/-- The class `Formula` of the dexor tool: the header and the body. -/
structure Dexor.Formula where
  num_variables : Nat
  num_clauses : Nat
  body : List BodyLine
deriving DecidableEq, Repr

/-- The formula of dexor before any line is read: all members empty. -/
def Dexor.Formula.empty : Dexor.Formula := ⟨0, 0, []⟩

/-- The method `Formula::set_header` of dexor. -/
def Dexor.Formula.set_header (f : Dexor.Formula) (num_variables num_clauses : Int) :
    Dexor.Formula :=
  { f with num_variables := toSizeT num_variables, num_clauses := toSizeT num_clauses }

/-- The method `Formula::add_clause` of dexor. -/
def Dexor.Formula.add_clause (f : Dexor.Formula) (literals : Clause) : Dexor.Formula :=
  { f with body := f.body ++ [BodyLine.clause literals], num_clauses := f.num_clauses + 1 }

/-- The number of set bits among the lowest `fuel` bits of `i`. -/
def bitCount : Nat → Nat → Nat
  | 0, _ => 0
  | fuel + 1, i => i % 2 + bitCount fuel (i / 2)

/-- The function `__builtin_parity` on an `unsigned int`: the number of set
bits of the 32-bit value, modulo 2. -/
def builtin_parity (i : Nat) : Nat := bitCount 32 i % 2

/-- The loop `for (size_t j = 0; j < lits.size(); j++)` of the `x` case, from
position `j` on: the literal `lits[j]`, multiplied by `-1` when
`(i & (1 << j)) != 0`. -/
def Dexor.xor_clause (i : Nat) : Nat → List Int → Clause
  | _, [] => []
  | j, l :: rest =>
      (if Nat.land i (2 ^ j) ≠ 0 then l * -1 else l) :: Dexor.xor_clause i (j + 1) rest

/-- The loop `for (unsigned int i = 0; i < (1 << lits.size()); i++)` of the `x`
case over the values of `i` that are left: a value of odd parity is passed
over, for every other one its clause is added. -/
def Dexor.add_xor_clauses (lits : List Int) : List Nat → Dexor.Formula → Dexor.Formula
  | [], f => f
  | i :: rest, f =>
      if builtin_parity i = 1 then Dexor.add_xor_clauses lits rest f
      else Dexor.add_xor_clauses lits rest (f.add_clause (Dexor.xor_clause i 0 lits))

/-- A line of the input of dexor, by the first character the parser sees.
* `p ok nv nc`: `ok` tells whether `consume("p cnf ")` succeeds, `nv` and `nc`
  are the two integers read next;
* `x ok ints`: `ok` tells whether `consume("x ")` succeeds, `ints` are the
  integers that the calls of `parseInt` return from there on;
* `other line`: any other first character; `line` is what `appendLine` copies
  into the body. -/
inductive Dexor.InputLine where
  | p (ok : Bool) (nv nc : Int)
  | x (ok : Bool) (ints : List Int)
  | other (line : BodyLine)

/-- What one round of the parser loop of dexor does: go on with the next
round, or return from the constructor. -/
inductive Dexor.Step where
  | next (f : Dexor.Formula)
  | stop (f : Dexor.Formula)

/-- The case `'x'` of the parser loop of dexor; `none` when the shift
`1 << lits.size()` does not fit the `int`.  The mask `i = 0` has even parity,
so a clause is added before `num_clauses_--`. -/
def Dexor.parse_x (f : Dexor.Formula) (ok : Bool) (ints : List Int) : Option Dexor.Step :=
  if ok = false then some (.stop (f.set_header 0 0))
  else
    let lits := ints.takeWhile (fun lit => decide (lit ≠ 0))
    match shl1 lits.length with
    | none => none
    | some bound =>
        let f2 := Dexor.add_xor_clauses lits (List.range bound.toNat) f
        some (.next { f2 with num_clauses := f2.num_clauses - 1 })

/-- One round of the parser loop of dexor on a line. -/
def Dexor.parse_line (f : Dexor.Formula) : Dexor.InputLine → Option Dexor.Step
  | .p ok nv nc =>
      if ok = false then some (.stop (f.set_header 0 0))
      else some (.next (f.set_header nv nc))
  | .x ok ints => Dexor.parse_x f ok ints
  | .other line => some (.next { f with body := f.body ++ [line] })

/-- The parser loop of dexor on the lines of the input; the end of the input
returns the formula as it is. -/
def Dexor.parse_lines : List Dexor.InputLine → Dexor.Formula → Option Dexor.Formula
  | [], f => some f
  | line :: rest, f =>
      match Dexor.parse_line f line with
      | some (.next f2) => Dexor.parse_lines rest f2
      | some (.stop f2) => some f2
      | none => none

/-- The constructor `Formula::Formula(in)` of dexor. -/
def Dexor.Formula.parse (input : List Dexor.InputLine) : Option Dexor.Formula :=
  Dexor.parse_lines input Dexor.Formula.empty

/-- The number of literals of a list that an assignment makes true. -/
def trueCount (a : Nat → Bool) (lits : List Int) : Nat := lits.countP (litTrue a)

/-! ## Sums over assignments -/

theorem sumAsg_congr {M : Type} [Add M] {F G : (Nat → Bool) → M} (h : ∀ a, F a = G a)
    (vs : List Nat) (a : Nat → Bool) : sumAsg F vs a = sumAsg G vs a := by
  have : F = G := funext h
  rw [this]

theorem sumAsg_append {M : Type} [Add M] (F : (Nat → Bool) → M) (l1 l2 : List Nat) :
    ∀ a, sumAsg F (l1 ++ l2) a = sumAsg (fun b => sumAsg F l2 b) l1 a := by
  induction l1 with
  | nil => intro a; rfl
  | cons v vs ih =>
    intro a
    show sumAsg F (vs ++ l2) (Function.update a v false)
        + sumAsg F (vs ++ l2) (Function.update a v true) = _
    rw [ih, ih]
    rfl

theorem sumAsg_add {M : Type} [AddCommMonoid M] (F G : (Nat → Bool) → M) (vs : List Nat) :
    ∀ a, sumAsg (fun b => F b + G b) vs a = sumAsg F vs a + sumAsg G vs a := by
  induction vs with
  | nil => intro a; rfl
  | cons v vs ih =>
    intro a
    simp only [sumAsg, ih]
    abel

theorem sumAsg_const {M : Type} [Semiring M] (c : M) (vs : List Nat) :
    ∀ a, sumAsg (fun _ => c) vs a = 2 ^ vs.length * c := by
  induction vs with
  | nil => intro a; simp [sumAsg]
  | cons v vs ih =>
    intro a
    simp only [sumAsg, ih, List.length_cons, pow_succ]
    rw [mul_assoc, two_mul, mul_add]

theorem sumAsg_mul_left {M : Type} [Semiring M] (c : M) (F : (Nat → Bool) → M) (vs : List Nat) :
    ∀ a, sumAsg (fun b => c * F b) vs a = c * sumAsg F vs a := by
  induction vs with
  | nil => intro a; rfl
  | cons v vs ih =>
    intro a
    simp only [sumAsg, ih, mul_add]

theorem sumAsg_cast (F : (Nat → Bool) → Nat) (vs : List Nat) :
    ∀ a, ((sumAsg F vs a : Nat) : ℚ) = sumAsg (fun b => (F b : ℚ)) vs a := by
  induction vs with
  | nil => intro a; rfl
  | cons v vs ih =>
    intro a
    simp only [sumAsg, Nat.cast_add, ih]

/-- The sum does not depend on the values the start assignment gives to the
variables that are summed over. -/
theorem sumAsg_frame {M : Type} [Add M] (F : (Nat → Bool) → M) (vs : List Nat) :
    ∀ a b : Nat → Bool, (∀ x, x ∉ vs → a x = b x) → sumAsg F vs a = sumAsg F vs b := by
  induction vs with
  | nil =>
    intro a b h
    have : a = b := funext fun x => h x (by simp)
    rw [this]
  | cons v vs ih =>
    intro a b h
    have key : ∀ t : Bool, ∀ x, x ∉ vs →
        Function.update a v t x = Function.update b v t x := by
      intro t x hx
      by_cases hxv : x = v
      · subst hxv; simp
      · simp only [Function.update_noteq hxv]
        exact h x (by simp [hxv, hx])
    simp only [sumAsg]
    rw [ih _ _ (key false), ih _ _ (key true)]

/-! ## Truth of literals and clauses -/

theorem litTrue_update_ne (a : Nat → Bool) (x : Nat) (t : Bool) (l : Int) (h : l.natAbs ≠ x) :
    litTrue (Function.update a x t) l = litTrue a l := by
  simp [litTrue, Function.update_noteq h]

theorem clauseSat_update_ne (a : Nat → Bool) (x : Nat) (t : Bool) (c : Clause)
    (h : ∀ l ∈ c, l.natAbs ≠ x) :
    clauseSat (Function.update a x t) c = clauseSat a c := by
  induction c with
  | nil => rfl
  | cons l ls ih =>
    have h1 := litTrue_update_ne a x t l (h l (by simp))
    have h2 := ih (fun l hl => h l (by simp [hl]))
    simp only [clauseSat, List.any_cons] at h2 ⊢
    rw [h1, h2]

theorem cnfSat_update_ne (a : Nat → Bool) (x : Nat) (t : Bool) (cs : List Clause)
    (h : ∀ c ∈ cs, ∀ l ∈ c, l.natAbs ≠ x) :
    cnfSat (Function.update a x t) cs = cnfSat a cs := by
  induction cs with
  | nil => rfl
  | cons c cs ih =>
    have h1 := clauseSat_update_ne a x t c (h c (by simp))
    have h2 := ih (fun c hc => h c (by simp [hc]))
    simp only [cnfSat, List.all_cons] at h2 ⊢
    rw [h1, h2]

theorem cnfSat_append (a : Nat → Bool) (cs ds : List Clause) :
    cnfSat a (cs ++ ds) = (cnfSat a cs && cnfSat a ds) := by
  simp [cnfSat, List.all_append]

theorem clauseSat_cons (a : Nat → Bool) (l : Int) (c : Clause) :
    clauseSat a (l :: c) = (litTrue a l || clauseSat a c) := by
  simp [clauseSat]

theorem clauseSat_snoc (a : Nat → Bool) (l : Int) (c : Clause) :
    clauseSat a (c ++ [l]) = (clauseSat a c || litTrue a l) := by
  simp [clauseSat, List.any_append]

theorem cnfSat_map_snoc (a : Nat → Bool) (v : Int) (cs : List Clause) :
    cnfSat a (cs.map fun c => c ++ [v]) = (litTrue a v || cnfSat a cs) := by
  induction cs with
  | nil => simp [cnfSat]
  | cons c cs ih =>
    simp only [cnfSat, List.map_cons, List.all_cons] at ih ⊢
    rw [ih, clauseSat_snoc]
    cases litTrue a v <;> simp

theorem cnfSat_map_cons (a : Nat → Bool) (g : Int) (cs : List Clause) :
    cnfSat a (cs.map fun c => g :: c) = (litTrue a g || cnfSat a cs) := by
  induction cs with
  | nil => simp [cnfSat]
  | cons c cs ih =>
    simp only [cnfSat, List.map_cons, List.all_cons] at ih ⊢
    rw [ih, clauseSat_cons]
    cases litTrue a g <;> simp

theorem litTrue_update_self (a : Nat → Bool) (t : Bool) (v : Int) :
    litTrue (Function.update a v.natAbs t) v = (t == decide (0 < v)) := by
  by_cases h : 0 < v <;> cases t <;> simp [litTrue, h]

theorem litTrue_neg (a : Nat → Bool) (v : Int) (h : v ≠ 0) :
    litTrue a (-v) = !litTrue a v := by
  rcases lt_trichotomy v 0 with hv | hv | hv
  · have h1 : 0 < -v := by omega
    have h2 : ¬ 0 < v := by omega
    simp [litTrue, h1, h2]
  · exact absurd hv h
  · have h1 : ¬ 0 < -v := by omega
    simp [litTrue, h1, hv]

/-! ## The chain formula has the requested number of models -/

theorem shl1_of_lt {e : Nat} (h : e < 31) : shl1 e = some (2 ^ e) := by
  simp [shl1, h]

/-- The test `num_solutions & (1 << bit)` reads bit `bit` of `num_solutions`. -/
theorem land_two_pow (k bit : Nat) :
    Int.land (k : Int) (2 ^ bit) = ((k / 2 ^ bit % 2 * 2 ^ bit : Nat) : Int) := by
  have h : Int.land (k : Int) ((2 ^ bit : Nat) : Int) = ((k &&& 2 ^ bit : Nat) : Int) := rfl
  rw [Nat.and_two_pow, Nat.toNat_testBit] at h
  rw [← h]
  push_cast
  rfl

theorem land_two_pow_eq_zero (k bit : Nat) :
    Int.land (k : Int) (2 ^ bit) = 0 ↔ k / 2 ^ bit % 2 = 0 := by
  rw [land_two_pow]
  have hp : 0 < 2 ^ bit := Nat.two_pow_pos bit
  constructor
  · intro h
    have h2 : k / 2 ^ bit % 2 * 2 ^ bit = 0 := by exact_mod_cast h
    rcases Nat.mul_eq_zero.mp h2 with h3 | h3
    · exact h3
    · omega
  · intro h
    rw [h]
    simp

theorem land_two_pow_pos (k bit : Nat) :
    Int.land (k : Int) (2 ^ bit) > 0 ↔ k / 2 ^ bit % 2 = 1 := by
  have h0 := land_two_pow_eq_zero k bit
  have h1 : (0 : Int) ≤ Int.land (k : Int) (2 ^ bit) := by
    rw [land_two_pow]; exact Int.natCast_nonneg _
  have h2 : k / 2 ^ bit % 2 = 0 ∨ k / 2 ^ bit % 2 = 1 := by omega
  constructor
  · intro h
    rcases h2 with h3 | h3
    · have := h0.mpr h3
      omega
    · exact h3
  · intro h
    have : ¬ Int.land (k : Int) (2 ^ bit) = 0 := by
      intro h4
      have := h0.mp h4
      omega
    omega

theorem count_snoc_or (cl : List Clause) (P : List Nat) (v : Int)
    (hfresh : ∀ c ∈ cl, ∀ l ∈ c, l.natAbs ≠ v.natAbs) (a : Nat → Bool) :
    sumAsg (satInd (cl.map fun c => c ++ [v])) (P ++ [v.natAbs]) a
      = sumAsg (satInd cl) P a + 2 ^ P.length := by
  rw [sumAsg_append]
  have hpt : ∀ b : Nat → Bool,
      sumAsg (satInd (cl.map fun c => c ++ [v])) [v.natAbs] b = satInd cl b + 1 := by
    intro b
    simp only [sumAsg, satInd, cnfSat_map_snoc, litTrue_update_self,
      cnfSat_update_ne _ _ _ _ hfresh]
    cases decide (0 < v) <;> cases cnfSat b cl <;> simp
  rw [sumAsg_congr hpt, sumAsg_add, sumAsg_const]
  simp

theorem count_snoc_and (cl : List Clause) (P : List Nat) (v : Int)
    (hfresh : ∀ c ∈ cl, ∀ l ∈ c, l.natAbs ≠ v.natAbs) (a : Nat → Bool) :
    sumAsg (satInd (cl ++ [[v]])) (P ++ [v.natAbs]) a = sumAsg (satInd cl) P a := by
  rw [sumAsg_append]
  have hpt : ∀ b : Nat → Bool,
      sumAsg (satInd (cl ++ [[v]])) [v.natAbs] b = satInd cl b := by
    intro b
    have h1 : ∀ a : Nat → Bool, cnfSat a [[v]] = litTrue a v := by
      intro a; simp [cnfSat, clauseSat]
    simp only [sumAsg, satInd, cnfSat_append, h1, litTrue_update_self,
      cnfSat_update_ne _ _ _ _ hfresh]
    cases decide (0 < v) <;> cases cnfSat b cl <;> simp
  rw [sumAsg_congr hpt]

/-- Invariant of the loop of `chain_formula`: after the bits below `bit`, the
clauses have `k mod 2^bit` models over the variables seen so far. -/
theorem chainLoop_count (k : Nat) :
    ∀ (R P : List Int) (cl : List Clause),
      ((P ++ R).map Int.natAbs).Nodup →
      P.length + R.length ≤ 31 →
      (∀ c ∈ cl, ∀ l ∈ c, l ∈ P) →
      (∀ a, sumAsg (satInd cl) (varsOf P) a = k % 2 ^ P.length) →
      ∃ cl2, chainLoop (k : Int) R P.length cl = some cl2 ∧
        (∀ c ∈ cl2, ∀ l ∈ c, l ∈ P ++ R) ∧
        ∀ a, sumAsg (satInd cl2) (varsOf (P ++ R)) a = k % 2 ^ (P.length + R.length) := by
  intro R
  induction R with
  | nil =>
    intro P cl _ _ hmem hcount
    exact ⟨cl, rfl, by simpa using hmem, by simpa using hcount⟩
  | cons v R ih =>
    intro P cl hnd hlen hmem hcount
    have hlt : P.length < 31 := by simp at hlen; omega
    have hfresh : ∀ c ∈ cl, ∀ l ∈ c, l.natAbs ≠ v.natAbs := by
      intro c hc l hl heq
      have hlP := hmem c hc l hl
      rw [List.map_append, List.map_cons] at hnd
      have := (List.nodup_append.mp hnd).2.2
      exact this (List.mem_map_of_mem _ hlP) (by rw [heq]; simp)
    have hnd2 : (((P ++ [v]) ++ R).map Int.natAbs).Nodup := by simpa using hnd
    have hlen2 : (P ++ [v]).length + R.length ≤ 31 := by
      simp at hlen ⊢; omega
    have hvars : varsOf (P ++ [v]) = varsOf P ++ [v.natAbs] := by simp [varsOf]
    have hPlen : (varsOf P).length = P.length := by simp [varsOf]
    by_cases hbit : k / 2 ^ P.length % 2 = 1
    · have hpos : Int.land (k : Int) (2 ^ P.length) > 0 := (land_two_pow_pos k P.length).mpr hbit
      obtain ⟨cl2, h1, h2, h3⟩ := ih (P ++ [v]) (cl.map fun c => c ++ [v]) hnd2 hlen2
        (by
          intro c hc l hl
          simp only [List.mem_map] at hc
          obtain ⟨c0, hc0, rfl⟩ := hc
          simp only [List.mem_append, List.mem_singleton] at hl ⊢
          rcases hl with hl | hl
          · exact Or.inl (hmem c0 hc0 l hl)
          · exact Or.inr hl)
        (by
          intro a
          rw [hvars, count_snoc_or cl _ v hfresh, hcount, hPlen]
          simp only [List.length_append, List.length_singleton]
          rw [Nat.mod_pow_succ, hbit]
          simp)
      refine ⟨cl2, ?_, ?_, ?_⟩
      · simp only [chainLoop, shl1_of_lt hlt, Option.bind_eq_bind, Option.some_bind, hpos,
          if_true]
        simpa using h1
      · simpa using h2
      · intro a
        have e1 : (P ++ [v]) ++ R = P ++ v :: R := by simp
        have e2 : (P ++ [v]).length + R.length = P.length + (v :: R).length := by
          simp only [List.length_append, List.length_cons, List.length_nil]; omega
        rw [← e1, ← e2]
        exact h3 a
    · have hzero : k / 2 ^ P.length % 2 = 0 := by omega
      have hnpos : ¬ Int.land (k : Int) (2 ^ P.length) > 0 := by
        rw [land_two_pow_pos]; exact hbit
      obtain ⟨cl2, h1, h2, h3⟩ := ih (P ++ [v]) (cl ++ [[v]]) hnd2 hlen2
        (by
          intro c hc l hl
          simp only [List.mem_append, List.mem_singleton] at hc ⊢
          rcases hc with hc | hc
          · exact Or.inl (hmem c hc l hl)
          · subst hc
            simp only [List.mem_singleton] at hl
            exact Or.inr hl)
        (by
          intro a
          rw [hvars, count_snoc_and cl _ v hfresh, hcount]
          simp only [List.length_append, List.length_singleton]
          rw [Nat.mod_pow_succ, hzero]
          simp)
      refine ⟨cl2, ?_, ?_, ?_⟩
      · simp only [chainLoop, shl1_of_lt hlt, Option.bind_eq_bind, Option.some_bind, hnpos,
          if_false]
        simpa using h1
      · simpa using h2
      · intro a
        have e1 : (P ++ [v]) ++ R = P ++ v :: R := by simp
        have e2 : (P ++ [v]).length + R.length = P.length + (v :: R).length := by
          simp only [List.length_append, List.length_cons, List.length_nil]; omega
        rw [← e1, ← e2]
        exact h3 a

theorem skipZeroBits_spec (k : Nat) (hk : 0 < k) (hlt : k < 2 ^ 31) :
    ∀ fuel bit : Nat, k % 2 ^ bit = 0 → 32 ≤ bit + fuel →
      ∃ b, skipZeroBits (k : Int) fuel bit = some b ∧ k % 2 ^ b = 0 ∧ k / 2 ^ b % 2 = 1 := by
  have hbound : ∀ bit : Nat, k % 2 ^ bit = 0 → bit < 31 := by
    intro bit hmod
    by_contra hge
    have h1 : 2 ^ 31 ≤ 2 ^ bit := Nat.pow_le_pow_right (by norm_num) (by omega)
    have h2 : k % 2 ^ bit = k := Nat.mod_eq_of_lt (by omega)
    omega
  intro fuel
  induction fuel with
  | zero =>
    intro bit hmod hfuel
    have := hbound bit hmod
    omega
  | succ fuel ih =>
    intro bit hmod hfuel
    have hb := hbound bit hmod
    by_cases hbit : k / 2 ^ bit % 2 = 0
    · have hz : Int.land (k : Int) (2 ^ bit) = 0 := (land_two_pow_eq_zero k bit).mpr hbit
      have hmod2 : k % 2 ^ (bit + 1) = 0 := by
        rw [Nat.mod_pow_succ, hmod, hbit]; simp
      obtain ⟨b, h1, h2, h3⟩ := ih (bit + 1) hmod2 (by omega)
      refine ⟨b, ?_, h2, h3⟩
      simp only [skipZeroBits, shl1_of_lt hb, Option.bind_eq_bind, Option.some_bind, hz,
        if_true]
      exact h1
    · have hnz : ¬ Int.land (k : Int) (2 ^ bit) = 0 := by
        rw [land_two_pow_eq_zero]; exact hbit
      refine ⟨bit, ?_, hmod, by omega⟩
      simp only [skipZeroBits, shl1_of_lt hb, Option.bind_eq_bind, Option.some_bind, hnz,
        if_false]
      rfl

theorem mem_varsOf {vars : List Int} {l : Int} (h : l ∈ vars) : l.natAbs ∈ varsOf vars :=
  List.mem_map_of_mem _ h

theorem length_varsOf (vars : List Int) : (varsOf vars).length = vars.length := by
  simp [varsOf]

/-- The chain formula over literals of pairwise distinct variables: it is
produced, it mentions only the given literals, and it has exactly `k` models
over their variables, whatever the other variables are set to. -/
theorem chain_formula_count (vars : List Int) (k : Nat)
    (hn : vars.length ≤ 30) (hnd : (vars.map Int.natAbs).Nodup)
    (hnz : ∀ v ∈ vars, v ≠ 0) (hk : k ≤ 2 ^ vars.length) (hne : vars ≠ [] ∨ k ≠ 0) :
    ∃ cs, chain_formula vars (k : Int) = some cs ∧
      (∀ c ∈ cs, ∀ l ∈ c, l.natAbs ∈ varsOf vars) ∧
      ∀ a, sumAsg (satInd cs) (varsOf vars) a = k := by
  have hshl : shl1 vars.length = some (2 ^ vars.length) := shl1_of_lt (by omega)
  by_cases hk0 : k = 0
  · subst hk0
    cases vars with
    | nil => simp at hne
    | cons v rest =>
      refine ⟨[[v], [-v]], by simp [chain_formula], ?_, ?_⟩
      · intro c hc l hl
        simp only [List.mem_cons, List.mem_singleton, List.not_mem_nil, or_false] at hc
        rcases hc with rfl | rfl
        · simp only [List.mem_singleton] at hl
          subst hl
          simp [varsOf]
        · simp only [List.mem_singleton] at hl
          subst hl
          simp [varsOf]
      · intro a
        have hv : v ≠ 0 := hnz v (by simp)
        have hpt : ∀ b : Nat → Bool, satInd [[v], [-v]] b = 0 := by
          intro b
          simp only [satInd, cnfSat, clauseSat, List.all_cons, List.any_cons, List.any_nil,
            List.all_nil, Bool.or_false, Bool.and_true, litTrue_neg b v hv]
          cases litTrue b v <;> simp
        rw [sumAsg_congr hpt, sumAsg_const]
        simp
  · have hkI : ¬ ((k : Int) = 0) := by exact_mod_cast hk0
    by_cases hfull : k = 2 ^ vars.length
    · refine ⟨[], ?_, by simp, ?_⟩
      · have : (k : Int) = 2 ^ vars.length := by exact_mod_cast hfull
        simp [chain_formula, hkI, hshl, this]
      · intro a
        have hpt : ∀ b : Nat → Bool, satInd [] b = 1 := by
          intro b; simp [satInd, cnfSat]
        rw [sumAsg_congr hpt, sumAsg_const, length_varsOf, hfull]
        simp
    · have hlt : k < 2 ^ vars.length := by omega
      have hlt31 : k < 2 ^ 31 :=
        lt_of_lt_of_le hlt (Nat.pow_le_pow_right (by norm_num) (by omega))
      obtain ⟨b, hb1, hb2, hb3⟩ := skipZeroBits_spec k (by omega) hlt31 32 0 (Nat.mod_one k) (by omega)
      have hbn : b < vars.length := by
        by_contra hge
        have h1 : 2 ^ vars.length ≤ 2 ^ b := Nat.pow_le_pow_right (by norm_num) (by omega)
        have h2 : k % 2 ^ b = k := Nat.mod_eq_of_lt (by omega)
        omega
      have hsplit : vars.take b ++ vars.drop b = vars := List.take_append_drop b vars
      have htl : (vars.take b).length = b := by simp; omega
      have hdl : (vars.take b).length + (vars.drop b).length = vars.length := by
        simp; omega
      obtain ⟨cs, h1, h2, h3⟩ := chainLoop_count k (vars.drop b) (vars.take b) [[]]
        (by rw [hsplit]; exact hnd) (by omega)
        (by
          intro c hc l hl
          simp only [List.mem_singleton] at hc
          subst hc
          simp at hl)
        (by
          intro a
          have hpt : ∀ b : Nat → Bool, satInd [[]] b = 0 := by
            intro b; simp [satInd, cnfSat, clauseSat]
          rw [sumAsg_congr hpt, sumAsg_const, htl, hb2]
          simp)
      rw [hsplit] at h2 h3
      rw [htl] at h1
      rw [hdl, Nat.mod_eq_of_lt hlt] at h3
      refine ⟨cs, ?_, fun c hc l hl => mem_varsOf (h2 c hc l hl), h3⟩
      have hnfull : ¬ ((k : Int) = 2 ^ vars.length) := by exact_mod_cast hfull
      have hnge : ¬ ((k : Int) ≥ 2 ^ vars.length) := by
        have : (k : Int) < 2 ^ vars.length := by exact_mod_cast hlt
        omega
      have hdrop : vars.drop b = vars[b] :: vars.drop (b + 1) := List.drop_eq_getElem_cons hbn
      have hpos : Int.land (k : Int) (2 ^ b) > 0 := (land_two_pow_pos k b).mpr hb3
      rw [hdrop] at h1
      simp only [chainLoop, shl1_of_lt (show b < 31 by omega), Option.bind_eq_bind,
        Option.some_bind, hpos, if_true, List.map_cons, List.map_nil, List.nil_append] at h1
      simp only [chain_formula, hkI, if_false, hshl, Option.bind_eq_bind, Option.some_bind,
        hnfull, hnge, hb1, List.getElem?_eq_getElem hbn]
      exact h1

/-! ## std::__gcd on non-negative arguments -/

theorem gcdLoop_nat : ∀ (fuel m n : Nat), n < fuel →
    gcdLoop fuel (m : Int) (n : Int) = ((Nat.gcd m n : Nat) : Int) := by
  intro fuel
  induction fuel with
  | zero => intro m n h; omega
  | succ fuel ih =>
    intro m n h
    by_cases hn : n = 0
    · subst hn
      simp [gcdLoop]
    · have hnI : ¬ ((n : Int) = 0) := by exact_mod_cast hn
      have hmod : Int.tmod (m : Int) (n : Int) = ((m % n : Nat) : Int) := by
        rw [Int.tmod_eq_emod (Int.natCast_nonneg m) (Int.natCast_nonneg n)]
        norm_cast
      have hlt : m % n < n := Nat.mod_lt _ (Nat.pos_of_ne_zero hn)
      simp only [gcdLoop, hnI, if_false, hmod]
      rw [ih n (m % n) (by omega)]
      congr 1
      rw [Nat.gcd_comm n (m % n), ← Nat.gcd_rec, Nat.gcd_comm]

theorem std_gcd_nat (m n : Nat) : std_gcd (m : Int) (n : Int) = ((Nat.gcd m n : Nat) : Int) := by
  unfold std_gcd
  rw [Int.natAbs_ofNat]
  exact gcdLoop_nat _ m n (by omega)

theorem idiv_of_ne {a b : Int} (h : b ≠ 0) : idiv a b = some (Int.tdiv a b) := by
  simp [idiv, h]

/-- The counts of `reduce` for non-negative weights: they are the two weights
scaled by the common denominator `d`. -/
theorem reduced_counts_spec (pos neg : Rational)
    (hpn : 0 ≤ pos.num) (hpd : 0 < pos.denom) (hnn : 0 ≤ neg.num) (hnd : 0 < neg.denom) :
    ∃ p q d : Nat, reduced_counts pos neg = some ((p : Int), (q : Int), (d : Int)) ∧ 0 < d ∧
      (p : ℚ) = d * pos.toRat ∧ (q : ℚ) = d * neg.toRat ∧
      (p : Int) ≤ (common_denom pos neg).1 ∧ (q : Int) ≤ (common_denom pos neg).2.1 := by
  obtain ⟨ps, ns, dd, hcd, hdd, hps, hns⟩ : ∃ ps ns dd : Nat,
      common_denom pos neg = ((ps : Int), (ns : Int), (dd : Int)) ∧ 0 < dd ∧
      (ps : ℚ) = dd * pos.toRat ∧ (ns : ℚ) = dd * neg.toRat := by
    obtain ⟨pn, pd⟩ := pos
    obtain ⟨nn, nd⟩ := neg
    simp only at hpn hpd hnn hnd
    lift pn to Nat using hpn
    lift nn to Nat using hnn
    lift pd to Nat using hpd.le
    lift nd to Nat using hnd.le
    have hpd' : 0 < pd := by exact_mod_cast hpd
    have hnd' : 0 < nd := by exact_mod_cast hnd
    have hpdq : (pd : ℚ) ≠ 0 := by positivity
    have hndq : (nd : ℚ) ≠ 0 := by positivity
    by_cases heq : pd = nd
    · subst heq
      refine ⟨pn, nn, pd, by simp [common_denom], hpd', ?_, ?_⟩
      · simp only [Rational.toRat, Int.cast_natCast]; field_simp
      · simp only [Rational.toRat, Int.cast_natCast]; field_simp
    · have heqI : ¬ ((pd : Int) = (nd : Int)) := by exact_mod_cast heq
      refine ⟨pn * nd, nn * pd, pd * nd, ?_, Nat.mul_pos hpd' hnd', ?_, ?_⟩
      · simp only [common_denom, heqI, if_false]; push_cast; rfl
      · simp only [Rational.toRat, Int.cast_natCast]; push_cast; field_simp; ring
      · simp only [Rational.toRat, Int.cast_natCast]; push_cast; field_simp; ring
  set g := Nat.gcd (Nat.gcd ps ns) dd with hg
  have hgpos : 0 < g := Nat.gcd_pos_of_pos_right _ hdd
  have hgI : ((g : Nat) : Int) ≠ 0 := by exact_mod_cast hgpos.ne'
  have hgd : g ∣ dd := Nat.gcd_dvd_right _ _
  have hgp : g ∣ ps := (Nat.gcd_dvd_left _ _).trans (Nat.gcd_dvd_left _ _)
  have hgn : g ∣ ns := (Nat.gcd_dvd_left _ _).trans (Nat.gcd_dvd_right _ _)
  have htd : ∀ x : Nat, Int.tdiv (x : Int) (g : Int) = ((x / g : Nat) : Int) := by
    intro x
    rw [Int.tdiv_eq_ediv (Int.natCast_nonneg x) (Int.natCast_nonneg g)]
    norm_cast
  have hgq : (g : ℚ) ≠ 0 := by positivity
  have hdq : ((dd / g : Nat) : ℚ) = (dd : ℚ) / g := Nat.cast_div hgd hgq
  have hpq : ((ps / g : Nat) : ℚ) = (ps : ℚ) / g := Nat.cast_div hgp hgq
  have hnq : ((ns / g : Nat) : ℚ) = (ns : ℚ) / g := Nat.cast_div hgn hgq
  refine ⟨ps / g, ns / g, dd / g, ?_, Nat.div_pos (Nat.le_of_dvd hdd hgd) hgpos, ?_, ?_, ?_, ?_⟩
  · simp only [reduced_counts, hcd, std_gcd_nat, ← hg, idiv_of_ne hgI, htd,
      Option.bind_eq_bind, Option.some_bind, Option.pure_def]
  · rw [hpq, hdq, hps]; field_simp
  · rw [hnq, hdq, hns]; field_simp
  · rw [hcd]; show ((ps / g : Nat) : Int) ≤ (ps : Int); exact_mod_cast Nat.div_le_self ps g
  · rw [hcd]; show ((ns / g : Nat) : Int) ≤ (ns : Int); exact_mod_cast Nat.div_le_self ns g

/-! ## Allocation of auxiliary variables and insertion of clauses -/

theorem alloc_one_fst (f : Formula) (vars : List Int) :
    (alloc_one f vars).1.num_variables = f.num_variables + 1 ∧
    (alloc_one f vars).1.body = f.body ∧ (alloc_one f vars).1.weights = f.weights ∧
    (alloc_one f vars).1.num_clauses = f.num_clauses := by
  unfold alloc_one Formula.add_variable
  simp only
  split <;> simp [Formula.add_independent_support]

theorem alloc_one_snd (f : Formula) (vars : List Int) :
    (alloc_one f vars).2 = vars ++ [((f.num_variables + 1 : Nat) : Int)] := by
  simp [alloc_one, Formula.add_variable]

/-- The allocation loop of `reduce` for counts up to `2^30`: it adds the
variables `num_variables + 1, ...`, as many as the least `m` with both counts
at most `2^m`. -/
theorem allocate_spec (p q : Int) (hp : p ≤ 2 ^ 30) (hq : q ≤ 2 ^ 30) :
    ∀ (fuel log : Nat) (f : Formula) (vars : List Int), log ≤ 30 → 32 ≤ fuel + log →
      ∃ (m : Nat) (f1 : Formula),
        allocate p q fuel log f vars
          = some (f1, vars ++ (List.range' (f.num_variables + 1) m).map Int.ofNat) ∧
        f1.num_variables = f.num_variables + m ∧ f1.body = f.body ∧
        f1.weights = f.weights ∧ f1.num_clauses = f.num_clauses ∧
        log + m ≤ 30 ∧ p ≤ 2 ^ (log + m) ∧ q ≤ 2 ^ (log + m) ∧
        ∀ j, log ≤ j → j < log + m → (2 : Int) ^ j < p ∨ (2 : Int) ^ j < q := by
  intro fuel
  induction fuel with
  | zero => intro log f vars h1 h2; omega
  | succ fuel ih =>
    intro log f vars hlog hfuel
    have hs : shl1 log = some (2 ^ log) := shl1_of_lt (by omega)
    by_cases hc : (2 : Int) ^ log < p ∨ (2 : Int) ^ log < q
    · have hlt : log < 30 := by
        by_contra hge
        have : log = 30 := by omega
        subst this
        rcases hc with h | h <;> omega
      obtain ⟨hv1, hv2, hv3, hv4⟩ := alloc_one_fst f vars
      obtain ⟨m, f1, h1, h2, h3, h4, h5, h6, h7, h8, h9⟩ :=
        ih (log + 1) (alloc_one f vars).1 (alloc_one f vars).2 (by omega) (by omega)
      refine ⟨m + 1, f1, ?_, by omega, by rw [h3, hv2], by rw [h4, hv3], by rw [h5, hv4],
        by omega, ?_, ?_, ?_⟩
      · simp only [allocate, hs, Option.bind_eq_bind, Option.some_bind, hc, if_true]
        rw [h1, alloc_one_snd, hv1]
        simp [List.range'_succ]
      · rw [show log + (m + 1) = log + 1 + m by omega]; exact h7
      · rw [show log + (m + 1) = log + 1 + m by omega]; exact h8
      · intro j hj1 hj2
        by_cases hj : j = log
        · subst hj; exact hc
        · exact h9 j (by omega) (by omega)
    · refine ⟨0, f, ?_, rfl, rfl, rfl, rfl, by omega, ?_, ?_, ?_⟩
      · simp [allocate, hs, hc]
      · simp only [not_or, not_lt] at hc; simpa using hc.1
      · simp only [not_or, not_lt] at hc; simpa using hc.2
      · intro j hj1 hj2; omega

theorem clauses_add_clause (f : Formula) (c : Clause) :
    (f.add_clause c).clauses = f.clauses ++ [c] := by
  simp [Formula.add_clause, Formula.clauses, List.filterMap_append]

theorem add_guarded_spec (guard : Int) :
    ∀ (cs : List Clause) (f : Formula),
      (add_guarded guard cs f).clauses = f.clauses ++ cs.map (fun c => guard :: c) ∧
      (add_guarded guard cs f).num_variables = f.num_variables ∧
      (add_guarded guard cs f).weights = f.weights ∧
      (add_guarded guard cs f).independent_support = f.independent_support ∧
      (add_guarded guard cs f).num_clauses = f.num_clauses + cs.length := by
  intro cs
  induction cs with
  | nil => intro f; simp [add_guarded]
  | cons c cs ih =>
    intro f
    obtain ⟨h1, h2, h3, h4, h5⟩ := ih (f.add_clause (guard :: c))
    simp only [add_guarded]
    refine ⟨?_, ?_, ?_, ?_, ?_⟩
    · rw [h1, clauses_add_clause]; simp
    · rw [h2]; rfl
    · rw [h3]; rfl
    · rw [h4]; rfl
    · rw [h5]; simp [Formula.add_clause]; omega

/-! ## The clauses of one branch and of one free variable -/

theorem sumAsg_congr_on {M : Type} [Add M] {F G : (Nat → Bool) → M} (vs : List Nat) :
    ∀ a : Nat → Bool, (∀ b : Nat → Bool, (∀ x, x ∉ vs → b x = a x) → F b = G b) →
      sumAsg F vs a = sumAsg G vs a := by
  induction vs with
  | nil =>
    intro a h
    exact h a (fun _ _ => rfl)
  | cons v vs ih =>
    intro a h
    have key : ∀ t : Bool, sumAsg F vs (Function.update a v t)
        = sumAsg G vs (Function.update a v t) := by
      intro t
      apply ih
      intro b hb
      apply h
      intro x hx
      have hxv : x ≠ v := fun e => hx (by simp [e])
      have hxs : x ∉ vs := fun e => hx (by simp [e])
      rw [hb x hxs, Function.update_noteq hxv]
    simp only [sumAsg]
    rw [key false, key true]

theorem litTrue_agree (a b : Nat → Bool) (l : Int) (h : b l.natAbs = a l.natAbs) :
    litTrue b l = litTrue a l := by
  simp [litTrue, h]

theorem cnfSat_agree (a b : Nat → Bool) (cs : List Clause)
    (h : ∀ c ∈ cs, ∀ l ∈ c, b l.natAbs = a l.natAbs) : cnfSat b cs = cnfSat a cs := by
  induction cs with
  | nil => rfl
  | cons c cs ih =>
    have h1 : clauseSat b c = clauseSat a c := by
      have hc := h c (by simp)
      clear h ih
      induction c with
      | nil => rfl
      | cons l ls ihc =>
        rw [clauseSat_cons, clauseSat_cons, litTrue_agree a b l (hc l (by simp)),
          ihc (fun l hl => hc l (by simp [hl]))]
    have h2 := ih (fun c hc => h c (by simp [hc]))
    simp only [cnfSat, List.all_cons] at h2 ⊢
    rw [h1, h2]

theorem reduce_branch_of_clauses (f : Formula) (guard : Int) (vars : List Int) (sol : Int)
    (B : List Clause) (h : branch_clauses guard vars sol = some B) :
    ∃ f2, reduce_branch f guard vars sol = some f2 ∧ f2.clauses = f.clauses ++ B ∧
      f2.num_variables = f.num_variables ∧ f2.weights = f.weights ∧
      f2.num_clauses = f.num_clauses + B.length := by
  unfold branch_clauses at h
  by_cases hs : sol = 0
  · simp only [hs, if_true, Option.some.injEq] at h
    subst h
    refine ⟨f.add_clause [guard], by simp [reduce_branch, hs], clauses_add_clause _ _, rfl, rfl, rfl⟩
  · simp only [hs, if_false, Option.map_eq_some'] at h
    obtain ⟨cs, hcs, rfl⟩ := h
    obtain ⟨h1, h2, h3, _, h5⟩ := add_guarded_spec guard cs f
    refine ⟨add_guarded guard cs f, by simp [reduce_branch, hs, hcs], h1, h2, h3, ?_⟩
    rw [h5]; simp

/-- One branch: its clauses hold wherever the guard literal holds, and where
the guard literal fails they have exactly `s` models over the auxiliary
variables. -/
theorem branch_sem (guard : Int) (vars : List Int) (s : Nat)
    (hn : vars.length ≤ 30) (hnd : (vars.map Int.natAbs).Nodup) (hnz : ∀ v ∈ vars, v ≠ 0)
    (hs : s ≤ 2 ^ vars.length) (hg : guard.natAbs ∉ varsOf vars) :
    ∃ B, branch_clauses guard vars (s : Int) = some B ∧
      (∀ c ∈ B, ∀ l ∈ c, l = guard ∨ l.natAbs ∈ varsOf vars) ∧
      (∀ b, litTrue b guard = true → cnfSat b B = true) ∧
      (∀ a, litTrue a guard = false → sumAsg (satInd B) (varsOf vars) a = s) := by
  have hguard : ∀ a b : Nat → Bool, (∀ x, x ∉ varsOf vars → b x = a x) →
      litTrue b guard = litTrue a guard := fun a b h => litTrue_agree a b guard (h _ hg)
  by_cases hs0 : s = 0
  · subst hs0
    refine ⟨[[guard]], by simp [branch_clauses], ?_, ?_, ?_⟩
    · intro c hc l hl
      simp only [List.mem_singleton] at hc
      subst hc
      simp only [List.mem_singleton] at hl
      exact Or.inl hl
    · intro b hb
      simp [cnfSat, clauseSat, hb]
    · intro a ha
      have hpt : ∀ b : Nat → Bool, (∀ x, x ∉ varsOf vars → b x = a x) →
          satInd [[guard]] b = (fun _ => 0) b := by
        intro b hb
        simp [satInd, cnfSat, clauseSat, hguard a b hb, ha]
      rw [sumAsg_congr_on _ a hpt, sumAsg_const]
      simp
  · obtain ⟨cs, h1, h2, h3⟩ := chain_formula_count vars s hn hnd hnz hs (Or.inr hs0)
    have hsI : ¬ ((s : Int) = 0) := by exact_mod_cast hs0
    refine ⟨cs.map fun c => guard :: c, by simp [branch_clauses, hsI, h1], ?_, ?_, ?_⟩
    · intro c hc l hl
      simp only [List.mem_map] at hc
      obtain ⟨c0, hc0, rfl⟩ := hc
      simp only [List.mem_cons] at hl
      rcases hl with hl | hl
      · exact Or.inl hl
      · exact Or.inr (h2 c0 hc0 l hl)
    · intro b hb
      rw [cnfSat_map_cons, hb]
      rfl
    · intro a ha
      have hpt : ∀ b : Nat → Bool, (∀ x, x ∉ varsOf vars → b x = a x) →
          satInd (cs.map fun c => guard :: c) b = satInd cs b := by
        intro b hb
        simp [satInd, cnfSat_map_cons, hguard a b hb, ha]
      rw [sumAsg_congr_on _ a hpt, h3]

/-- Two guarded clause sets over the auxiliary variables `A`: when the first
has `p` models where `x` is true and holds where `x` is false, and the second
has `q` models where `x` is false and holds where `x` is true, together they
have `p` models where `x` is true and `q` models where `x` is false. -/
theorem gadget_count (x : Int) (hx : 0 < x) (A : List Nat) (hg : x.natAbs ∉ A)
    (Bp Bq : List Clause) (p q : Nat)
    (hp3 : ∀ b, litTrue b (-x) = true → cnfSat b Bp = true)
    (hp4 : ∀ a, litTrue a (-x) = false → sumAsg (satInd Bp) A a = p)
    (hq3 : ∀ b, litTrue b x = true → cnfSat b Bq = true)
    (hq4 : ∀ a, litTrue a x = false → sumAsg (satInd Bq) A a = q) :
    ∀ a, sumAsg (satInd (Bp ++ Bq)) A a = if a x.natAbs then p else q := by
  have hxne : x ≠ 0 := by omega
  have hlx : ∀ a : Nat → Bool, litTrue a x = a x.natAbs := by
    intro a; simp [litTrue, hx]
  have hlnx : ∀ a : Nat → Bool, litTrue a (-x) = !a x.natAbs := by
    intro a; rw [litTrue_neg a x hxne, hlx]
  intro a
  by_cases hax : a x.natAbs = true
  · have hpt : ∀ b : Nat → Bool, (∀ y, y ∉ A → b y = a y) →
        satInd (Bp ++ Bq) b = satInd Bp b := by
      intro b hb
      have : cnfSat b Bq = true := hq3 b (by rw [hlx, hb _ hg, hax])
      simp [satInd, cnfSat_append, this]
    rw [sumAsg_congr_on _ a hpt, hp4 a (by rw [hlnx, hax]; rfl)]
    simp [hax]
  · have hax' : a x.natAbs = false := by simpa using hax
    have hpt : ∀ b : Nat → Bool, (∀ y, y ∉ A → b y = a y) →
        satInd (Bp ++ Bq) b = satInd Bq b := by
      intro b hb
      have : cnfSat b Bp = true := hp3 b (by rw [hlnx, hb _ hg, hax']; rfl)
      simp [satInd, cnfSat_append, this]
    rw [sumAsg_congr_on _ a hpt, hq4 a (by rw [hlx, hax'])]
    simp [hax']

/-- The two branches of a free variable `x` over its auxiliary variables: `p`
models where `x` is true, `q` models where `x` is false. -/
theorem gadget_sem (x : Int) (hx : 0 < x) (vars : List Int) (p q : Nat)
    (hn : vars.length ≤ 30) (hnd : (vars.map Int.natAbs).Nodup) (hnz : ∀ v ∈ vars, v ≠ 0)
    (hp : p ≤ 2 ^ vars.length) (hq : q ≤ 2 ^ vars.length) (hg : x.natAbs ∉ varsOf vars) :
    ∃ Bp Bq, branch_clauses (-x) vars (p : Int) = some Bp ∧
      branch_clauses x vars (q : Int) = some Bq ∧
      (∀ c ∈ Bp ++ Bq, ∀ l ∈ c, l.natAbs = x.natAbs ∨ l.natAbs ∈ varsOf vars) ∧
      ∀ a, sumAsg (satInd (Bp ++ Bq)) (varsOf vars) a = if a x.natAbs then p else q := by
  have hgn : (-x).natAbs ∉ varsOf vars := by rw [Int.natAbs_neg]; exact hg
  obtain ⟨Bp, hp1, hp2, hp3, hp4⟩ := branch_sem (-x) vars p hn hnd hnz hp hgn
  obtain ⟨Bq, hq1, hq2, hq3, hq4⟩ := branch_sem x vars q hn hnd hnz hq hg
  refine ⟨Bp, Bq, hp1, hq1, ?_, gadget_count x hx _ hg Bp Bq p q hp3 hp4 hq3 hq4⟩
  intro c hc l hl
  rcases List.mem_append.mp hc with hc | hc
  · rcases hp2 c hc l hl with h | h
    · left; rw [h, Int.natAbs_neg]
    · exact Or.inr h
  · rcases hq2 c hc l hl with h | h
    · left; rw [h]
    · exact Or.inr h

/-! ## One free variable of `reduce` -/

theorem varsOf_aux (n m : Nat) :
    varsOf ((List.range' (n + 1) m).map Int.ofNat) = List.range' (n + 1) m := by
  simp [varsOf, List.map_map, Function.comp_def]

/-- Adding clauses over fresh variables `n+1..n+m` to clauses over `1..n`:
the weighted sum over `1..n+m` is the weighted sum over `1..n` with each
assignment counted as often as it extends to a model of the new clauses. -/
theorem step_sum (cs G : List Clause) (n m : Nat) (W : (Nat → Bool) → ℚ)
    (cnt : (Nat → Bool) → Nat)
    (hcs : ∀ c ∈ cs, ∀ l ∈ c, l.natAbs ≤ n)
    (hW : ∀ a b : Nat → Bool, (∀ x, x ≤ n → b x = a x) → W b = W a)
    (hG : ∀ a, sumAsg (satInd G) (List.range' (n + 1) m) a = cnt a) :
    weightedSum (n + m) (cs ++ G) W
      = weightedSum n cs (fun a => (cnt a : ℚ) * W a) := by
  unfold weightedSum
  have hsplit : List.range' 1 (n + m) = List.range' 1 n ++ List.range' (n + 1) m := by
    rw [Nat.add_comm n 1, List.range'_append_1, Nat.add_comm m n]
  rw [hsplit, sumAsg_append]
  apply sumAsg_congr
  intro a
  have hout : ∀ b : Nat → Bool, (∀ x, x ∉ List.range' (n + 1) m → b x = a x) →
      ∀ x, x ≤ n → b x = a x := by
    intro b hb x hx
    apply hb
    simp only [List.mem_range'_1, not_and, not_lt]
    intro h; omega
  have hpt : ∀ b : Nat → Bool, (∀ x, x ∉ List.range' (n + 1) m → b x = a x) →
      (if cnfSat b (cs ++ G) then W b else 0)
        = (fun b => (if cnfSat a cs then W a else 0) * ((satInd G b : Nat) : ℚ)) b := by
    intro b hb
    have h1 : cnfSat b cs = cnfSat a cs :=
      cnfSat_agree a b cs (fun c hc l hl => hout b hb _ (hcs c hc l hl))
    have h2 : W b = W a := hW a b (hout b hb)
    simp only [cnfSat_append, h1, h2, satInd]
    cases cnfSat a cs <;> cases cnfSat b G <;> simp
  rw [sumAsg_congr_on _ a hpt, sumAsg_mul_left, ← sumAsg_cast, hG]
  split <;> simp [mul_comm]

theorem get_weight_congr {f g : Formula} (h : g.weights = f.weights) (l : Int) :
    g.get_weight l = f.get_weight l := by
  simp [Formula.get_weight, h]

theorem litWeight_congr {f g : Formula} (h : g.weights = f.weights) (a : Nat → Bool) (v : Int) :
    litWeight g a v = litWeight f a v := by
  simp [litWeight, get_weight_congr h]

theorem weightProduct_congr {f g : Formula} (h : g.weights = f.weights) (a : Nat → Bool)
    (vs : List Int) : weightProduct g a vs = weightProduct f a vs := by
  induction vs with
  | nil => rfl
  | cons v vs ih => simp [weightProduct, ih, litWeight_congr h]

theorem weightProduct_agree (f : Formula) (n : Nat) (vs : List Int)
    (hvs : ∀ v ∈ vs, v.natAbs ≤ n) (a b : Nat → Bool) (h : ∀ x, x ≤ n → b x = a x) :
    weightProduct f b vs = weightProduct f a vs := by
  induction vs with
  | nil => rfl
  | cons v vs ih =>
    simp only [weightProduct, litWeight, h _ (hvs v (by simp)),
      ih (fun v hv => hvs v (by simp [hv]))]

/-- What `reduce` does for one free variable with non-negative weights: the
shape of the result, and the number of models of the added clauses. -/
theorem reduce_step_shape (f : Formula) (net_denom : Int) (var : Int)
    (hv0 : 0 < var) (hvn : var.natAbs ≤ f.num_variables)
    (hpn : 0 ≤ (f.get_weight var).num) (hpd : 0 < (f.get_weight var).denom)
    (hnn : 0 ≤ (f.get_weight (-var)).num) (hnd : 0 < (f.get_weight (-var)).denom)
    (hfit : countsFit (f.get_weight var) (f.get_weight (-var)) = true) :
    ∃ (p q d m : Nat) (f2 : Formula) (G : List Clause),
      reduced_counts (f.get_weight var) (f.get_weight (-var))
        = some ((p : Int), (q : Int), (d : Int)) ∧
      reduce_step f net_denom var = some (f2, net_denom * d) ∧
      0 < d ∧ (p : ℚ) = d * (f.get_weight var).toRat ∧
      (q : ℚ) = d * (f.get_weight (-var)).toRat ∧
      m ≤ 30 ∧ p ≤ 2 ^ m ∧ q ≤ 2 ^ m ∧ (∀ j, j < m → 2 ^ j < p ∨ 2 ^ j < q) ∧
      f2.num_variables = f.num_variables + m ∧ f2.weights = f.weights ∧
      f2.clauses = f.clauses ++ G ∧ f2.num_clauses = f.num_clauses + G.length ∧
      (∀ c ∈ G, ∀ l ∈ c, l.natAbs ≤ f.num_variables + m) ∧
      ∀ a, sumAsg (satInd G) (List.range' (f.num_variables + 1) m) a
        = if a var.natAbs then p else q := by
  obtain ⟨p, q, d, hrc, hd, hpq, hqq, _, _⟩ :=
    reduced_counts_spec (f.get_weight var) (f.get_weight (-var)) hpn hpd hnn hnd
  have hfit2 : (p : Int) ≤ 2 ^ 30 ∧ (q : Int) ≤ 2 ^ 30 := by
    simp only [countsFit, hrc, Bool.and_eq_true, decide_eq_true_eq] at hfit
    exact hfit.2
  obtain ⟨m, f1, ha1, ha2, ha3, ha4, ha5, ha6, ha7, ha8, ha9⟩ :=
    allocate_spec (p : Int) (q : Int) hfit2.1 hfit2.2 32 0 f [] (by omega) (by omega)
  simp only [List.nil_append, Nat.zero_add] at ha1 ha6 ha7 ha8 ha9
  set vars := (List.range' (f.num_variables + 1) m).map Int.ofNat with hvars
  have hvo : varsOf vars = List.range' (f.num_variables + 1) m := varsOf_aux _ _
  have hlen : vars.length = m := by simp [hvars]
  have hp2 : p ≤ 2 ^ vars.length := by rw [hlen]; exact_mod_cast ha7
  have hq2 : q ≤ 2 ^ vars.length := by rw [hlen]; exact_mod_cast ha8
  have hndp : (vars.map Int.natAbs).Nodup := by
    have : vars.map Int.natAbs = varsOf vars := rfl
    rw [this, hvo]
    exact List.nodup_range' _ _
  have hnz : ∀ v ∈ vars, v ≠ 0 := by
    intro v hv
    have := mem_varsOf hv
    rw [hvo, List.mem_range'_1] at this
    intro h0
    rw [h0] at this
    simp at this
  have hg : var.natAbs ∉ varsOf vars := by
    rw [hvo, List.mem_range'_1]
    intro h; omega
  obtain ⟨Bp, Bq, hb1, hb2, hb3, hb4⟩ :=
    gadget_sem var hv0 vars p q (by omega) hndp hnz hp2 hq2 hg
  obtain ⟨g1, hg1, hg2, hg3, hg4, hg5⟩ := reduce_branch_of_clauses f1 (-var) vars p Bp hb1
  obtain ⟨g2, hk1, hk2, hk3, hk4, hk5⟩ := reduce_branch_of_clauses g1 var vars q Bq hb2
  have hcl1 : f1.clauses = f.clauses := by simp [Formula.clauses, ha3]
  have hneg : ¬ ((p : Int) < 0 ∨ (q : Int) < 0) := by omega
  refine ⟨p, q, d, m, g2, Bp ++ Bq, hrc, ?_, hd, hpq, hqq, ha6, by exact_mod_cast ha7,
    by exact_mod_cast ha8, ?_, by rw [hk3, hg3, ha2], by rw [hk4, hg4, ha4],
    by rw [hk2, hg2, hcl1, List.append_assoc], ?_, ?_, ?_⟩
  · simp only [reduce_step, hrc, Option.bind_eq_bind, Option.some_bind, hneg, if_false, ha1,
      hg1, hk1, Option.pure_def]
  · intro j hj
    rcases ha9 j (by omega) hj with h | h
    · left; exact_mod_cast h
    · right; exact_mod_cast h
  · rw [hk5, hg5, ha5, List.length_append]; omega
  · intro c hc l hl
    rcases hb3 c hc l hl with h | h
    · rw [h]; omega
    · rw [hvo, List.mem_range'_1] at h; omega
  · intro a
    rw [← hvo]
    exact hb4 a

/-! ## The loop of `reduce` -/

theorem weightedSum_mul_left (n : Nat) (cs : List Clause) (c : ℚ) (W : (Nat → Bool) → ℚ) :
    weightedSum n cs (fun a => c * W a) = c * weightedSum n cs W := by
  unfold weightedSum
  rw [← sumAsg_mul_left]
  apply sumAsg_congr
  intro a
  split <;> simp

theorem weightedSum_congr (n : Nat) (cs : List Clause) {W1 W2 : (Nat → Bool) → ℚ}
    (h : ∀ a, W1 a = W2 a) : weightedSum n cs W1 = weightedSum n cs W2 := by
  have : W1 = W2 := funext h
  rw [this]

theorem modelCount_eq_weightedSum (n : Nat) (cs : List Clause) :
    ((modelCount (List.range' 1 n) cs : Nat) : ℚ) = weightedSum n cs (fun _ => 1) := by
  unfold modelCount weightedSum
  rw [sumAsg_cast]
  apply sumAsg_congr
  intro a
  simp only [satInd]
  split <;> simp

theorem reduce_loop_sem :
    ∀ (rest : List Int) (f : Formula) (net_denom : Int),
      (∀ c ∈ f.clauses, ∀ l ∈ c, l.natAbs ≤ f.num_variables) →
      (∀ v ∈ rest, goodVar f v) →
      ∃ (f2 : Formula) (D : Nat) (added : List Clause),
        reduce_loop rest f net_denom = some (f2, net_denom * D) ∧
        f2.weights = f.weights ∧ f2.clauses = f.clauses ++ added ∧
        weightedSum f2.num_variables f2.clauses (fun _ => 1)
          = D * weightedSum f.num_variables f.clauses (fun a => weightProduct f a rest) := by
  intro rest
  induction rest with
  | nil =>
    intro f nd _ _
    refine ⟨f, 1, [], by simp [reduce_loop], rfl, by simp, ?_⟩
    simp [weightProduct]
  | cons var rest ih =>
    intro f nd hcl hgood
    obtain ⟨hv0, hvn, hpn, hpd, hnn, hnd, hfit⟩ := hgood var (by simp)
    obtain ⟨p, q, d, m, f1, G, _, hstep, hd, hpq, hqq, _, _, _, _, hnv, hws, hcs, _, hG, hcnt⟩ :=
      reduce_step_shape f nd var hv0 hvn hpn hpd hnn hnd hfit
    have hcl1 : ∀ c ∈ f1.clauses, ∀ l ∈ c, l.natAbs ≤ f1.num_variables := by
      intro c hc l hl
      rw [hcs] at hc
      rw [hnv]
      rcases List.mem_append.mp hc with hc | hc
      · have := hcl c hc l hl; omega
      · exact hG c hc l hl
    have hgood1 : ∀ v ∈ rest, goodVar f1 v := by
      intro v hv
      obtain ⟨h1, h2, h3, h4, h5, h6, h7⟩ := hgood v (by simp [hv])
      refine ⟨h1, by rw [hnv]; omega, ?_, ?_, ?_, ?_, ?_⟩ <;>
        simp only [get_weight_congr hws] <;> assumption
    obtain ⟨f2, D, added, hloop, hw2, hc2, hsum⟩ := ih f1 (nd * d) hcl1 hgood1
    refine ⟨f2, d * D, G ++ added, ?_, by rw [hw2, hws], by rw [hc2, hcs, List.append_assoc], ?_⟩
    · simp only [reduce_loop, hstep, Option.bind_eq_bind, Option.some_bind]
      rw [hloop]
      push_cast
      rw [mul_assoc]
    · rw [hsum, hnv, hcs]
      have hW : ∀ a b : Nat → Bool, (∀ x, x ≤ f.num_variables → b x = a x) →
          weightProduct f1 b rest = weightProduct f1 a rest := by
        intro a b h
        exact weightProduct_agree f1 f.num_variables rest
          (fun v hv => (hgood v (by simp [hv])).2.1) a b h
      rw [step_sum f.clauses G f.num_variables m (fun a => weightProduct f1 a rest)
        (fun a => if a var.natAbs then p else q) hcl hW hcnt]
      have hpt : ∀ a : Nat → Bool,
          (((if a var.natAbs then p else q : Nat) : ℚ) * weightProduct f1 a rest)
            = (d : ℚ) * weightProduct f a (var :: rest) := by
        intro a
        rw [weightProduct_congr hws]
        simp only [weightProduct, litWeight]
        by_cases ha : a var.natAbs = true
        · simp only [ha, if_true, hpq]; ring
        · simp only [ha, if_false, hqq, Bool.false_eq_true]; ring
      rw [weightedSum_congr _ _ hpt, weightedSum_mul_left]
      push_cast
      ring

/-! ## Claims on `chain_formula` and `reduce` -/

/-- C1, as stated, fails: with the empty variable list and `k = 0` (which
satisfies `0 ≤ k ≤ 2^0`) `chain_formula` reads `vars[0]` past the end of the
vector and yields no clause set; and over 31 variables the shift `1 << 31`
does not fit the `int`. -/
theorem C1_counterexample :
    ([] : List Int).Nodup ∧ (0 : Int) ≤ 0 ∧ (0 : Int) ≤ 2 ^ ([] : List Int).length ∧
      chain_formula [] 0 = none ∧
      chain_formula ((List.range' 1 31).map Int.ofNat) 5 = none := by
  refine ⟨List.nodup_nil, le_refl _, by norm_num, rfl, by decide⟩

/-- C1, amended: for every list `vars` of `n ≤ 30` pairwise distinct variables
and every `k` with `0 ≤ k ≤ 2^n`, where `vars` is non-empty or `k ≠ 0`,
`chain_formula vars k` returns a clause set that exactly `k` of the `2^n`
assignments of those variables satisfy. -/
theorem C1_chain_formula_model_count (vars : List Int) (k : Int)
    (hpos : ∀ v ∈ vars, 0 < v) (hnd : vars.Nodup) (hn : vars.length ≤ 30)
    (hk0 : 0 ≤ k) (hk : k ≤ 2 ^ vars.length) (hne : vars ≠ [] ∨ k ≠ 0) :
    ∃ cs, chain_formula vars k = some cs ∧ (modelCount (varsOf vars) cs : Int) = k := by
  lift k to Nat using hk0
  have hnd2 : (vars.map Int.natAbs).Nodup := by
    apply List.Nodup.map_on _ hnd
    intro x hx y hy hxy
    have h1 := hpos x hx
    have h2 := hpos y hy
    omega
  have hnz : ∀ v ∈ vars, v ≠ 0 := fun v hv => by have := hpos v hv; omega
  have hk2 : k ≤ 2 ^ vars.length := by exact_mod_cast hk
  have hne2 : vars ≠ [] ∨ k ≠ 0 := by
    rcases hne with h | h
    · exact Or.inl h
    · right; exact_mod_cast h
  obtain ⟨cs, h1, _, h3⟩ := chain_formula_count vars k hn hnd2 hnz hk2 hne2
  exact ⟨cs, h1, by rw [modelCount, h3]⟩

/-- Witness of C1 (amended) at the variables `1, 2, 3` and `k = 5`. -/
theorem C1_chain_formula_model_count_witness :
    ∃ cs, chain_formula [1, 2, 3] 5 = some cs ∧ (modelCount (varsOf [1, 2, 3]) cs : Int) = 5 :=
  C1_chain_formula_model_count [1, 2, 3] 5 (by decide) (by decide) (by decide) (by decide)
    (by decide) (by decide)

/-- C2: exact reduction is count-preserving.  For every formula whose clauses
and free variables lie in `1..num_variables` and whose free variables have
weights of non-negative numerator and positive denominator (no `int` overflow),
`reduce` returns a formula that keeps the original clauses and appends new
ones, and the number of assignments of all its variables (original and
auxiliary) that satisfy all these clauses is the returned product times the
weighted model count of the original formula. -/
theorem C2_reduce_count_preserving (f : Formula)
    (hcl : ∀ c ∈ f.clauses, ∀ l ∈ c, l.natAbs ≤ f.num_variables)
    (hgood : ∀ v ∈ free_variables f, goodVar f v) :
    ∃ (f2 : Formula) (d : Int) (added : List Clause),
      reduce f = some (f2, d) ∧ f2.clauses = f.clauses ++ added ∧
      ((modelCount (List.range' 1 f2.num_variables) f2.clauses : Nat) : ℚ) = d * wmc f := by
  obtain ⟨f2, D, added, h1, _, h3, h4⟩ := reduce_loop_sem (free_variables f) f 1 hcl hgood
  refine ⟨f2, D, added, by rw [reduce, h1]; simp, h3, ?_⟩
  rw [modelCount_eq_weightedSum, h4]
  simp [wmc]

/-- Witness of C2 on the formula `(x1 ∨ x2)` with weights `1/3, 2/3` for `x1`
and `1/2, 1/2` for `x2`. -/
theorem C2_reduce_count_preserving_witness :
    ∃ (f2 : Formula) (d : Int) (added : List Clause),
      reduce ⟨2, 1, [.clause [1, 2]], [], [(1, ⟨1, 3⟩), (-1, ⟨2, 3⟩), (2, ⟨1, 2⟩), (-2, ⟨1, 2⟩)]⟩
        = some (f2, d) ∧
      f2.clauses = [[1, 2]] ++ added ∧
      ((modelCount (List.range' 1 f2.num_variables) f2.clauses : Nat) : ℚ)
        = d * wmc ⟨2, 1, [.clause [1, 2]], [], [(1, ⟨1, 3⟩), (-1, ⟨2, 3⟩), (2, ⟨1, 2⟩), (-2, ⟨1, 2⟩)]⟩ :=
  C2_reduce_count_preserving
    ⟨2, 1, [.clause [1, 2]], [], [(1, ⟨1, 3⟩), (-1, ⟨2, 3⟩), (2, ⟨1, 2⟩), (-2, ⟨1, 2⟩)]⟩
    (by decide) (by decide)

theorem reduce_step_default (f : Formula) (net_denom : Int) (var : Int)
    (hp : f.get_weight var = ⟨1, 1⟩) (hn : f.get_weight (-var) = ⟨1, 1⟩) :
    reduce_step f net_denom var = some (f, net_denom) := by
  have h1 : reduced_counts ⟨1, 1⟩ ⟨1, 1⟩ = some (1, 1, 1) := by decide
  have h2 : allocate 1 1 32 0 f [] = some (f, []) := rfl
  have h3 : ∀ g : Int, reduce_branch f g [] 1 = some f := by
    intro g
    simp [reduce_branch, chain_formula, shl1, add_guarded]
  simp [reduce_step, hp, hn, h1, h2, h3]

theorem reduce_loop_default (f : Formula) (h : ∀ l, f.get_weight l = ⟨1, 1⟩) :
    ∀ (vs : List Int) (net_denom : Int), reduce_loop vs f net_denom = some (f, net_denom) := by
  intro vs
  induction vs with
  | nil => intro d; rfl
  | cons v vs ih =>
    intro d
    simp [reduce_loop, reduce_step_default f d v (h v) (h (-v)), ih]

/-- C4: on a formula with no weight recorded (every literal carries the default
weight 1/1), `reduce` returns the formula unchanged, so with the same clause
count, and the scaling factor 1. -/
theorem C4_reduce_unweighted (f : Formula) (hw : f.weights = []) :
    ∃ f2, reduce f = some (f2, 1) ∧ f2.num_clauses = f.num_clauses ∧ f2 = f := by
  have h : ∀ l, f.get_weight l = ⟨1, 1⟩ := by
    intro l
    simp [Formula.get_weight, hw]
  exact ⟨f, reduce_loop_default f h _ 1, rfl, rfl⟩

/-- Witness of C4 on a formula with three variables and two clauses. -/
theorem C4_reduce_unweighted_witness :
    ∃ f2, reduce ⟨3, 2, [.clause [1, 2], .clause [-1, 3]], [], []⟩ = some (f2, 1) ∧
      f2.num_clauses = 2 ∧ f2 = ⟨3, 2, [.clause [1, 2], .clause [-1, 3]], [], []⟩ :=
  C4_reduce_unweighted ⟨3, 2, [.clause [1, 2], .clause [-1, 3]], [], []⟩ rfl

/-- C5, as stated, fails: on one variable with weights `1/2` and `1/2`,
`reduce` returns the formula unchanged (still one variable, so no auxiliary
variable) with net denominator 2. -/
theorem C5_counterexample :
    reduce ⟨1, 0, [], [], [(1, ⟨1, 2⟩), (-1, ⟨1, 2⟩)]⟩
      = some (⟨1, 0, [], [], [(1, ⟨1, 2⟩), (-1, ⟨1, 2⟩)]⟩, 2) := by
  decide

/-- C5, amended: for a free variable whose two literal weights are exactly
`1/2` and `1/2`, `reduce` allocates no auxiliary variable and adds no clause
(the formula is unchanged), and multiplies the net denominator by 2. -/
theorem C5_reduce_half_half (f : Formula) (net_denom : Int) (var : Int)
    (hp : f.get_weight var = ⟨1, 2⟩) (hn : f.get_weight (-var) = ⟨1, 2⟩) :
    reduce_step f net_denom var = some (f, net_denom * 2) := by
  have h1 : reduced_counts ⟨1, 2⟩ ⟨1, 2⟩ = some (1, 1, 2) := by decide
  have h2 : allocate 1 1 32 0 f [] = some (f, []) := rfl
  have h3 : ∀ g : Int, reduce_branch f g [] 1 = some f := by
    intro g
    simp [reduce_branch, chain_formula, shl1, add_guarded]
  simp [reduce_step, hp, hn, h1, h2, h3]

/-- Witness of C5 (amended) on a formula with two variables. -/
theorem C5_reduce_half_half_witness :
    reduce_step ⟨2, 1, [.clause [1, 2]], [], [(2, ⟨1, 2⟩), (-2, ⟨1, 2⟩)]⟩ 3 2
      = some (⟨2, 1, [.clause [1, 2]], [], [(2, ⟨1, 2⟩), (-2, ⟨1, 2⟩)]⟩, 3 * 2) :=
  C5_reduce_half_half _ 3 2 rfl rfl

/-- C6 fails on the code: for a variable with the default weights `1/1, 1/1`
the test `pos.num + neg.num != pos.denom` (2 against 1) holds, so
`reduce_dyadic` skips the variable as non-probabilistic before it reaches the
branch that multiplies by 2; whatever the comparison of `near`, the number of
bits and the rounding, the formula and the factor are returned unchanged. -/
theorem C6_reduce_dyadic_default_skipped
    (closer : Rational → Rational → Rational → Bool) (bits_per_var : Int)
    (rounding : RoundingStrategy) :
    reduce_dyadic closer ⟨1, 0, [], [], []⟩ bits_per_var rounding
      = some (⟨1, 0, [], [], []⟩, 1) := by
  simp [reduce_dyadic, free_variables, reduce_dyadic_loop, reduce_dyadic_step,
    Formula.get_weight, Rational.simplify, std_gcd, gcdLoop, idiv]

/-- C7, as stated, fails: for the weights `2/3` and `1/3` the counts are 2 and
1, and `reduce` allocates one auxiliary variable (`2^1 ≥ 2`), while
`ceil(log2(max(2, 1) + 1))`, the least `m` with `2^m > 2`, is 2. -/
theorem C7_counterexample :
    reduced_counts ⟨2, 3⟩ ⟨1, 3⟩ = some (2, 1, 3) ∧
      (∃ f2 d, reduce_step ⟨1, 0, [], [], [(1, ⟨2, 3⟩), (-1, ⟨1, 3⟩)]⟩ 1 1 = some (f2, d) ∧
        f2.num_variables = 1 + 1) ∧
      Nat.clog 2 (max 2 1 + 1) = 2 := by
  refine ⟨by decide, ⟨⟨2, 1, [.clause [1, 2]], [], [(1, ⟨2, 3⟩), (-1, ⟨1, 3⟩)]⟩, 3, by decide, rfl⟩, ?_⟩
  have h : max 2 1 + 1 = 3 := by decide
  rw [h]
  apply le_antisymm
  · exact (Nat.le_pow_iff_clog_le (by norm_num)).mp (by norm_num)
  · by_contra hlt
    have h1 : Nat.clog 2 3 ≤ 1 := by omega
    have h2 := (Nat.le_pow_iff_clog_le (b := 2) (by norm_num)).mpr h1
    norm_num at h2

/-- C7, amended: for every free variable whose weights are non-negative and
whose reduced counts `p` and `q` are at most `2^30`, `reduce` allocates
exactly `m = ceil(log2(max(p, q)))` auxiliary variables, i.e. the smallest `m`
such that `2^m` is at least both counts. -/
theorem C7_reduce_aux_count (f : Formula) (net_denom : Int) (var : Int)
    (hgood : goodVar f var) :
    ∃ (p q d m : Nat) (f2 : Formula) (d2 : Int),
      reduced_counts (f.get_weight var) (f.get_weight (-var))
        = some ((p : Int), (q : Int), (d : Int)) ∧
      reduce_step f net_denom var = some (f2, d2) ∧
      f2.num_variables = f.num_variables + m ∧
      p ≤ 2 ^ m ∧ q ≤ 2 ^ m ∧ (∀ j, j < m → 2 ^ j < p ∨ 2 ^ j < q) ∧
      m = Nat.clog 2 (max p q) := by
  obtain ⟨hv0, hvn, hpn, hpd, hnn, hnd, hfit⟩ := hgood
  obtain ⟨p, q, d, m, f2, G, hrc, hstep, _, _, _, _, hp, hq, hmin, hnv, _⟩ :=
    reduce_step_shape f net_denom var hv0 hvn hpn hpd hnn hnd hfit
  refine ⟨p, q, d, m, f2, _, hrc, hstep, hnv, hp, hq, hmin, ?_⟩
  apply le_antisymm
  · by_contra hlt
    have hlt : Nat.clog 2 (max p q) < m := by omega
    have hle : max p q ≤ 2 ^ Nat.clog 2 (max p q) := Nat.le_pow_clog (by norm_num) _
    rcases hmin _ hlt with h | h
    · have := le_max_left p q; omega
    · have := le_max_right p q; omega
  · exact (Nat.le_pow_iff_clog_le (by norm_num)).mp (max_le hp hq)

/-- Witness of C7 (amended) on the weights `2/3` and `1/3`. -/
theorem C7_reduce_aux_count_witness :
    ∃ (p q d m : Nat) (f2 : Formula) (d2 : Int),
      reduced_counts
          ((⟨1, 0, [], [], [(1, ⟨2, 3⟩), (-1, ⟨1, 3⟩)]⟩ : Formula).get_weight 1)
          ((⟨1, 0, [], [], [(1, ⟨2, 3⟩), (-1, ⟨1, 3⟩)]⟩ : Formula).get_weight (-1))
        = some ((p : Int), (q : Int), (d : Int)) ∧
      reduce_step ⟨1, 0, [], [], [(1, ⟨2, 3⟩), (-1, ⟨1, 3⟩)]⟩ 1 1 = some (f2, d2) ∧
      f2.num_variables = (⟨1, 0, [], [], [(1, ⟨2, 3⟩), (-1, ⟨1, 3⟩)]⟩ : Formula).num_variables + m ∧
      p ≤ 2 ^ m ∧ q ≤ 2 ^ m ∧ (∀ j, j < m → 2 ^ j < p ∨ 2 ^ j < q) ∧
      m = Nat.clog 2 (max p q) :=
  C7_reduce_aux_count ⟨1, 0, [], [], [(1, ⟨2, 3⟩), (-1, ⟨1, 3⟩)]⟩ 1 1 (by decide)

/-! ## The parser: headers, weights and the weight format -/

theorem set_weight_header (f : Formula) (l : Int) (w : Rational) :
    (f.set_weight l w).num_variables = f.num_variables ∧
    (f.set_weight l w).num_clauses = f.num_clauses := by
  unfold Formula.set_weight
  split <;> simp

theorem add_comment_header (f : Formula) (s : String) :
    (f.add_comment s).num_variables = f.num_variables ∧
    (f.add_comment s).num_clauses = f.num_clauses ∧
    (f.add_comment s).weights = f.weights := ⟨rfl, rfl, rfl⟩

theorem set_header_zero (f : Formula) :
    (f.set_header 0 0).num_variables = 0 ∧ (f.set_header 0 0).num_clauses = 0 := by
  simp [Formula.set_header, toSizeT]

theorem is_valid_literal_iff (f : Formula) (l : Int) :
    f.is_valid_literal l = true ↔ l ≠ 0 ∧ l.natAbs ≤ f.num_variables := by
  simp [Formula.is_valid_literal]

/-- C10: a line `w <literal> <token>` makes the parser abort, with header
(0,0), if and only if the state is `minic2d`, or the literal is 0 or beyond the
declared variables, or the literal is negative under `cachet`, or the token is
`-1` while the state after the transitions of this line is `mc20` (it was
`mc20`, or the literal is negative and it was `detect` or `cachet_or_mc20`).
In every other case the header is left as it is and the parser goes on. -/
theorem C10_w_line_abort (f : Formula) (weights : WeightFormat) (literal : Int)
    (entry : String) :
    ((parse_line f weights (.w true literal entry)).stopped = true ↔
      (weights = .minic2d ∨ literal = 0 ∨ literal.natAbs > f.num_variables ∨
        (literal < 0 ∧ weights = .cachet) ∨
        (entry = "-1" ∧ (weights = .mc20 ∨
          (literal < 0 ∧ (weights = .detect ∨ weights = .cachet_or_mc20)))))) ∧
    ((parse_line f weights (.w true literal entry)).stopped = true →
      (parse_line f weights (.w true literal entry)).formula.num_variables = 0 ∧
      (parse_line f weights (.w true literal entry)).formula.num_clauses = 0) ∧
    ((parse_line f weights (.w true literal entry)).stopped = false →
      (parse_line f weights (.w true literal entry)).formula.num_variables = f.num_variables ∧
      (parse_line f weights (.w true literal entry)).formula.num_clauses = f.num_clauses) := by
  have hz := set_header_zero f
  by_cases hvalid : f.is_valid_literal literal = true
  · have hv := (is_valid_literal_iff f literal).mp hvalid
    have hv1 : ¬ literal = 0 := hv.1
    have hv2 : ¬ literal.natAbs > f.num_variables := by omega
    by_cases hneg : literal < 0 <;> by_cases he : entry = "-1" <;> cases weights <;>
      simp [parse_line, parse_w, w_switch, w_negative, w_entry, hvalid, hneg, he, hv1, hv2,
        Step.stopped, Step.formula, hz, set_weight_header, add_comment_header,
        set_header_zero]
  · have hvalid' : f.is_valid_literal literal = false := by simpa using hvalid
    have hv : literal = 0 ∨ literal.natAbs > f.num_variables := by
      by_contra hcon
      apply hvalid
      rw [is_valid_literal_iff]
      constructor
      · intro h0; exact hcon (Or.inl h0)
      · by_contra h1; exact hcon (Or.inr (by omega))
    cases weights <;>
      simp [parse_line, parse_w, w_switch, hvalid', Step.stopped, Step.formula, hz] <;>
      tauto

theorem w_line_format (f : Formula) (weights : WeightFormat) (ok : Bool) (literal : Int)
    (entry : String) :
    Relation.ReflTransGen (allowed_transition (some (.w ok literal entry))) weights
      (parse_w f weights ok literal entry).format := by
  have h1 : ∀ e, allowed_transition (some (.w ok literal e)) .detect .cachet_or_mc20 :=
    fun e => Or.inl ⟨rfl, rfl, ok, literal, e, rfl⟩
  have h2 : ∀ e, literal < 0 →
      allowed_transition (some (.w ok literal e)) .cachet_or_mc20 .mc20 :=
    fun e h => Or.inr (Or.inl ⟨rfl, rfl, ok, literal, e, rfl, h⟩)
  have h3 : allowed_transition (some (.w ok literal "-1")) .cachet_or_mc20 .cachet :=
    Or.inr (Or.inr (Or.inl ⟨rfl, rfl, Or.inl ⟨ok, literal, rfl⟩⟩))
  cases ok
  · simp only [parse_w, if_true, Step.format]
    exact Relation.ReflTransGen.refl
  · by_cases hvalid : f.is_valid_literal literal = true <;>
    by_cases hneg : literal < 0 <;> by_cases he : entry = "-1" <;> cases weights <;>
    simp only [parse_w, w_switch, w_negative, w_entry, hvalid, hneg, he, Step.format,
      if_true, if_false, Bool.true_eq_false, Bool.false_eq_true, reduceCtorEq] <;>
    first
      | exact Relation.ReflTransGen.refl
      | exact Relation.ReflTransGen.single (h1 _)
      | exact Relation.ReflTransGen.single (h2 _ hneg)
      | exact Relation.ReflTransGen.single h3
      | exact Relation.ReflTransGen.tail (Relation.ReflTransGen.single (h1 _)) (h2 _ hneg)
      | exact Relation.ReflTransGen.tail (Relation.ReflTransGen.single (h1 _)) h3

theorem c_line_format (f : Formula) (weights : WeightFormat) (space : Bool) (entry : String)
    (ints : List Int) (tokens : Nat → String) (rest : String) :
    Relation.ReflTransGen (allowed_transition (some (.c space entry ints tokens rest))) weights
      (parse_c f weights space entry ints tokens rest).format := by
  have h4 : allowed_transition (some (.c space "weights" ints tokens rest)) .detect .minic2d :=
    Or.inr (Or.inr (Or.inr ⟨rfl, rfl, space, ints, tokens, rest, rfl⟩))
  have hne : ¬ ("weights" = "ind") := by decide
  cases space
  · simp only [parse_c, if_true, Step.format]
    exact Relation.ReflTransGen.refl
  · by_cases hind : entry = "ind"
    · simp only [parse_c, hind, Step.format, if_true, if_false, Bool.true_eq_false]
      exact Relation.ReflTransGen.refl
    · by_cases hw : entry = "weights"
      · subst hw
        cases weights <;>
        simp only [parse_c, hne, Step.format, if_true, if_false, Bool.true_eq_false,
          reduceCtorEq, true_and, false_and, or_false, false_or, or_self, or_true, true_or] <;>
        first
          | exact Relation.ReflTransGen.refl
          | exact Relation.ReflTransGen.single h4
      · simp only [parse_c, hind, hw, Step.format, if_true, if_false, Bool.true_eq_false,
          false_and]
        exact Relation.ReflTransGen.refl

theorem parse_line_absorbing (f : Formula) (weights : WeightFormat) (line : InputLine)
    (h : weights = .cachet ∨ weights = .mc20 ∨ weights = .minic2d) :
    (parse_line f weights line).format = weights := by
  cases line with
  | p ok nv nc => cases ok <;> simp [parse_line, Step.format]
  | other l => simp [parse_line, Step.format]
  | w ok literal entry =>
    cases ok
    · simp [parse_line, parse_w, Step.format]
    · by_cases hvalid : f.is_valid_literal literal = true <;>
      by_cases hneg : literal < 0 <;> by_cases he : entry = "-1" <;>
      rcases h with rfl | rfl | rfl <;>
      simp [parse_line, parse_w, w_switch, w_negative, w_entry, hvalid, hneg, he, Step.format]
  | c space entry ints tokens rest =>
    cases space
    · simp [parse_line, parse_c, Step.format]
    · by_cases hind : entry = "ind" <;> by_cases hw : entry = "weights" <;>
      rcases h with rfl | rfl | rfl <;>
      simp [parse_line, parse_c, hind, hw, Step.format]

theorem parse_lines_absorbing :
    ∀ (input : List InputLine) (f : Formula) (weights : WeightFormat),
      (weights = .cachet ∨ weights = .mc20 ∨ weights = .minic2d) →
      (parse_lines input f weights).format = weights := by
  intro input
  induction input with
  | nil => intro f w _; rfl
  | cons line rest ih =>
    intro f w h
    have h1 := parse_line_absorbing f w line h
    simp only [parse_lines]
    cases hl : parse_line f w line with
    | next f2 w2 =>
      rw [hl] at h1
      simp only [Step.format] at h1
      subst h1
      exact ih f2 _ h
    | stop f2 w2 =>
      rw [hl] at h1
      exact h1

/-- The format after an accepted `w` line read under `detect` or
`cachet_or_mc20`: `mc20` for a negative literal, else `cachet` for the token
`-1`, else `cachet_or_mc20`. -/
theorem w_line_result (f : Formula) (weights : WeightFormat) (literal : Int) (entry : String)
    (hw : weights = .detect ∨ weights = .cachet_or_mc20)
    (hvalid : f.is_valid_literal literal = true) :
    (parse_line f weights (.w true literal entry)).format
      = if literal < 0 then .mc20 else if entry = "-1" then .cachet else .cachet_or_mc20 := by
  by_cases hneg : literal < 0 <;> by_cases he : entry = "-1" <;> rcases hw with rfl | rfl <;>
    simp [parse_line, parse_w, w_switch, w_negative, w_entry, hvalid, hneg, he, Step.format]

theorem parse_loop_absorbing (input : List InputLine) (f : Formula) (weights : WeightFormat)
    (h : weights = .cachet ∨ weights = .mc20 ∨ weights = .minic2d) :
    (parse_loop input f weights).2 = weights := by
  have h1 := parse_lines_absorbing input f weights h
  unfold parse_loop
  cases hl : parse_lines input f weights with
  | next f2 w2 =>
    rw [hl] at h1
    simp only [Step.format] at h1
    subst h1
    rcases h with rfl | rfl | rfl <;> rfl
  | stop f2 w2 =>
    rw [hl] at h1
    exact h1

/-- Once a step has left the format `mc20`, `cachet` or `minic2d`, the rest of
the input and the end of the input leave it too. -/
theorem parse_rest_absorbing (line : InputLine) (rest : List InputLine) (f : Formula)
    (weights w : WeightFormat) (hw : w = .cachet ∨ w = .mc20 ∨ w = .minic2d)
    (h : (parse_line f weights line).format = w) :
    (parse_lines (line :: rest) f weights).format = w ∧
    (parse_loop (line :: rest) f weights).2 = w := by
  cases hl : parse_line f weights line with
  | stop f2 w2 =>
    rw [hl] at h
    simp only [Step.format] at h
    subst h
    simp only [parse_loop, parse_lines, hl, Step.format, and_self]
  | next f2 w2 =>
    rw [hl] at h
    simp only [Step.format] at h
    subst h
    have e1 : parse_lines (line :: rest) f weights = parse_lines rest f2 w2 := by
      simp only [parse_lines, hl]
    have e2 : parse_loop (line :: rest) f weights = parse_loop rest f2 w2 := by
      simp only [parse_loop, e1]
    rw [e1, e2]
    exact ⟨parse_lines_absorbing rest f2 w2 hw, parse_loop_absorbing rest f2 w2 hw⟩

/-- C9: the weight format changes only along the listed transitions, and each
listed transition is taken.  On every line, and at the end of the input, the
format after it is reached from the format before it by a chain of listed
transitions that this event triggers; once the format is `cachet`, `mc20` or
`minic2d` no input changes it.  An accepted `w` line read under `detect` or
`cachet_or_mc20` leaves `mc20` when its literal is negative, else `cachet` when
its token is `-1`, else `cachet_or_mc20`; a `c weights` line read under
`detect` leaves `minic2d`; the end of the input under `cachet_or_mc20` leaves
`cachet`.  After an accepted `w` line for a negative literal the format is
`mc20` for the rest of the input, whatever follows, and under `mc20` the token
`-1` aborts the parse with the header `0 0`; so it is on the input `p cnf 1 0`,
`w 1 1/3`, `w -1 2/3`, also when `w 1 -1` follows. -/
theorem C9_weight_format_transitions :
    (∀ (f : Formula) (weights : WeightFormat) (line : InputLine),
      Relation.ReflTransGen (allowed_transition (some line)) weights
        (parse_line f weights line).format) ∧
    (∀ (f : Formula) (weights : WeightFormat),
      Relation.ReflTransGen (allowed_transition none) weights (parse_eof f weights).2) ∧
    (∀ (input : List InputLine) (f : Formula) (weights : WeightFormat),
      (weights = .cachet ∨ weights = .mc20 ∨ weights = .minic2d) →
      (parse_lines input f weights).format = weights ∧
      (parse_loop input f weights).2 = weights) ∧
    (∀ (f : Formula) (weights : WeightFormat) (literal : Int) (entry : String),
      (weights = .detect ∨ weights = .cachet_or_mc20) → f.is_valid_literal literal = true →
      (parse_line f weights (.w true literal entry)).format
        = if literal < 0 then .mc20 else if entry = "-1" then .cachet else .cachet_or_mc20) ∧
    (∀ (f : Formula) (ints : List Int) (tokens : Nat → String) (rest : String),
      (parse_line f .detect (.c true "weights" ints tokens rest)).format = .minic2d) ∧
    (∀ f : Formula, (parse_eof f .cachet_or_mc20).2 = .cachet) ∧
    (∀ (f : Formula) (weights : WeightFormat) (literal : Int) (entry : String)
        (rest : List InputLine),
      (weights = .detect ∨ weights = .cachet_or_mc20) → f.is_valid_literal literal = true →
      literal < 0 →
      (parse_lines (.w true literal entry :: rest) f weights).format = .mc20 ∧
      (parse_loop (.w true literal entry :: rest) f weights).2 = .mc20) ∧
    (∀ (f : Formula) (literal : Int), f.is_valid_literal literal = true →
      parse_line f .mc20 (.w true literal "-1") = .stop (f.set_header 0 0) .mc20) ∧
    parse_lines [.p true 1 0, .w true 1 "1/3", .w true (-1) "2/3"] Formula.empty .detect
      = .next ⟨1, 0, [.text "c detected weight format: mc20"], [],
          [(1, ⟨1, 3⟩), (-1, ⟨2, 3⟩)]⟩ .mc20 ∧
    parse_loop [.p true 1 0, .w true 1 "1/3", .w true (-1) "2/3", .w true 1 "-1"]
        Formula.empty .detect
      = (⟨0, 0, [.text "c detected weight format: mc20"], [],
          [(1, ⟨1, 3⟩), (-1, ⟨2, 3⟩)]⟩, .mc20) := by
  refine ⟨?_, ?_, ?_, ?_, ?_, ?_, ?_, ?_, rfl, by decide⟩
  · intro f weights line
    cases line with
    | p ok nv nc =>
      cases ok <;> simp only [parse_line, Step.format, if_true, Bool.true_eq_false, if_false] <;>
        exact Relation.ReflTransGen.refl
    | other l => exact Relation.ReflTransGen.refl
    | w ok literal entry => exact w_line_format f weights ok literal entry
    | c space entry ints tokens rest => exact c_line_format f weights space entry ints tokens rest
  · intro f weights
    cases weights <;> simp only [parse_eof] <;>
      first
        | exact Relation.ReflTransGen.refl
        | exact Relation.ReflTransGen.single
            (Or.inr (Or.inr (Or.inl ⟨rfl, rfl, Or.inr rfl⟩)))
  · intro input f weights h
    exact ⟨parse_lines_absorbing input f weights h, parse_loop_absorbing input f weights h⟩
  · intro f weights literal entry hw hvalid
    exact w_line_result f weights literal entry hw hvalid
  · intro f ints tokens rest
    have hne : ¬ ("weights" = "ind") := by decide
    simp [parse_line, parse_c, hne, Step.format]
  · intro f
    rfl
  · intro f weights literal entry rest hw hvalid hneg
    have h := w_line_result f weights literal entry hw hvalid
    rw [if_pos hneg] at h
    exact parse_rest_absorbing _ rest f weights .mc20 (Or.inr (Or.inl rfl)) h
  · intro f literal hvalid
    by_cases hneg : literal < 0 <;>
      simp [parse_line, parse_w, w_switch, w_negative, w_entry, hvalid, hneg]

/-! ## The parser: weights at the end of the input -/

theorem lookup_append_single (ws : List (Int × Rational)) (l : Int) (w : Rational) (k : Int) :
    (ws ++ [(l, w)]).lookup k
      = match ws.lookup k with
        | some v => some v
        | none => if k = l then some w else none := by
  induction ws with
  | nil =>
    by_cases h : k = l
    · subst h; simp [List.lookup]
    · have : (k == l) = false := by simpa using h
      simp [List.lookup, this, h]
  | cons p ws ih =>
    obtain ⟨a, b⟩ := p
    by_cases h : k = a
    · subst h; simp [List.lookup]
    · have : (k == a) = false := by simpa using h
      simp only [List.cons_append, List.lookup, this]
      exact ih

theorem lookup_set_weight (f : Formula) (l : Int) (w : Rational) (k : Int) :
    (f.set_weight l w).weights.lookup k
      = match f.weights.lookup k with
        | some v => some v
        | none => if k = l then some w else none := by
  unfold Formula.set_weight
  cases hl : f.weights.lookup l with
  | none =>
    simp only
    exact lookup_append_single _ _ _ _
  | some v =>
    simp only
    cases hk : f.weights.lookup k with
    | some u => rfl
    | none =>
      have : k ≠ l := by
        intro e; rw [e, hl] at hk; cases hk
      simp [this]

/-- The weight lookups after one round of the end-of-input loop. -/
theorem finalize_var_lookup (f : Formula) (i : Nat) (hi : 1 ≤ i) :
    (finalize_var f i).num_variables = f.num_variables ∧
    (∀ k : Int, k ≠ (i : Int) → k ≠ -(i : Int) →
      (finalize_var f i).weights.lookup k = f.weights.lookup k) ∧
    (finalize_var f i).weights.lookup (i : Int)
      = some ((f.weights.lookup (i : Int)).getD ⟨1, 2⟩) ∧
    (finalize_var f i).weights.lookup (-(i : Int))
      = match f.weights.lookup (-(i : Int)) with
        | some v => some v
        | none => some (match f.weights.lookup (i : Int) with
            | some w => w.complement
            | none => ⟨1, 2⟩) := by
  have hne : (i : Int) ≠ -(i : Int) := by omega
  have hne2 : -(i : Int) ≠ (i : Int) := by omega
  unfold finalize_var
  cases hp : f.weights.lookup (i : Int) with
  | some w =>
    cases hn : f.weights.lookup (-(i : Int)) with
    | some v => simp [hp, hn]
    | none =>
      simp only [Option.getD_some]
      refine ⟨(set_weight_header _ _ _).1, ?_, ?_, ?_⟩
      · intro k hk1 hk2
        rw [lookup_set_weight]
        cases f.weights.lookup k <;> simp [hk2]
      · rw [lookup_set_weight, hp]
      · rw [lookup_set_weight, hn]; simp
  | none =>
    simp only [Option.getD_none]
    refine ⟨by rw [(set_weight_header _ _ _).1, (set_weight_header _ _ _).1], ?_, ?_, ?_⟩
    · intro k hk1 hk2
      rw [lookup_set_weight, lookup_set_weight]
      cases f.weights.lookup k <;> simp [hk1, hk2]
    · rw [lookup_set_weight, lookup_set_weight, hp]; simp
    · rw [lookup_set_weight, lookup_set_weight]
      cases hn : f.weights.lookup (-(i : Int)) <;> simp [hne2]

/-- The weight lookups after the end-of-input loop over the indices `L`. -/
theorem finalize_fold_lookup :
    ∀ (L : List Nat) (f : Formula), (∀ j ∈ L, 1 ≤ j) → L.Nodup →
      (L.foldl finalize_var f).num_variables = f.num_variables ∧
      ∀ i : Nat, 1 ≤ i →
        (i ∈ L →
          (L.foldl finalize_var f).weights.lookup (i : Int)
            = some ((f.weights.lookup (i : Int)).getD ⟨1, 2⟩) ∧
          (L.foldl finalize_var f).weights.lookup (-(i : Int))
            = match f.weights.lookup (-(i : Int)) with
              | some v => some v
              | none => some (match f.weights.lookup (i : Int) with
                  | some w => w.complement
                  | none => ⟨1, 2⟩)) ∧
        (i ∉ L →
          (L.foldl finalize_var f).weights.lookup (i : Int) = f.weights.lookup (i : Int) ∧
          (L.foldl finalize_var f).weights.lookup (-(i : Int))
            = f.weights.lookup (-(i : Int))) := by
  intro L
  induction L with
  | nil =>
    intro f _ _
    exact ⟨rfl, fun i _ => ⟨fun h => absurd h (List.not_mem_nil i), fun _ => ⟨rfl, rfl⟩⟩⟩
  | cons j L ih =>
    intro f hpos hnd
    have hj : 1 ≤ j := hpos j (by simp)
    obtain ⟨hnv, hother, hposj, hnegj⟩ := finalize_var_lookup f j hj
    obtain ⟨ih1, ih2⟩ := ih (finalize_var f j) (fun k hk => hpos k (by simp [hk]))
      (List.nodup_cons.mp hnd).2
    have hjL : j ∉ L := (List.nodup_cons.mp hnd).1
    simp only [List.foldl_cons]
    refine ⟨by rw [ih1, hnv], ?_⟩
    intro i hi
    by_cases hij : i = j
    · subst hij
      obtain ⟨_, h2⟩ := ih2 i hi
      obtain ⟨h3, h4⟩ := h2 hjL
      refine ⟨fun _ => ⟨by rw [h3, hposj], by rw [h4, hnegj]⟩, fun h => absurd (by simp) h⟩
    · have e1 : (finalize_var f j).weights.lookup (i : Int) = f.weights.lookup (i : Int) :=
        hother _ (by omega) (by omega)
      have e2 : (finalize_var f j).weights.lookup (-(i : Int))
          = f.weights.lookup (-(i : Int)) := hother _ (by omega) (by omega)
      obtain ⟨h1, h2⟩ := ih2 i hi
      constructor
      · intro hmem
        have hmem2 : i ∈ L := by
          rcases List.mem_cons.mp hmem with h | h
          · exact absurd h hij
          · exact h
        obtain ⟨h3, h4⟩ := h1 hmem2
        rw [e1] at h3
        rw [e1, e2] at h4
        exact ⟨h3, h4⟩
      · intro hmem
        have hmem2 : i ∉ L := fun h => hmem (by simp [h])
        obtain ⟨h3, h4⟩ := h2 hmem2
        rw [e1] at h3
        rw [e2] at h4
        exact ⟨h3, h4⟩

/-- The weights after the end-of-input loop, for the variables of the formula. -/
theorem finalize_spec (f : Formula) (i : Nat) (h1 : 1 ≤ i) (h2 : i ≤ f.num_variables) :
    (finalize f).num_variables = f.num_variables ∧
    (finalize f).weights.lookup (i : Int) = some ((f.weights.lookup (i : Int)).getD ⟨1, 2⟩) ∧
    (finalize f).weights.lookup (-(i : Int))
      = match f.weights.lookup (-(i : Int)) with
        | some v => some v
        | none => some (match f.weights.lookup (i : Int) with
            | some w => w.complement
            | none => ⟨1, 2⟩) := by
  obtain ⟨e1, e2⟩ := finalize_fold_lookup (List.range' 1 f.num_variables) f
    (fun j hj => (List.mem_range'_1.mp hj).1) (List.nodup_range' _ _)
  have hmem : i ∈ List.range' 1 f.num_variables := List.mem_range'_1.mpr ⟨h1, by omega⟩
  exact ⟨e1, ((e2 i h1).1 hmem).1, ((e2 i h1).1 hmem).2⟩

theorem paired_set_pos (f : Formula) (lit : Int) (w : Rational) (hlit : 0 < lit)
    (h : weights_paired f.weights) : weights_paired (f.set_weight lit w).weights := by
  intro l hl hnone
  rw [lookup_set_weight] at hnone ⊢
  cases hk : f.weights.lookup l with
  | some v => rw [hk] at hnone; cases hnone
  | none =>
    rw [h l hl hk]
    have : -l ≠ lit := by omega
    simp [this]

theorem paired_set_both (f : Formula) (lit : Int) (w v : Rational) (hlit : 0 < lit)
    (h : weights_paired f.weights) :
    weights_paired ((f.set_weight lit w).set_weight (-lit) v).weights := by
  intro l hl hnone
  rw [lookup_set_weight, lookup_set_weight] at hnone ⊢
  cases hk : f.weights.lookup l with
  | some u => rw [hk] at hnone; cases hnone
  | none =>
    rw [hk] at hnone
    have hne : l ≠ lit := by
      intro e
      simp [e] at hnone
    rw [h l hl hk]
    have h1 : -l ≠ lit := by omega
    have h2 : -l ≠ -lit := by omega
    simp [h1, h2]

theorem read_ind_weights : ∀ (ints : List Int) (f : Formula),
    (read_ind ints f).weights = f.weights := by
  intro ints
  induction ints with
  | nil => intro f; rfl
  | cons v vs ih =>
    intro f
    simp only [read_ind]
    split
    · rfl
    · rw [ih]; rfl

/-- Each round of the parser loop keeps the weight map paired while the format
is `detect`, `cachet_or_mc20` or `cachet`. -/
theorem parse_line_paired (f : Formula) (weights : WeightFormat) (line : InputLine)
    (f2 : Formula) (w2 : WeightFormat)
    (hinv : (weights = .detect ∨ weights = .cachet_or_mc20 ∨ weights = .cachet) →
      weights_paired f.weights)
    (h : parse_line f weights line = .next f2 w2)
    (hw2 : w2 = .detect ∨ w2 = .cachet_or_mc20 ∨ w2 = .cachet) :
    weights_paired f2.weights := by
  have hwf : weights = .detect ∨ weights = .cachet_or_mc20 ∨ weights = .cachet := by
    have habs := parse_line_absorbing f weights line
    rw [h] at habs
    simp only [Step.format] at habs
    cases weights
    · exact Or.inl rfl
    · exact Or.inr (Or.inr rfl)
    · exact Or.inr (Or.inl rfl)
    · have := habs (Or.inr (Or.inr rfl)); subst this
      rcases hw2 with h | h | h <;> cases h
    · have := habs (Or.inr (Or.inl rfl)); subst this
      rcases hw2 with h | h | h <;> cases h
  have hp := hinv hwf
  cases line with
  | p ok nv nc =>
    cases ok
    · simp [parse_line] at h
    · simp only [parse_line, Bool.true_eq_false, if_false, Step.next.injEq] at h
      obtain ⟨rfl, rfl⟩ := h
      exact hp
  | other l =>
    simp only [parse_line, Step.next.injEq] at h
    obtain ⟨rfl, rfl⟩ := h
    exact hp
  | c space entry ints tokens rest =>
    cases space
    · simp only [parse_line, parse_c, if_true, Step.next.injEq] at h
      obtain ⟨rfl, rfl⟩ := h
      exact hp
    · by_cases hind : entry = "ind"
      · simp only [parse_line, parse_c, hind, if_true, Bool.true_eq_false, if_false,
          Step.next.injEq] at h
        obtain ⟨rfl, rfl⟩ := h
        rw [read_ind_weights]
        exact hp
      · by_cases hcw : entry = "weights" ∧ (weights = .detect ∨ weights = .minic2d)
        · simp only [parse_line, parse_c, hind, hcw, if_true, Bool.true_eq_false, if_false,
            Step.next.injEq, and_self] at h
          obtain ⟨_, rfl⟩ := h
          rcases hw2 with h | h | h <;> cases h
        · simp only [parse_line, parse_c, hind, hcw, if_true, Bool.true_eq_false, if_false,
            Step.next.injEq] at h
          obtain ⟨rfl, rfl⟩ := h
          exact hp
  | w ok literal entry =>
    cases ok
    · simp [parse_line, parse_w] at h
    · by_cases hvalid : f.is_valid_literal literal = true
      · have hne0 : literal ≠ 0 := ((is_valid_literal_iff f literal).mp hvalid).1
        by_cases hneg : literal < 0
        · rcases hwf with rfl | rfl | rfl <;> by_cases he : entry = "-1" <;>
            simp [parse_line, parse_w, w_switch, w_negative, w_entry, hvalid, hneg, he] at h <;>
            (obtain ⟨_, rfl⟩ := h; rcases hw2 with h | h | h <;> cases h)
        · have hpos : 0 < literal := by omega
          have hc : weights_paired (f.add_comment "detected weight format: cachet").weights := hp
          by_cases he : entry = "-1"
          · rcases hwf with rfl | rfl | rfl <;>
              simp [parse_line, parse_w, w_switch, w_negative, w_entry, hvalid, hneg, he] at h <;>
              obtain ⟨rfl, rfl⟩ := h
            · exact paired_set_both _ literal _ _ hpos hc
            · exact paired_set_both _ literal _ _ hpos hc
            · exact paired_set_both _ literal _ _ hpos hp
          · rcases hwf with rfl | rfl | rfl <;>
              simp [parse_line, parse_w, w_switch, w_negative, w_entry, hvalid, hneg, he] at h <;>
              obtain ⟨rfl, rfl⟩ := h <;>
              exact paired_set_pos _ literal _ hpos hp
      · have hvalid' : f.is_valid_literal literal = false := by simpa using hvalid
        cases weights <;> simp [parse_line, parse_w, w_switch, hvalid'] at h

theorem parse_lines_paired :
    ∀ (input : List InputLine) (f : Formula) (weights : WeightFormat)
      (f2 : Formula) (w2 : WeightFormat),
      ((weights = .detect ∨ weights = .cachet_or_mc20 ∨ weights = .cachet) →
        weights_paired f.weights) →
      parse_lines input f weights = .next f2 w2 →
      (w2 = .detect ∨ w2 = .cachet_or_mc20 ∨ w2 = .cachet) →
      weights_paired f2.weights := by
  intro input
  induction input with
  | nil =>
    intro f w f2 w2 hinv h hw2
    simp only [parse_lines, Step.next.injEq] at h
    obtain ⟨rfl, rfl⟩ := h
    exact hinv hw2
  | cons line rest ih =>
    intro f w f2 w2 hinv h hw2
    simp only [parse_lines] at h
    cases hl : parse_line f w line with
    | next f1 w1 =>
      rw [hl] at h
      exact ih f1 w1 f2 w2 (fun hw1 => parse_line_paired f w line f1 w1 hinv hl hw1) h hw2
    | stop f1 w1 =>
      rw [hl] at h
      cases h

theorem get_weight_of_lookup (g : Formula) (l : Int) (w : Rational)
    (h : g.weights.lookup l = some w) : g.get_weight l = w := by
  simp [Formula.get_weight, h]

/-- The end-of-input case on a state with paired weights, under `cachet` or
`cachet_or_mc20`. -/
theorem parse_eof_spec (f : Formula) (weights : WeightFormat)
    (hw : weights = .cachet_or_mc20 ∨ weights = .cachet) (hp : weights_paired f.weights) :
    ∃ g, parse_eof f weights = (g, .cachet) ∧ g.num_variables = f.num_variables ∧
      ∀ i : Nat, 1 ≤ i → i ≤ f.num_variables →
        (∀ w, f.weights.lookup (i : Int) = some w →
          g.get_weight (i : Int) = w ∧
          (f.weights.lookup (-(i : Int)) = none → g.get_weight (-(i : Int)) = w.complement)) ∧
        (f.weights.lookup (i : Int) = none →
          g.get_weight (i : Int) = ⟨1, 2⟩ ∧ g.get_weight (-(i : Int)) = ⟨1, 2⟩) := by
  obtain ⟨f0, hf0, hnv, hws⟩ : ∃ f0, parse_eof f weights = (finalize f0, .cachet) ∧
      f0.num_variables = f.num_variables ∧ f0.weights = f.weights := by
    rcases hw with rfl | rfl
    · exact ⟨f.add_comment "detected weight format: cachet", rfl, rfl, rfl⟩
    · exact ⟨f, rfl, rfl, rfl⟩
  refine ⟨finalize f0, hf0, ?_, ?_⟩
  · rw [← hnv]
    exact (finalize_fold_lookup (List.range' 1 f0.num_variables) f0
      (fun j hj => (List.mem_range'_1.mp hj).1) (List.nodup_range' _ _)).1
  · intro i h1 h2
    obtain ⟨_, e1, e2⟩ := finalize_spec f0 i h1 (by omega)
    rw [hws] at e1 e2
    constructor
    · intro w hw
      rw [hw] at e1 e2
      refine ⟨get_weight_of_lookup _ _ _ e1, ?_⟩
      intro hn
      rw [hn] at e2
      exact get_weight_of_lookup _ _ _ e2
    · intro hnone
      have hneg := hp (i : Int) (by omega) hnone
      rw [hnone] at e1 e2
      rw [hneg] at e2
      exact ⟨get_weight_of_lookup _ _ _ e1, get_weight_of_lookup _ _ _ e2⟩

/-- C8: end-of-input finalisation.  When the input ends while the weight format
is `cachet_or_mc20` or `cachet`, the parser returns with format `cachet`, and
for every variable `i` in `1..V`: a weight recorded for `i` is kept and, if none
was recorded for `-i`, the weight of `-i` becomes its complement; if no weight
was recorded for `i`, the weights of `i` and `-i` both become `1/2`.  In
particular, after a header that declares at least one variable, `w 1 0.25`
followed by the end of the input under `detect` gives format `cachet`,
weight(1) = 25/100 = 1/4 and weight(-1) = 75/100 = 3/4. -/
theorem C8_end_of_input_finalisation :
    (∀ (input : List InputLine) (start : WeightFormat) (f : Formula) (weights : WeightFormat),
      parse_lines input Formula.empty start = .next f weights →
      (weights = .cachet_or_mc20 ∨ weights = .cachet) →
      ∃ g, parse_loop input Formula.empty start = (g, .cachet) ∧
        g.num_variables = f.num_variables ∧
        ∀ i : Nat, 1 ≤ i → i ≤ f.num_variables →
          (∀ w, f.weights.lookup (i : Int) = some w →
            g.get_weight (i : Int) = w ∧
            (f.weights.lookup (-(i : Int)) = none →
              g.get_weight (-(i : Int)) = w.complement)) ∧
          (f.weights.lookup (i : Int) = none →
            g.get_weight (i : Int) = ⟨1, 2⟩ ∧ g.get_weight (-(i : Int)) = ⟨1, 2⟩)) ∧
    (∀ V C : Nat, 1 ≤ V → V < 2 ^ 64 →
      ∃ g, parse_loop [.p true (V : Int) (C : Int), .w true 1 "0.25"] Formula.empty .detect
          = (g, .cachet) ∧
        g.get_weight 1 = ⟨25, 100⟩ ∧ (g.get_weight 1).toRat = 1 / 4 ∧
        g.get_weight (-1) = ⟨75, 100⟩ ∧ (g.get_weight (-1)).toRat = 3 / 4) := by
  constructor
  · intro input start f weights hlines hw
    have hp : weights_paired f.weights :=
      parse_lines_paired input Formula.empty start f weights
        (fun _ => fun l _ _ => rfl) hlines
        (by rcases hw with h | h
            · exact Or.inr (Or.inl h)
            · exact Or.inr (Or.inr h))
    obtain ⟨g, h1, h2, h3⟩ := parse_eof_spec f weights hw hp
    refine ⟨g, ?_, h2, h3⟩
    simp only [parse_loop, hlines]
    exact h1
  · intro V C hV hV2
    have hsz : toSizeT (V : Int) = V := by
      unfold toSizeT
      rw [Int.emod_eq_of_lt (Int.natCast_nonneg V) (by exact_mod_cast hV2)]
      exact Int.toNat_ofNat V
    have hparse : Rational.parse "0.25" = ⟨25, 100⟩ := by decide
    have hne : ¬ ("0.25" = "-1") := by decide
    let f1 : Formula := (Formula.empty.set_header (V : Int) (C : Int)).set_weight 1 ⟨25, 100⟩
    have hvalid : (Formula.empty.set_header (V : Int) (C : Int)).is_valid_literal 1 = true := by
      rw [is_valid_literal_iff]
      refine ⟨by norm_num, ?_⟩
      show (1 : Int).natAbs ≤ toSizeT (V : Int)
      rw [hsz]
      exact hV
    have hlines : parse_lines [.p true (V : Int) (C : Int), .w true 1 "0.25"] Formula.empty
        .detect = .next f1 .cachet_or_mc20 := by
      simp [parse_lines, parse_line, parse_w, w_switch, w_negative, w_entry, hvalid, hne,
        hparse, f1]
    have hl1 : f1.weights.lookup ((1 : Nat) : Int) = some ⟨25, 100⟩ := by
      simp [f1, Formula.set_weight, Formula.set_header, Formula.empty, List.lookup]
    have hl2 : f1.weights.lookup (-((1 : Nat) : Int)) = none := by
      simp [f1, Formula.set_weight, Formula.set_header, Formula.empty, List.lookup]
    have hnv : f1.num_variables = V := by
      simp [f1, Formula.set_weight, Formula.set_header, Formula.empty, hsz]
    have hp : weights_paired f1.weights :=
      parse_lines_paired _ Formula.empty .detect f1 .cachet_or_mc20
        (fun _ => fun l _ _ => rfl) hlines (Or.inr (Or.inl rfl))
    obtain ⟨g, h1, _, h3⟩ := parse_eof_spec f1 .cachet_or_mc20 (Or.inl rfl) hp
    obtain ⟨e1, e2⟩ := (h3 1 (le_refl _) (by rw [hnv]; exact hV)).1 _ hl1
    have e3 := e2 hl2
    simp only [Nat.cast_one] at e1 e3
    refine ⟨g, ?_, e1, ?_, ?_, ?_⟩
    · simp only [parse_loop, hlines]
      exact h1
    · rw [e1]; norm_num [Rational.toRat]
    · rw [e3]; simp [Rational.complement]
    · rw [e3]; norm_num [Rational.toRat, Rational.complement]

/-- Witness of C8 on the input `p cnf 2 0`, `w 1 0.25`, end of input, read
under `detect`: variable 1 has a recorded weight, variable 2 has none. -/
theorem C8_end_of_input_finalisation_witness :
    (∃ g, parse_loop [.p true 2 0, .w true 1 "0.25"] Formula.empty .detect = (g, .cachet) ∧
        g.num_variables = 2 ∧ g.get_weight 1 = ⟨25, 100⟩ ∧ g.get_weight (-1) = ⟨75, 100⟩ ∧
        g.get_weight 2 = ⟨1, 2⟩ ∧ g.get_weight (-2) = ⟨1, 2⟩) := by
  obtain ⟨g, h1, h2, h3⟩ := C8_end_of_input_finalisation.1
    [.p true 2 0, .w true 1 "0.25"] .detect
    ⟨2, 0, [], [], [(1, ⟨25, 100⟩)]⟩ .cachet_or_mc20 rfl (Or.inl rfl)
  obtain ⟨a1, a2⟩ := (h3 1 (by decide) (by decide)).1 ⟨25, 100⟩ (by decide)
  obtain ⟨b1, b2⟩ := (h3 2 (by decide) (by decide)).2 (by decide)
  exact ⟨g, h1, h2, a1, a2 (by decide), b1, b2⟩

/-! ## Simplification and rounding of weights -/

theorem tdiv_nat (x g : Nat) : Int.tdiv (x : Int) (g : Int) = ((x / g : Nat) : Int) := by
  rw [Int.tdiv_eq_ediv (Int.natCast_nonneg x) (Int.natCast_nonneg g)]
  norm_cast

/-- `Rational::simplify` on a non-negative numerator and a positive
denominator divides both by their gcd. -/
theorem simplify_nat (a N : Nat) (hN : 0 < N) :
    Rational.simplify ⟨(a : Int), (N : Int)⟩
      = some ⟨((a / Nat.gcd a N : Nat) : Int), ((N / Nat.gcd a N : Nat) : Int)⟩ := by
  have hg : 0 < Nat.gcd a N := Nat.gcd_pos_of_pos_right _ hN
  have hgI : ((Nat.gcd a N : Nat) : Int) ≠ 0 := by exact_mod_cast hg.ne'
  simp only [Rational.simplify, std_gcd_nat, idiv_of_ne hgI, tdiv_nat, Option.bind_eq_bind,
    Option.some_bind, Option.pure_def]

/-- A value inside the `int` range is not changed by 32-bit arithmetic. -/
theorem wrap32_of_range (x : Int) (h0 : -2 ^ 31 ≤ x) (h1 : x < 2 ^ 31) : wrap32 x = x := by
  unfold wrap32
  rw [Int.emod_eq_of_lt (by omega) (by omega)]
  omega

theorem wrap32_nat (n : Nat) (h : n < 2 ^ 31) : wrap32 (n : Int) = (n : Int) :=
  wrap32_of_range _ (by omega) (by exact_mod_cast h)

/-- The dividend of the `down` case when the product fits the `int` range. -/
theorem wrap32_down (pn N : Nat) (hfit : pn * N < 2 ^ 31) :
    wrap32 ((pn : Int) * (N : Int)) = ((pn * N : Nat) : Int) := by
  have hcast : (pn : Int) * (N : Int) = ((pn * N : Nat) : Int) := by push_cast; ring
  rw [hcast]
  exact wrap32_nat _ hfit

/-- The dividend of the `up` case when it fits the `int` range. -/
theorem wrap32_up (pn pd N : Nat) (hfit : pn * N + pd ≤ 2 ^ 31) (hpd : 0 < pd) :
    wrap32 ((pn : Int) * (N : Int) + (pd : Int) - 1) = ((pn * N + pd - 1 : Nat) : Int) := by
  have hcast : (pn : Int) * (N : Int) + (pd : Int) - 1 = ((pn * N + pd - 1 : Nat) : Int) := by
    have : 1 ≤ pn * N + pd := by omega
    push_cast [Nat.cast_sub this]
    ring
  rw [hcast]
  exact wrap32_nat _ (by omega)

/-- Rounding a weight strictly between 0 and 1 to the denominator `N ≥ 2`, when
`num * N + denom - 1` fits the `int` range: the numerator lies strictly between
0 and `N`, whatever the strategy. -/
theorem round_spec (closer : Rational → Rational → Rational → Bool) (pn pd N : Nat)
    (h0 : 0 < pn) (h1 : pn < pd) (hN : 2 ≤ N) (hfit : pn * N + pd ≤ 2 ^ 31)
    (rounding : RoundingStrategy) :
    ∃ a : Nat, Rational.round closer ⟨(pn : Int), (pd : Int)⟩ (N : Int) rounding
        = some ⟨(a : Int), (N : Int)⟩ ∧ 1 ≤ a ∧ a < N := by
  have hpdI : ((pd : Nat) : Int) ≠ 0 := by
    have : 0 < pd := by omega
    exact_mod_cast this.ne'
  have hpd : 0 < pd := by omega
  -- the `up` case
  have hup : ∃ a : Nat, Rational.roundUp ⟨(pn : Int), (pd : Int)⟩ (N : Int)
      = some ⟨(a : Int), (N : Int)⟩ ∧ 1 ≤ a ∧ a < N := by
    have hcast := wrap32_up pn pd N hfit hpd
    have hq1 : 1 ≤ (pn * N + pd - 1) / pd := by
      rw [Nat.one_le_div_iff hpd]
      have : 1 ≤ pn * N := Nat.mul_pos h0 (by omega)
      omega
    have hq2 : (pn * N + pd - 1) / pd ≤ N := by
      have : (pn * N + pd - 1) / pd < N + 1 := by
        rw [Nat.div_lt_iff_lt_mul hpd]
        have : pn * N ≤ (pd - 1) * N := Nat.mul_le_mul_right N (by omega)
        have e : (pd - 1) * N + N = pd * N := by
          rw [← Nat.succ_mul]; congr 1; omega
        have e2 : (N + 1) * pd = pd * N + pd := by ring
        omega
      omega
    by_cases hq : (pn * N + pd - 1) / pd = N
    · refine ⟨N - 1, ?_, by omega, by omega⟩
      have hqI : (((pn * N + pd - 1) / pd : Nat) : Int) = (N : Int) := by exact_mod_cast hq
      simp only [Rational.roundUp, hcast, idiv_of_ne hpdI, tdiv_nat, Option.bind_eq_bind,
        Option.some_bind, Option.pure_def, hqI, if_true]
      have : 1 ≤ N := by omega
      push_cast [Nat.cast_sub this]
      rfl
    · refine ⟨(pn * N + pd - 1) / pd, ?_, hq1, by omega⟩
      have hqI : ¬ ((((pn * N + pd - 1) / pd : Nat) : Int) = (N : Int)) := by exact_mod_cast hq
      simp only [Rational.roundUp, hcast, idiv_of_ne hpdI, tdiv_nat, Option.bind_eq_bind,
        Option.some_bind, Option.pure_def, hqI, if_false]
  -- the `down` case
  have hdown : ∃ a : Nat, Rational.roundDown ⟨(pn : Int), (pd : Int)⟩ (N : Int)
      = some ⟨(a : Int), (N : Int)⟩ ∧ 1 ≤ a ∧ a < N := by
    have hcast := wrap32_down pn N (by omega)
    have hq2 : pn * N / pd < N := by
      rw [Nat.div_lt_iff_lt_mul hpd]
      have : pn * N < pd * N := Nat.mul_lt_mul_of_pos_right h1 (by omega)
      rw [Nat.mul_comm N pd]
      exact this
    by_cases hq : pn * N / pd = 0
    · refine ⟨1, ?_, le_refl _, by omega⟩
      simp only [Rational.roundDown, hcast, idiv_of_ne hpdI, tdiv_nat, Option.bind_eq_bind,
        Option.some_bind, Option.pure_def, hq]
      simp
    · refine ⟨pn * N / pd, ?_, Nat.pos_of_ne_zero hq, hq2⟩
      have hqI : ¬ (((pn * N / pd : Nat) : Int) = 0) := by exact_mod_cast hq
      simp only [Rational.roundDown, hcast, idiv_of_ne hpdI, tdiv_nat, Option.bind_eq_bind,
        Option.some_bind, Option.pure_def, hqI, if_false]
  cases rounding with
  | up => exact hup
  | down => exact hdown
  | near =>
    obtain ⟨a, ha, ha1, ha2⟩ := hup
    obtain ⟨b, hb, hb1, hb2⟩ := hdown
    simp only [Rational.round, ha, hb, Option.bind_eq_bind, Option.some_bind, Option.pure_def]
    by_cases hc : closer ⟨(b : Int), (N : Int)⟩ ⟨(a : Int), (N : Int)⟩
        ⟨(pn : Int), (pd : Int)⟩ = true
    · exact ⟨b, by simp [hc], hb1, hb2⟩
    · exact ⟨a, by simp [hc], ha1, ha2⟩

/-- Simplifying `a / 2^b` with `0 < a < 2^b`: the result is `a2 / 2^b2` with
`1 ≤ b2 ≤ b`, `0 < a2 < 2^b2` and the same value. -/
theorem simplify_dyadic (a b : Nat) (h0 : 1 ≤ a) (h1 : a < 2 ^ b) :
    ∃ a2 b2 : Nat, Rational.simplify ⟨(a : Int), ((2 ^ b : Nat) : Int)⟩
        = some ⟨(a2 : Int), ((2 ^ b2 : Nat) : Int)⟩ ∧
      1 ≤ b2 ∧ b2 ≤ b ∧ 1 ≤ a2 ∧ a2 < 2 ^ b2 ∧
      (a2 : ℚ) / (2 ^ b2 : ℚ) = (a : ℚ) / (2 ^ b : ℚ) := by
  have hN : 0 < 2 ^ b := Nat.two_pow_pos b
  have hgd : Nat.gcd a (2 ^ b) ∣ 2 ^ b := Nat.gcd_dvd_right _ _
  have hga : Nat.gcd a (2 ^ b) ∣ a := Nat.gcd_dvd_left _ _
  obtain ⟨t, ht, hg⟩ := (Nat.dvd_prime_pow Nat.prime_two).mp hgd
  have hdiv : 2 ^ b / Nat.gcd a (2 ^ b) = 2 ^ (b - t) := by
    rw [hg, Nat.pow_div ht (by norm_num)]
  have hgpos : 0 < Nat.gcd a (2 ^ b) := Nat.gcd_pos_of_pos_right _ hN
  have ha2 : 1 ≤ a / Nat.gcd a (2 ^ b) := Nat.div_pos (Nat.le_of_dvd (by omega) hga) hgpos
  have hlt : a / Nat.gcd a (2 ^ b) < 2 ^ (b - t) := by
    rw [← hdiv]
    exact Nat.div_lt_div_of_lt_of_dvd hgd h1
  have hb2 : 1 ≤ b - t := by
    by_contra hcon
    have : b - t = 0 := by omega
    rw [this] at hlt
    simp at hlt
    omega
  refine ⟨a / Nat.gcd a (2 ^ b), b - t, ?_, hb2, by omega, ha2, hlt, ?_⟩
  · rw [simplify_nat a (2 ^ b) hN, hdiv]
  · have hgq : ((Nat.gcd a (2 ^ b) : Nat) : ℚ) ≠ 0 := by positivity
    have e1 : ((a / Nat.gcd a (2 ^ b) : Nat) : ℚ) = (a : ℚ) / (Nat.gcd a (2 ^ b) : ℚ) :=
      Nat.cast_div hga hgq
    have e2 : ((2 ^ b / Nat.gcd a (2 ^ b) : Nat) : ℚ)
        = ((2 ^ b : Nat) : ℚ) / (Nat.gcd a (2 ^ b) : ℚ) := Nat.cast_div hgd hgq
    rw [hdiv] at e2
    have e3 : ((2 : ℚ) ^ (b - t)) = ((2 ^ (b - t) : Nat) : ℚ) := by push_cast; rfl
    rw [e3, e2, e1]
    push_cast
    field_simp

theorem bitsNeeded_pow (b : Nat) (hb : b ≤ 30) :
    ∀ fuel j : Nat, j ≤ b → 32 ≤ fuel + j →
      bitsNeeded ((2 ^ b : Nat) : Int) fuel j = some b := by
  intro fuel
  induction fuel with
  | zero => intro j h1 h2; omega
  | succ fuel ih =>
    intro j h1 h2
    have hs : shl1 j = some (2 ^ j) := shl1_of_lt (by omega)
    by_cases hj : j = b
    · subst hj
      have : ¬ ((2 : Int) ^ j < ((2 ^ j : Nat) : Int)) := by push_cast; omega
      simp [bitsNeeded, hs, this]
    · have hlt : (2 : Int) ^ j < ((2 ^ b : Nat) : Int) := by
        have : 2 ^ j < 2 ^ b := Nat.pow_lt_pow_right (by norm_num) (by omega)
        exact_mod_cast this
      simp only [bitsNeeded, hs, Option.bind_eq_bind, Option.some_bind, hlt, if_true]
      exact ih (j + 1) (by omega) (by omega)

/-! ## One free variable of `reduce_dyadic` -/

theorem allocate_n_spec : ∀ (k : Nat) (f : Formula) (vars : List Int),
    (allocate_n k f vars).2 = vars ++ (List.range' (f.num_variables + 1) k).map Int.ofNat ∧
    (allocate_n k f vars).1.num_variables = f.num_variables + k ∧
    (allocate_n k f vars).1.body = f.body ∧
    (allocate_n k f vars).1.weights = f.weights ∧
    (allocate_n k f vars).1.num_clauses = f.num_clauses := by
  intro k
  induction k with
  | zero => intro f vars; simp [allocate_n]
  | succ k ih =>
    intro f vars
    obtain ⟨hv1, hv2, hv3, hv4⟩ := alloc_one_fst f vars
    obtain ⟨h1, h2, h3, h4, h5⟩ := ih (alloc_one f vars).1 (alloc_one f vars).2
    simp only [allocate_n]
    refine ⟨?_, by rw [h2, hv1]; omega, by rw [h3, hv2], by rw [h4, hv3], by rw [h5, hv4]⟩
    rw [h1, alloc_one_snd, hv1]
    simp [List.range'_succ]

theorem varsOf_map_neg (vars : List Int) : varsOf (vars.map fun v => -v) = varsOf vars := by
  simp [varsOf, List.map_map, Function.comp_def]

theorem clauses_add_comment (f : Formula) (s : String) :
    (f.add_comment s).clauses = f.clauses := by
  simp [Formula.add_comment, Formula.clauses, List.filterMap_append]

theorem branch_clauses_nonzero (g : Int) (vars : List Int) (s : Nat) (hs : s ≠ 0)
    (B : List Clause) (h : branch_clauses g vars (s : Int) = some B) :
    ∃ cs, chain_formula vars (s : Int) = some cs ∧ B = cs.map fun c => g :: c := by
  have hsI : ¬ ((s : Int) = 0) := by exact_mod_cast hs
  simp only [branch_clauses, hsI, if_false, Option.map_eq_some'] at h
  obtain ⟨cs, h1, h2⟩ := h
  exact ⟨cs, h1, h2.symm⟩

/-- What `reduce_dyadic` does for one free variable with a probabilistic pair
of weights strictly between 0 and 1: the shape of the result, the rounded
weight `a2 / 2^b2`, and the number of models of the added clauses. -/
theorem reduce_dyadic_step_shape (closer : Rational → Rational → Rational → Bool)
    (bits_per_var : Int) (rounding : RoundingStrategy) (f : Formula) (result : Int)
    (var : Int) (hb1 : 1 ≤ bits_per_var) (hb2 : bits_per_var ≤ 30)
    (hgood : probVar bits_per_var f var = true) :
    ∃ (a2 b2 m : Nat) (approx : Rational) (f2 : Formula) (G : List Clause),
      approx_weight closer bits_per_var rounding (f.get_weight var) = some approx ∧
      approx.toRat = (a2 : ℚ) / (2 ^ b2 : ℚ) ∧
      1 ≤ b2 ∧ (b2 : Int) ≤ bits_per_var ∧ 1 ≤ a2 ∧ a2 < 2 ^ b2 ∧
      reduce_dyadic_step closer bits_per_var rounding f result var
        = some (f2, result * ((2 ^ b2 : Nat) : Int)) ∧
      f2.num_variables = f.num_variables + m ∧ m ≤ b2 ∧ f2.weights = f.weights ∧
      f2.clauses = f.clauses ++ G ∧
      (∀ c ∈ G, ∀ l ∈ c, l.natAbs ≤ f.num_variables + m) ∧
      ∀ a, sumAsg (satInd G) (List.range' (f.num_variables + 1) m) a
        = if a var.natAbs then a2 else 2 ^ b2 - a2 := by
  -- the hypotheses on the pair of weights
  simp only [probVar, Bool.and_eq_true, decide_eq_true_eq] at hgood
  obtain ⟨⟨hv0, hvn⟩, hmatch⟩ := hgood
  cases hps : (f.get_weight var).simplify with
  | none => rw [hps] at hmatch; simp at hmatch
  | some pos =>
  cases hns : (f.get_weight (-var)).simplify with
  | none => rw [hps, hns] at hmatch; simp at hmatch
  | some neg =>
  rw [hps, hns] at hmatch
  simp only [Bool.and_eq_true, decide_eq_true_eq] at hmatch
  obtain ⟨⟨⟨⟨hden, hsum⟩, hp0⟩, hp1⟩, hfit⟩ := hmatch
  obtain ⟨pnI, pdI⟩ := pos
  simp only at hden hsum hp0 hp1 hfit
  lift pnI to Nat using hp0.le with pn
  lift pdI to Nat using (by omega : 0 ≤ pdI) with pd
  have hp0' : 0 < pn := by exact_mod_cast hp0
  have hp1' : pn < pd := by exact_mod_cast hp1
  -- the new denominator
  obtain ⟨b, hb⟩ : ∃ b : Nat, bits_per_var = (b : Int) := ⟨bits_per_var.toNat, by omega⟩
  subst hb
  have hb1' : 1 ≤ b := by exact_mod_cast hb1
  have hb2' : b ≤ 30 := by exact_mod_cast hb2
  have hnot : ¬ ((b : Int) < 0) := by omega
  have hnew : shl1 (b : Int).toNat = some (((2 ^ b : Nat) : Int)) := by
    simp only [Int.toNat_ofNat, shl1_of_lt (show b < 31 by omega)]
    push_cast
    rfl
  have hN : 2 ≤ 2 ^ b := by
    calc 2 = 2 ^ 1 := by norm_num
      _ ≤ 2 ^ b := Nat.pow_le_pow_right (by norm_num) hb1'
  -- rounding and simplification
  have hfit' : pn * 2 ^ b + pd ≤ 2 ^ 31 := by
    rw [Int.toNat_ofNat] at hfit
    exact_mod_cast hfit
  obtain ⟨a, hround, ha1, ha2⟩ := round_spec closer pn pd (2 ^ b) hp0' hp1' hN hfit' rounding
  obtain ⟨a2, b2, hsimp, hb21, hb22, ha21, ha22, hval⟩ := simplify_dyadic a b ha1 ha2
  have hbits := bitsNeeded_pow b2 (by omega) 32 0 (by omega) (by omega)
  have happrox : approx_weight closer (b : Int) rounding (f.get_weight var)
      = some ⟨(a : Int), ((2 ^ b : Nat) : Int)⟩ := by
    simp only [approx_weight, hps, hnot, if_false, hnew, Option.bind_eq_bind, Option.some_bind,
      hround]
  have htoRat : (⟨(a : Int), ((2 ^ b : Nat) : Int)⟩ : Rational).toRat
      = (a2 : ℚ) / (2 ^ b2 : ℚ) := by
    rw [hval]
    simp [Rational.toRat]
  -- the tests of the driver that do not fire
  have hc1 : ¬ ((pd : Int) ≠ neg.denom ∨ (pn : Int) + neg.num ≠ (pd : Int)) := by
    simp only [not_or, not_not]
    exact ⟨hden, hsum⟩
  have hc2 : ¬ ((pn : Int) < 0 ∨ neg.num < 0) := by omega
  have hc3 : ¬ ((pn : Int) = 1 ∧ neg.num = 1 ∧ (pd : Int) = 1) := by omega
  have hstep : reduce_dyadic_step closer (b : Int) rounding f result var
      = (if (a2 : Int) = 1 ∧ ((2 ^ b2 : Nat) : Int) = 2 then
          some (f.add_comment ("adjust w " ++ toString var ++ " "
            ++ (⟨(pn : Int), (pd : Int)⟩ : Rational).to_string ++ " to "
            ++ (⟨(a2 : Int), ((2 ^ b2 : Nat) : Int)⟩ : Rational).to_string), result * 2)
        else
          (chain_formula (allocate_n b2 (f.add_comment ("adjust w " ++ toString var ++ " "
            ++ (⟨(pn : Int), (pd : Int)⟩ : Rational).to_string ++ " to "
            ++ (⟨(a2 : Int), ((2 ^ b2 : Nat) : Int)⟩ : Rational).to_string)) []).2
              (a2 : Int)).bind fun cs =>
          (chain_formula ((allocate_n b2 (f.add_comment ("adjust w " ++ toString var ++ " "
            ++ (⟨(pn : Int), (pd : Int)⟩ : Rational).to_string ++ " to "
            ++ (⟨(a2 : Int), ((2 ^ b2 : Nat) : Int)⟩ : Rational).to_string)) []).2.map
              fun v => -v) (((2 ^ b2 : Nat) : Int) - (a2 : Int))).bind fun cs2 =>
          some (add_guarded var cs2 (add_guarded (-var) cs
            (allocate_n b2 (f.add_comment ("adjust w " ++ toString var ++ " "
            ++ (⟨(pn : Int), (pd : Int)⟩ : Rational).to_string ++ " to "
            ++ (⟨(a2 : Int), ((2 ^ b2 : Nat) : Int)⟩ : Rational).to_string)) []).1),
            result * ((2 ^ b2 : Nat) : Int))) := by
    simp only [reduce_dyadic_step, hps, hns, Option.bind_eq_bind, Option.some_bind, hc1, hc2,
      hc3, hnot, if_false, hnew, hround, hsimp, hbits, Option.pure_def, Rational.complement]
  set f1 := f.add_comment ("adjust w " ++ toString var ++ " "
    ++ (⟨(pn : Int), (pd : Int)⟩ : Rational).to_string ++ " to "
    ++ (⟨(a2 : Int), ((2 ^ b2 : Nat) : Int)⟩ : Rational).to_string) with hf1
  have hf1c : f1.clauses = f.clauses := clauses_add_comment _ _
  have hf1n : f1.num_variables = f.num_variables := rfl
  have hf1w : f1.weights = f.weights := rfl
  by_cases hspecial : b2 = 1
  · -- the rounded weight is 1/2: no auxiliary variable, no clause
    subst hspecial
    have ha2eq : a2 = 1 := by
      have : a2 < 2 := by simpa using ha22
      omega
    subst ha2eq
    refine ⟨1, 1, 0, _, f1, [], happrox, htoRat, le_refl _, by exact_mod_cast hb1', le_refl _,
      by norm_num, ?_, rfl, by omega, hf1w, by rw [hf1c]; simp, by simp, ?_⟩
    · rw [hstep]
      simp
    · intro a0
      simp [sumAsg, satInd, cnfSat]
  · -- auxiliary variables and both chain formulas
    have hb2ge : 2 ≤ b2 := by omega
    obtain ⟨hal1, hal2, hal3, hal4, _⟩ := allocate_n_spec b2 f1 []
    simp only [List.nil_append] at hal1
    rw [hf1n] at hal1 hal2
    set vars := (List.range' (f.num_variables + 1) b2).map Int.ofNat with hvars
    have hvo : varsOf vars = List.range' (f.num_variables + 1) b2 := varsOf_aux _ _
    have hvo2 : varsOf (vars.map fun v => -v) = List.range' (f.num_variables + 1) b2 := by
      rw [varsOf_map_neg, hvo]
    have hlen : vars.length = b2 := by simp [hvars]
    have hlen2 : (vars.map fun v => -v).length = b2 := by simp [hvars]
    have hndp : (vars.map Int.natAbs).Nodup := by
      have : vars.map Int.natAbs = varsOf vars := rfl
      rw [this, hvo]
      exact List.nodup_range' _ _
    have hndp2 : ((vars.map fun v => -v).map Int.natAbs).Nodup := by
      have : (vars.map fun v => -v).map Int.natAbs = varsOf (vars.map fun v => -v) := rfl
      rw [this, hvo2]
      exact List.nodup_range' _ _
    have hnz : ∀ v ∈ vars, v ≠ 0 := by
      intro v hv
      have := mem_varsOf hv
      rw [hvo, List.mem_range'_1] at this
      intro h0
      rw [h0] at this
      simp at this
    have hnz2 : ∀ v ∈ (vars.map fun v => -v), v ≠ 0 := by
      intro v hv
      obtain ⟨u, hu, rfl⟩ := List.mem_map.mp hv
      have := hnz u hu
      omega
    have hg : var.natAbs ∉ List.range' (f.num_variables + 1) b2 := by
      rw [List.mem_range'_1]
      intro h; omega
    have hgn : (-var).natAbs ∉ varsOf vars := by rw [Int.natAbs_neg, hvo]; exact hg
    have hg2 : var.natAbs ∉ varsOf (vars.map fun v => -v) := by rw [hvo2]; exact hg
    have hq : 2 ^ b2 - a2 ≤ 2 ^ (vars.map fun v => -v).length := by rw [hlen2]; omega
    obtain ⟨Bp, hp1, hp2, hp3, hp4⟩ :=
      branch_sem (-var) vars a2 (by omega) hndp hnz (by rw [hlen]; omega) hgn
    obtain ⟨Bq, hq1, hq2, hq3, hq4⟩ :=
      branch_sem var (vars.map fun v => -v) (2 ^ b2 - a2) (by omega) hndp2 hnz2 hq hg2
    obtain ⟨cs, hcs, hBp⟩ := branch_clauses_nonzero (-var) vars a2 (by omega) Bp hp1
    obtain ⟨cs2, hcs2, hBq⟩ :=
      branch_clauses_nonzero var (vars.map fun v => -v) (2 ^ b2 - a2) (by omega) Bq hq1
    have hsub : ((2 ^ b2 : Nat) : Int) - (a2 : Int) = ((2 ^ b2 - a2 : Nat) : Int) := by
      rw [Nat.cast_sub (by omega)]
    have hnsp : ¬ ((a2 : Int) = 1 ∧ ((2 ^ b2 : Nat) : Int) = 2) := by
      rintro ⟨_, h2⟩
      have h3 : 2 ^ b2 = 2 := by exact_mod_cast h2
      have h4 : 2 ^ 2 ≤ 2 ^ b2 := Nat.pow_le_pow_right (by norm_num) hb2ge
      omega
    obtain ⟨hg1, hg2', hg3, _, _⟩ := add_guarded_spec (-var) cs (allocate_n b2 f1 []).1
    obtain ⟨hk1, hk2, hk3, _, _⟩ :=
      add_guarded_spec var cs2 (add_guarded (-var) cs (allocate_n b2 f1 []).1)
    have hcl1 : (allocate_n b2 f1 []).1.clauses = f.clauses := by
      rw [← hf1c]; simp [Formula.clauses, hal3]
    refine ⟨a2, b2, b2, _, add_guarded var cs2 (add_guarded (-var) cs (allocate_n b2 f1 []).1),
      Bp ++ Bq, happrox, htoRat, hb21, by exact_mod_cast hb22, ha21,
      ha22, ?_, ?_, le_refl _, ?_, ?_, ?_, ?_⟩
    · rw [hstep]
      simp only [hnsp, if_false, hal1, hcs, hsub, hcs2, Option.bind_eq_bind, Option.some_bind]
    · rw [hk2, hg2', hal2]
    · rw [hk3, hg3, hal4, hf1w]
    · rw [hk1, hg1, hcl1, hBp, hBq, List.append_assoc]
    · intro c hc l hl
      rcases List.mem_append.mp hc with hc | hc
      · rcases hp2 c hc l hl with h | h
        · rw [h, Int.natAbs_neg]; omega
        · rw [hvo, List.mem_range'_1] at h; omega
      · rcases hq2 c hc l hl with h | h
        · rw [h]; omega
        · rw [hvo2, List.mem_range'_1] at h; omega
    · rw [hvo2] at hq4
      rw [hvo] at hp4
      exact gadget_count var hv0 _ hg Bp Bq a2 (2 ^ b2 - a2) hp3 hp4 hq3 hq4

/-! ## The loop of `reduce_dyadic` -/

theorem roundedLitWeight_congr (closer : Rational → Rational → Rational → Bool) (bits : Int)
    (rounding : RoundingStrategy) {f g : Formula} (h : g.weights = f.weights)
    (a : Nat → Bool) (v : Int) :
    roundedLitWeight closer bits rounding g a v = roundedLitWeight closer bits rounding f a v := by
  simp [roundedLitWeight, get_weight_congr h]

theorem roundedProduct_congr (closer : Rational → Rational → Rational → Bool) (bits : Int)
    (rounding : RoundingStrategy) {f g : Formula} (h : g.weights = f.weights)
    (a : Nat → Bool) (vs : List Int) :
    roundedProduct closer bits rounding g a vs = roundedProduct closer bits rounding f a vs := by
  induction vs with
  | nil => rfl
  | cons v vs ih => simp [roundedProduct, ih, roundedLitWeight_congr closer bits rounding h]

theorem roundedProduct_agree (closer : Rational → Rational → Rational → Bool) (bits : Int)
    (rounding : RoundingStrategy) (f : Formula) (n : Nat) (vs : List Int)
    (hvs : ∀ v ∈ vs, v.natAbs ≤ n) (a b : Nat → Bool) (h : ∀ x, x ≤ n → b x = a x) :
    roundedProduct closer bits rounding f b vs = roundedProduct closer bits rounding f a vs := by
  induction vs with
  | nil => rfl
  | cons v vs ih =>
    simp only [roundedProduct, roundedLitWeight, h _ (hvs v (by simp)),
      ih (fun v hv => hvs v (by simp [hv]))]

theorem probVar_bound (bits : Int) (f : Formula) (v : Int) (h : probVar bits f v = true) :
    0 < v ∧ v.natAbs ≤ f.num_variables := by
  simp only [probVar, Bool.and_eq_true, decide_eq_true_eq] at h
  exact h.1

theorem probVar_congr (bits : Int) {f g : Formula} (v : Int) (hw : g.weights = f.weights)
    (hn : f.num_variables ≤ g.num_variables) (h : probVar bits f v = true) :
    probVar bits g v = true := by
  have hb := probVar_bound bits f v h
  simp only [probVar, Bool.and_eq_true, decide_eq_true_eq] at h ⊢
  refine ⟨⟨hb.1, by omega⟩, ?_⟩
  simp only [get_weight_congr hw]
  exact h.2

theorem reduce_dyadic_loop_sem (closer : Rational → Rational → Rational → Bool)
    (bits : Int) (rounding : RoundingStrategy) (hb1 : 1 ≤ bits) (hb2 : bits ≤ 30) :
    ∀ (rest : List Int) (f : Formula) (result : Int),
      (∀ c ∈ f.clauses, ∀ l ∈ c, l.natAbs ≤ f.num_variables) →
      (∀ v ∈ rest, probVar bits f v = true) →
      ∃ (f2 : Formula) (D : Nat) (added : List Clause),
        reduce_dyadic_loop closer bits rounding rest f result = some (f2, result * D) ∧
        f2.weights = f.weights ∧ f2.clauses = f.clauses ++ added ∧
        weightedSum f2.num_variables f2.clauses (fun _ => 1)
          = D * weightedSum f.num_variables f.clauses
              (fun a => roundedProduct closer bits rounding f a rest) := by
  intro rest
  induction rest with
  | nil =>
    intro f r _ _
    refine ⟨f, 1, [], by simp [reduce_dyadic_loop], rfl, by simp, ?_⟩
    simp [roundedProduct]
  | cons var rest ih =>
    intro f r hcl hgood
    obtain ⟨hv0, hvn⟩ := probVar_bound bits f var (hgood var (by simp))
    obtain ⟨a2, b2, m, approx, f1, G, happ, hrat, hb21, _, ha21, ha22, hstep, hnv, _, hws, hcs,
        hG, hcnt⟩ :=
      reduce_dyadic_step_shape closer bits rounding f r var hb1 hb2 (hgood var (by simp))
    have hcl1 : ∀ c ∈ f1.clauses, ∀ l ∈ c, l.natAbs ≤ f1.num_variables := by
      intro c hc l hl
      rw [hcs] at hc
      rw [hnv]
      rcases List.mem_append.mp hc with hc | hc
      · have := hcl c hc l hl; omega
      · exact hG c hc l hl
    have hgood1 : ∀ v ∈ rest, probVar bits f1 v = true := fun v hv =>
      probVar_congr bits v hws (by omega) (hgood v (by simp [hv]))
    obtain ⟨f2, D, added, hloop, hw2, hc2, hsum⟩ := ih f1 (r * ((2 ^ b2 : Nat) : Int)) hcl1 hgood1
    refine ⟨f2, 2 ^ b2 * D, G ++ added, ?_, by rw [hw2, hws],
      by rw [hc2, hcs, List.append_assoc], ?_⟩
    · simp only [reduce_dyadic_loop, hstep, Option.bind_eq_bind, Option.some_bind]
      rw [hloop]
      push_cast
      rw [mul_assoc]
    · rw [hsum, hnv, hcs]
      have hW : ∀ a b : Nat → Bool, (∀ x, x ≤ f.num_variables → b x = a x) →
          roundedProduct closer bits rounding f1 b rest
            = roundedProduct closer bits rounding f1 a rest := by
        intro a b h
        exact roundedProduct_agree closer bits rounding f1 f.num_variables rest
          (fun v hv => (probVar_bound bits f v (hgood v (by simp [hv]))).2) a b h
      rw [step_sum f.clauses G f.num_variables m
        (fun a => roundedProduct closer bits rounding f1 a rest)
        (fun a => if a var.natAbs then a2 else 2 ^ b2 - a2) hcl hW hcnt]
      have hpow : (0 : ℚ) < 2 ^ b2 := by positivity
      have hpt : ∀ a : Nat → Bool,
          (((if a var.natAbs then a2 else 2 ^ b2 - a2 : Nat) : ℚ)
              * roundedProduct closer bits rounding f1 a rest)
            = ((2 ^ b2 : Nat) : ℚ) * roundedProduct closer bits rounding f a (var :: rest) := by
        intro a
        rw [roundedProduct_congr closer bits rounding hws]
        simp only [roundedProduct, roundedLitWeight, happ, hrat]
        by_cases ha : a var.natAbs = true
        · simp only [ha, if_true]
          push_cast
          field_simp
        · simp only [ha, if_false, Bool.false_eq_true]
          rw [Nat.cast_sub (by omega)]
          push_cast
          field_simp
      rw [weightedSum_congr _ _ hpt, weightedSum_mul_left]
      push_cast
      ring

/-- C3: dyadic reduction is count-preserving for the rounded weights.  For
every formula whose clauses and free variables lie in `1..num_variables` and
whose free variables have probabilistic weight pairs with `0 < pos < 1`, every
`bits_per_var` from 1 to 30 and every rounding strategy (whatever the
floating-point comparison of `near` answers), `reduce_dyadic` returns a formula
that keeps the original clauses and appends new ones, and the number of
assignments of all its variables that satisfy them is the returned factor
times the weighted model count in which each free variable has the weight
`approx` for its positive literal and `1 - approx` for its negative one. -/
theorem C3_reduce_dyadic_count_preserving
    (closer : Rational → Rational → Rational → Bool) (f : Formula) (bits_per_var : Int)
    (rounding : RoundingStrategy) (hb1 : 1 ≤ bits_per_var) (hb2 : bits_per_var ≤ 30)
    (hcl : ∀ c ∈ f.clauses, ∀ l ∈ c, l.natAbs ≤ f.num_variables)
    (hgood : ∀ v ∈ free_variables f, probVar bits_per_var f v = true) :
    ∃ (f2 : Formula) (d : Int) (added : List Clause),
      reduce_dyadic closer f bits_per_var rounding = some (f2, d) ∧
      f2.clauses = f.clauses ++ added ∧
      ((modelCount (List.range' 1 f2.num_variables) f2.clauses : Nat) : ℚ)
        = d * wmc_rounded closer bits_per_var rounding f := by
  obtain ⟨f2, D, added, h1, _, h3, h4⟩ :=
    reduce_dyadic_loop_sem closer bits_per_var rounding hb1 hb2 (free_variables f) f 1 hcl hgood
  refine ⟨f2, D, added, by rw [reduce_dyadic, h1]; simp, h3, ?_⟩
  rw [modelCount_eq_weightedSum, h4]
  simp [wmc_rounded]

/-- Witness of C3 on the formula `(x1 ∨ x2)` with weights `1/3, 2/3` for `x1`
and `1/2, 1/2` for `x2`, three bits per variable, rounding down. -/
theorem C3_reduce_dyadic_count_preserving_witness :
    ∃ (f2 : Formula) (d : Int) (added : List Clause),
      reduce_dyadic (fun _ _ _ => true)
        ⟨2, 1, [.clause [1, 2]], [], [(1, ⟨1, 3⟩), (-1, ⟨2, 3⟩), (2, ⟨1, 2⟩), (-2, ⟨1, 2⟩)]⟩
        3 .down = some (f2, d) ∧
      f2.clauses = [[1, 2]] ++ added ∧
      ((modelCount (List.range' 1 f2.num_variables) f2.clauses : Nat) : ℚ)
        = d * wmc_rounded (fun _ _ _ => true) 3 .down
          ⟨2, 1, [.clause [1, 2]], [], [(1, ⟨1, 3⟩), (-1, ⟨2, 3⟩), (2, ⟨1, 2⟩), (-2, ⟨1, 2⟩)]⟩ :=
  C3_reduce_dyadic_count_preserving (fun _ _ _ => true)
    ⟨2, 1, [.clause [1, 2]], [], [(1, ⟨1, 3⟩), (-1, ⟨2, 3⟩), (2, ⟨1, 2⟩), (-2, ⟨1, 2⟩)]⟩
    3 .down (by decide) (by decide) (by decide) (by decide)

/-! ## Claims on the parser of unweighted input and on `Rational` -/

theorem parse_lines_other (ls : List BodyLine) (rest : List InputLine) :
    ∀ (f : Formula) (weights : WeightFormat),
      parse_lines (ls.map InputLine.other ++ rest) f weights
        = parse_lines rest { f with body := f.body ++ ls } weights := by
  induction ls with
  | nil => intro f w; simp
  | cons l ls ih =>
    intro f w
    show parse_lines (ls.map InputLine.other ++ rest) { f with body := f.body ++ [l] } w = _
    rw [ih]
    simp

theorem toSizeT_nat (n : Nat) (h : n < 2 ^ 64) : toSizeT (n : Int) = n := by
  unfold toSizeT
  rw [Int.emod_eq_of_lt (Int.natCast_nonneg n) (by exact_mod_cast h)]
  exact Int.toNat_ofNat n

/-- C11: under `detect`, an input made of a header `p cnf V C` and of clause
lines only (lines that begin with none of `p`, `w`, `c`) parses to a formula
with `num_variables = V` and `num_clauses = C` in which no weight is recorded,
so that `get_weight` returns `1/1` for every literal. -/
theorem C11_parse_unweighted (pre post : List BodyLine) (V C : Nat)
    (hV : V < 2 ^ 64) (hC : C < 2 ^ 64) :
    (Formula.parse (pre.map InputLine.other ++ InputLine.p true (V : Int) (C : Int)
        :: post.map InputLine.other) .detect).num_variables = V ∧
    (Formula.parse (pre.map InputLine.other ++ InputLine.p true (V : Int) (C : Int)
        :: post.map InputLine.other) .detect).num_clauses = C ∧
    (Formula.parse (pre.map InputLine.other ++ InputLine.p true (V : Int) (C : Int)
        :: post.map InputLine.other) .detect).weights = [] ∧
    ∀ l : Int, (Formula.parse (pre.map InputLine.other ++ InputLine.p true (V : Int) (C : Int)
        :: post.map InputLine.other) .detect).get_weight l = ⟨1, 1⟩ := by
  have hpost := parse_lines_other post []
  simp only [List.append_nil] at hpost
  have hparse : Formula.parse (pre.map InputLine.other ++ InputLine.p true (V : Int) (C : Int)
        :: post.map InputLine.other) .detect
      = ⟨V, C, pre ++ post, [], []⟩ := by
    simp only [Formula.parse, parse_loop, parse_lines_other, parse_lines, parse_line,
      Bool.true_eq_false, if_false, hpost, parse_eof, Formula.set_header, Formula.empty,
      toSizeT_nat V hV, toSizeT_nat C hC, List.nil_append]
  rw [hparse]
  exact ⟨rfl, rfl, rfl, fun l => rfl⟩

/-- Witness of C11 on the input `p cnf 3 2`, `1 2 0`, `-1 3 0`. -/
theorem C11_parse_unweighted_witness :
    (Formula.parse [.p true 3 2, .other (.clause [1, 2]), .other (.clause [-1, 3])]
        .detect).num_variables = 3 ∧
    (Formula.parse [.p true 3 2, .other (.clause [1, 2]), .other (.clause [-1, 3])]
        .detect).num_clauses = 2 ∧
    (Formula.parse [.p true 3 2, .other (.clause [1, 2]), .other (.clause [-1, 3])]
        .detect).weights = [] ∧
    ∀ l : Int, (Formula.parse [.p true 3 2, .other (.clause [1, 2]), .other (.clause [-1, 3])]
        .detect).get_weight l = ⟨1, 1⟩ :=
  C11_parse_unweighted [] [.clause [1, 2], .clause [-1, 3]] 3 2 (by norm_num) (by norm_num)

/-- C16: `complement` is an involution, it is the pair `(denom - num, denom)`,
and for a positive denominator its value is exactly `1 - value`. -/
theorem C16_complement_involution (r : Rational) (hd : 0 < r.denom) :
    r.complement.complement = r ∧
    r.complement.complement.num = r.num ∧ r.complement.complement.denom = r.denom ∧
    r.complement = ⟨r.denom - r.num, r.denom⟩ ∧
    r.complement.toRat = 1 - r.toRat := by
  obtain ⟨n, d⟩ := r
  simp only at hd
  have hdq : (d : ℚ) ≠ 0 := by
    have : (0 : ℚ) < d := by exact_mod_cast hd
    exact this.ne'
  refine ⟨?_, ?_, rfl, rfl, ?_⟩
  · simp [Rational.complement]
  · simp [Rational.complement]
  · simp only [Rational.complement, Rational.toRat]
    push_cast
    field_simp

/-- Witness of C16 on the weight `1/4`. -/
theorem C16_complement_involution_witness :
    (⟨1, 4⟩ : Rational).complement.complement = ⟨1, 4⟩ ∧
    (⟨1, 4⟩ : Rational).complement.complement.num = 1 ∧
    (⟨1, 4⟩ : Rational).complement.complement.denom = 4 ∧
    (⟨1, 4⟩ : Rational).complement = ⟨4 - 1, 4⟩ ∧
    (⟨1, 4⟩ : Rational).complement.toRat = 1 - (⟨1, 4⟩ : Rational).toRat :=
  C16_complement_involution ⟨1, 4⟩ (by decide)

/-! ## Rounding down and up -/

/-- The `down` case of `round` on non-negative numbers whose product fits the
`int` range, in natural numbers. -/
theorem roundDown_nat (pn pd N : Nat) (hpd : 0 < pd) (hfit : pn * N < 2 ^ 31) :
    Rational.roundDown ⟨(pn : Int), (pd : Int)⟩ (N : Int)
      = some ⟨if pn * N / pd = 0 then 1 else ((pn * N / pd : Nat) : Int), (N : Int)⟩ := by
  have hpdI : ((pd : Nat) : Int) ≠ 0 := by exact_mod_cast hpd.ne'
  have hcast := wrap32_down pn N hfit
  by_cases hq : pn * N / pd = 0
  · simp only [Rational.roundDown, hcast, idiv_of_ne hpdI, tdiv_nat, Option.bind_eq_bind,
      Option.some_bind, Option.pure_def, hq]
    simp
  · have hqI : ¬ (((pn * N / pd : Nat) : Int) = 0) := by exact_mod_cast hq
    simp only [Rational.roundDown, hcast, idiv_of_ne hpdI, tdiv_nat, Option.bind_eq_bind,
      Option.some_bind, Option.pure_def, hqI, hq, if_false]

/-- The `up` case of `round` on non-negative numbers for which
`num * N + denom - 1` fits the `int` range, in natural numbers. -/
theorem roundUp_nat (pn pd N : Nat) (hpd : 0 < pd) (hfit : pn * N + pd ≤ 2 ^ 31) :
    Rational.roundUp ⟨(pn : Int), (pd : Int)⟩ (N : Int)
      = some ⟨if (pn * N + pd - 1) / pd = N then (N : Int) - 1
          else (((pn * N + pd - 1) / pd : Nat) : Int), (N : Int)⟩ := by
  have hpdI : ((pd : Nat) : Int) ≠ 0 := by exact_mod_cast hpd.ne'
  have hcast := wrap32_up pn pd N hfit hpd
  by_cases hq : (pn * N + pd - 1) / pd = N
  · have hqI : (((pn * N + pd - 1) / pd : Nat) : Int) = (N : Int) := by exact_mod_cast hq
    simp only [Rational.roundUp, hcast, idiv_of_ne hpdI, tdiv_nat, Option.bind_eq_bind,
      Option.some_bind, Option.pure_def, hqI, hq, if_true]
  · have hqI : ¬ ((((pn * N + pd - 1) / pd : Nat) : Int) = (N : Int)) := by exact_mod_cast hq
    simp only [Rational.roundUp, hcast, idiv_of_ne hpdI, tdiv_nat, Option.bind_eq_bind,
      Option.some_bind, Option.pure_def, hqI, hq, if_false]

theorem floor_nat_div (a b : Nat) : ⌊((a : Int) : ℚ) / ((b : Int) : ℚ)⌋ = ((a / b : Nat) : Int) := by
  have := Rat.floor_intCast_div_natCast (a : Int) b
  simp only [Int.cast_natCast] at this ⊢
  rw [this]
  norm_cast

theorem ceil_nat_div (a b : Nat) (hb : 0 < b) :
    ⌈((a : Int) : ℚ) / ((b : Int) : ℚ)⌉ = (((a + b - 1) / b : Nat) : Int) := by
  have hbq : (0 : ℚ) < (b : ℚ) := by exact_mod_cast hb
  rw [Int.ceil_eq_iff]
  simp only [Int.cast_natCast]
  have hdm := Nat.div_add_mod (a + b - 1) b
  have hlt := Nat.mod_lt (a + b - 1) hb
  set q := (a + b - 1) / b with hq
  set m := (a + b - 1) % b with hm
  constructor
  · rw [lt_div_iff₀ hbq]
    have h1 : q * b < a + b := by
      have : b * q = q * b := Nat.mul_comm _ _
      omega
    have h2 : ((q * b : Nat) : ℚ) < ((a + b : Nat) : ℚ) := by exact_mod_cast h1
    push_cast at h2
    linarith
  · rw [div_le_iff₀ hbq]
    have h1 : a ≤ q * b := by
      have : b * q = q * b := Nat.mul_comm _ _
      omega
    have h2 : ((a : Nat) : ℚ) ≤ ((q * b : Nat) : ℚ) := by exact_mod_cast h1
    push_cast at h2
    exact h2

/-- C13: for a weight with `num ≥ 0`, `denom > 0` and a new denominator
`d > 0`, without overflow of the 32-bit `int` dividend (`num * d` for `down`,
`num * d + denom - 1` for `up`), `round(d, down)` has denominator `d` and
numerator `floor(num * d / denom)`, or 1 when that floor is 0, and
`round(d, up)` has denominator `d` and numerator `ceil(num * d / denom)`, or
`d - 1` when that ceiling is `d`; so `down` never returns numerator 0 and `up`
never returns numerator `d`. -/
theorem C13_round_down_up (closer : Rational → Rational → Rational → Bool)
    (r : Rational) (d : Int) (hn : 0 ≤ r.num) (hden : 0 < r.denom) (hd : 0 < d) :
    (r.num * d < 2 ^ 31 →
      ∃ n : Int, r.round closer d .down = some ⟨n, d⟩ ∧
        n = (if ⌊((r.num * d : Int) : ℚ) / ((r.denom : Int) : ℚ)⌋ = 0 then 1
          else ⌊((r.num * d : Int) : ℚ) / ((r.denom : Int) : ℚ)⌋) ∧ n ≠ 0) ∧
    (r.num * d + r.denom - 1 < 2 ^ 31 →
      ∃ n : Int, r.round closer d .up = some ⟨n, d⟩ ∧
        n = (if ⌈((r.num * d : Int) : ℚ) / ((r.denom : Int) : ℚ)⌉ = d then d - 1
          else ⌈((r.num * d : Int) : ℚ) / ((r.denom : Int) : ℚ)⌉) ∧ n ≠ d) := by
  obtain ⟨pnI, pdI⟩ := r
  simp only at hn hden ⊢
  lift pnI to Nat using hn with pn
  lift pdI to Nat using hden.le with pd
  lift d to Nat using hd.le with N
  have hpd : 0 < pd := by exact_mod_cast hden
  have hprod : ((pn : Int) * (N : Int)) = ((pn * N : Nat) : Int) := by push_cast; ring
  rw [hprod, floor_nat_div, ceil_nat_div _ _ hpd]
  constructor
  · intro hfit
    have hfit' : pn * N < 2 ^ 31 := by exact_mod_cast hfit
    refine ⟨_, roundDown_nat pn pd N hpd hfit', ?_, ?_⟩
    · by_cases hq : pn * N / pd = 0
      · have hqI : (((pn * N / pd : Nat) : Int) = 0) := by exact_mod_cast hq
        rw [if_pos hq, if_pos hqI]
      · have hqI : ¬ (((pn * N / pd : Nat) : Int) = 0) := by exact_mod_cast hq
        rw [if_neg hq, if_neg hqI]
    · by_cases hq : pn * N / pd = 0
      · rw [if_pos hq]; exact one_ne_zero
      · have hqI : ¬ (((pn * N / pd : Nat) : Int) = 0) := by exact_mod_cast hq
        rw [if_neg hq]; exact hqI
  · intro hfit
    have hfit' : pn * N + pd ≤ 2 ^ 31 := by
      have : ((pn * N : Nat) : Int) + (pd : Int) ≤ 2 ^ 31 := by omega
      exact_mod_cast this
    refine ⟨_, roundUp_nat pn pd N hpd hfit', ?_, ?_⟩
    · by_cases hq : (pn * N + pd - 1) / pd = N
      · have hqI : (((pn * N + pd - 1) / pd : Nat) : Int) = (N : Int) := by exact_mod_cast hq
        rw [if_pos hq, if_pos hqI]
      · have hqI : ¬ ((((pn * N + pd - 1) / pd : Nat) : Int) = (N : Int)) := by
          exact_mod_cast hq
        rw [if_neg hq, if_neg hqI]
    · by_cases hq : (pn * N + pd - 1) / pd = N
      · rw [if_pos hq]; omega
      · have hqI : ¬ ((((pn * N + pd - 1) / pd : Nat) : Int) = (N : Int)) := by
          exact_mod_cast hq
        rw [if_neg hq]; exact hqI

/-- Witness of C13 on the weight `1/3` and the new denominator 8. -/
theorem C13_round_down_up_witness :
    (∃ n : Int, (⟨1, 3⟩ : Rational).round (fun _ _ _ => true) 8 .down = some ⟨n, 8⟩ ∧
      n = (if ⌊(((1 : Int) * 8 : Int) : ℚ) / (((3 : Int) : Int) : ℚ)⌋ = 0 then 1
        else ⌊(((1 : Int) * 8 : Int) : ℚ) / (((3 : Int) : Int) : ℚ)⌋) ∧ n ≠ 0) ∧
    (∃ n : Int, (⟨1, 3⟩ : Rational).round (fun _ _ _ => true) 8 .up = some ⟨n, 8⟩ ∧
      n = (if ⌈(((1 : Int) * 8 : Int) : ℚ) / (((3 : Int) : Int) : ℚ)⌉ = 8 then 8 - 1
        else ⌈(((1 : Int) * 8 : Int) : ℚ) / (((3 : Int) : Int) : ℚ)⌉) ∧ n ≠ 8) :=
  ⟨(C13_round_down_up (fun _ _ _ => true) ⟨1, 3⟩ 8 (by decide) (by decide) (by decide)).1
      (by decide),
    (C13_round_down_up (fun _ _ _ => true) ⟨1, 3⟩ 8 (by decide) (by decide) (by decide)).2
      (by decide)⟩

/-- C14, as stated, fails.  With `bits_per_var = 0` the new denominator is 1 and
the weight `1/2` rounds down to `1/1`, exactly 1 (no numerator lies strictly
between 0 and 1); the weight `0/1` rounds up to `0/2`, exactly 0; the weight
`1/1` rounds down to `2/2`, exactly 1; and with `bits_per_var = 30` the product
`3 * 2^30` of the weight `3/10` leaves the 32-bit `int`, so that it rounds down
to the negative numerator `-107374182` and up to `-107374181`. -/
theorem C14_counterexample :
    (⟨1, 2⟩ : Rational).round (fun _ _ _ => true) (2 ^ 0) .down = some ⟨1, 2 ^ 0⟩ ∧
    (⟨0, 1⟩ : Rational).round (fun _ _ _ => true) (2 ^ 1) .up = some ⟨0, 2 ^ 1⟩ ∧
    (⟨1, 1⟩ : Rational).round (fun _ _ _ => true) (2 ^ 1) .down = some ⟨2 ^ 1, 2 ^ 1⟩ ∧
    (⟨3, 10⟩ : Rational).round (fun _ _ _ => true) (2 ^ 30) .down
      = some ⟨-107374182, 2 ^ 30⟩ ∧
    (⟨3, 10⟩ : Rational).round (fun _ _ _ => true) (2 ^ 30) .up
      = some ⟨-107374181, 2 ^ 30⟩ := by
  decide

theorem roundDown_bounds (pn pd N : Nat) (h1 : pn < pd) (hN : 2 ≤ N)
    (hfit : pn * N < 2 ^ 31) :
    ∃ n : Nat, Rational.roundDown ⟨(pn : Int), (pd : Int)⟩ (N : Int)
        = some ⟨(n : Int), (N : Int)⟩ ∧ 0 < n ∧ n < N := by
  have hpd : 0 < pd := by omega
  have hq2 : pn * N / pd < N := by
    rw [Nat.div_lt_iff_lt_mul hpd]
    have : pn * N < pd * N := Nat.mul_lt_mul_of_pos_right h1 (by omega)
    rw [Nat.mul_comm N pd]
    exact this
  by_cases hq : pn * N / pd = 0
  · refine ⟨1, ?_, by omega, by omega⟩
    rw [roundDown_nat pn pd N hpd hfit, if_pos hq]
    rfl
  · refine ⟨pn * N / pd, ?_, Nat.pos_of_ne_zero hq, hq2⟩
    rw [roundDown_nat pn pd N hpd hfit, if_neg hq]

theorem roundUp_bounds (pn pd N : Nat) (h0 : 0 < pn) (h1 : pn ≤ pd) (hN : 2 ≤ N)
    (hfit : pn * N + pd ≤ 2 ^ 31) :
    ∃ n : Nat, Rational.roundUp ⟨(pn : Int), (pd : Int)⟩ (N : Int)
        = some ⟨(n : Int), (N : Int)⟩ ∧ 0 < n ∧ n < N := by
  have hpd : 0 < pd := by omega
  have hq1 : 1 ≤ (pn * N + pd - 1) / pd := by
    rw [Nat.one_le_div_iff hpd]
    have : 1 ≤ pn * N := Nat.mul_pos h0 (by omega)
    omega
  have hq2 : (pn * N + pd - 1) / pd ≤ N := by
    have : (pn * N + pd - 1) / pd < N + 1 := by
      rw [Nat.div_lt_iff_lt_mul hpd]
      have : pn * N ≤ pd * N := Nat.mul_le_mul_right N h1
      have e2 : (N + 1) * pd = pd * N + pd := by ring
      omega
    omega
  by_cases hq : (pn * N + pd - 1) / pd = N
  · refine ⟨N - 1, ?_, by omega, by omega⟩
    rw [roundUp_nat pn pd N hpd hfit, if_pos hq]
    have : 1 ≤ N := by omega
    push_cast [Nat.cast_sub this]
    rfl
  · refine ⟨(pn * N + pd - 1) / pd, ?_, hq1, by omega⟩
    rw [roundUp_nat pn pd N hpd hfit, if_neg hq]

/-- C14, amended: for every weight with `denom > 0` and every
`bits_per_var ≥ 1`, without overflow of the 32-bit `int` dividend of `round`
(`num * 2^bits_per_var` for `down`, `num * 2^bits_per_var + denom - 1` for `up`
and `near`), the numerator `n` of `round(2^bits_per_var, strategy)` satisfies
`0 < n < 2^bits_per_var` for `down` when `0 ≤ num < denom`, for `up` when
`0 < num ≤ denom`, and for every strategy (`near` included, whatever its
floating-point comparison answers) when `0 < num < denom`. -/
theorem C14_round_strictly_inside (closer : Rational → Rational → Rational → Bool)
    (r : Rational) (bits_per_var : Nat) (hb : 1 ≤ bits_per_var) (hden : 0 < r.denom) :
    (0 ≤ r.num → r.num < r.denom → r.num * 2 ^ bits_per_var < 2 ^ 31 →
      ∃ n : Int, r.round closer (2 ^ bits_per_var) .down = some ⟨n, 2 ^ bits_per_var⟩ ∧
        0 < n ∧ n < 2 ^ bits_per_var) ∧
    (0 < r.num → r.num ≤ r.denom → r.num * 2 ^ bits_per_var + r.denom - 1 < 2 ^ 31 →
      ∃ n : Int, r.round closer (2 ^ bits_per_var) .up = some ⟨n, 2 ^ bits_per_var⟩ ∧
        0 < n ∧ n < 2 ^ bits_per_var) ∧
    (0 < r.num → r.num < r.denom → r.num * 2 ^ bits_per_var + r.denom - 1 < 2 ^ 31 →
      ∀ rounding : RoundingStrategy,
      ∃ n : Int, r.round closer (2 ^ bits_per_var) rounding = some ⟨n, 2 ^ bits_per_var⟩ ∧
        0 < n ∧ n < 2 ^ bits_per_var) := by
  obtain ⟨pnI, pdI⟩ := r
  simp only at hden ⊢
  lift pdI to Nat using hden.le with pd
  have hN : 2 ≤ 2 ^ bits_per_var := by
    calc 2 = 2 ^ 1 := by norm_num
      _ ≤ 2 ^ bits_per_var := Nat.pow_le_pow_right (by norm_num) hb
  have hpow : ((2 : Int) ^ bits_per_var) = ((2 ^ bits_per_var : Nat) : Int) := by
    push_cast; rfl
  rw [hpow]
  have hdown : 0 ≤ pnI → pnI < (pd : Int) → pnI * ((2 ^ bits_per_var : Nat) : Int) < 2 ^ 31 →
      ∃ n : Int, Rational.roundDown ⟨pnI, (pd : Int)⟩ ((2 ^ bits_per_var : Nat) : Int)
          = some ⟨n, ((2 ^ bits_per_var : Nat) : Int)⟩ ∧
        0 < n ∧ n < ((2 ^ bits_per_var : Nat) : Int) := by
    intro h0 h1 hfit
    lift pnI to Nat using h0 with pn
    obtain ⟨n, e, hn0, hn1⟩ := roundDown_bounds pn pd (2 ^ bits_per_var)
      (by exact_mod_cast h1) hN (by exact_mod_cast hfit)
    exact ⟨n, e, by exact_mod_cast hn0, by exact_mod_cast hn1⟩
  have hup : 0 < pnI → pnI ≤ (pd : Int) →
      pnI * ((2 ^ bits_per_var : Nat) : Int) + (pd : Int) - 1 < 2 ^ 31 →
      ∃ n : Int, Rational.roundUp ⟨pnI, (pd : Int)⟩ ((2 ^ bits_per_var : Nat) : Int)
          = some ⟨n, ((2 ^ bits_per_var : Nat) : Int)⟩ ∧
        0 < n ∧ n < ((2 ^ bits_per_var : Nat) : Int) := by
    intro h0 h1 hfit
    lift pnI to Nat using h0.le with pn
    have hfit' : pn * 2 ^ bits_per_var + pd ≤ 2 ^ 31 := by
      have : ((pn * 2 ^ bits_per_var : Nat) : Int) + (pd : Int) ≤ 2 ^ 31 := by
        rw [Nat.cast_mul]
        omega
      exact_mod_cast this
    obtain ⟨n, e, hn0, hn1⟩ := roundUp_bounds pn pd (2 ^ bits_per_var)
      (by exact_mod_cast h0) (by exact_mod_cast h1) hN hfit'
    exact ⟨n, e, by exact_mod_cast hn0, by exact_mod_cast hn1⟩
  refine ⟨hdown, hup, ?_⟩
  intro h0 h1 hfit rounding
  have hfitd : pnI * ((2 ^ bits_per_var : Nat) : Int) < 2 ^ 31 := by omega
  cases rounding with
  | up => exact hup h0 h1.le hfit
  | down => exact hdown h0.le h1 hfitd
  | near =>
    obtain ⟨a, ha, ha1, ha2⟩ := hup h0 h1.le hfit
    obtain ⟨b, hb', hb1, hb2⟩ := hdown h0.le h1 hfitd
    simp only [Rational.round, ha, hb', Option.bind_eq_bind, Option.some_bind, Option.pure_def]
    by_cases hc : closer ⟨b, ((2 ^ bits_per_var : Nat) : Int)⟩
        ⟨a, ((2 ^ bits_per_var : Nat) : Int)⟩ ⟨pnI, (pd : Int)⟩ = true
    · exact ⟨b, by rw [if_pos hc], hb1, hb2⟩
    · exact ⟨a, by rw [if_neg hc], ha1, ha2⟩

/-- Witness of C14 (amended) on the weight `1/3` with three bits: the
numerators are 2 (down) and 3 (up). -/
theorem C14_round_strictly_inside_witness :
    (∃ n : Int, (⟨1, 3⟩ : Rational).round (fun _ _ _ => true) (2 ^ 3) .down = some ⟨n, 2 ^ 3⟩ ∧
        0 < n ∧ n < 2 ^ 3) ∧
    (∃ n : Int, (⟨1, 3⟩ : Rational).round (fun _ _ _ => true) (2 ^ 3) .up = some ⟨n, 2 ^ 3⟩ ∧
        0 < n ∧ n < 2 ^ 3) ∧
    (∀ rounding : RoundingStrategy,
      ∃ n : Int, (⟨1, 3⟩ : Rational).round (fun _ _ _ => true) (2 ^ 3) rounding
          = some ⟨n, 2 ^ 3⟩ ∧ 0 < n ∧ n < 2 ^ 3) :=
  ⟨(C14_round_strictly_inside (fun _ _ _ => true) ⟨1, 3⟩ 3 (by decide) (by decide)).1
      (by decide) (by decide) (by decide),
    (C14_round_strictly_inside (fun _ _ _ => true) ⟨1, 3⟩ 3 (by decide) (by decide)).2.1
      (by decide) (by decide) (by decide),
    (C14_round_strictly_inside (fun _ _ _ => true) ⟨1, 3⟩ 3 (by decide) (by decide)).2.2
      (by decide) (by decide) (by decide)⟩

/-! ## `Rational::parse` -/

theorem digit_ne_point {c : Char} (h : is_digit c = true) : c ≠ '.' := by
  intro e; subst e; revert h; decide

theorem digit_ne_slash {c : Char} (h : is_digit c = true) : c ≠ '/' := by
  intro e; subst e; revert h; decide

theorem digit_range {c : Char} (h : is_digit c = true) : '0' ≤ c ∧ c ≤ '9' := by
  simpa [is_digit] using h

theorem not_digit_range {c : Char} (h : is_digit c = false) : ¬ ('0' ≤ c ∧ c ≤ '9') := by
  simpa [is_digit] using h

theorem parseDecimal_digits (rest : List Char) (seen : Bool) :
    ∀ (ds : List Char) (n d : Int), (∀ c ∈ ds, is_digit c = true) →
      parseDecimal (ds ++ rest) n d seen
        = parseDecimal rest (ds.foldl (fun n c => n * 10 + ((c.toNat : Int) - 48)) n)
            (if seen then d * 10 ^ ds.length else d) seen := by
  intro ds
  induction ds with
  | nil => intro n d _; cases seen <;> simp
  | cons c cs ih =>
    intro n d h
    have hc := h c (by simp)
    have h1 : ¬ (c = '.' ∧ seen = false) := fun e => digit_ne_point hc e.1
    simp only [List.cons_append, parseDecimal, h1, if_false, digit_range hc, and_self, if_true,
      List.foldl_cons, List.length_cons, List.append_eq]
    rw [ih _ _ (fun x hx => h x (by simp [hx]))]
    cases seen
    · simp
    · simp only [if_true, pow_succ]
      congr 1
      ring

theorem parseFraction_digits (rest : List Char) (seen : Bool) :
    ∀ (ds : List Char) (n d : Int), (∀ c ∈ ds, is_digit c = true) →
      parseFraction (ds ++ rest) n d seen
        = parseFraction rest
            (if seen then n else ds.foldl (fun n c => n * 10 + ((c.toNat : Int) - 48)) n)
            (if seen then ds.foldl (fun n c => n * 10 + ((c.toNat : Int) - 48)) d else d)
            seen := by
  intro ds
  induction ds with
  | nil => intro n d _; cases seen <;> simp
  | cons c cs ih =>
    intro n d h
    have hc := h c (by simp)
    have hne : c ≠ '/' := digit_ne_slash hc
    cases seen
    · simp only [List.cons_append, parseFraction, hne, false_and, if_false, digit_range hc,
        and_self, if_true, List.foldl_cons, Bool.false_eq_true, List.append_eq]
      rw [ih _ _ (fun x hx => h x (by simp [hx]))]
      simp
    · simp only [List.cons_append, parseFraction, hne, false_and, if_false, digit_range hc,
        and_self, if_true, List.foldl_cons, List.append_eq]
      rw [ih _ _ (fun x hx => h x (by simp [hx]))]
      simp

theorem parseDecimal_invalid (c : Char) (post : List Char) (hc : is_digit c = false) :
    ∀ (pre : List Char) (n d : Int) (seen : Bool),
      (c ≠ '.' ∨ seen = true ∨ '.' ∈ pre) →
      parseDecimal (pre ++ c :: post) n d seen = ⟨1, 0⟩ := by
  intro pre
  induction pre with
  | nil =>
    intro n d seen h
    have h1 : ¬ (c = '.' ∧ seen = false) := by
      rintro ⟨e1, e2⟩
      rcases h with h | h | h
      · exact h e1
      · rw [e2] at h; cases h
      · simp at h
    simp only [List.nil_append, parseDecimal, h1, if_false, not_digit_range hc]
  | cons p pre ih =>
    intro n d seen h
    simp only [List.cons_append, parseDecimal]
    by_cases hp : p = '.' ∧ seen = false
    · rw [if_pos hp]
      exact ih n d true (Or.inr (Or.inl rfl))
    · rw [if_neg hp]
      by_cases hdig : '0' ≤ p ∧ p ≤ '9'
      · rw [if_pos hdig]
        apply ih
        rcases h with h | h | h
        · exact Or.inl h
        · exact Or.inr (Or.inl h)
        · rcases List.mem_cons.mp h with e | e
          · have hs : seen = true := by
              cases seen
              · exact absurd ⟨e.symm, rfl⟩ hp
              · rfl
            exact Or.inr (Or.inl hs)
          · exact Or.inr (Or.inr e)
      · rw [if_neg hdig]

theorem parseFraction_invalid (c : Char) (post : List Char) (hc : is_digit c = false) :
    ∀ (pre : List Char) (n d : Int) (seen : Bool),
      (c ≠ '/' ∨ seen = true ∨ '/' ∈ pre) →
      parseFraction (pre ++ c :: post) n d seen = ⟨1, 0⟩ := by
  intro pre
  induction pre with
  | nil =>
    intro n d seen h
    have h1 : ¬ (c = '/' ∧ seen = false) := by
      rintro ⟨e1, e2⟩
      rcases h with h | h | h
      · exact h e1
      · rw [e2] at h; cases h
      · simp at h
    simp only [List.nil_append, parseFraction, h1, if_false, not_digit_range hc]
  | cons p pre ih =>
    intro n d seen h
    simp only [List.cons_append, parseFraction]
    by_cases hp : p = '/' ∧ seen = false
    · rw [if_pos hp]
      exact ih n d true (Or.inr (Or.inl rfl))
    · rw [if_neg hp]
      have hnext : c ≠ '/' ∨ seen = true ∨ '/' ∈ pre := by
        rcases h with h | h | h
        · exact Or.inl h
        · exact Or.inr (Or.inl h)
        · rcases List.mem_cons.mp h with e | e
          · have hs : seen = true := by
              cases seen
              · exact absurd ⟨e.symm, rfl⟩ hp
              · rfl
            exact Or.inr (Or.inl hs)
          · exact Or.inr (Or.inr e)
      by_cases hdig : '0' ≤ p ∧ p ≤ '9'
      · rw [if_pos hdig]
        cases seen
        · simp only [Bool.false_eq_true, if_false]
          exact ih _ _ _ hnext
        · simp only [if_true]
          exact ih _ _ _ hnext
      · rw [if_neg hdig]

theorem digits_no_slash (ds : List Char) (h : ∀ c ∈ ds, is_digit c = true) : '/' ∉ ds :=
  fun hm => digit_ne_slash (h _ hm) rfl

/-- C12: `Rational::parse` (the numbers are integers of the embedding, so
tokens whose digits stay in the native range).  A token of digits yields the
integer they write over 1; a token of digits with one `.` yields the integer
written by all its digits over `10^j`, `j` the number of digits after the
point; a token `a/b` of two digit strings yields the pair `(a, b)` as it is;
and a token that has a character which is neither a digit nor the first `.`
(in a token without `/`) or the first `/` (in a token with one) yields the
sentinel `(1, 0)`. -/
theorem C12_parse :
    (∀ ds : List Char, (∀ c ∈ ds, is_digit c = true) →
      Rational.parse (String.mk ds) = ⟨digitsValue ds, 1⟩) ∧
    (∀ ip fp : List Char, (∀ c ∈ ip, is_digit c = true) → (∀ c ∈ fp, is_digit c = true) →
      Rational.parse (String.mk (ip ++ '.' :: fp))
        = ⟨digitsValue (ip ++ fp), 10 ^ fp.length⟩) ∧
    (∀ a b : List Char, (∀ c ∈ a, is_digit c = true) → (∀ c ∈ b, is_digit c = true) →
      Rational.parse (String.mk (a ++ '/' :: b)) = ⟨digitsValue a, digitsValue b⟩) ∧
    (∀ (pre : List Char) (c : Char) (post : List Char), '/' ∉ pre ++ c :: post →
      is_digit c = false → (c ≠ '.' ∨ '.' ∈ pre) →
      Rational.parse (String.mk (pre ++ c :: post)) = ⟨1, 0⟩) ∧
    (∀ (pre : List Char) (c : Char) (post : List Char), '/' ∈ pre ++ c :: post →
      is_digit c = false → (c ≠ '/' ∨ '/' ∈ pre) →
      Rational.parse (String.mk (pre ++ c :: post)) = ⟨1, 0⟩) := by
  have hparse : ∀ cs : List Char, Rational.parse (String.mk cs)
      = if cs.contains '/' then parseFraction cs 0 0 false else parseDecimal cs 0 1 false :=
    fun cs => rfl
  refine ⟨?_, ?_, ?_, ?_, ?_⟩
  · intro ds h
    have hno : ds.contains '/' = false := by
      simpa using digits_no_slash ds h
    have := parseDecimal_digits [] false ds 0 1 h
    simp only [List.append_nil] at this
    rw [hparse, hno]
    simp only [Bool.false_eq_true, if_false, this, parseDecimal, digitsValue]
  · intro ip fp hi hf
    have hno : (ip ++ '.' :: fp).contains '/' = false := by
      have h1 := digits_no_slash ip hi
      have h2 := digits_no_slash fp hf
      have h3 : ('/' : Char) ≠ '.' := by decide
      simp [h1, h2, h3]
    have e1 := parseDecimal_digits ('.' :: fp) false ip 0 1 hi
    have e2 := parseDecimal_digits [] true fp
      (ip.foldl (fun n c => n * 10 + ((c.toNat : Int) - 48)) 0) 1 hf
    simp only [List.append_nil] at e2
    rw [hparse, hno]
    simp only [Bool.false_eq_true, if_false] at e1 ⊢
    rw [e1]
    simp only [parseDecimal, and_self, if_true, e2, digitsValue, List.foldl_append, one_mul]
  · intro a b ha hb
    have hyes : (a ++ '/' :: b).contains '/' = true := by simp
    have e1 := parseFraction_digits ('/' :: b) false a 0 0 ha
    have e2 := parseFraction_digits [] true b
      (a.foldl (fun n c => n * 10 + ((c.toNat : Int) - 48)) 0) 0 hb
    simp only [List.append_nil] at e2
    rw [hparse, hyes]
    simp only [Bool.false_eq_true, if_false, if_true] at e1 ⊢
    rw [e1]
    simp only [parseFraction, and_self, if_true, e2, digitsValue]
  · intro pre c post hno hc h
    have hno' : (pre ++ c :: post).contains '/' = false := by simpa using hno
    rw [hparse, hno']
    simp only [Bool.false_eq_true, if_false]
    exact parseDecimal_invalid c post hc pre 0 1 false
      (h.elim Or.inl (fun e => Or.inr (Or.inr e)))
  · intro pre c post hyes hc h
    have hyes' : (pre ++ c :: post).contains '/' = true := by simpa using hyes
    rw [hparse, hyes']
    simp only [if_true]
    exact parseFraction_invalid c post hc pre 0 0 false
      (h.elim Or.inl (fun e => Or.inr (Or.inr e)))

/-- Witness of C12 on the tokens `0.25`, `1/3` and `1x`. -/
theorem C12_parse_witness :
    Rational.parse "0.25" = ⟨25, 100⟩ ∧ Rational.parse "1/3" = ⟨1, 3⟩ ∧
      Rational.parse "1x" = ⟨1, 0⟩ :=
  ⟨C12_parse.2.1 ['0'] ['2', '5'] (by decide) (by decide),
    C12_parse.2.2.1 ['1'] ['3'] (by decide) (by decide),
    C12_parse.2.2.2.1 ['1'] 'x' [] (by decide) (by decide) (Or.inl (by decide))⟩

/-! ## The number of clauses of the chain formula -/

theorem testBit_iff_div_mod (k i : Nat) : k.testBit i = true ↔ k / 2 ^ i % 2 = 1 := by
  rw [Nat.testBit_to_div_mod]
  simp

theorem chainLoop_length (k : Nat) :
    ∀ (R : List Int) (bit : Nat) (cl cl2 : List Clause),
      chainLoop (k : Int) R bit cl = some cl2 →
      cl2.length = cl.length + (List.range' bit R.length).countP (fun i => !k.testBit i) := by
  intro R
  induction R with
  | nil =>
    intro bit cl cl2 h
    simp only [chainLoop, Option.some.injEq] at h
    subst h
    simp
  | cons v R ih =>
    intro bit cl cl2 h
    by_cases hb : bit < 31
    · simp only [chainLoop, shl1_of_lt hb, Option.bind_eq_bind, Option.some_bind] at h
      by_cases hbit : k / 2 ^ bit % 2 = 1
      · have hpos : Int.land (k : Int) (2 ^ bit) > 0 := (land_two_pow_pos k bit).mpr hbit
        rw [if_pos hpos] at h
        have := ih _ _ _ h
        have ht : k.testBit bit = true := (testBit_iff_div_mod k bit).mpr hbit
        rw [this]
        simp [List.range'_succ, ht]
      · have hnpos : ¬ Int.land (k : Int) (2 ^ bit) > 0 := by
          rw [land_two_pow_pos]; exact hbit
        rw [if_neg hnpos] at h
        have := ih _ _ _ h
        have ht : k.testBit bit = false := by
          cases hh : k.testBit bit
          · rfl
          · exact absurd ((testBit_iff_div_mod k bit).mp hh) hbit
        rw [this]
        simp [List.range'_succ, ht]
        omega
    · simp [chainLoop, shl1, hb] at h

theorem chainLoop_some (k : Int) :
    ∀ (R : List Int) (bit : Nat) (cl : List Clause), bit + R.length ≤ 31 →
      ∃ cl2, chainLoop k R bit cl = some cl2 := by
  intro R
  induction R with
  | nil => intro bit cl _; exact ⟨cl, rfl⟩
  | cons v R ih =>
    intro bit cl h
    have hb : bit < 31 := by simp at h; omega
    simp only [chainLoop, shl1_of_lt hb, Option.bind_eq_bind, Option.some_bind]
    split
    · exact ih _ _ (by simp at h ⊢; omega)
    · exact ih _ _ (by simp at h ⊢; omega)

/-- For `0 < k < 2^n` the chain formula is the loop started at the lowest set
bit `b` of `k` with the unit clause of `vars[b]`. -/
theorem chain_formula_loop (vars : List Int) (k : Nat) (hn : vars.length ≤ 30)
    (hk0 : 0 < k) (hk : k < 2 ^ vars.length) :
    ∃ (b : Nat) (v : Int), b < vars.length ∧ vars[b]? = some v ∧
      k % 2 ^ b = 0 ∧ k / 2 ^ b % 2 = 1 ∧
      chain_formula vars (k : Int) = chainLoop (k : Int) (vars.drop (b + 1)) (b + 1) [[v]] := by
  have hshl : shl1 vars.length = some (2 ^ vars.length) := shl1_of_lt (by omega)
  have hkI : ¬ ((k : Int) = 0) := by exact_mod_cast hk0.ne'
  have hlt31 : k < 2 ^ 31 :=
    lt_of_lt_of_le hk (Nat.pow_le_pow_right (by norm_num) (by omega))
  obtain ⟨b, hb1, hb2, hb3⟩ := skipZeroBits_spec k hk0 hlt31 32 0 (Nat.mod_one k) (by omega)
  have hbn : b < vars.length := by
    by_contra hge
    have h1 : 2 ^ vars.length ≤ 2 ^ b := Nat.pow_le_pow_right (by norm_num) (by omega)
    have h2 : k % 2 ^ b = k := Nat.mod_eq_of_lt (by omega)
    omega
  have hnfull : ¬ ((k : Int) = 2 ^ vars.length) := by
    have : k ≠ 2 ^ vars.length := by omega
    exact_mod_cast this
  have hnge : ¬ ((k : Int) ≥ 2 ^ vars.length) := by
    have : (k : Int) < 2 ^ vars.length := by exact_mod_cast hk
    omega
  refine ⟨b, vars[b], hbn, List.getElem?_eq_getElem hbn, hb2, hb3, ?_⟩
  simp only [chain_formula, hkI, if_false, hshl, Option.bind_eq_bind, Option.some_bind,
    hnfull, hnge, hb1, List.getElem?_eq_getElem hbn, Option.pure_def]

/-- C20, as stated, fails: for `k = 1` over three variables the chain formula
has the three unit clauses, while `k` has no 1-bit above its lowest set bit
(bit 0), so the claimed count is 1. -/
theorem C20_counterexample :
    chain_formula [1, 2, 3] 1 = some [[1], [2], [3]] ∧
      ([[1], [2], [3]] : List Clause).length = 3 ∧
      (1 : Nat).testBit 0 = true ∧
      (List.range' 1 2).countP (fun i => (1 : Nat).testBit i) + 1 = 1 := by
  decide

/-- C20, amended: for every `n ≤ 30` and every `k` with `0 < k < 2^n`, the
number of clauses returned by `chain_formula` over `n` variables equals the
number of 0-bits of `k` above its lowest set bit `b` and below bit `n`, plus
one. -/
theorem C20_chain_formula_clause_count (vars : List Int) (k : Int)
    (hn : vars.length ≤ 30) (hk0 : 0 < k) (hk : k < 2 ^ vars.length) :
    ∃ (cs : List Clause) (b : Nat), chain_formula vars k = some cs ∧
      b < vars.length ∧ k.toNat.testBit b = true ∧ (∀ j, j < b → k.toNat.testBit j = false) ∧
      cs.length
        = (List.range' (b + 1) (vars.length - (b + 1))).countP (fun i => !k.toNat.testBit i)
          + 1 := by
  lift k to Nat using hk0.le with k0
  have hk0' : 0 < k0 := by exact_mod_cast hk0
  have hk' : k0 < 2 ^ vars.length := by exact_mod_cast hk
  obtain ⟨b, v, hbn, _, hmod, hbit, hloop⟩ := chain_formula_loop vars k0 hn hk0' hk'
  obtain ⟨cs, hcs⟩ := chainLoop_some (k0 : Int) (vars.drop (b + 1)) (b + 1) [[v]]
    (by simp; omega)
  have hlen := chainLoop_length k0 _ _ _ _ hcs
  refine ⟨cs, b, by rw [hloop, hcs], hbn, ?_, ?_, ?_⟩
  · simpa using (testBit_iff_div_mod k0 b).mpr hbit
  · intro j hj
    have h1 := Nat.testBit_mod_two_pow k0 b j
    rw [hmod] at h1
    simp only [Nat.zero_testBit, hj, decide_True, Bool.true_and] at h1
    simpa using h1.symm
  · rw [hlen]
    simp only [List.length_drop, List.length_singleton, Int.toNat_ofNat]
    omega

/-- Witness of C20 (amended) on three variables and `k = 5`. -/
theorem C20_chain_formula_clause_count_witness :
    ∃ (cs : List Clause) (b : Nat), chain_formula [1, 2, 3] 5 = some cs ∧
      b < ([1, 2, 3] : List Int).length ∧ (5 : Int).toNat.testBit b = true ∧
      (∀ j, j < b → (5 : Int).toNat.testBit j = false) ∧
      cs.length
        = (List.range' (b + 1) (([1, 2, 3] : List Int).length - (b + 1))).countP
            (fun i => !(5 : Int).toNat.testBit i) + 1 :=
  C20_chain_formula_clause_count [1, 2, 3] 5 (by decide) (by decide) (by decide)

/-! ## The `c weights` and `c ind` lines -/

theorem set_weight_fields (f : Formula) (l : Int) (w : Rational) :
    (f.set_weight l w).body = f.body ∧
    (f.set_weight l w).independent_support = f.independent_support := by
  unfold Formula.set_weight
  split <;> simp

/-- The weight lookups after one round of the `c weights` loop. -/
theorem read_weights_step (f : Formula) (i : Nat) (hi : 1 ≤ i) (a b : Rational) :
    (∀ k : Int, k ≠ (i : Int) → k ≠ -(i : Int) →
      ((f.set_weight (i : Int) a).set_weight (-(i : Int)) b).weights.lookup k
        = f.weights.lookup k) ∧
    ((f.set_weight (i : Int) a).set_weight (-(i : Int)) b).weights.lookup (i : Int)
      = some ((f.weights.lookup (i : Int)).getD a) ∧
    ((f.set_weight (i : Int) a).set_weight (-(i : Int)) b).weights.lookup (-(i : Int))
      = some ((f.weights.lookup (-(i : Int))).getD b) := by
  have hne : (i : Int) ≠ -(i : Int) := by omega
  have hne2 : -(i : Int) ≠ (i : Int) := by omega
  refine ⟨?_, ?_, ?_⟩
  · intro k hk1 hk2
    rw [lookup_set_weight, lookup_set_weight]
    cases f.weights.lookup k <;> simp [hk1, hk2]
  · rw [lookup_set_weight, lookup_set_weight]
    cases f.weights.lookup (i : Int) <;> simp
  · rw [lookup_set_weight, lookup_set_weight]
    cases f.weights.lookup (-(i : Int)) <;> simp [hne2]

/-- The weight lookups after the `c weights` loop over the indices `L`. -/
theorem read_weights_lookup (tokens : Nat → String) :
    ∀ (L : List Nat) (f : Formula), (∀ j ∈ L, 1 ≤ j) → L.Nodup →
      (read_weights tokens L f).num_variables = f.num_variables ∧
      ∀ i : Nat, 1 ≤ i →
        (i ∈ L →
          (read_weights tokens L f).weights.lookup (i : Int)
            = some ((f.weights.lookup (i : Int)).getD (Rational.parse (tokens (2 * (i - 1))))) ∧
          (read_weights tokens L f).weights.lookup (-(i : Int))
            = some ((f.weights.lookup (-(i : Int))).getD
                (Rational.parse (tokens (2 * (i - 1) + 1))))) ∧
        (i ∉ L →
          (read_weights tokens L f).weights.lookup (i : Int) = f.weights.lookup (i : Int) ∧
          (read_weights tokens L f).weights.lookup (-(i : Int))
            = f.weights.lookup (-(i : Int))) := by
  intro L
  induction L with
  | nil =>
    intro f _ _
    exact ⟨rfl, fun i _ => ⟨fun h => absurd h (List.not_mem_nil i), fun _ => ⟨rfl, rfl⟩⟩⟩
  | cons j L ih =>
    intro f hpos hnd
    have hj : 1 ≤ j := hpos j (by simp)
    obtain ⟨hother, hposj, hnegj⟩ := read_weights_step f j hj
      (Rational.parse (tokens (2 * (j - 1)))) (Rational.parse (tokens (2 * (j - 1) + 1)))
    obtain ⟨ih1, ih2⟩ := ih ((f.set_weight (j : Int) (Rational.parse (tokens (2 * (j - 1))))).set_weight
        (-(j : Int)) (Rational.parse (tokens (2 * (j - 1) + 1))))
      (fun k hk => hpos k (by simp [hk])) (List.nodup_cons.mp hnd).2
    have hjL : j ∉ L := (List.nodup_cons.mp hnd).1
    simp only [read_weights]
    refine ⟨by rw [ih1, (set_weight_header _ _ _).1, (set_weight_header _ _ _).1], ?_⟩
    intro i hi
    by_cases hij : i = j
    · subst hij
      obtain ⟨h3, h4⟩ := (ih2 i hi).2 hjL
      refine ⟨fun _ => ⟨by rw [h3, hposj], by rw [h4, hnegj]⟩, fun h => absurd (by simp) h⟩
    · have e1 := hother (i : Int) (by omega) (by omega)
      have e2 := hother (-(i : Int)) (by omega) (by omega)
      obtain ⟨h1, h2⟩ := ih2 i hi
      constructor
      · intro hmem
        have hmem2 : i ∈ L := by
          rcases List.mem_cons.mp hmem with h | h
          · exact absurd h hij
          · exact h
        obtain ⟨h3, h4⟩ := h1 hmem2
        rw [e1] at h3
        rw [e2] at h4
        exact ⟨h3, h4⟩
      · intro hmem
        have hmem2 : i ∉ L := fun h => hmem (by simp [h])
        obtain ⟨h3, h4⟩ := h2 hmem2
        rw [e1] at h3
        rw [e2] at h4
        exact ⟨h3, h4⟩

theorem parse_line_reach (f : Formula) (weights : WeightFormat) (line : InputLine) :
    Relation.ReflTransGen (allowed_transition (some line)) weights
      (parse_line f weights line).format := by
  cases line with
  | p ok nv nc =>
    cases ok <;> simp only [parse_line, Step.format, if_true, Bool.true_eq_false, if_false] <;>
      exact Relation.ReflTransGen.refl
  | other l => exact Relation.ReflTransGen.refl
  | w ok literal entry => exact w_line_format f weights ok literal entry
  | c space entry ints tokens rest => exact c_line_format f weights space entry ints tokens rest

/-- No listed transition leads into `detect`. -/
theorem reach_detect (e : Option InputLine) (s : WeightFormat)
    (h : Relation.ReflTransGen (allowed_transition e) s .detect) : s = .detect := by
  rcases Relation.ReflTransGen.cases_tail h with h1 | ⟨c, _, h2⟩
  · exact h1.symm
  · rcases h2 with ⟨_, h3, _⟩ | ⟨_, h3, _⟩ | ⟨_, h3, _⟩ | ⟨_, h3, _⟩ <;> cases h3

theorem parse_lines_to_detect :
    ∀ (input : List InputLine) (f : Formula) (weights : WeightFormat) (g : Formula),
      parse_lines input f weights = .next g .detect → weights = .detect := by
  intro input
  induction input with
  | nil =>
    intro f w g h
    simp only [parse_lines, Step.next.injEq] at h
    exact h.2
  | cons line rest ih =>
    intro f w g h
    simp only [parse_lines] at h
    have hreach := parse_line_reach f w line
    cases hl : parse_line f w line with
    | stop f1 w1 => rw [hl] at h; cases h
    | next f1 w1 =>
      rw [hl] at h hreach
      have := ih f1 w1 g h
      subst this
      exact reach_detect _ _ hreach

/-- A line that leaves the format at `detect` records no weight. -/
theorem parse_line_detect_weights (f : Formula) (line : InputLine) (f1 : Formula)
    (hl : parse_line f .detect line = .next f1 .detect) : f1.weights = f.weights := by
  cases line with
  | p ok nv nc =>
    cases ok
    · simp [parse_line] at hl
    · simp only [parse_line, Bool.true_eq_false, if_false, Step.next.injEq] at hl
      rw [← hl.1]; rfl
  | other l =>
    simp only [parse_line, Step.next.injEq] at hl
    rw [← hl.1]
  | w ok literal entry =>
    cases ok
    · simp [parse_line, parse_w] at hl
    · by_cases hvalid : f.is_valid_literal literal = true <;>
      by_cases hneg : literal < 0 <;> by_cases he : entry = "-1" <;>
      simp [parse_line, parse_w, w_switch, w_negative, w_entry, hvalid, hneg, he] at hl
  | c space entry ints tokens rest2 =>
    cases space
    · simp only [parse_line, parse_c, if_true, Step.next.injEq] at hl
      rw [← hl.1]
    · by_cases hind : entry = "ind"
      · simp only [parse_line, parse_c, hind, if_true, Bool.true_eq_false, if_false,
          Step.next.injEq] at hl
        rw [← hl.1, read_ind_weights]
      · by_cases hcw : entry = "weights"
        · simp [parse_line, parse_c, hind, hcw] at hl
        · simp only [parse_line, parse_c, hind, hcw, if_true, Bool.true_eq_false,
            if_false, Step.next.injEq, false_and] at hl
          rw [← hl.1]

/-- While the format is `detect` no weight has been recorded. -/
theorem parse_lines_detect_no_weight :
    ∀ (input : List InputLine) (f g : Formula), f.weights = [] →
      parse_lines input f .detect = .next g .detect → g.weights = [] := by
  intro input
  induction input with
  | nil =>
    intro f g hf h
    simp only [parse_lines, Step.next.injEq] at h
    rw [← h.1]; exact hf
  | cons line rest ih =>
    intro f g hf h
    simp only [parse_lines] at h
    cases hl : parse_line f .detect line with
    | stop f1 w1 => rw [hl] at h; cases h
    | next f1 w1 =>
      rw [hl] at h
      have hw1 : w1 = .detect := parse_lines_to_detect rest f1 w1 g h
      subst hw1
      exact ih f1 g (by rw [parse_line_detect_weights f line f1 hl]; exact hf) h

theorem get_weight_getD (g : Formula) (l : Int) (w : Rational)
    (h : g.weights.lookup l = some w) : g.get_weight l = w := by
  simp [Formula.get_weight, h]

/-- The rounds on an input followed by more lines: the rounds on the first
part, then, unless one of them returned, the rounds on the rest. -/
theorem parse_lines_append : ∀ (xs ys : List InputLine) (f : Formula) (w : WeightFormat),
    parse_lines (xs ++ ys) f w
      = match parse_lines xs f w with
        | .next f2 w2 => parse_lines ys f2 w2
        | .stop f2 w2 => .stop f2 w2 := by
  intro xs
  induction xs with
  | nil => intro ys f w; rfl
  | cons x xs ih =>
    intro ys f w
    simp only [List.cons_append, parse_lines]
    cases parse_line f w x with
    | next f2 w2 => exact ih ys f2 w2
    | stop f2 w2 => rfl

/-- C18, as stated, fails for a second `c weights` line.  After `p cnf 1 0` and
`c weights 0.3 0.7` the state is `minic2d`; the line `c weights 0.5 0.5` is then
read in state `minic2d`, its tokens parse to `5/10`, and yet the weights stay
`3/10` and `7/10`: `set_weight` is `emplace`, which keeps the entry of a literal
that has one. -/
theorem C18_counterexample :
    parse_lines [.p true 1 0,
        .c true "weights" [] (fun i => if i = 0 then "0.3" else "0.7") "0.3 0.7"]
        Formula.empty .detect
      = .next ⟨1, 0, [.text "c detected weight format: minic2d"], [],
          [(1, ⟨3, 10⟩), (-1, ⟨7, 10⟩)]⟩ .minic2d ∧
    parse_line ⟨1, 0, [.text "c detected weight format: minic2d"], [],
          [(1, ⟨3, 10⟩), (-1, ⟨7, 10⟩)]⟩ .minic2d
        (.c true "weights" [] (fun _ => "0.5") "0.5 0.5")
      = .next ⟨1, 0, [.text "c detected weight format: minic2d"], [],
          [(1, ⟨3, 10⟩), (-1, ⟨7, 10⟩)]⟩ .minic2d ∧
    Rational.parse "0.5" = ⟨5, 10⟩ ∧
    (Formula.parse [.p true 1 0,
        .c true "weights" [] (fun i => if i = 0 then "0.3" else "0.7") "0.3 0.7",
        .c true "weights" [] (fun _ => "0.5") "0.5 0.5"] .detect).get_weight 1 = ⟨3, 10⟩ ∧
    (Formula.parse [.p true 1 0,
        .c true "weights" [] (fun i => if i = 0 then "0.3" else "0.7") "0.3 0.7",
        .c true "weights" [] (fun _ => "0.5") "0.5 0.5"] .detect).get_weight (-1)
      = ⟨7, 10⟩ := by
  refine ⟨rfl, rfl, by decide, by decide, by decide⟩

/-- C18, amended: a `c weights` line read in state `detect` or `minic2d` with
`V` declared variables leaves the state `minic2d` and, for `i = 1..V` in order,
parses the `(2i-1)`-th following token for the literal `i` and the `2i`-th for
`-i` and hands it to `set_weight`, which records it for a literal that has no
weight yet and keeps the earlier weight otherwise.  Every formula the parser
reaches in state `detect` has no weight, so on a line read in state `detect`
the weights of all literals `±1..±V` are the parses of their tokens; on a line
read in state `minic2d` a literal that has a weight keeps it.  In state
`cachet_or_mc20`, `cachet` or `mc20` the line records no weight and is kept in
the body as a comment. -/
theorem C18_c_weights_line :
    (∀ (f : Formula) (weights : WeightFormat) (ints : List Int) (tokens : Nat → String)
        (rest : String), (weights = .detect ∨ weights = .minic2d) →
      ∃ g, parse_line f weights (.c true "weights" ints tokens rest) = .next g .minic2d ∧
        g.num_variables = f.num_variables ∧
        ∀ i : Nat, 1 ≤ i → i ≤ f.num_variables →
          g.get_weight (i : Int)
            = (f.weights.lookup (i : Int)).getD (Rational.parse (tokens (2 * (i - 1)))) ∧
          g.get_weight (-(i : Int))
            = (f.weights.lookup (-(i : Int))).getD
                (Rational.parse (tokens (2 * (i - 1) + 1)))) ∧
    (∀ (input : List InputLine) (f : Formula),
      parse_lines input Formula.empty .detect = .next f .detect → f.weights = []) ∧
    (∀ (input : List InputLine) (f : Formula) (ints : List Int) (tokens : Nat → String)
        (rest : String),
      parse_lines input Formula.empty .detect = .next f .detect →
      ∃ g, parse_lines (input ++ [.c true "weights" ints tokens rest]) Formula.empty .detect
          = .next g .minic2d ∧
        g.num_variables = f.num_variables ∧
        ∀ i : Nat, 1 ≤ i → i ≤ f.num_variables →
          g.get_weight (i : Int) = Rational.parse (tokens (2 * (i - 1))) ∧
          g.get_weight (-(i : Int)) = Rational.parse (tokens (2 * (i - 1) + 1))) ∧
    (∀ (f : Formula) (weights : WeightFormat) (ints : List Int) (tokens : Nat → String)
        (rest : String),
      (weights = .cachet_or_mc20 ∨ weights = .cachet ∨ weights = .mc20) →
      parse_line f weights (.c true "weights" ints tokens rest)
        = .next { f with body := f.body ++ [BodyLine.text ("c weights " ++ rest)] } weights ∧
      (parse_line f weights (.c true "weights" ints tokens rest)).formula.weights
        = f.weights) := by
  have hne : ¬ ("weights" = "ind") := by decide
  have part1 : ∀ (f : Formula) (weights : WeightFormat) (ints : List Int)
      (tokens : Nat → String) (rest : String), (weights = .detect ∨ weights = .minic2d) →
      ∃ g, parse_line f weights (.c true "weights" ints tokens rest) = .next g .minic2d ∧
        g.num_variables = f.num_variables ∧
        ∀ i : Nat, 1 ≤ i → i ≤ f.num_variables →
          g.get_weight (i : Int)
            = (f.weights.lookup (i : Int)).getD (Rational.parse (tokens (2 * (i - 1)))) ∧
          g.get_weight (-(i : Int))
            = (f.weights.lookup (-(i : Int))).getD
                (Rational.parse (tokens (2 * (i - 1) + 1))) := by
    intro f weights ints tokens rest hw
    obtain ⟨f1, hf1, hnv, hws⟩ : ∃ f1 : Formula,
        parse_line f weights (.c true "weights" ints tokens rest)
          = .next (read_weights tokens (List.range' 1 f1.num_variables) f1) .minic2d ∧
        f1.num_variables = f.num_variables ∧ f1.weights = f.weights := by
      rcases hw with rfl | rfl
      · exact ⟨f.add_comment "detected weight format: minic2d",
          by simp [parse_line, parse_c, hne], rfl, rfl⟩
      · exact ⟨f, by simp [parse_line, parse_c, hne], rfl, rfl⟩
    obtain ⟨e1, e2⟩ := read_weights_lookup tokens (List.range' 1 f1.num_variables) f1
      (fun j hj => (List.mem_range'_1.mp hj).1) (List.nodup_range' _ _)
    refine ⟨_, hf1, by rw [e1, hnv], ?_⟩
    intro i h1 h2
    have hmem : i ∈ List.range' 1 f1.num_variables :=
      List.mem_range'_1.mpr ⟨h1, by omega⟩
    obtain ⟨a, b⟩ := (e2 i h1).1 hmem
    rw [hws] at a b
    exact ⟨get_weight_getD _ _ _ a, get_weight_getD _ _ _ b⟩
  refine ⟨part1, ?_, ?_, ?_⟩
  · intro input f h
    exact parse_lines_detect_no_weight input Formula.empty f rfl h
  · intro input f ints tokens rest h
    have hw := parse_lines_detect_no_weight input Formula.empty f rfl h
    obtain ⟨g, hg, hnv, hall⟩ := part1 f .detect ints tokens rest (Or.inl rfl)
    refine ⟨g, ?_, hnv, ?_⟩
    · rw [parse_lines_append, h]
      simp only [parse_lines, hg]
    · intro i h1 h2
      obtain ⟨a, b⟩ := hall i h1 h2
      rw [hw] at a b
      exact ⟨a, b⟩
  · intro f weights ints tokens rest hw
    rcases hw with rfl | rfl | rfl <;> simp [parse_line, parse_c, hne, Step.formula]

/-- Witness of C18 (amended): after `p cnf 2 0`, the line
`c weights 0.3 0.7 1/4 3/4` read under `detect`. -/
theorem C18_c_weights_line_witness :
    ∃ g, parse_line ⟨2, 0, [], [], []⟩ .detect
        (.c true "weights" []
          (fun i => if i = 0 then "0.3" else if i = 1 then "0.7"
            else if i = 2 then "1/4" else "3/4") "0.3 0.7 1/4 3/4")
        = .next g .minic2d ∧
      g.get_weight 1 = ⟨3, 10⟩ ∧ g.get_weight (-1) = ⟨7, 10⟩ ∧
      g.get_weight 2 = ⟨1, 4⟩ ∧ g.get_weight (-2) = ⟨3, 4⟩ := by
  obtain ⟨g, h1, _, h3⟩ := C18_c_weights_line.1 ⟨2, 0, [], [], []⟩ .detect []
    (fun i => if i = 0 then "0.3" else if i = 1 then "0.7"
      else if i = 2 then "1/4" else "3/4") "0.3 0.7 1/4 3/4" (Or.inl rfl)
  exact ⟨g, h1, (h3 1 (by decide) (by decide)).1, (h3 1 (by decide) (by decide)).2,
    (h3 2 (by decide) (by decide)).1, (h3 2 (by decide) (by decide)).2⟩

theorem read_ind_spec : ∀ (ints : List Int) (f : Formula),
    read_ind ints f
      = { f with independent_support
            := f.independent_support ++ ints.takeWhile (fun v => decide (v ≠ 0)) } := by
  intro ints
  induction ints with
  | nil => intro f; simp [read_ind]
  | cons v vs ih =>
    intro f
    by_cases hv : v = 0
    · simp [read_ind, hv]
    · simp only [read_ind, hv, if_false]
      rw [ih]
      simp [Formula.add_independent_support, hv]

/-- C17, as stated, fails: after the header `p cnf 2 1`, the line `c ind 5 0`
does not abort the parse; the header stays (2, 1) and the id 5, larger than
`num_variables`, is stored in the independent support. -/
theorem C17_counterexample :
    (Formula.parse [.p true 2 1, .c true "ind" [5, 0] (fun _ => "") ""] .detect).num_variables
        = 2 ∧
    (Formula.parse [.p true 2 1, .c true "ind" [5, 0] (fun _ => "") ""] .detect).num_clauses
        = 1 ∧
    (Formula.parse [.p true 2 1, .c true "ind" [5, 0] (fun _ => "") ""]
        .detect).independent_support = [5] := by
  decide

theorem support_extended_same (f g : Formula) (h1 : g.num_variables = f.num_variables)
    (h2 : g.independent_support = f.independent_support) : support_extended f g := by
  refine ⟨by omega, ?_⟩
  rw [h2, h1]
  by_cases h : f.independent_support = []
  · simp [h]
  · simp [h]

theorem support_extended_trans (f g h : Formula) (h1 : support_extended f g)
    (h2 : support_extended g h) : support_extended f h := by
  obtain ⟨a1, a2⟩ := h1
  obtain ⟨b1, b2⟩ := h2
  refine ⟨by omega, ?_⟩
  by_cases hf : f.independent_support = []
  · rw [if_pos hf] at a2
    rw [if_pos a2] at b2
    rw [if_pos hf, b2]
  · rw [if_neg hf] at a2
    have hg : g.independent_support ≠ [] := by
      rw [a2]
      intro hc
      exact hf (List.append_eq_nil.mp hc).1
    rw [if_neg hg] at b2
    rw [if_neg hf, b2, a2, List.append_assoc, ← List.map_append]
    congr 2
    have e1 : g.num_variables + 1
        = f.num_variables + 1 + (g.num_variables - f.num_variables) := by omega
    have e2 : h.num_variables - f.num_variables
        = (g.num_variables - f.num_variables) + (h.num_variables - g.num_variables) := by
      omega
    rw [e1, e2, List.range'_append_1,
      Nat.add_comm (h.num_variables - g.num_variables)]

theorem alloc_one_support (f : Formula) (vars : List Int) :
    support_extended f (alloc_one f vars).1 := by
  unfold support_extended alloc_one Formula.add_variable Formula.has_independent_support
  by_cases h : f.independent_support = []
  · simp [h]
  · have hl : 0 < f.independent_support.length := List.length_pos.mpr h
    simp [h, hl, Formula.add_independent_support]

theorem allocate_support (p q : Int) : ∀ (fuel log : Nat) (f : Formula) (vars : List Int)
    (r : Formula × List Int), allocate p q fuel log f vars = some r →
    support_extended f r.1 := by
  intro fuel
  induction fuel with
  | zero => intro log f vars r h; simp [allocate] at h
  | succ fuel ih =>
    intro log f vars r h
    unfold allocate at h
    cases hs : shl1 log with
    | none => simp [hs] at h
    | some s =>
      simp only [hs, Option.bind_eq_bind, Option.some_bind] at h
      by_cases hc : s < p ∨ s < q
      · rw [if_pos hc] at h
        exact support_extended_trans _ _ _ (alloc_one_support f vars) (ih _ _ _ _ h)
      · rw [if_neg hc] at h
        simp only [Option.pure_def, Option.some.injEq] at h
        subst h
        exact support_extended_same _ _ rfl rfl

theorem allocate_n_support : ∀ (k : Nat) (f : Formula) (vars : List Int),
    support_extended f (allocate_n k f vars).1 := by
  intro k
  induction k with
  | zero => intro f vars; exact support_extended_same _ _ rfl rfl
  | succ k ih =>
    intro f vars
    exact support_extended_trans _ _ _ (alloc_one_support f vars) (ih _ _)

theorem add_guarded_support (guard : Int) (cs : List Clause) (f : Formula) :
    support_extended f (add_guarded guard cs f) := by
  obtain ⟨_, h2, _, h4, _⟩ := add_guarded_spec guard cs f
  exact support_extended_same _ _ h2 h4

theorem reduce_branch_support (f : Formula) (guard : Int) (vars : List Int) (sol : Int)
    (g : Formula) (h : reduce_branch f guard vars sol = some g) : support_extended f g := by
  unfold reduce_branch at h
  by_cases hs : sol = 0
  · simp only [hs, if_true, Option.pure_def, Option.some.injEq] at h
    subst h
    exact support_extended_same _ _ rfl rfl
  · simp only [hs, if_false, Option.bind_eq_bind, Option.pure_def, Option.bind_eq_some] at h
    obtain ⟨cs, _, h⟩ := h
    simp only [Option.some.injEq] at h
    subst h
    exact add_guarded_support _ _ _

theorem reduce_step_support (f : Formula) (net_denom : Int) (var : Int)
    (r : Formula × Int) (h : reduce_step f net_denom var = some r) :
    support_extended f r.1 := by
  unfold reduce_step at h
  simp only [Option.bind_eq_bind, Option.bind_eq_some] at h
  obtain ⟨⟨p, q, d⟩, _, h⟩ := h
  simp only at h
  by_cases hc : p < 0 ∨ q < 0
  · rw [if_pos hc] at h
    simp only [Option.pure_def, Option.some.injEq] at h
    subst h
    exact support_extended_same _ _ rfl rfl
  · rw [if_neg hc] at h
    simp only [Option.bind_eq_some, Option.pure_def] at h
    obtain ⟨⟨f1, vars⟩, ha, f2, hb, f3, hc3, h⟩ := h
    simp only [Option.some.injEq] at h
    subst h
    exact support_extended_trans _ _ _ (allocate_support _ _ _ _ _ _ _ ha)
      (support_extended_trans _ _ _ (reduce_branch_support _ _ _ _ _ hb)
        (reduce_branch_support _ _ _ _ _ hc3))

theorem reduce_loop_support : ∀ (vs : List Int) (f : Formula) (n : Int) (r : Formula × Int),
    reduce_loop vs f n = some r → support_extended f r.1 := by
  intro vs
  induction vs with
  | nil =>
    intro f n r h
    simp only [reduce_loop, Option.some.injEq] at h
    subst h
    exact support_extended_same _ _ rfl rfl
  | cons v vs ih =>
    intro f n r h
    simp only [reduce_loop, Option.bind_eq_bind, Option.bind_eq_some] at h
    obtain ⟨⟨f2, d2⟩, h1, h2⟩ := h
    exact support_extended_trans _ _ _ (reduce_step_support _ _ _ _ h1) (ih _ _ _ h2)

theorem reduce_dyadic_step_support (closer : Rational → Rational → Rational → Bool)
    (bits_per_var : Int) (rounding : RoundingStrategy) (f : Formula) (result : Int)
    (var : Int) (r : Formula × Int)
    (h : reduce_dyadic_step closer bits_per_var rounding f result var = some r) :
    support_extended f r.1 := by
  unfold reduce_dyadic_step at h
  simp only [Option.bind_eq_bind, Option.bind_eq_some] at h
  obtain ⟨pos, _, neg, _, h⟩ := h
  by_cases c1 : pos.denom ≠ neg.denom ∨ pos.num + neg.num ≠ pos.denom
  · rw [if_pos c1] at h
    simp only [Option.pure_def, Option.some.injEq] at h
    subst h; exact support_extended_same _ _ rfl rfl
  rw [if_neg c1] at h
  by_cases c2 : pos.num < 0 ∨ neg.num < 0
  · rw [if_pos c2] at h
    simp only [Option.pure_def, Option.some.injEq] at h
    subst h; exact support_extended_same _ _ rfl rfl
  rw [if_neg c2] at h
  by_cases c3 : pos.num = 1 ∧ neg.num = 1 ∧ pos.denom = 1
  · rw [if_pos c3] at h
    simp only [Option.pure_def, Option.some.injEq] at h
    subst h; exact support_extended_same _ _ rfl rfl
  rw [if_neg c3] at h
  by_cases c0 : bits_per_var < 0
  · rw [if_pos c0] at h
    simp at h
  rw [if_neg c0] at h
  simp only [Option.bind_eq_some] at h
  obtain ⟨nd, _, rounded, _, approx, _, bn, _, h⟩ := h
  by_cases c4 : approx.num = 1 ∧ approx.denom = 2
  · rw [if_pos c4] at h
    simp only [Option.pure_def, Option.some.injEq] at h
    subst h; exact support_extended_same _ _ rfl rfl
  rw [if_neg c4] at h
  cases hcs : chain_formula (allocate_n bn (f.add_comment
      ("adjust w " ++ toString var ++ " " ++ pos.to_string ++ " to " ++ approx.to_string))
      []).2 approx.num with
  | none => simp [hcs] at h
  | some cs =>
  cases hcs2 : chain_formula (List.map (fun v => -v) (allocate_n bn (f.add_comment
      ("adjust w " ++ toString var ++ " " ++ pos.to_string ++ " to " ++ approx.to_string))
      []).2) approx.complement.num with
  | none => simp [hcs, hcs2] at h
  | some cs2 =>
  simp only [hcs, hcs2, Option.some_bind, Option.pure_def, Option.some.injEq] at h
  subst h
  refine support_extended_trans _ _ _ (support_extended_same f (f.add_comment
    ("adjust w " ++ toString var ++ " " ++ pos.to_string ++ " to " ++ approx.to_string))
    rfl rfl) ?_
  refine support_extended_trans _ _ _ (allocate_n_support bn _ []) ?_
  exact support_extended_trans _ _ _ (add_guarded_support _ _ _) (add_guarded_support _ _ _)

theorem reduce_dyadic_loop_support (closer : Rational → Rational → Rational → Bool)
    (bits_per_var : Int) (rounding : RoundingStrategy) :
    ∀ (vs : List Int) (f : Formula) (n : Int) (r : Formula × Int),
    reduce_dyadic_loop closer bits_per_var rounding vs f n = some r →
    support_extended f r.1 := by
  intro vs
  induction vs with
  | nil =>
    intro f n r h
    simp only [reduce_dyadic_loop, Option.some.injEq] at h
    subst h
    exact support_extended_same _ _ rfl rfl
  | cons v vs ih =>
    intro f n r h
    simp only [reduce_dyadic_loop, Option.bind_eq_bind, Option.bind_eq_some] at h
    obtain ⟨⟨f2, d2⟩, h1, h2⟩ := h
    exact support_extended_trans _ _ _ (reduce_dyadic_step_support _ _ _ _ _ _ _ h1)
      (ih _ _ _ h2)

/-- C19: when `reduce` or `reduce_dyadic` takes a formula `f` to `f2`, the
auxiliary variables are the ids `f.num_variables + 1, ..., f2.num_variables` in
the order of their allocation; if the independent support of `f` is non-empty,
that of `f2` is the old one followed by exactly these ids in that order
(nothing else added or removed), and if it is empty before it is empty after. -/
theorem C19_aux_vars_in_support (closer : Rational → Rational → Rational → Bool)
    (f f2 : Formula) (d : Int) (bits_per_var : Int) (rounding : RoundingStrategy)
    (h : reduce f = some (f2, d) ∨ reduce_dyadic closer f bits_per_var rounding = some (f2, d)) :
    f.num_variables ≤ f2.num_variables ∧
    (f.independent_support ≠ [] →
      f2.independent_support = f.independent_support
        ++ (List.range' (f.num_variables + 1) (f2.num_variables - f.num_variables)).map
            Int.ofNat) ∧
    (f.independent_support = [] → f2.independent_support = []) := by
  have key : support_extended f f2 := by
    rcases h with h | h
    · exact reduce_loop_support _ _ _ _ h
    · exact reduce_dyadic_loop_support _ _ _ _ _ _ _ h
  obtain ⟨k1, k2⟩ := key
  refine ⟨k1, ?_, ?_⟩
  · intro hne
    rw [k2, if_neg hne]
  · intro he
    rw [k2, if_pos he]

/-- Witness of C19: `reduce` on one variable with weights 1/3 and 2/3 and
independent support `[1]` allocates the variable 2 and appends it. -/
theorem C19_aux_vars_in_support_witness :
    reduce ⟨1, 0, [], [1], [(1, ⟨1, 3⟩), (-1, ⟨2, 3⟩)]⟩
      = some (⟨2, 1, [.clause [-1, 2]], [1, 2], [(1, ⟨1, 3⟩), (-1, ⟨2, 3⟩)]⟩, 3) ∧
    (1 : Nat) ≤ 2 ∧
    (([1] : List Int) ≠ [] →
      ([1, 2] : List Int) = [1] ++ (List.range' (1 + 1) (2 - 1)).map Int.ofNat) ∧
    (([1] : List Int) = [] → ([1, 2] : List Int) = []) :=
  ⟨rfl, C19_aux_vars_in_support (fun _ _ _ => true)
    ⟨1, 0, [], [1], [(1, ⟨1, 3⟩), (-1, ⟨2, 3⟩)]⟩
    ⟨2, 1, [.clause [-1, 2]], [1, 2], [(1, ⟨1, 3⟩), (-1, ⟨2, 3⟩)]⟩ 3 0 .down (Or.inl rfl)⟩

theorem takeWhile_ids (ids more : List Int) (h0 : ∀ v ∈ ids, v ≠ 0) :
    (ids ++ 0 :: more).takeWhile (fun v => decide (v ≠ 0)) = ids := by
  induction ids with
  | nil => simp
  | cons v vs ih =>
    have hv : v ≠ 0 := h0 v (List.mem_cons_self _ _)
    have := ih (fun w hw => h0 w (List.mem_cons_of_mem _ hw))
    rw [List.cons_append, List.takeWhile_cons, this]
    simp [hv]

/-- C17, amended: a `c ind` line never aborts the parse and never changes the
header; whatever their range, the ids it names before the terminating 0 are
appended to the independent support in their order, and nothing else of the
formula changes.  So after a header `p cnf V C`, a line `c ind` naming any
non-zero ids parses to header `(V, C)` with exactly these ids as independent
support. -/
theorem C17_c_ind_line :
    (∀ (f : Formula) (weights : WeightFormat) (ints : List Int) (tokens : Nat → String)
        (rest : String),
      parse_line f weights (.c true "ind" ints tokens rest)
        = .next { f with independent_support
                    := f.independent_support ++ ints.takeWhile (fun v => decide (v ≠ 0)) }
            weights) ∧
    (∀ (V C : Nat) (ids more : List Int) (tokens : Nat → String) (rest : String),
      V < 2 ^ 64 → C < 2 ^ 64 → (∀ v ∈ ids, v ≠ 0) →
      (Formula.parse [.p true V C, .c true "ind" (ids ++ 0 :: more) tokens rest]
          .detect).num_variables = V ∧
      (Formula.parse [.p true V C, .c true "ind" (ids ++ 0 :: more) tokens rest]
          .detect).num_clauses = C ∧
      (Formula.parse [.p true V C, .c true "ind" (ids ++ 0 :: more) tokens rest]
          .detect).independent_support = ids) := by
  have line : ∀ (f : Formula) (weights : WeightFormat) (ints : List Int)
      (tokens : Nat → String) (rest : String),
      parse_line f weights (.c true "ind" ints tokens rest)
        = .next { f with independent_support
                    := f.independent_support ++ ints.takeWhile (fun v => decide (v ≠ 0)) }
            weights := by
    intro f weights ints tokens rest
    simp only [parse_line, parse_c, Bool.true_eq_false, if_false, if_true, read_ind_spec]
  refine ⟨line, ?_⟩
  intro V C ids more tokens rest hV hC h0
  have hp : Formula.parse [.p true V C, .c true "ind" (ids ++ 0 :: more) tokens rest] .detect
      = ⟨V, C, [], ids, []⟩ := by
    unfold Formula.parse parse_loop
    have h1 : parse_line Formula.empty .detect (.p true V C)
        = .next (Formula.empty.set_header V C) .detect := by
      simp [parse_line]
    simp only [parse_lines, h1, line, takeWhile_ids ids more h0, parse_eof]
    simp [Formula.set_header, Formula.empty, toSizeT_nat V hV, toSizeT_nat C hC]
  rw [hp]
  exact ⟨rfl, rfl, rfl⟩

/-- Witness of C17: after `p cnf 2 1` the line `c ind 5 1 0` gives the
independent support `[5, 1]`. -/
theorem C17_c_ind_line_witness :
    (Formula.parse [.p true (2 : Nat) (1 : Nat), .c true "ind" ([5, 1] ++ 0 :: []) (fun _ => "") ""]
        .detect).num_variables = 2 ∧
    (Formula.parse [.p true (2 : Nat) (1 : Nat), .c true "ind" ([5, 1] ++ 0 :: []) (fun _ => "") ""]
        .detect).num_clauses = 1 ∧
    (Formula.parse [.p true (2 : Nat) (1 : Nat), .c true "ind" ([5, 1] ++ 0 :: []) (fun _ => "") ""]
        .detect).independent_support = [5, 1] :=
  C17_c_ind_line.2 2 1 [5, 1] [] (fun _ => "") "" (by norm_num) (by norm_num) (by decide)

theorem log2Fuel_spec : ∀ (fuel n : Nat), 0 < n → n < 2 ^ fuel →
    2 ^ log2Fuel fuel n ≤ n ∧ n < 2 ^ (log2Fuel fuel n + 1) := by
  intro fuel
  induction fuel with
  | zero => intro n h1 h2; simp at h2; omega
  | succ fuel ih =>
    intro n h1 h2
    unfold log2Fuel
    by_cases h : 2 ≤ n
    · rw [if_pos h]
      have h3 : 0 < n / 2 := Nat.div_pos h (by norm_num)
      have h4 : n / 2 < 2 ^ fuel := by
        rw [Nat.div_lt_iff_lt_mul (by norm_num)]
        rw [pow_succ] at h2
        exact h2
      obtain ⟨a, b⟩ := ih (n / 2) h3 h4
      constructor
      · rw [pow_succ]; omega
      · rw [pow_succ]; omega
    · rw [if_neg h]
      constructor
      · simp; omega
      · simp; omega

theorem log2_self_spec (n : Nat) (h : 0 < n) :
    2 ^ log2Fuel n n ≤ n ∧ n < 2 ^ (log2Fuel n n + 1) :=
  log2Fuel_spec n n h (Nat.lt_two_pow n)

theorem scaled_ratio (n d : Nat) (e : Int) (hd : 0 < d) :
    ((scaleNum n e : Nat) : ℚ) / ((scaleDen d e : Nat) : ℚ)
      = ((n : ℚ) / d) * (2 : ℚ) ^ (-e) := by
  have hd' : (d : ℚ) ≠ 0 := by exact_mod_cast hd.ne'
  unfold scaleNum scaleDen
  by_cases h : 0 ≤ e
  · rw [if_pos h, if_pos h]
    obtain ⟨t, rfl⟩ := Int.eq_ofNat_of_zero_le h
    simp only [Int.toNat_ofNat, zpow_neg, zpow_natCast]
    push_cast
    field_simp
  · rw [if_neg h, if_neg h]
    obtain ⟨t, ht⟩ := Int.eq_ofNat_of_zero_le (show 0 ≤ -e by omega)
    rw [ht]
    simp only [Int.toNat_ofNat, zpow_natCast]
    push_cast
    field_simp

theorem scaleDen_pos (d : Nat) (e : Int) (hd : 0 < d) : 0 < scaleDen d e := by
  unfold scaleDen
  split
  · exact Nat.mul_pos hd (Nat.two_pow_pos _)
  · exact hd

theorem exact_div (a b k : Nat) (j : Int) (hb : 0 < b) (hk : k < 2 ^ 53)
    (hlow : (2 : ℚ) ^ 52 ≤ (a : ℚ) / b) (h : (a : ℚ) / b = k * (2 : ℚ) ^ j) :
    a % b = 0 ∧ ((a / b : Nat) : ℚ) = (a : ℚ) / b := by
  have hb' : (b : ℚ) ≠ 0 := by exact_mod_cast hb.ne'
  have hj : 0 ≤ j := by
    by_contra hneg
    have hj1 : j ≤ -1 := by omega
    have h2 : (2 : ℚ) ^ j ≤ (2 : ℚ) ^ (-1 : Int) :=
      zpow_le_zpow_right₀ (by norm_num) hj1
    have hkq : (k : ℚ) < 2 ^ 53 := by exact_mod_cast hk
    have hk0 : (0 : ℚ) ≤ k := by exact_mod_cast Nat.zero_le k
    have : (k : ℚ) * (2 : ℚ) ^ j ≤ k * (2 : ℚ) ^ (-1 : Int) :=
      mul_le_mul_of_nonneg_left h2 hk0
    rw [h] at hlow
    have h3 : (k : ℚ) * (2 : ℚ) ^ (-1 : Int) < 2 ^ 52 := by
      rw [zpow_neg, zpow_one]
      linarith
    linarith
  obtain ⟨t, rfl⟩ := Int.eq_ofNat_of_zero_le hj
  rw [zpow_natCast] at h
  have hab : a = k * 2 ^ t * b := by
    have : (a : ℚ) = (k * 2 ^ t * b : Nat) := by
      push_cast
      field_simp at h
      linarith
    exact_mod_cast this
  constructor
  · rw [hab]; exact Nat.mul_mod_left _ _
  · rw [h, hab, Nat.mul_div_cancel _ hb]
    push_cast
    ring

theorem round53_exact (n d k : Nat) (z : Int) (hd : 0 < d) (hk : k < 2 ^ 53)
    (h : (n : ℚ) / d = k * (2 : ℚ) ^ z) :
    ((round53 n d).1 : ℚ) * (2 : ℚ) ^ (round53 n d).2 = (n : ℚ) / d := by
  by_cases hn : n = 0
  · subst hn
    simp [round53]
  have hn0 : 0 < n := Nat.pos_of_ne_zero hn
  have hd' : (0 : ℚ) < d := by exact_mod_cast hd
  have core : ∀ e : Int, (2 : ℚ) ^ 52 ≤ ((n : ℚ) / d) * (2 : ℚ) ^ (-e) →
      ((roundEven (scaleNum n e) (scaleDen d e) : Nat) : ℚ) * (2 : ℚ) ^ e = (n : ℚ) / d := by
    intro e hlow
    have hr := scaled_ratio n d e hd
    have hbpos := scaleDen_pos d e hd
    have hrep : ((scaleNum n e : Nat) : ℚ) / ((scaleDen d e : Nat) : ℚ)
        = k * (2 : ℚ) ^ (z - e) := by
      rw [hr, h, zpow_sub₀ (by norm_num : (2 : ℚ) ≠ 0), zpow_neg]
      ring
    obtain ⟨h1, h2⟩ := exact_div _ _ k (z - e) hbpos hk (by rw [hr]; exact hlow) hrep
    unfold roundEven
    rw [h1, if_pos (by omega), h2, hr, mul_assoc, ← zpow_add₀ (by norm_num : (2 : ℚ) ≠ 0)]
    simp
  obtain ⟨ln1, _⟩ := log2_self_spec n hn0
  obtain ⟨_, ld2⟩ := log2_self_spec d hd
  have h51 : (2 : ℚ) ^ 51
      ≤ ((n : ℚ) / d) * (2 : ℚ) ^ (-((log2Fuel n n : Int) - (log2Fuel d d : Int) - 52)) := by
    have e1 : (2 : ℚ) ^ (log2Fuel n n) ≤ n := by exact_mod_cast ln1
    have e2 : (d : ℚ) ≤ 2 ^ (log2Fuel d d + 1) := by exact_mod_cast ld2.le
    have e3 : (2 : ℚ) ^ (-((log2Fuel n n : Int) - (log2Fuel d d : Int) - 52))
        = 2 ^ 52 * 2 ^ (log2Fuel d d) / 2 ^ (log2Fuel n n) := by
      rw [show -((log2Fuel n n : Int) - (log2Fuel d d : Int) - 52)
          = ((52 + log2Fuel d d : Nat) : Int) - ((log2Fuel n n : Nat) : Int) by push_cast; ring]
      rw [zpow_sub₀ (by norm_num : (2 : ℚ) ≠ 0), zpow_natCast, zpow_natCast, pow_add]
    rw [e3]
    have p1 : (0 : ℚ) < 2 ^ (log2Fuel n n) := by positivity
    have p2 : (0 : ℚ) < 2 ^ (log2Fuel d d) := by positivity
    rw [div_mul_div_comm, le_div_iff₀ (by positivity)]
    rw [pow_succ] at e2
    calc (2 : ℚ) ^ 51 * (↑d * 2 ^ log2Fuel n n)
        ≤ 2 ^ 51 * ((2 ^ log2Fuel d d * 2) * 2 ^ log2Fuel n n) := by
          apply mul_le_mul_of_nonneg_left _ (by positivity)
          exact mul_le_mul_of_nonneg_right e2 p1.le
      _ = 2 ^ log2Fuel n n * (2 ^ 52 * 2 ^ log2Fuel d d) := by ring
      _ ≤ ↑n * (2 ^ 52 * 2 ^ log2Fuel d d) :=
          mul_le_mul_of_nonneg_right e1 (by positivity)
  unfold round53
  rw [if_neg (by omega)]
  simp only
  by_cases hlt : scaleNum n ((log2Fuel n n : Int) - (log2Fuel d d : Int) - 52)
      / scaleDen d ((log2Fuel n n : Int) - (log2Fuel d d : Int) - 52) < 2 ^ 52
  · rw [if_pos hlt]
    apply core
    rw [show -((log2Fuel n n : Int) - (log2Fuel d d : Int) - 52 - 1)
        = -((log2Fuel n n : Int) - (log2Fuel d d : Int) - 52) + 1 by ring,
      zpow_add₀ (by norm_num : (2 : ℚ) ≠ 0), zpow_one, ← mul_assoc]
    linarith
  · rw [if_neg hlt]
    apply core
    rw [← scaled_ratio n d _ hd]
    have hge2 := Nat.le_of_not_lt hlt
    calc (2 : ℚ) ^ 52
        ≤ ((scaleNum n ((log2Fuel n n : Int) - (log2Fuel d d : Int) - 52)
            / scaleDen d ((log2Fuel n n : Int) - (log2Fuel d d : Int) - 52) : Nat) : ℚ) := by
          exact_mod_cast hge2
      _ ≤ _ := Nat.cast_div_le

theorem sign_sq (s : Bool) : ((if s then -1 else 1 : ℚ)) * (if s then -1 else 1) = 1 := by
  cases s <;> simp

theorem ofInt_exact (i : Int) (h : representable (i : ℚ)) :
    ∃ m e, Double.ofInt i = .fin (decide (i < 0)) m e ∧
      Double.toRat (.fin (decide (i < 0)) m e) = (i : ℚ) := by
  obtain ⟨k, z, hk, hz⟩ := h
  have habs : ((i.natAbs : Nat) : ℚ) = |(i : ℚ)| := by
    rw [Nat.cast_natAbs, Int.cast_abs]
  have hr := round53_exact i.natAbs 1 k z (by norm_num) hk
    (by rw [Nat.cast_one, div_one, habs, hz])
  refine ⟨(round53 i.natAbs 1).1, (round53 i.natAbs 1).2, rfl, ?_⟩
  simp only [Double.toRat]
  rw [mul_assoc, hr, Nat.cast_one, div_one, habs]
  by_cases hi : i < 0
  · have : (i : ℚ) < 0 := by exact_mod_cast hi
    simp [hi, abs_of_neg this]
  · have : (0 : ℚ) ≤ i := by exact_mod_cast (not_lt.mp hi)
    simp [hi, abs_of_nonneg this]

theorem div_exact (s t : Bool) (m1 m2 : Nat) (e1 e2 : Int) (hm2 : m2 ≠ 0)
    (h : representable (Double.toRat (.fin s m1 e1) / Double.toRat (.fin t m2 e2))) :
    ∃ s2 m e, Double.div (.fin s m1 e1) (.fin t m2 e2) = .fin s2 m e ∧
      Double.toRat (.fin s2 m e)
        = Double.toRat (.fin s m1 e1) / Double.toRat (.fin t m2 e2) := by
  obtain ⟨k, z, hk, hz⟩ := h
  have hm2q : (m2 : ℚ) ≠ 0 := by exact_mod_cast hm2
  have h2 : (2 : ℚ) ≠ 0 := by norm_num
  have hquot : Double.toRat (.fin s m1 e1) / Double.toRat (.fin t m2 e2)
      = ((if xor s t then -1 else 1 : ℚ)) * (((m1 : ℚ) / m2) * (2 : ℚ) ^ (e1 - e2)) := by
    simp only [Double.toRat]
    rw [zpow_sub₀ h2]
    have p2 : (2 : ℚ) ^ e2 ≠ 0 := zpow_ne_zero _ h2
    cases s <;> cases t <;> simp <;> field_simp
  have hpos : (0 : ℚ) ≤ ((m1 : ℚ) / m2) * (2 : ℚ) ^ (e1 - e2) := by positivity
  have habs : |Double.toRat (.fin s m1 e1) / Double.toRat (.fin t m2 e2)|
      = ((m1 : ℚ) / m2) * (2 : ℚ) ^ (e1 - e2) := by
    rw [hquot, abs_mul, abs_of_nonneg hpos]
    cases s <;> cases t <;> simp
  have hrep : (m1 : ℚ) / m2 = k * (2 : ℚ) ^ (z - (e1 - e2)) := by
    rw [zpow_sub₀ h2, ← mul_div_assoc, ← hz, habs]
    have p2 : (2 : ℚ) ^ (e1 - e2) ≠ 0 := zpow_ne_zero _ h2
    field_simp
    ring
  have hr := round53_exact m1 m2 k _ (Nat.pos_of_ne_zero hm2) hk hrep
  refine ⟨xor s t, (round53 m1 m2).1, (round53 m1 m2).2 + e1 - e2, ?_, ?_⟩
  · simp only [Double.div, hm2, if_false]
  · rw [hquot]
    simp only [Double.toRat]
    rw [mul_assoc, ← hr, Int.add_sub_assoc, zpow_add₀ h2]
    ring

theorem scaled_cast (s : Bool) (m : Nat) (e e0 : Int) (h : e0 ≤ e) :
    ((Double.scaled s m e e0 : Int) : ℚ) = Double.toRat (.fin s m e) * (2 : ℚ) ^ (-e0) := by
  have h2 : (2 : ℚ) ≠ 0 := by norm_num
  obtain ⟨t, ht⟩ := Int.eq_ofNat_of_zero_le (show 0 ≤ e - e0 by omega)
  simp only [Double.scaled, Double.toRat, ht, Int.toNat_ofNat]
  have : (2 : ℚ) ^ e * (2 : ℚ) ^ (-e0) = (2 : ℚ) ^ t := by
    rw [← zpow_add₀ h2, ← zpow_natCast, ← sub_eq_add_neg, ht]
  cases s
  · simp only [Bool.false_eq_true, if_false, one_mul]
    push_cast
    rw [mul_assoc, this]
  · simp only [if_true]
    push_cast
    rw [mul_assoc, mul_assoc, this]
    ring

theorem sub_exact (s t : Bool) (m1 m2 : Nat) (e1 e2 : Int)
    (h : representable (Double.toRat (.fin s m1 e1) - Double.toRat (.fin t m2 e2))) :
    ∃ s2 m e, Double.sub (.fin s m1 e1) (.fin t m2 e2) = .fin s2 m e ∧
      Double.toRat (.fin s2 m e)
        = Double.toRat (.fin s m1 e1) - Double.toRat (.fin t m2 e2) := by
  obtain ⟨k, z, hk, hz⟩ := h
  have h2 : (2 : ℚ) ≠ 0 := by norm_num
  have hsub : Double.sub (.fin s m1 e1) (.fin t m2 e2)
      = .fin (decide (Double.scaled s m1 e1 (min e1 e2) - Double.scaled t m2 e2 (min e1 e2) < 0))
          (round53 (Double.scaled s m1 e1 (min e1 e2)
            - Double.scaled t m2 e2 (min e1 e2)).natAbs 1).1
          ((round53 (Double.scaled s m1 e1 (min e1 e2)
            - Double.scaled t m2 e2 (min e1 e2)).natAbs 1).2 + min e1 e2) := rfl
  have hx : ((Double.scaled s m1 e1 (min e1 e2) - Double.scaled t m2 e2 (min e1 e2) : Int) : ℚ)
      = (Double.toRat (.fin s m1 e1) - Double.toRat (.fin t m2 e2))
          * (2 : ℚ) ^ (-(min e1 e2)) := by
    rw [Int.cast_sub, scaled_cast s m1 e1 _ (min_le_left _ _),
      scaled_cast t m2 e2 _ (min_le_right _ _)]
    ring
  rw [hsub]
  generalize Double.scaled s m1 e1 (min e1 e2) - Double.scaled t m2 e2 (min e1 e2) = x at hx ⊢
  have hpow : (0 : ℚ) < (2 : ℚ) ^ (-(min e1 e2)) := zpow_pos (by norm_num) _
  have hxabs : ((x.natAbs : Nat) : ℚ) = |(x : ℚ)| := by
    rw [Nat.cast_natAbs, Int.cast_abs]
  have habs : ((x.natAbs : Nat) : ℚ) = k * (2 : ℚ) ^ (z + -(min e1 e2)) := by
    rw [hxabs, hx, abs_mul, abs_of_pos hpow, hz, zpow_add₀ h2]
    ring
  have hr := round53_exact x.natAbs 1 k _ (by norm_num) hk
    (by rw [Nat.cast_one, div_one, habs])
  rw [Nat.cast_one, div_one, hxabs] at hr
  refine ⟨_, _, _, rfl, ?_⟩
  have hval : (if decide (x < 0) = true then (-1 : ℚ) else 1) * |(x : ℚ)| = x := by
    by_cases hneg : x < 0
    · have : (x : ℚ) < 0 := by exact_mod_cast hneg
      simp [hneg, abs_of_neg this]
    · have : (0 : ℚ) ≤ x := by exact_mod_cast (not_lt.mp hneg)
      simp [hneg, abs_of_nonneg this]
  have hfin : Double.toRat (.fin (decide (x < 0)) (round53 x.natAbs 1).1
      ((round53 x.natAbs 1).2 + min e1 e2)) = (x : ℚ) * (2 : ℚ) ^ (min e1 e2) := by
    simp only [Double.toRat]
    rw [zpow_add₀ h2, ← hval, ← hr]
    ring
  rw [hfin, hx, mul_assoc, ← zpow_add₀ h2]
  simp

theorem abs_exact (s : Bool) (m : Nat) (e : Int) :
    Double.abs (.fin s m e) = .fin false m e ∧
    Double.toRat (.fin false m e) = |Double.toRat (.fin s m e)| := by
  refine ⟨rfl, ?_⟩
  have hnn : (0 : ℚ) ≤ (m : ℚ) * (2 : ℚ) ^ e := by positivity
  simp only [Double.toRat]
  cases s
  · simp [abs_of_nonneg hnn]
  · simp only [if_true, Bool.false_eq_true, if_false, one_mul]
    rw [mul_assoc, neg_one_mul, abs_neg, abs_of_nonneg hnn]

theorem lt_exact (s t : Bool) (m1 m2 : Nat) (e1 e2 : Int) :
    Double.lt (.fin s m1 e1) (.fin t m2 e2)
      = decide (Double.toRat (.fin s m1 e1) < Double.toRat (.fin t m2 e2)) := by
  have hpow : (0 : ℚ) < (2 : ℚ) ^ (-(min e1 e2)) := zpow_pos (by norm_num) _
  have h1 := scaled_cast s m1 e1 _ (min_le_left e1 e2)
  have h2 := scaled_cast t m2 e2 _ (min_le_right e1 e2)
  have : (Double.scaled s m1 e1 (min e1 e2) < Double.scaled t m2 e2 (min e1 e2))
      ↔ (Double.toRat (.fin s m1 e1) < Double.toRat (.fin t m2 e2)) := by
    rw [← Int.cast_lt (R := ℚ), h1, h2]
    exact mul_lt_mul_right hpow
  simp only [Double.lt, this]

theorem representable_nat_mul (k : Nat) (z : Int) (hk : k < 2 ^ 53) :
    representable ((k : ℚ) * (2 : ℚ) ^ z) := by
  refine ⟨k, z, hk, abs_of_nonneg (by positivity)⟩

theorem representable_int (i : Int) (h : i.natAbs < 2 ^ 53) : representable (i : ℚ) := by
  refine ⟨i.natAbs, 0, h, ?_⟩
  rw [zpow_zero, mul_one, Nat.cast_natAbs, Int.cast_abs]

theorem value_exact (r : Rational) (hd : r.denom ≠ 0) (h1 : representable (r.num : ℚ))
    (h2 : representable (r.denom : ℚ)) (h3 : representable ((r.num : ℚ) / (r.denom : ℚ))) :
    ∃ s m e, r.value = .fin s m e ∧ Double.toRat (.fin s m e) = r.toRat := by
  obtain ⟨m1, e1, a1, a2⟩ := ofInt_exact r.num h1
  obtain ⟨m2, e2, b1, b2⟩ := ofInt_exact r.denom h2
  have hm2 : m2 ≠ 0 := by
    intro h0
    rw [h0] at b2
    simp only [Double.toRat, Nat.cast_zero, mul_zero, zero_mul] at b2
    exact hd (by exact_mod_cast b2.symm)
  obtain ⟨s, m, e, c1, c2⟩ := div_exact _ _ m1 m2 e1 e2 hm2 (by rw [a2, b2]; exact h3)
  refine ⟨s, m, e, ?_, ?_⟩
  · unfold Rational.value
    rw [a1, b1, c1]
  · rw [c2, a2, b2]
    rfl

theorem near_closer_exact (lb ub r : Rational)
    (hlb : ∃ s m e, lb.value = .fin s m e ∧ Double.toRat (.fin s m e) = lb.toRat)
    (hub : ∃ s m e, ub.value = .fin s m e ∧ Double.toRat (.fin s m e) = ub.toRat)
    (hr : ∃ s m e, r.value = .fin s m e ∧ Double.toRat (.fin s m e) = r.toRat)
    (h1 : representable (lb.toRat - r.toRat)) (h2 : representable (ub.toRat - r.toRat)) :
    near_closer lb ub r = decide (|lb.toRat - r.toRat| < |ub.toRat - r.toRat|) := by
  obtain ⟨s1, m1, e1, a1, a2⟩ := hlb
  obtain ⟨s2, m2, e2, b1, b2⟩ := hub
  obtain ⟨s3, m3, e3, c1, c2⟩ := hr
  obtain ⟨s4, m4, e4, d1, d2⟩ := sub_exact s1 s3 m1 m3 e1 e3 (by rw [a2, c2]; exact h1)
  obtain ⟨s5, m5, e5, f1, f2⟩ := sub_exact s2 s3 m2 m3 e2 e3 (by rw [b2, c2]; exact h2)
  unfold near_closer
  rw [a1, b1, c1, d1, f1, (abs_exact s4 m4 e4).1, (abs_exact s5 m5 e5).1, lt_exact,
    (abs_exact s4 m4 e4).2, (abs_exact s5 m5 e5).2, d2, f2, a2, b2, c2]

theorem representable_dyadic (k c : Nat) (hk : k < 2 ^ 53) :
    representable (((k : Int) : ℚ) / (((2 : Int) ^ c : Int) : ℚ)) := by
  have : (((k : Int) : ℚ) / (((2 : Int) ^ c : Int) : ℚ)) = (k : ℚ) * (2 : ℚ) ^ (-(c : Int)) := by
    rw [zpow_neg, zpow_natCast]
    push_cast
    rw [div_eq_mul_inv]
  rw [this]
  exact representable_nat_mul k _ hk

theorem representable_dyadic_sub (l n a b : Nat) (hl : l ≤ 2 ^ b) (hn : n ≤ 2 ^ a)
    (ha : a ≤ 52) (hb : b ≤ 52) :
    representable ((l : ℚ) / 2 ^ b - (n : ℚ) / 2 ^ a) := by
  have key : ∀ (x y c e : Nat), c ≤ e → e ≤ 52 → x ≤ 2 ^ c → y ≤ 2 ^ e →
      representable ((x : ℚ) / 2 ^ c - (y : ℚ) / 2 ^ e) := by
    intro x y c e hce he hx hy
    obtain ⟨t, rfl⟩ := Nat.exists_eq_add_of_le hce
    have hx2 : x * 2 ^ t ≤ 2 ^ (c + t) := by
      rw [pow_add]; exact Nat.mul_le_mul_right _ hx
    have hle : 2 ^ (c + t) ≤ 2 ^ 52 := Nat.pow_le_pow_right (by norm_num) he
    refine ⟨((x * 2 ^ t : Nat) - (y : Int)).natAbs, -((c + t : Nat) : Int), ?_, ?_⟩
    · have : ((x * 2 ^ t : Nat) - (y : Int)).natAbs ≤ 2 ^ (c + t) := by omega
      have : (2 : Nat) ^ 52 < 2 ^ 53 := by norm_num
      omega
    · rw [Nat.cast_natAbs, Int.cast_abs, zpow_neg, zpow_natCast]
      have hp : (0 : ℚ) < 2 ^ (c + t) := by positivity
      rw [← div_eq_mul_inv, ← abs_of_pos hp, ← abs_div, abs_of_pos hp]
      congr 1
      push_cast
      rw [pow_add]
      field_simp
      ring
  by_cases hab : b ≤ a
  · exact key l n b a hab ha hl hn
  · have := key n l a b (by omega) hb hn hl
    obtain ⟨k, z, hk, hz⟩ := this
    exact ⟨k, z, hk, by rw [abs_sub_comm]; exact hz⟩


/-- C15, as stated, fails: for `3/10` and `d = 5` the two candidates `1/5` and
`2/5` are at the same distance `1/10` from `3/10`, and `near` returns the `down`
result `1/5`: in `double` arithmetic the distances are `0.09999999999999998` and
`0.10000000000000003`. -/
theorem C15_counterexample :
    (⟨3, 10⟩ : Rational).roundDown 5 = some ⟨1, 5⟩ ∧
    (⟨3, 10⟩ : Rational).roundUp 5 = some ⟨2, 5⟩ ∧
    |(⟨1, 5⟩ : Rational).toRat - (⟨3, 10⟩ : Rational).toRat|
      = |(⟨2, 5⟩ : Rational).toRat - (⟨3, 10⟩ : Rational).toRat| ∧
    (⟨3, 10⟩ : Rational).round near_closer 5 .near = some ⟨1, 5⟩ ∧
    Double.abs (Double.sub (⟨1, 5⟩ : Rational).value (⟨3, 10⟩ : Rational).value)
      = .fin false 7205759403792792 (-56) ∧
    Double.abs (Double.sub (⟨2, 5⟩ : Rational).value (⟨3, 10⟩ : Rational).value)
      = .fin false 7205759403792796 (-56) := by
  refine ⟨by decide, by decide, ?_, by decide, by decide, by decide⟩
  simp only [Rational.toRat]
  norm_num

/-- Rounding to the nearest integer moves a fraction by at most one half. -/
theorem roundEven_err (a b : Nat) (hb : 0 < b) :
    |((roundEven a b : Nat) : ℚ) - (a : ℚ) / b| ≤ 1 / 2 := by
  have hb' : (0 : ℚ) < b := by exact_mod_cast hb
  have hdm : (a : ℚ) = b * ((a / b : Nat) : ℚ) + ((a % b : Nat) : ℚ) := by
    exact_mod_cast (Nat.div_add_mod a b).symm
  have hq : (a : ℚ) / b = ((a / b : Nat) : ℚ) + ((a % b : Nat) : ℚ) / b := by
    rw [eq_comm, ← sub_eq_zero]
    field_simp
    linarith
  have hr0 : (0 : ℚ) ≤ ((a % b : Nat) : ℚ) / b := by positivity
  have hr1 : ((a % b : Nat) : ℚ) / b < 1 := by
    rw [div_lt_one hb']
    exact_mod_cast Nat.mod_lt a hb
  have e1 : 2 * (a % b) ≤ b → |((a / b : Nat) : ℚ) - (a : ℚ) / b| ≤ 1 / 2 := by
    intro h
    have h2 : (2 : ℚ) * ((a % b : Nat) : ℚ) ≤ b := by exact_mod_cast h
    have h3 : ((a % b : Nat) : ℚ) / b ≤ 1 / 2 := by
      rw [div_le_iff₀ hb']
      linarith
    rw [hq, abs_le]
    constructor <;> linarith
  have e2 : b ≤ 2 * (a % b) → |((a / b + 1 : Nat) : ℚ) - (a : ℚ) / b| ≤ 1 / 2 := by
    intro h
    have h2 : (b : ℚ) ≤ (2 : ℚ) * ((a % b : Nat) : ℚ) := by exact_mod_cast h
    have h3 : 1 / 2 ≤ ((a % b : Nat) : ℚ) / b := by
      rw [le_div_iff₀ hb']
      linarith
    rw [hq, abs_le]
    push_cast
    constructor <;> linarith
  unfold roundEven
  split_ifs with h1 h2 h3
  · exact e1 (by omega)
  · exact e2 (by omega)
  · exact e1 (by omega)
  · exact e2 (by omega)

/-- The relative error of `round53` is at most `2^-53`. -/
theorem round53_err (n d : Nat) (hd : 0 < d) :
    |((round53 n d).1 : ℚ) * (2 : ℚ) ^ (round53 n d).2 - (n : ℚ) / d|
      ≤ (n : ℚ) / d / 2 ^ 53 := by
  by_cases hn : n = 0
  · subst hn
    simp [round53]
  have hn0 : 0 < n := Nat.pos_of_ne_zero hn
  have hd' : (0 : ℚ) < d := by exact_mod_cast hd
  have h2 : (2 : ℚ) ≠ 0 := by norm_num
  have core : ∀ e : Int, (2 : ℚ) ^ 52 ≤ ((n : ℚ) / d) * (2 : ℚ) ^ (-e) →
      |((roundEven (scaleNum n e) (scaleDen d e) : Nat) : ℚ) * (2 : ℚ) ^ e - (n : ℚ) / d|
        ≤ (n : ℚ) / d / 2 ^ 53 := by
    intro e hlow
    have hr := scaled_ratio n d e hd
    have hbpos := scaleDen_pos d e hd
    have herr := roundEven_err (scaleNum n e) (scaleDen d e) hbpos
    rw [hr] at herr
    have hp : (0 : ℚ) < (2 : ℚ) ^ e := zpow_pos (by norm_num) _
    have hcancel : (2 : ℚ) ^ (-e) * (2 : ℚ) ^ e = 1 := by
      rw [← zpow_add₀ h2, neg_add_cancel, zpow_zero]
    have h1 : |((roundEven (scaleNum n e) (scaleDen d e) : Nat) : ℚ) * (2 : ℚ) ^ e - (n : ℚ) / d|
        = |((roundEven (scaleNum n e) (scaleDen d e) : Nat) : ℚ)
            - (n : ℚ) / d * (2 : ℚ) ^ (-e)| * (2 : ℚ) ^ e := by
      rw [← abs_of_pos hp, ← abs_mul, abs_of_pos hp, sub_mul, mul_assoc, hcancel, mul_one]
    have h3 : (2 : ℚ) ^ 52 * (2 : ℚ) ^ e ≤ (n : ℚ) / d := by
      have := mul_le_mul_of_nonneg_right hlow hp.le
      rwa [mul_assoc, hcancel, mul_one] at this
    rw [h1, le_div_iff₀ (by positivity)]
    have h4 := mul_le_mul_of_nonneg_right herr hp.le
    nlinarith
  obtain ⟨ln1, _⟩ := log2_self_spec n hn0
  obtain ⟨_, ld2⟩ := log2_self_spec d hd
  have h51 : (2 : ℚ) ^ 51
      ≤ ((n : ℚ) / d) * (2 : ℚ) ^ (-((log2Fuel n n : Int) - (log2Fuel d d : Int) - 52)) := by
    have e1 : (2 : ℚ) ^ (log2Fuel n n) ≤ n := by exact_mod_cast ln1
    have e2 : (d : ℚ) ≤ 2 ^ (log2Fuel d d + 1) := by exact_mod_cast ld2.le
    have e3 : (2 : ℚ) ^ (-((log2Fuel n n : Int) - (log2Fuel d d : Int) - 52))
        = 2 ^ 52 * 2 ^ (log2Fuel d d) / 2 ^ (log2Fuel n n) := by
      rw [show -((log2Fuel n n : Int) - (log2Fuel d d : Int) - 52)
          = ((52 + log2Fuel d d : Nat) : Int) - ((log2Fuel n n : Nat) : Int) by push_cast; ring]
      rw [zpow_sub₀ (by norm_num : (2 : ℚ) ≠ 0), zpow_natCast, zpow_natCast, pow_add]
    rw [e3]
    have p1 : (0 : ℚ) < 2 ^ (log2Fuel n n) := by positivity
    have p2 : (0 : ℚ) < 2 ^ (log2Fuel d d) := by positivity
    rw [div_mul_div_comm, le_div_iff₀ (by positivity)]
    rw [pow_succ] at e2
    calc (2 : ℚ) ^ 51 * (↑d * 2 ^ log2Fuel n n)
        ≤ 2 ^ 51 * ((2 ^ log2Fuel d d * 2) * 2 ^ log2Fuel n n) := by
          apply mul_le_mul_of_nonneg_left _ (by positivity)
          exact mul_le_mul_of_nonneg_right e2 p1.le
      _ = 2 ^ log2Fuel n n * (2 ^ 52 * 2 ^ log2Fuel d d) := by ring
      _ ≤ ↑n * (2 ^ 52 * 2 ^ log2Fuel d d) :=
          mul_le_mul_of_nonneg_right e1 (by positivity)
  unfold round53
  rw [if_neg (by omega)]
  simp only
  by_cases hlt : scaleNum n ((log2Fuel n n : Int) - (log2Fuel d d : Int) - 52)
      / scaleDen d ((log2Fuel n n : Int) - (log2Fuel d d : Int) - 52) < 2 ^ 52
  · rw [if_pos hlt]
    apply core
    rw [show -((log2Fuel n n : Int) - (log2Fuel d d : Int) - 52 - 1)
        = -((log2Fuel n n : Int) - (log2Fuel d d : Int) - 52) + 1 by ring,
      zpow_add₀ (by norm_num : (2 : ℚ) ≠ 0), zpow_one, ← mul_assoc]
    linarith
  · rw [if_neg hlt]
    apply core
    rw [← scaled_ratio n d _ hd]
    have hge2 := Nat.le_of_not_lt hlt
    calc (2 : ℚ) ^ 52
        ≤ ((scaleNum n ((log2Fuel n n : Int) - (log2Fuel d d : Int) - 52)
            / scaleDen d ((log2Fuel n n : Int) - (log2Fuel d d : Int) - 52) : Nat) : ℚ) := by
          exact_mod_cast hge2
      _ ≤ _ := Nat.cast_div_le

theorem sign_abs (s : Bool) : |(if s then (-1 : ℚ) else 1)| = 1 := by
  cases s <;> simp

/-- The quotient of two finite doubles has relative error at most `2^-53`. -/
theorem div_err (s t : Bool) (m1 m2 : Nat) (e1 e2 : Int) (hm2 : m2 ≠ 0) :
    ∃ s2 m e, Double.div (.fin s m1 e1) (.fin t m2 e2) = .fin s2 m e ∧
      |Double.toRat (.fin s2 m e)
          - Double.toRat (.fin s m1 e1) / Double.toRat (.fin t m2 e2)|
        ≤ |Double.toRat (.fin s m1 e1) / Double.toRat (.fin t m2 e2)| / 2 ^ 53 := by
  have hm2q : (m2 : ℚ) ≠ 0 := by exact_mod_cast hm2
  have h2 : (2 : ℚ) ≠ 0 := by norm_num
  have hquot : Double.toRat (.fin s m1 e1) / Double.toRat (.fin t m2 e2)
      = ((if xor s t then -1 else 1 : ℚ)) * (((m1 : ℚ) / m2) * (2 : ℚ) ^ (e1 - e2)) := by
    simp only [Double.toRat]
    rw [zpow_sub₀ h2]
    have p2 : (2 : ℚ) ^ e2 ≠ 0 := zpow_ne_zero _ h2
    cases s <;> cases t <;> simp <;> field_simp
  have hp : (0 : ℚ) < (2 : ℚ) ^ (e1 - e2) := zpow_pos (by norm_num) _
  have hpos : (0 : ℚ) ≤ ((m1 : ℚ) / m2) * (2 : ℚ) ^ (e1 - e2) := by positivity
  have hr := round53_err m1 m2 (Nat.pos_of_ne_zero hm2)
  refine ⟨xor s t, (round53 m1 m2).1, (round53 m1 m2).2 + e1 - e2, ?_, ?_⟩
  · simp only [Double.div, hm2, if_false]
  · rw [hquot, abs_mul, sign_abs, one_mul, abs_of_nonneg hpos]
    have hres : Double.toRat (.fin (xor s t) (round53 m1 m2).1 ((round53 m1 m2).2 + e1 - e2))
        - (if xor s t then -1 else 1 : ℚ) * (((m1 : ℚ) / m2) * (2 : ℚ) ^ (e1 - e2))
        = (if xor s t then -1 else 1 : ℚ)
          * ((((round53 m1 m2).1 : ℚ) * (2 : ℚ) ^ (round53 m1 m2).2 - (m1 : ℚ) / m2)
            * (2 : ℚ) ^ (e1 - e2)) := by
      simp only [Double.toRat]
      rw [Int.add_sub_assoc, zpow_add₀ h2]
      ring
    rw [hres, abs_mul, sign_abs, one_mul, abs_mul, abs_of_pos hp]
    calc |((round53 m1 m2).1 : ℚ) * (2 : ℚ) ^ (round53 m1 m2).2 - (m1 : ℚ) / m2|
          * (2 : ℚ) ^ (e1 - e2)
        ≤ ((m1 : ℚ) / m2 / 2 ^ 53) * (2 : ℚ) ^ (e1 - e2) :=
          mul_le_mul_of_nonneg_right hr hp.le
      _ = (m1 : ℚ) / m2 * (2 : ℚ) ^ (e1 - e2) / 2 ^ 53 := by ring

/-- The difference of two finite doubles has relative error at most `2^-53`. -/
theorem sub_err (s t : Bool) (m1 m2 : Nat) (e1 e2 : Int) :
    ∃ s2 m e, Double.sub (.fin s m1 e1) (.fin t m2 e2) = .fin s2 m e ∧
      |Double.toRat (.fin s2 m e)
          - (Double.toRat (.fin s m1 e1) - Double.toRat (.fin t m2 e2))|
        ≤ |Double.toRat (.fin s m1 e1) - Double.toRat (.fin t m2 e2)| / 2 ^ 53 := by
  have h2 : (2 : ℚ) ≠ 0 := by norm_num
  have hsub : Double.sub (.fin s m1 e1) (.fin t m2 e2)
      = .fin (decide (Double.scaled s m1 e1 (min e1 e2) - Double.scaled t m2 e2 (min e1 e2) < 0))
          (round53 (Double.scaled s m1 e1 (min e1 e2)
            - Double.scaled t m2 e2 (min e1 e2)).natAbs 1).1
          ((round53 (Double.scaled s m1 e1 (min e1 e2)
            - Double.scaled t m2 e2 (min e1 e2)).natAbs 1).2 + min e1 e2) := rfl
  have hx : ((Double.scaled s m1 e1 (min e1 e2) - Double.scaled t m2 e2 (min e1 e2) : Int) : ℚ)
      = (Double.toRat (.fin s m1 e1) - Double.toRat (.fin t m2 e2))
          * (2 : ℚ) ^ (-(min e1 e2)) := by
    rw [Int.cast_sub, scaled_cast s m1 e1 _ (min_le_left _ _),
      scaled_cast t m2 e2 _ (min_le_right _ _)]
    ring
  rw [hsub]
  generalize Double.scaled s m1 e1 (min e1 e2) - Double.scaled t m2 e2 (min e1 e2) = x at hx ⊢
  have hpow : (0 : ℚ) < (2 : ℚ) ^ (min e1 e2) := zpow_pos (by norm_num) _
  have hcancel : (2 : ℚ) ^ (-(min e1 e2)) * (2 : ℚ) ^ (min e1 e2) = 1 := by
    rw [← zpow_add₀ h2, neg_add_cancel, zpow_zero]
  have hdiff : Double.toRat (.fin s m1 e1) - Double.toRat (.fin t m2 e2)
      = (x : ℚ) * (2 : ℚ) ^ (min e1 e2) := by
    rw [hx, mul_assoc, hcancel, mul_one]
  have hxabs : ((x.natAbs : Nat) : ℚ) = |(x : ℚ)| := by
    rw [Nat.cast_natAbs, Int.cast_abs]
  have hr := round53_err x.natAbs 1 (by norm_num)
  rw [Nat.cast_one, div_one, hxabs] at hr
  refine ⟨_, _, _, rfl, ?_⟩
  have hval : (if decide (x < 0) = true then (-1 : ℚ) else 1) * |(x : ℚ)| = x := by
    by_cases hneg : x < 0
    · have : (x : ℚ) < 0 := by exact_mod_cast hneg
      simp [hneg, abs_of_neg this]
    · have : (0 : ℚ) ≤ x := by exact_mod_cast (not_lt.mp hneg)
      simp [hneg, abs_of_nonneg this]
  have hres : Double.toRat (.fin (decide (x < 0)) (round53 x.natAbs 1).1
        ((round53 x.natAbs 1).2 + min e1 e2)) - (x : ℚ) * (2 : ℚ) ^ (min e1 e2)
      = (if decide (x < 0) = true then (-1 : ℚ) else 1)
        * ((((round53 x.natAbs 1).1 : ℚ) * (2 : ℚ) ^ (round53 x.natAbs 1).2 - abs (x : ℚ))
          * (2 : ℚ) ^ (min e1 e2)) := by
    simp only [Double.toRat]
    rw [zpow_add₀ h2]
    by_cases hneg : x < 0
    · have hq : (x : ℚ) < 0 := by exact_mod_cast hneg
      simp only [hneg, decide_True, if_true, abs_of_neg hq]
      ring
    · have hq : (0 : ℚ) ≤ x := by exact_mod_cast (not_lt.mp hneg)
      simp only [hneg, decide_False, Bool.false_eq_true, if_false, abs_of_nonneg hq]
      ring
  rw [hdiff, hres, abs_mul, sign_abs, one_mul, abs_mul, abs_mul, abs_of_pos hpow]
  calc |((round53 x.natAbs 1).1 : ℚ) * (2 : ℚ) ^ (round53 x.natAbs 1).2 - abs (x : ℚ)|
        * (2 : ℚ) ^ (min e1 e2)
      ≤ (|(x : ℚ)| / 2 ^ 53) * (2 : ℚ) ^ (min e1 e2) := mul_le_mul_of_nonneg_right hr hpow.le
    _ = |(x : ℚ)| * (2 : ℚ) ^ (min e1 e2) / 2 ^ 53 := by ring

/-- The `double` of a weight whose parts are below `2^53` in absolute value:
finite, with relative error at most `2^-53`. -/
theorem value_err (r : Rational) (hd : r.denom ≠ 0) (h1 : r.num.natAbs < 2 ^ 53)
    (h2 : r.denom.natAbs < 2 ^ 53) :
    ∃ s m e, r.value = .fin s m e ∧
      |Double.toRat (.fin s m e) - r.toRat| ≤ |r.toRat| / 2 ^ 53 := by
  obtain ⟨m1, e1, a1, a2⟩ := ofInt_exact r.num (representable_int _ h1)
  obtain ⟨m2, e2, b1, b2⟩ := ofInt_exact r.denom (representable_int _ h2)
  have hm2 : m2 ≠ 0 := by
    intro h0
    rw [h0] at b2
    simp only [Double.toRat, Nat.cast_zero, mul_zero, zero_mul] at b2
    exact hd (by exact_mod_cast b2.symm)
  obtain ⟨s, m, e, c1, c2⟩ := div_err _ _ m1 m2 e1 e2 hm2
  refine ⟨s, m, e, ?_, ?_⟩
  · unfold Rational.value
    rw [a1, b1, c1]
  · rw [a2, b2] at c2
    exact c2

/-- The test of the `near` case in terms of rational numbers: the two compared
doubles `A` and `B` come from the doubles `X`, `Y`, `V` of the three weights,
each operation with relative error at most `2^-53`. -/
theorem near_closer_err (lb ub r : Rational)
    (hlb : lb.denom ≠ 0 ∧ lb.num.natAbs < 2 ^ 53 ∧ lb.denom.natAbs < 2 ^ 53)
    (hub : ub.denom ≠ 0 ∧ ub.num.natAbs < 2 ^ 53 ∧ ub.denom.natAbs < 2 ^ 53)
    (hr : r.denom ≠ 0 ∧ r.num.natAbs < 2 ^ 53 ∧ r.denom.natAbs < 2 ^ 53) :
    ∃ X Y V A B : ℚ, near_closer lb ub r = decide (A < B) ∧
      |X - lb.toRat| ≤ |lb.toRat| / 2 ^ 53 ∧ |Y - ub.toRat| ≤ |ub.toRat| / 2 ^ 53 ∧
      |V - r.toRat| ≤ |r.toRat| / 2 ^ 53 ∧
      |A - abs (X - V)| ≤ |X - V| / 2 ^ 53 ∧ |B - abs (Y - V)| ≤ |Y - V| / 2 ^ 53 := by
  obtain ⟨s1, m1, e1, a1, a2⟩ := value_err lb hlb.1 hlb.2.1 hlb.2.2
  obtain ⟨s2, m2, e2, b1, b2⟩ := value_err ub hub.1 hub.2.1 hub.2.2
  obtain ⟨s3, m3, e3, c1, c2⟩ := value_err r hr.1 hr.2.1 hr.2.2
  obtain ⟨s4, m4, e4, d1, d2⟩ := sub_err s1 s3 m1 m3 e1 e3
  obtain ⟨s5, m5, e5, f1, f2⟩ := sub_err s2 s3 m2 m3 e2 e3
  refine ⟨_, _, _, Double.toRat (.fin false m4 e4), Double.toRat (.fin false m5 e5),
    ?_, a2, b2, c2, ?_, ?_⟩
  · unfold near_closer
    rw [a1, b1, c1, d1, f1, (abs_exact s4 m4 e4).1, (abs_exact s5 m5 e5).1, lt_exact]
  · rw [(abs_exact s4 m4 e4).2]
    exact le_trans (abs_abs_sub_abs_le_abs_sub _ _) d2
  · rw [(abs_exact s5 m5 e5).2]
    exact le_trans (abs_abs_sub_abs_le_abs_sub _ _) f2

/-- The comparison of the two computed distances agrees with the exact one as
soon as the exact distances differ by `g` and the three values are at most
`2^31 * g` in absolute value. -/
theorem near_compare (x y v X Y V A B M g : ℚ)
    (hX : |X - x| ≤ |x| / 2 ^ 53) (hY : |Y - y| ≤ |y| / 2 ^ 53) (hV : |V - v| ≤ |v| / 2 ^ 53)
    (hA : |A - abs (X - V)| ≤ |X - V| / 2 ^ 53) (hB : |B - abs (Y - V)| ≤ |Y - V| / 2 ^ 53)
    (hx : |x| ≤ M) (hy : |y| ≤ M) (hv : |v| ≤ M) (hg : 0 < g) (hM : M ≤ 2 ^ 31 * g)
    (hgap : |x - v| + g ≤ |y - v|) : A < B := by
  have t1 : |X - V| ≤ |x - v| + |X - x| + |V - v| := by
    have := abs_add_three (x - v) (X - x) (v - V)
    rw [abs_sub_comm v V] at this
    have e : x - v + (X - x) + (v - V) = X - V := by ring
    rw [e] at this
    exact this
  have t2 : |y - v| ≤ |Y - V| + |Y - y| + |V - v| := by
    have := abs_add_three (Y - V) (y - Y) (V - v)
    rw [abs_sub_comm y Y] at this
    have e : Y - V + (y - Y) + (V - v) = y - v := by ring
    rw [e] at this
    exact this
  have t3 := (abs_le.mp hA).2
  have t4 := (abs_le.mp hB).1
  have t5 : |x - v| ≤ |x| + |v| := abs_sub _ _
  have t6 : |y - v| ≤ |y| + |v| := abs_sub _ _
  have n1 := abs_nonneg (X - V)
  have n2 := abs_nonneg (Y - V)
  have n3 := abs_nonneg x
  have n4 := abs_nonneg y
  have n5 := abs_nonneg v
  have hXM : |X - x| ≤ M / 2 ^ 53 := le_trans hX (by gcongr)
  have hYM : |Y - y| ≤ M / 2 ^ 53 := le_trans hY (by gcongr)
  have hVM : |V - v| ≤ M / 2 ^ 53 := le_trans hV (by gcongr)
  have hM0 : 0 ≤ M := le_trans n3 hx
  -- all remaining terms are linear
  have k1 : |X - V| ≤ |x - v| + 2 * (M / 2 ^ 53) := by linarith
  have k2 : |y - v| - 2 * (M / 2 ^ 53) ≤ |Y - V| := by linarith
  have k3 : A ≤ |X - V| + |X - V| / 2 ^ 53 := by linarith
  have k4 : |Y - V| - |Y - V| / 2 ^ 53 ≤ B := by linarith
  have k5 : |X - V| ≤ 3 * M := by linarith [show M / 2 ^ 53 ≤ M / 2 by gcongr; norm_num]
  have k6 : |Y - V| ≤ 3 * M := by
    have : |Y - V| ≤ |y - v| + |Y - y| + |V - v| := by
      have := abs_add_three (y - v) (Y - y) (v - V)
      rw [abs_sub_comm v V] at this
      have e : y - v + (Y - y) + (v - V) = Y - V := by ring
      rw [e] at this
      exact this
    linarith [show M / 2 ^ 53 ≤ M / 2 by gcongr; norm_num]
  have k7 : |X - V| / 2 ^ 53 ≤ 3 * M / 2 ^ 53 := by gcongr
  have k8 : |Y - V| / 2 ^ 53 ≤ 3 * M / 2 ^ 53 := by gcongr
  have k9 : 10 * (M / 2 ^ 53) < g := by
    have : 10 * (M / 2 ^ 53) ≤ 10 * (2 ^ 31 * g / 2 ^ 53) := by gcongr
    have e : 10 * ((2 : ℚ) ^ 31 * g / 2 ^ 53) = g * (10 / 2 ^ 22) := by ring
    have : g * (10 / 2 ^ 22) < g := by
      have : (10 : ℚ) / 2 ^ 22 < 1 := by norm_num
      nlinarith
    linarith
  have e3 : 3 * M / 2 ^ 53 = 3 * (M / 2 ^ 53) := by ring
  linarith

/-- The two candidates of the `near` case for a weight strictly between 0 and 1
when `num * N + denom - 1` fits the `int` range: their numerators are at most
`N`, and times the old denominator they stay in the `int` range. -/
theorem round_candidates (pn pd N : Nat) (h1 : pn < pd) (hN : 0 < N)
    (hfit : pn * N + pd ≤ 2 ^ 31) :
    ∃ l u : Nat, Rational.roundDown ⟨(pn : Int), (pd : Int)⟩ (N : Int)
        = some ⟨(l : Int), (N : Int)⟩ ∧
      Rational.roundUp ⟨(pn : Int), (pd : Int)⟩ (N : Int) = some ⟨(u : Int), (N : Int)⟩ ∧
      l ≤ N ∧ u ≤ N ∧ l * pd ≤ 2 ^ 31 ∧ u * pd ≤ 2 ^ 31 := by
  have hpd : 0 < pd := by omega
  have hq1 : pn * N / pd * pd ≤ pn * N := Nat.div_mul_le_self _ _
  have hq2 : pn * N / pd < N := by
    rw [Nat.div_lt_iff_lt_mul hpd]
    have : pn * N < pd * N := Nat.mul_lt_mul_of_pos_right h1 hN
    rw [Nat.mul_comm N pd]
    exact this
  have hu1 : (pn * N + pd - 1) / pd * pd ≤ pn * N + pd - 1 := Nat.div_mul_le_self _ _
  have hu2 : (pn * N + pd - 1) / pd ≤ N := by
    have : (pn * N + pd - 1) / pd < N + 1 := by
      rw [Nat.div_lt_iff_lt_mul hpd]
      have : pn * N ≤ pd * N := Nat.mul_le_mul_right N h1.le
      have e2 : (N + 1) * pd = pd * N + pd := by ring
      omega
    omega
  have hl : ∃ l : Nat, Rational.roundDown ⟨(pn : Int), (pd : Int)⟩ (N : Int)
      = some ⟨(l : Int), (N : Int)⟩ ∧ l ≤ N ∧ l * pd ≤ 2 ^ 31 := by
    by_cases hq : pn * N / pd = 0
    · refine ⟨1, ?_, hN, by omega⟩
      rw [roundDown_nat pn pd N hpd (by omega), if_pos hq]
      rfl
    · refine ⟨pn * N / pd, ?_, hq2.le, by omega⟩
      rw [roundDown_nat pn pd N hpd (by omega), if_neg hq]
  have hu : ∃ u : Nat, Rational.roundUp ⟨(pn : Int), (pd : Int)⟩ (N : Int)
      = some ⟨(u : Int), (N : Int)⟩ ∧ u ≤ N ∧ u * pd ≤ 2 ^ 31 := by
    by_cases hq : (pn * N + pd - 1) / pd = N
    · refine ⟨N - 1, ?_, by omega, ?_⟩
      · rw [roundUp_nat pn pd N hpd hfit, if_pos hq, Nat.cast_sub hN]
        rfl
      · have : (N - 1) * pd ≤ N * pd := Nat.mul_le_mul_right pd (by omega)
        rw [hq] at hu1
        omega
    · refine ⟨(pn * N + pd - 1) / pd, ?_, hu2, by omega⟩
      rw [roundUp_nat pn pd N hpd hfit, if_neg hq]
  obtain ⟨l, e1, e2, e3⟩ := hl
  obtain ⟨u, f1, f2, f3⟩ := hu
  exact ⟨l, u, e1, f1, e2, f2, e3, f3⟩

/-- The distance of two fractions of naturals, over the common denominator. -/
theorem dist_common (k pn pd N : Nat) (hpd : 0 < pd) (hN : 0 < N) :
    |(k : ℚ) / N - (pn : ℚ) / pd|
      = ((((k * pd : Nat) : Int) - ((pn * N : Nat) : Int)).natAbs : ℚ) * (1 / ((N : ℚ) * pd)) := by
  have hpd' : (0 : ℚ) < pd := by exact_mod_cast hpd
  have hN' : (0 : ℚ) < N := by exact_mod_cast hN
  have hg : (0 : ℚ) < 1 / ((N : ℚ) * pd) := by positivity
  rw [Nat.cast_natAbs, Int.cast_abs, ← abs_of_pos hg, ← abs_mul]
  congr 1
  push_cast
  field_simp
  ring

/-- The test of the `near` case on fractions of naturals that stay in the `int`
range: whenever the exact distances differ, the comparison of the doubles
agrees with the exact comparison. -/
theorem near_closer_correct (l u pn pd N : Nat) (hpd : 0 < pd) (hN : 0 < N)
    (hl : l * pd ≤ 2 ^ 31) (hu : u * pd ≤ 2 ^ 31) (hp : pn * N ≤ 2 ^ 31)
    (hpd31 : pd ≤ 2 ^ 31) (hN31 : N ≤ 2 ^ 31) :
    (|(⟨(l : Int), (N : Int)⟩ : Rational).toRat - (⟨(pn : Int), (pd : Int)⟩ : Rational).toRat|
        < |(⟨(u : Int), (N : Int)⟩ : Rational).toRat
            - (⟨(pn : Int), (pd : Int)⟩ : Rational).toRat| →
      near_closer ⟨(l : Int), (N : Int)⟩ ⟨(u : Int), (N : Int)⟩ ⟨(pn : Int), (pd : Int)⟩
        = true) ∧
    (|(⟨(u : Int), (N : Int)⟩ : Rational).toRat - (⟨(pn : Int), (pd : Int)⟩ : Rational).toRat|
        < |(⟨(l : Int), (N : Int)⟩ : Rational).toRat
            - (⟨(pn : Int), (pd : Int)⟩ : Rational).toRat| →
      near_closer ⟨(l : Int), (N : Int)⟩ ⟨(u : Int), (N : Int)⟩ ⟨(pn : Int), (pd : Int)⟩
        = false) := by
  have hpd' : (0 : ℚ) < pd := by exact_mod_cast hpd
  have hN' : (0 : ℚ) < N := by exact_mod_cast hN
  have hg : (0 : ℚ) < 1 / ((N : ℚ) * pd) := by positivity
  have hl53 : l < 2 ^ 53 := by
    have : l * 1 ≤ l * pd := Nat.mul_le_mul_left l hpd
    omega
  have hu53 : u < 2 ^ 53 := by
    have : u * 1 ≤ u * pd := Nat.mul_le_mul_left u hpd
    omega
  have hp53 : pn < 2 ^ 53 := by
    have : pn * 1 ≤ pn * N := Nat.mul_le_mul_left pn hN
    omega
  have hNne : ((N : Nat) : Int) ≠ 0 := by exact_mod_cast hN.ne'
  have hpdne : ((pd : Nat) : Int) ≠ 0 := by exact_mod_cast hpd.ne'
  obtain ⟨X, Y, V, A, B, hnc, hX, hY, hV, hA, hB⟩ :=
    near_closer_err ⟨(l : Int), (N : Int)⟩ ⟨(u : Int), (N : Int)⟩ ⟨(pn : Int), (pd : Int)⟩
      ⟨hNne, by simpa using hl53, by simp; omega⟩
      ⟨hNne, by simpa using hu53, by simp; omega⟩
      ⟨hpdne, by simpa using hp53, by simp; omega⟩
  simp only [Rational.toRat, Int.cast_natCast] at hX hY hV ⊢
  -- the three values are at most `2^31 / (N * pd)`
  have bound : ∀ k : Nat, k * pd ≤ 2 ^ 31 → |(k : ℚ) / N| ≤ 2 ^ 31 * (1 / ((N : ℚ) * pd)) := by
    intro k hk
    have hk' : ((k * pd : Nat) : ℚ) ≤ 2 ^ 31 := by exact_mod_cast hk
    push_cast at hk'
    rw [abs_of_nonneg (by positivity), mul_one_div, div_le_div_iff₀ hN' (by positivity)]
    nlinarith
  have boundv : |(pn : ℚ) / pd| ≤ 2 ^ 31 * (1 / ((N : ℚ) * pd)) := by
    have hk' : ((pn * N : Nat) : ℚ) ≤ 2 ^ 31 := by exact_mod_cast hp
    push_cast at hk'
    rw [abs_of_nonneg (by positivity), mul_one_div, div_le_div_iff₀ hpd' (by positivity)]
    nlinarith
  -- distinct distances differ by at least `1 / (N * pd)`
  have gap : ∀ j k : Nat, |(j : ℚ) / N - (pn : ℚ) / pd| < |(k : ℚ) / N - (pn : ℚ) / pd| →
      |(j : ℚ) / N - (pn : ℚ) / pd| + 1 / ((N : ℚ) * pd) ≤ |(k : ℚ) / N - (pn : ℚ) / pd| := by
    intro j k h
    rw [dist_common j pn pd N hpd hN, dist_common k pn pd N hpd hN] at h ⊢
    have h2 := lt_of_mul_lt_mul_right h hg.le
    have h3 : (((j * pd : Nat) : Int) - ((pn * N : Nat) : Int)).natAbs + 1
        ≤ (((k * pd : Nat) : Int) - ((pn * N : Nat) : Int)).natAbs := by exact_mod_cast h2
    have h4 : (((((j * pd : Nat) : Int) - ((pn * N : Nat) : Int)).natAbs : ℚ) + 1)
        ≤ ((((k * pd : Nat) : Int) - ((pn * N : Nat) : Int)).natAbs : ℚ) := by exact_mod_cast h3
    have := mul_le_mul_of_nonneg_right h4 hg.le
    linarith
  constructor
  · intro h
    have := near_compare _ _ _ X Y V A B _ _ hX hY hV hA hB (bound l hl) (bound u hu) boundv
      hg (le_refl _) (gap l u h)
    rw [hnc]
    exact decide_eq_true this
  · intro h
    have := near_compare _ _ _ Y X V B A _ _ hY hX hV hB hA (bound u hu) (bound l hl) boundv
      hg (le_refl _) (gap u l h)
    rw [hnc]
    exact decide_eq_false (not_lt.mpr this.le)

/-- On fractions over powers of two up to `2^30` every double of the `near`
case is exact, and the test is the exact comparison of the two distances. -/
theorem near_closer_dyadic (l u n a b : Nat) (ha : a ≤ 30) (hb : b ≤ 30)
    (hl : l ≤ 2 ^ b) (hu : u ≤ 2 ^ b) (hn : n ≤ 2 ^ a) :
    near_closer ⟨(l : Int), 2 ^ b⟩ ⟨(u : Int), 2 ^ b⟩ ⟨(n : Int), 2 ^ a⟩
      = decide (|(⟨(l : Int), 2 ^ b⟩ : Rational).toRat - (⟨(n : Int), 2 ^ a⟩ : Rational).toRat|
          < |(⟨(u : Int), 2 ^ b⟩ : Rational).toRat - (⟨(n : Int), 2 ^ a⟩ : Rational).toRat|) := by
  have p30 : ∀ c : Nat, c ≤ 30 → 2 ^ c < 2 ^ 53 := fun c hc =>
    Nat.pow_lt_pow_right (by norm_num) (by omega)
  have hval : ∀ (k c : Nat), k ≤ 2 ^ c → c ≤ 30 →
      ∃ s m e, (⟨(k : Int), 2 ^ c⟩ : Rational).value = .fin s m e ∧
        Double.toRat (.fin s m e) = (⟨(k : Int), 2 ^ c⟩ : Rational).toRat := by
    intro k c hk hc
    have hk53 : k < 2 ^ 53 := lt_of_le_of_lt hk (p30 c hc)
    apply value_exact
    · show (2 : Int) ^ c ≠ 0
      positivity
    · exact representable_int _ (by simpa using hk53)
    · refine representable_int _ ?_
      show ((2 : Int) ^ c).natAbs < 2 ^ 53
      rw [Int.natAbs_pow]
      exact p30 c hc
    · exact representable_dyadic k c hk53
  have hdiff : ∀ (k : Nat), k ≤ 2 ^ b →
      representable ((⟨(k : Int), 2 ^ b⟩ : Rational).toRat
        - (⟨(n : Int), 2 ^ a⟩ : Rational).toRat) := by
    intro k hk
    have := representable_dyadic_sub k n a b hk hn (by omega) (by omega)
    simpa [Rational.toRat] using this
  exact near_closer_exact ⟨(l : Int), 2 ^ b⟩ ⟨(u : Int), 2 ^ b⟩ ⟨(n : Int), 2 ^ a⟩
    (hval l b hl hb) (hval u b hu hb) (hval n a hn ha) (hdiff l hl) (hdiff u hu)

/-- C15, amended: for a fraction strictly between 0 and 1 and a new denominator
`d > 0` without overflow in `round` (`num * d + denom - 1` fits the 32-bit
`int`), `round(d, near)` is `round(d, down)` when the exact distance of that
candidate to `num/denom` is strictly the smaller one, and `round(d, up)` when
the exact distance of that candidate is strictly the smaller one: the rounding
errors of the `double` arithmetic never reverse a strict comparison.  When the
two distances are equal the result is one of the two candidates; it is
`round(d, up)` when `denom` and `d` are powers of two (all doubles are exact
then). -/
theorem C15_round_near (r : Rational) (d : Int) (h0 : 0 < r.num) (h1 : r.num < r.denom)
    (hd : 0 < d) (hfit : r.num * d + r.denom - 1 < 2 ^ 31) :
    ∃ lb ub : Rational,
      r.round near_closer d .down = some lb ∧ r.round near_closer d .up = some ub ∧
      (|lb.toRat - r.toRat| < |ub.toRat - r.toRat| →
        r.round near_closer d .near = some lb) ∧
      (|ub.toRat - r.toRat| < |lb.toRat - r.toRat| →
        r.round near_closer d .near = some ub) ∧
      (r.round near_closer d .near = some lb ∨ r.round near_closer d .near = some ub) ∧
      ((∃ a b : Nat, r.denom = 2 ^ a ∧ d = 2 ^ b) →
        |lb.toRat - r.toRat| = |ub.toRat - r.toRat| →
        r.round near_closer d .near = some ub) := by
  obtain ⟨pnI, pdI⟩ := r
  simp only at h0 h1 hfit ⊢
  lift pnI to Nat using h0.le with pn
  lift pdI to Nat using (by omega : 0 ≤ pdI) with pd
  lift d to Nat using hd.le with N
  have hpn : 0 < pn := by exact_mod_cast h0
  have hlt : pn < pd := by exact_mod_cast h1
  have hN : 0 < N := by exact_mod_cast hd
  have hfit' : pn * N + pd ≤ 2 ^ 31 := by
    have : ((pn * N : Nat) : Int) + (pd : Int) ≤ 2 ^ 31 := by
      push_cast
      omega
    exact_mod_cast this
  have hpd : 0 < pd := by omega
  have hN31 : N ≤ 2 ^ 31 := by
    have : 1 * N ≤ pn * N := Nat.mul_le_mul_right N hpn
    omega
  obtain ⟨l, u, hl, hu, hlN, huN, hlp, hup⟩ := round_candidates pn pd N hlt hN hfit'
  obtain ⟨c1, c2⟩ := near_closer_correct l u pn pd N hpd hN hlp hup (by omega) (by omega) hN31
  have hnear : Rational.round near_closer ⟨(pn : Int), (pd : Int)⟩ (N : Int) .near
      = some (if near_closer ⟨(l : Int), (N : Int)⟩ ⟨(u : Int), (N : Int)⟩
          ⟨(pn : Int), (pd : Int)⟩ = true then ⟨(l : Int), (N : Int)⟩
        else ⟨(u : Int), (N : Int)⟩) := by
    simp only [Rational.round, hl, hu, Option.bind_eq_bind, Option.some_bind, Option.pure_def]
  refine ⟨⟨(l : Int), (N : Int)⟩, ⟨(u : Int), (N : Int)⟩, hl, hu, ?_, ?_, ?_, ?_⟩
  · intro h
    rw [hnear, if_pos (c1 h)]
  · intro h
    rw [hnear, c2 h]
    rfl
  · rw [hnear]
    by_cases hc : near_closer ⟨(l : Int), (N : Int)⟩ ⟨(u : Int), (N : Int)⟩
        ⟨(pn : Int), (pd : Int)⟩ = true
    · left; rw [if_pos hc]
    · right; rw [if_neg hc]
  · rintro ⟨a, b, ha, hb⟩ htie
    have ha' : pd = 2 ^ a := by exact_mod_cast ha
    have hb' : N = 2 ^ b := by exact_mod_cast hb
    subst ha' hb'
    have ha30 : a ≤ 30 := by
      have : 2 ^ a < 2 ^ 31 := by
        have : 0 < pn * 2 ^ b := Nat.mul_pos hpn hN
        omega
      have := (Nat.pow_lt_pow_iff_right (by norm_num : 1 < 2)).mp this
      omega
    have hb30 : b ≤ 30 := by
      have : 2 ^ b < 2 ^ 31 := by
        have : 1 * 2 ^ b ≤ pn * 2 ^ b := Nat.mul_le_mul_right _ hpn
        omega
      have := (Nat.pow_lt_pow_iff_right (by norm_num : 1 < 2)).mp this
      omega
    have hd := near_closer_dyadic l u pn a b ha30 hb30 hlN huN hlt.le
    have ca : (((2 ^ a : Nat) : Int)) = (2 : Int) ^ a := by push_cast; rfl
    have cb : (((2 ^ b : Nat) : Int)) = (2 : Int) ^ b := by push_cast; rfl
    rw [ca, cb] at hnear htie ⊢
    rw [hnear, hd, if_neg]
    simp only [decide_eq_true_eq, not_lt]
    exact htie.ge

/-- Witness of C15 (amended) on the weight `1/3` and the new denominator 8:
the candidates are `2/8` and `3/8`, at the distances `1/12` and `1/24`, and
`near` returns `3/8`. -/
theorem C15_round_near_witness :
    (∃ lb ub : Rational,
      (⟨1, 3⟩ : Rational).round near_closer 8 .down = some lb ∧
      (⟨1, 3⟩ : Rational).round near_closer 8 .up = some ub ∧
      (|lb.toRat - (⟨1, 3⟩ : Rational).toRat| < |ub.toRat - (⟨1, 3⟩ : Rational).toRat| →
        (⟨1, 3⟩ : Rational).round near_closer 8 .near = some lb) ∧
      (|ub.toRat - (⟨1, 3⟩ : Rational).toRat| < |lb.toRat - (⟨1, 3⟩ : Rational).toRat| →
        (⟨1, 3⟩ : Rational).round near_closer 8 .near = some ub) ∧
      ((⟨1, 3⟩ : Rational).round near_closer 8 .near = some lb ∨
        (⟨1, 3⟩ : Rational).round near_closer 8 .near = some ub) ∧
      ((∃ a b : Nat, (⟨1, 3⟩ : Rational).denom = 2 ^ a ∧ (8 : Int) = 2 ^ b) →
        |lb.toRat - (⟨1, 3⟩ : Rational).toRat| = |ub.toRat - (⟨1, 3⟩ : Rational).toRat| →
        (⟨1, 3⟩ : Rational).round near_closer 8 .near = some ub)) ∧
    (⟨1, 3⟩ : Rational).round near_closer 8 .near = some ⟨3, 8⟩ :=
  ⟨C15_round_near ⟨1, 3⟩ 8 (by decide) (by decide) (by decide) (by decide), by decide⟩

theorem binValue_snoc (a : Nat → Bool) (v : Int) : ∀ P : List Int,
    binValue a (P ++ [v]) = binValue a P + (if litTrue a v then 2 ^ P.length else 0) := by
  intro P
  induction P with
  | nil => simp [binValue]
  | cons p P ih =>
    show (if litTrue a p then 1 else 0) + 2 * binValue a (P ++ [v]) = _
    rw [ih]
    simp only [binValue, List.length_cons, pow_succ]
    by_cases hv : litTrue a v = true
    · simp only [hv, if_true]; ring
    · have hvf : litTrue a v = false := by simpa using hv
      simp only [hvf, Bool.false_eq_true, if_false]; ring

theorem binValue_lt (a : Nat → Bool) : ∀ P : List Int, binValue a P < 2 ^ P.length := by
  intro P
  induction P with
  | nil => simp [binValue]
  | cons p P ih =>
    simp only [binValue, List.length_cons, pow_succ]
    split <;> omega

/-- Invariant of the loop of `chain_formula`, pointwise: after the bits below
`bit`, an assignment satisfies the clauses exactly when its binary value on the
variables seen so far is at least `2^bit - k mod 2^bit`. -/
theorem chainLoop_sem (k : Nat) :
    ∀ (R P : List Int) (cl : List Clause),
      P.length + R.length ≤ 31 →
      (∀ a, cnfSat a cl = decide (2 ^ P.length ≤ binValue a P + k % 2 ^ P.length)) →
      ∃ cl2, chainLoop (k : Int) R P.length cl = some cl2 ∧
        ∀ a, cnfSat a cl2
          = decide (2 ^ (P.length + R.length)
              ≤ binValue a (P ++ R) + k % 2 ^ (P.length + R.length)) := by
  intro R
  induction R with
  | nil =>
    intro P cl _ h
    exact ⟨cl, rfl, by simpa using h⟩
  | cons v R ih =>
    intro P cl hlen hinv
    have hlt : P.length < 31 := by simp at hlen; omega
    have hlen2 : (P ++ [v]).length + R.length ≤ 31 := by
      simp at hlen ⊢; omega
    have e1 : (P ++ [v]) ++ R = P ++ v :: R := by simp
    have e2 : (P ++ [v]).length + R.length = P.length + (v :: R).length := by
      simp only [List.length_append, List.length_cons, List.length_nil]; omega
    have e3 : (P ++ [v]).length = P.length + 1 := by simp
    have hmodlt : k % 2 ^ P.length < 2 ^ P.length := Nat.mod_lt _ (Nat.two_pow_pos _)
    by_cases hbit : k / 2 ^ P.length % 2 = 1
    · have hpos : Int.land (k : Int) (2 ^ P.length) > 0 := (land_two_pow_pos k P.length).mpr hbit
      obtain ⟨cl2, h1, h2⟩ := ih (P ++ [v]) (cl.map fun c => c ++ [v]) hlen2
        (by
          intro a
          have hb := binValue_lt a P
          rw [cnfSat_map_snoc, hinv, binValue_snoc, e3, Nat.mod_pow_succ, hbit, pow_succ]
          by_cases hv : litTrue a v = true
          · simp only [hv, if_true, Bool.true_or]
            symm; rw [decide_eq_true_eq]; omega
          · have hvf : litTrue a v = false := by simpa using hv
            simp only [hvf, Bool.false_or, Bool.false_eq_true, if_false]
            congr 1
            apply propext
            constructor <;> intro h <;> omega)
      refine ⟨cl2, ?_, ?_⟩
      · simp only [chainLoop, shl1_of_lt hlt, Option.bind_eq_bind, Option.some_bind, hpos,
          if_true]
        simpa using h1
      · intro a
        rw [← e1, ← e2]
        exact h2 a
    · have hzero : k / 2 ^ P.length % 2 = 0 := by omega
      have hnpos : ¬ Int.land (k : Int) (2 ^ P.length) > 0 := by
        rw [land_two_pow_pos]; exact hbit
      obtain ⟨cl2, h1, h2⟩ := ih (P ++ [v]) (cl ++ [[v]]) hlen2
        (by
          intro a
          have hb := binValue_lt a P
          have hsingle : cnfSat a [[v]] = litTrue a v := by simp [cnfSat, clauseSat]
          rw [cnfSat_append, hinv, hsingle, binValue_snoc, e3, Nat.mod_pow_succ, hzero,
            pow_succ]
          by_cases hv : litTrue a v = true
          · simp only [hv, if_true, Bool.and_true]
            congr 1
            apply propext
            constructor <;> intro h <;> omega
          · have hvf : litTrue a v = false := by simpa using hv
            simp only [hvf, Bool.and_false, Bool.false_eq_true, if_false]
            symm; rw [decide_eq_false_iff_not]; omega)
      refine ⟨cl2, ?_, ?_⟩
      · simp only [chainLoop, shl1_of_lt hlt, Option.bind_eq_bind, Option.some_bind, hnpos,
          if_false]
        simpa using h1
      · intro a
        rw [← e1, ← e2]
        exact h2 a

/-- The clauses of `chain_formula` over at most 30 literals select the top `k`
assignments: an assignment satisfies them exactly when its binary value is at
least `2^n - k`. -/
theorem chain_formula_sem (vars : List Int) (k : Nat) (hnz : ∀ v ∈ vars, v ≠ 0)
    (hn : vars.length ≤ 30) (hk : k ≤ 2 ^ vars.length) (hne : vars ≠ [] ∨ k ≠ 0) :
    ∃ cs, chain_formula vars (k : Int) = some cs ∧
      ∀ a, cnfSat a cs = decide (2 ^ vars.length ≤ binValue a vars + k) := by
  have hshl : shl1 vars.length = some (2 ^ vars.length) := shl1_of_lt (by omega)
  by_cases hk0 : k = 0
  · subst hk0
    cases vars with
    | nil => simp at hne
    | cons v rest =>
      refine ⟨[[v], [-v]], by simp [chain_formula], ?_⟩
      intro a
      have hv : v ≠ 0 := hnz v (List.mem_cons_self _ _)
      have hb := binValue_lt a (v :: rest)
      have : cnfSat a [[v], [-v]] = false := by
        simp [cnfSat, clauseSat, litTrue_neg a v hv]
      rw [this]
      symm; rw [decide_eq_false_iff_not]; omega
  by_cases hfull : k = 2 ^ vars.length
  · refine ⟨[], ?_, ?_⟩
    · have hkI : ¬ ((k : Int) = 0) := by exact_mod_cast hk0
      have hfI : (k : Int) = 2 ^ vars.length := by exact_mod_cast hfull
      simp [chain_formula, hkI, hshl, hfI]
    · intro a
      simp [cnfSat, hfull]
  have hk0' : 0 < k := Nat.pos_of_ne_zero hk0
  have hklt : k < 2 ^ vars.length := lt_of_le_of_ne hk hfull
  obtain ⟨b, v, hbn, hv, hmod, hbit, hloop⟩ := chain_formula_loop vars k hn hk0' hklt
  have hvb : vars[b] = v := by
    rw [List.getElem?_eq_getElem hbn] at hv
    exact Option.some.inj hv
  have htake : vars.take (b + 1) = vars.take b ++ [v] := by
    rw [List.take_succ, hv]; rfl
  have hlenb : (vars.take b).length = b := by
    rw [List.length_take]; omega
  have hlenP : (vars.take (b + 1)).length = b + 1 := by
    rw [List.length_take]; omega
  have hsplit : vars.take (b + 1) ++ vars.drop (b + 1) = vars := List.take_append_drop _ _
  have hlenR : (vars.take (b + 1)).length + (vars.drop (b + 1)).length = vars.length := by
    rw [← List.length_append, hsplit]
  obtain ⟨cs, h1, h2⟩ := chainLoop_sem k (vars.drop (b + 1)) (vars.take (b + 1)) [[v]]
    (by omega)
    (by
      intro a
      have hb := binValue_lt a (vars.take b)
      have hsingle : cnfSat a [[v]] = litTrue a v := by simp [cnfSat, clauseSat]
      rw [hsingle, hlenP, htake, binValue_snoc, hlenb, Nat.mod_pow_succ, hmod, hbit,
        pow_succ]
      rw [hlenb] at hb
      by_cases hvt : litTrue a v = true
      · simp only [hvt, if_true]
        symm; rw [decide_eq_true_eq]; omega
      · have hvf : litTrue a v = false := by simpa using hvt
        simp only [hvf, Bool.false_eq_true, if_false]
        symm; rw [decide_eq_false_iff_not]; omega)
  rw [hlenP] at h1
  refine ⟨cs, by rw [hloop]; exact h1, ?_⟩
  intro a
  rw [h2 a, hlenR, hsplit, Nat.mod_eq_of_lt hklt]

theorem binValue_neg (a : Nat → Bool) : ∀ (vars : List Int), (∀ v ∈ vars, v ≠ 0) →
    binValue a (vars.map fun v => -v) + binValue a vars + 1 = 2 ^ vars.length := by
  intro vars
  induction vars with
  | nil => intro _; simp [binValue]
  | cons v rest ih =>
    intro h
    have hv : v ≠ 0 := h v (List.mem_cons_self _ _)
    have := ih (fun w hw => h w (List.mem_cons_of_mem _ hw))
    simp only [List.map_cons, binValue, litTrue_neg a v hv, List.length_cons, pow_succ]
    cases litTrue a v <;> simp <;> omega

theorem chainLoop_mem (k : Int) (S : List Int) :
    ∀ (R : List Int) (bit : Nat) (cl cl2 : List Clause),
      chainLoop k R bit cl = some cl2 →
      (∀ c ∈ cl, ∀ l ∈ c, l ∈ S) → (∀ v ∈ R, v ∈ S) →
      ∀ c ∈ cl2, ∀ l ∈ c, l ∈ S := by
  intro R
  induction R with
  | nil =>
    intro bit cl cl2 h hcl _
    simp only [chainLoop, Option.some.injEq] at h
    subst h
    exact hcl
  | cons v R ih =>
    intro bit cl cl2 h hcl hR
    have hvS : v ∈ S := hR v (List.mem_cons_self _ _)
    have hRS : ∀ w ∈ R, w ∈ S := fun w hw => hR w (List.mem_cons_of_mem _ hw)
    unfold chainLoop at h
    cases hs : shl1 bit with
    | none => simp [hs] at h
    | some s =>
      simp only [hs, Option.bind_eq_bind, Option.some_bind] at h
      by_cases hc : Int.land k s > 0
      · rw [if_pos hc] at h
        refine ih _ _ _ h ?_ hRS
        intro c hcm l hl
        simp only [List.mem_map] at hcm
        obtain ⟨c0, hc0, rfl⟩ := hcm
        simp only [List.mem_append, List.mem_singleton] at hl
        rcases hl with hl | hl
        · exact hcl c0 hc0 l hl
        · rw [hl]; exact hvS
      · rw [if_neg hc] at h
        refine ih _ _ _ h ?_ hRS
        intro c hcm l hl
        simp only [List.mem_append, List.mem_singleton] at hcm
        rcases hcm with hcm | hcm
        · exact hcl c hcm l hl
        · subst hcm
          simp only [List.mem_singleton] at hl
          rw [hl]; exact hvS

/-- C21: every clause that `chain_formula` returns is made of the given
variables only: each literal or its negation is an element of `vars`, and for
`k ≠ 0` each literal is itself an element of `vars`; for a non-empty list of at
most 30 variables and `0 ≤ k ≤ 2^n` the function does return. -/
theorem C21_chain_formula_no_new_variable :
    (∀ (vars : List Int) (k : Int) (cs : List Clause), chain_formula vars k = some cs →
      ∀ c ∈ cs, ∀ l ∈ c, (l ∈ vars ∨ -l ∈ vars) ∧ (k ≠ 0 → l ∈ vars)) ∧
    (∀ (vars : List Int) (k : Int), vars ≠ [] → vars.length ≤ 30 → 0 ≤ k →
      k ≤ 2 ^ vars.length → ∃ cs, chain_formula vars k = some cs) := by
  constructor
  · intro vars k cs h c hc l hl
    unfold chain_formula at h
    by_cases hk : k = 0
    · rw [if_pos hk] at h
      cases vars with
      | nil => simp at h
      | cons v rest =>
        simp only [Option.some.injEq] at h
        subst h
        simp only [List.mem_cons, List.mem_singleton, List.not_mem_nil, or_false] at hc
        rcases hc with rfl | rfl
        · simp only [List.mem_singleton] at hl
          subst hl
          exact ⟨Or.inl (List.mem_cons_self _ _), fun hne => absurd hk hne⟩
        · simp only [List.mem_singleton] at hl
          subst hl
          refine ⟨Or.inr (by simp), fun hne => absurd hk hne⟩
    · rw [if_neg hk] at h
      cases hs : shl1 vars.length with
      | none => simp [hs] at h
      | some full =>
        simp only [hs, Option.bind_eq_bind, Option.some_bind] at h
        by_cases h1 : k = full
        · rw [if_pos h1] at h
          simp only [Option.pure_def, Option.some.injEq] at h
          subst h
          simp at hc
        rw [if_neg h1] at h
        by_cases h2 : k ≥ full
        · rw [if_pos h2] at h
          simp only [Option.pure_def, Option.some.injEq] at h
          subst h
          simp at hc
        rw [if_neg h2] at h
        cases hb : skipZeroBits k 32 0 with
        | none => simp [hb] at h
        | some bit =>
          simp only [hb, Option.some_bind] at h
          cases hv : vars[bit]? with
          | none => simp [hv] at h
          | some v =>
            simp only [hv, Option.some_bind] at h
            have hvm : v ∈ vars := by
              obtain ⟨hlt, hget⟩ := List.getElem?_eq_some_iff.mp hv
              rw [← hget]
              exact List.getElem_mem _
            have := chainLoop_mem k vars _ _ _ _ h
              (by
                intro c0 hc0 l0 hl0
                simp only [List.mem_singleton] at hc0
                subst hc0
                simp only [List.mem_singleton] at hl0
                rw [hl0]; exact hvm)
              (fun w hw => List.mem_of_mem_drop hw) c hc l hl
            exact ⟨Or.inl this, fun _ => this⟩
  · intro vars k hne hn hk0 hk
    lift k to Nat using hk0
    have hshl : shl1 vars.length = some (2 ^ vars.length) := shl1_of_lt (by omega)
    by_cases hz : k = 0
    · subst hz
      cases vars with
      | nil => exact absurd rfl hne
      | cons v rest => exact ⟨[[v], [-v]], by simp [chain_formula]⟩
    have hkI : ¬ ((k : Int) = 0) := by exact_mod_cast hz
    by_cases hfull : (k : Int) = 2 ^ vars.length
    · exact ⟨[], by simp [chain_formula, hkI, hshl, hfull]⟩
    have hklt : k < 2 ^ vars.length := by
      have : k ≤ 2 ^ vars.length := by exact_mod_cast hk
      have hne2 : k ≠ 2 ^ vars.length := by
        intro h; apply hfull; exact_mod_cast h
      omega
    obtain ⟨b, v, hbn, _, _, _, hloop⟩ :=
      chain_formula_loop vars k hn (Nat.pos_of_ne_zero hz) hklt
    obtain ⟨cs, hcs⟩ := chainLoop_some (k : Int) (vars.drop (b + 1)) (b + 1) [[v]]
      (by simp; omega)
    exact ⟨cs, by rw [hloop]; exact hcs⟩

/-- Witness of C21: the clauses for `k = 5` over the variables 4, 5, 6. -/
theorem C21_chain_formula_no_new_variable_witness :
    chain_formula [4, 5, 6] 5 = some [[4, 6], [5, 6]] ∧
    ∀ c ∈ ([[4, 6], [5, 6]] : List Clause), ∀ l ∈ c,
      (l ∈ ([4, 5, 6] : List Int) ∨ -l ∈ ([4, 5, 6] : List Int)) ∧
        ((5 : Int) ≠ 0 → l ∈ ([4, 5, 6] : List Int)) :=
  ⟨by decide, C21_chain_formula_no_new_variable.1 [4, 5, 6] 5 [[4, 6], [5, 6]] (by decide)⟩

/-- C22: in `reduce_dyadic` the two branches partition the auxiliary space.
For `b ≤ 30` auxiliary variables and `approx = a/2^b` with `0 < a < 2^b`, both
calls of `chain_formula` return, and every assignment satisfies exactly one of
the clause sets `chain_formula(aux, a)` of the positive branch and
`chain_formula(negated aux, 2^b - a)` of the negative branch. -/
theorem C22_dyadic_branches_partition (aux : List Int) (a : Nat)
    (hpos : ∀ v ∈ aux, 0 < v) (hb : aux.length ≤ 30) (ha0 : 0 < a) (ha1 : a < 2 ^ aux.length) :
    ∃ cs1 cs2 : List Clause,
      chain_formula aux (⟨(a : Int), 2 ^ aux.length⟩ : Rational).num = some cs1 ∧
      chain_formula (aux.map fun v => -v)
        (⟨(a : Int), 2 ^ aux.length⟩ : Rational).complement.num = some cs2 ∧
      ∀ asg : Nat → Bool, cnfSat asg cs1 = !cnfSat asg cs2 := by
  have hnz : ∀ v ∈ aux, v ≠ 0 := fun v hv => by have := hpos v hv; omega
  have hnz2 : ∀ v ∈ aux.map (fun v => -v), v ≠ 0 := by
    intro v hv
    simp only [List.mem_map] at hv
    obtain ⟨w, hw, rfl⟩ := hv
    have := hpos w hw
    omega
  have hne : aux ≠ [] := by
    intro h
    rw [h] at ha1
    simp at ha1
    omega
  obtain ⟨cs1, h1, s1⟩ := chain_formula_sem aux a hnz hb ha1.le (Or.inl hne)
  have hlen : (aux.map fun v => -v).length = aux.length := List.length_map _ _
  obtain ⟨cs2, h2, s2⟩ := chain_formula_sem (aux.map fun v => -v) (2 ^ aux.length - a) hnz2
    (by rw [hlen]; exact hb) (by rw [hlen]; omega) (Or.inl (by simpa using hne))
  have hcomp : (⟨(a : Int), 2 ^ aux.length⟩ : Rational).complement.num
      = ((2 ^ aux.length - a : Nat) : Int) := by
    simp only [Rational.complement]
    rw [Nat.cast_sub ha1.le]
    push_cast
    rfl
  refine ⟨cs1, cs2, h1, by rw [hcomp]; exact h2, ?_⟩
  intro asg
  rw [s1, s2, hlen]
  have hneg := binValue_neg asg aux hnz
  have hlt := binValue_lt asg aux
  by_cases h : 2 ^ aux.length ≤ binValue asg aux + a
  · have h' : ¬ (2 ^ aux.length ≤ binValue asg (aux.map fun v => -v) + (2 ^ aux.length - a)) := by
      omega
    simp [h, h']
  · have h' : 2 ^ aux.length ≤ binValue asg (aux.map fun v => -v) + (2 ^ aux.length - a) := by
      omega
    simp [h, h']

/-- Witness of C22: the weight `3/4` over the auxiliary variables 2 and 3. -/
theorem C22_dyadic_branches_partition_witness :
    ∃ cs1 cs2 : List Clause,
      chain_formula [2, 3] (⟨((3 : Nat) : Int), 2 ^ ([2, 3] : List Int).length⟩ : Rational).num
        = some cs1 ∧
      chain_formula (([2, 3] : List Int).map fun v => -v)
        (⟨((3 : Nat) : Int), 2 ^ ([2, 3] : List Int).length⟩ : Rational).complement.num
        = some cs2 ∧
      ∀ asg : Nat → Bool, cnfSat asg cs1 = !cnfSat asg cs2 :=
  C22_dyadic_branches_partition [2, 3] 3 (by decide) (by decide) (by decide) (by decide)

/-- C23, as stated, fails: over 31 pairwise distinct variables (and `k = 1`,
within `0 ≤ k ≤ 2^31`) the shift `1 << 31` does not fit the `int`, and
`chain_formula` yields no defined clause set. -/
theorem C23_counterexample :
    1 ≤ ((List.range' 1 31).map Int.ofNat).length ∧
    ((List.range' 1 31).map Int.ofNat).Nodup ∧
    (0 : Int) ≤ 1 ∧ (1 : Int) ≤ 2 ^ ((List.range' 1 31).map Int.ofNat).length ∧
    chain_formula ((List.range' 1 31).map Int.ofNat) 1 = none := by
  refine ⟨by decide, by decide, by decide, by decide, by decide⟩

/-- C23, amended: for every list `vars` of `1 ≤ n ≤ 30` variables and every `k`
with `0 ≤ k ≤ 2^n`, `chain_formula vars k` returns a clause set that an
assignment satisfies if and only if its binary value, the sum over `i` of `2^i`
for each `vars[i]` assigned true, is at least `2^n - k`. -/
theorem C23_chain_formula_top_k (vars : List Int) (k : Int)
    (hpos : ∀ v ∈ vars, 0 < v) (hn1 : 1 ≤ vars.length) (hn : vars.length ≤ 30)
    (hk0 : 0 ≤ k) (hk : k ≤ 2 ^ vars.length) :
    ∃ cs, chain_formula vars k = some cs ∧
      ∀ a : Nat → Bool,
        cnfSat a cs = true ↔ (2 : Int) ^ vars.length - k ≤ (binValue a vars : Int) := by
  lift k to Nat using hk0
  have hnz : ∀ v ∈ vars, v ≠ 0 := fun v hv => by have := hpos v hv; omega
  have hne : vars ≠ [] := by
    intro h; rw [h] at hn1; simp at hn1
  have hk2 : k ≤ 2 ^ vars.length := by exact_mod_cast hk
  obtain ⟨cs, h1, h2⟩ := chain_formula_sem vars k hnz hn hk2 (Or.inl hne)
  refine ⟨cs, h1, ?_⟩
  intro a
  rw [h2 a, decide_eq_true_eq]
  constructor
  · intro h
    have : ((2 ^ vars.length : Nat) : Int) ≤ ((binValue a vars + k : Nat) : Int) := by
      exact_mod_cast h
    push_cast at this
    linarith
  · intro h
    have : ((2 ^ vars.length : Nat) : Int) ≤ ((binValue a vars + k : Nat) : Int) := by
      push_cast
      linarith
    exact_mod_cast this

/-- Witness of C23: `k = 5` over the variables 1, 2, 3. -/
theorem C23_chain_formula_top_k_witness :
    ∃ cs, chain_formula [1, 2, 3] 5 = some cs ∧
      ∀ a : Nat → Bool,
        cnfSat a cs = true
          ↔ (2 : Int) ^ ([1, 2, 3] : List Int).length - 5 ≤ (binValue a [1, 2, 3] : Int) :=
  C23_chain_formula_top_k [1, 2, 3] 5 (by decide) (by decide) (by decide) (by decide)
    (by decide)

theorem natAbs_tmod (a b : Int) : (Int.tmod a b).natAbs = a.natAbs % b.natAbs := by
  cases a <;> cases b <;> simp [Int.tmod] <;> norm_cast

/-- The loop of `std::__gcd` on arguments of any sign: up to sign, the result
is the greatest common divisor of the absolute values. -/
theorem gcdLoop_natAbs : ∀ (fuel : Nat) (m n : Int), n.natAbs < fuel →
    (gcdLoop fuel m n).natAbs = Nat.gcd m.natAbs n.natAbs := by
  intro fuel
  induction fuel with
  | zero => intro m n h; omega
  | succ fuel ih =>
    intro m n h
    by_cases hn : n = 0
    · subst hn
      simp [gcdLoop]
    · have hpos : 0 < n.natAbs := Int.natAbs_pos.mpr hn
      have hlt : (Int.tmod m n).natAbs < n.natAbs := by
        rw [natAbs_tmod]; exact Nat.mod_lt _ hpos
      simp only [gcdLoop, hn, if_false]
      rw [ih n (Int.tmod m n) (by omega), natAbs_tmod,
        Nat.gcd_comm n.natAbs (m.natAbs % n.natAbs), ← Nat.gcd_rec, Nat.gcd_comm]

theorem std_gcd_natAbs (m n : Int) : (std_gcd m n).natAbs = Nat.gcd m.natAbs n.natAbs := by
  unfold std_gcd
  exact gcdLoop_natAbs _ m n (by omega)

theorem std_gcd_eq_zero (m n : Int) : std_gcd m n = 0 ↔ m = 0 ∧ n = 0 := by
  rw [← Int.natAbs_eq_zero, std_gcd_natAbs, Nat.gcd_eq_zero_iff, Int.natAbs_eq_zero,
    Int.natAbs_eq_zero]

theorem std_gcd_dvd_left (m n : Int) : std_gcd m n ∣ m := by
  rw [← Int.natAbs_dvd_natAbs, std_gcd_natAbs]
  exact Nat.gcd_dvd_left _ _

theorem std_gcd_dvd_right (m n : Int) : std_gcd m n ∣ n := by
  rw [← Int.natAbs_dvd_natAbs, std_gcd_natAbs]
  exact Nat.gcd_dvd_right _ _

/-- The division of `reduce` is undefined exactly when both counts and the
denominator are zero. -/
theorem reduced_counts_none (pos neg : Rational) :
    reduced_counts pos neg = none ↔ common_denom pos neg = (0, 0, 0) := by
  unfold reduced_counts
  generalize common_denom pos neg = cd
  obtain ⟨ps, ns, dd⟩ := cd
  simp only
  by_cases hg : std_gcd (std_gcd ps ns) dd = 0
  · have h1 := (std_gcd_eq_zero _ _).mp hg
    have h2 := (std_gcd_eq_zero _ _).mp h1.1
    obtain ⟨ha, hb⟩ := h2
    obtain ⟨_, hc⟩ := h1
    subst ha hb hc
    simp [idiv, hg]
  · have : ¬ (ps = 0 ∧ ns = 0 ∧ dd = 0) := by
      rintro ⟨a, b, c⟩
      apply hg
      rw [std_gcd_eq_zero, std_gcd_eq_zero]
      exact ⟨⟨a, b⟩, c⟩
    simp only [idiv, hg, if_false, Option.bind_eq_bind, Option.some_bind, Option.pure_def,
      Prod.mk.injEq]
    simp [this]

/-- A variable whose two counts have strictly opposite signs is skipped by
`reduce`, whatever the sign of the value of `std::__gcd`. -/
theorem reduce_step_opposite (f : Formula) (net_denom : Int) (var : Int)
    (hd1 : 0 < (f.get_weight var).denom) (hd2 : 0 < (f.get_weight (-var)).denom)
    (h : ((f.get_weight var).num < 0 ∧ 0 < (f.get_weight (-var)).num) ∨
      (0 < (f.get_weight var).num ∧ (f.get_weight (-var)).num < 0)) :
    reduce_step f net_denom var = some (f, net_denom) := by
  unfold reduce_step
  generalize f.get_weight var = pos at hd1 h ⊢
  generalize f.get_weight (-var) = neg at hd2 h ⊢
  obtain ⟨ps, ns, dd, hcd, hsign⟩ : ∃ ps ns dd, common_denom pos neg = (ps, ns, dd) ∧
      ((ps < 0 ∧ 0 < ns) ∨ (0 < ps ∧ ns < 0)) := by
    unfold common_denom
    by_cases he : pos.denom = neg.denom
    · exact ⟨_, _, _, by rw [if_pos he], h⟩
    · refine ⟨_, _, _, by rw [if_neg he], ?_⟩
      rcases h with ⟨a, b⟩ | ⟨a, b⟩
      · exact Or.inl ⟨mul_neg_of_neg_of_pos a hd2, mul_pos b hd1⟩
      · exact Or.inr ⟨mul_pos a hd2, mul_neg_of_neg_of_pos b hd1⟩
  have hg : std_gcd (std_gcd ps ns) dd ≠ 0 := by
    intro hz
    have h1 := (std_gcd_eq_zero _ _).mp hz
    have h2 := (std_gcd_eq_zero _ _).mp h1.1
    rcases hsign with ⟨a, _⟩ | ⟨a, _⟩ <;> omega
  have hdp : std_gcd (std_gcd ps ns) dd ∣ ps :=
    dvd_trans (std_gcd_dvd_left _ _) (std_gcd_dvd_left _ _)
  have hdn : std_gcd (std_gcd ps ns) dd ∣ ns :=
    dvd_trans (std_gcd_dvd_left _ _) (std_gcd_dvd_right _ _)
  have ep := Int.tdiv_mul_cancel hdp
  have en := Int.tdiv_mul_cancel hdn
  have hskip : Int.tdiv ps (std_gcd (std_gcd ps ns) dd) < 0
      ∨ Int.tdiv ns (std_gcd (std_gcd ps ns) dd) < 0 := by
    generalize std_gcd (std_gcd ps ns) dd = g at hg ep en
    generalize Int.tdiv ps g = x at ep
    generalize Int.tdiv ns g = y at en
    by_contra hcon
    push_neg at hcon
    obtain ⟨hx, hy⟩ := hcon
    rcases lt_or_gt_of_ne hg with hgn | hgp
    · have : x * g ≤ 0 := mul_nonpos_of_nonneg_of_nonpos hx hgn.le
      have : y * g ≤ 0 := mul_nonpos_of_nonneg_of_nonpos hy hgn.le
      rcases hsign with ⟨a, b⟩ | ⟨a, b⟩ <;> omega
    · have : 0 ≤ x * g := mul_nonneg hx hgp.le
      have : 0 ≤ y * g := mul_nonneg hy hgp.le
      rcases hsign with ⟨a, b⟩ | ⟨a, b⟩ <;> omega
  simp only [reduced_counts, hcd, idiv, hg, if_false, Option.bind_eq_bind, Option.some_bind,
    Option.pure_def, hskip, if_true]

/-- C24 fails on the code when the sign of `std::__gcd` turns the counts
around.  For the weights `-1/3` and `-2/3` the gcd is `-1`, the counts become
`1` and `2` over `-3`, and `reduce` encodes the variable instead of skipping
it (one auxiliary variable, one clause, factor `-3`); for `-1/2` and `0/2` it
adds the clause `[1]` and returns the factor `-2`.  A variable whose two
weights have strictly opposite signs (over positive denominators) is skipped as
claimed: no clause, no auxiliary variable, the factor unchanged, and the loop
goes on with the remaining free variables. -/
theorem C24_reduce_negative_weights :
    std_gcd (std_gcd (-1) (-2)) 3 = -1 ∧
    reduce ⟨1, 0, [], [], [(1, ⟨-1, 3⟩), (-1, ⟨-2, 3⟩)]⟩
      = some (⟨2, 1, [.clause [-1, 2]], [], [(1, ⟨-1, 3⟩), (-1, ⟨-2, 3⟩)]⟩, -3) ∧
    reduce ⟨1, 0, [], [], [(1, ⟨-1, 2⟩), (-1, ⟨0, 2⟩)]⟩
      = some (⟨1, 1, [.clause [1]], [], [(1, ⟨-1, 2⟩), (-1, ⟨0, 2⟩)]⟩, -2) ∧
    (∀ (f : Formula) (net_denom : Int) (var : Int) (rest : List Int),
      0 < (f.get_weight var).denom → 0 < (f.get_weight (-var)).denom →
      (((f.get_weight var).num < 0 ∧ 0 < (f.get_weight (-var)).num) ∨
        (0 < (f.get_weight var).num ∧ (f.get_weight (-var)).num < 0)) →
      reduce_step f net_denom var = some (f, net_denom) ∧
      reduce_loop (var :: rest) f net_denom = reduce_loop rest f net_denom) := by
  refine ⟨by decide, by decide, by decide, ?_⟩
  intro f net_denom var rest hd1 hd2 h
  have hs := reduce_step_opposite f net_denom var hd1 hd2 h
  refine ⟨hs, ?_⟩
  simp only [reduce_loop, hs, Option.bind_eq_bind, Option.some_bind]

/-- A free variable with the weights `1/1` and `0/1` under rounding `down`:
the rounded weight is `2^b/2^b = 1/1`, no auxiliary variable is allocated and
the call `chain_formula({}, 0)` of the negative branch is undefined. -/
theorem reduce_dyadic_step_one_down (closer : Rational → Rational → Rational → Bool)
    (b : Nat) (hb : b ≤ 30) (f : Formula) (result var : Int)
    (g1 : f.get_weight var = ⟨1, 1⟩) (g2 : f.get_weight (-var) = ⟨0, 1⟩) :
    approx_weight closer b .down (f.get_weight var) = some ⟨2 ^ b, 2 ^ b⟩ ∧
    (⟨2 ^ b, 2 ^ b⟩ : Rational).simplify = some ⟨1, 1⟩ ∧
    reduce_dyadic_step closer b .down f result var = none := by
  have hshl : shl1 b = some (2 ^ b) := shl1_of_lt (by omega)
  have hnn : ¬ ((b : Int) < 0) := by omega
  have hpow : (0 : Int) < 2 ^ b := by positivity
  have hpowne : ((2 : Int) ^ b) ≠ 0 := hpow.ne'
  have hcastp : ((2 ^ b : Nat) : Int) = (2 : Int) ^ b := by push_cast; rfl
  have hs11 : (⟨1, 1⟩ : Rational).simplify = some ⟨1, 1⟩ := by decide
  have hs01 : (⟨0, 1⟩ : Rational).simplify = some ⟨0, 1⟩ := by decide
  have hsP : (⟨2 ^ b, 2 ^ b⟩ : Rational).simplify = some ⟨1, 1⟩ := by
    have := simplify_nat (2 ^ b) (2 ^ b) (Nat.two_pow_pos b)
    rw [hcastp] at this
    rw [this, Nat.gcd_self, Nat.div_self (Nat.two_pow_pos b)]
    rfl
  have hw : wrap32 ((2 : Int) ^ b) = 2 ^ b := by
    have h31 : (2 : Int) ^ b < 2 ^ 31 := by
      have : (2 : Nat) ^ b < 2 ^ 31 := Nat.pow_lt_pow_right (by norm_num) (by omega)
      exact_mod_cast this
    exact wrap32_of_range _ (by linarith) h31
  have hrd : (⟨1, 1⟩ : Rational).round closer (2 ^ b) .down = some ⟨2 ^ b, 2 ^ b⟩ := by
    simp [Rational.round, Rational.roundDown, idiv, hpowne, hw]
  have hbits : bitsNeeded 1 32 0 = some 0 := by decide
  have hc1 : chain_formula [] (1 : Int) = some [] := by decide
  have hc2 : chain_formula [] (0 : Int) = none := by decide
  refine ⟨?_, hsP, ?_⟩
  · rw [g1]
    simp only [approx_weight, hs11, Option.bind_eq_bind, Option.some_bind, hnn, if_false,
      Int.toNat_ofNat, hshl, hrd]
  · unfold reduce_dyadic_step
    rw [g1, g2, hs11, hs01]
    simp only [Option.bind_eq_bind, Option.some_bind]
    rw [if_neg (by decide), if_neg (by decide), if_neg (by decide), if_neg hnn, Int.toNat_ofNat,
      hshl]
    simp only [Option.some_bind, hrd, hsP, hbits]
    rw [if_neg (by decide)]
    simp [allocate_n, hc1, hc2, Rational.complement]

/-- A free variable with the weights `0/1` and `1/1` under rounding `up`: the
rounded weight is `0/2^b = 0/1`, no auxiliary variable is allocated and the
call `chain_formula({}, 0)` of the positive branch is undefined. -/
theorem reduce_dyadic_step_zero_up (closer : Rational → Rational → Rational → Bool)
    (b : Nat) (hb : b ≤ 30) (f : Formula) (result var : Int)
    (g1 : f.get_weight var = ⟨0, 1⟩) (g2 : f.get_weight (-var) = ⟨1, 1⟩) :
    approx_weight closer b .up (f.get_weight var) = some ⟨0, 2 ^ b⟩ ∧
    (⟨0, 2 ^ b⟩ : Rational).simplify = some ⟨0, 1⟩ ∧
    reduce_dyadic_step closer b .up f result var = none := by
  have hshl : shl1 b = some (2 ^ b) := shl1_of_lt (by omega)
  have hnn : ¬ ((b : Int) < 0) := by omega
  have hpow : (0 : Int) < 2 ^ b := by positivity
  have hpowne : ((2 : Int) ^ b) ≠ 0 := hpow.ne'
  have hcastp : ((2 ^ b : Nat) : Int) = (2 : Int) ^ b := by push_cast; rfl
  have hs11 : (⟨1, 1⟩ : Rational).simplify = some ⟨1, 1⟩ := by decide
  have hs01 : (⟨0, 1⟩ : Rational).simplify = some ⟨0, 1⟩ := by decide
  have hsZ : (⟨0, 2 ^ b⟩ : Rational).simplify = some ⟨0, 1⟩ := by
    have := simplify_nat 0 (2 ^ b) (Nat.two_pow_pos b)
    rw [hcastp] at this
    simp only [Nat.cast_zero] at this
    rw [this, Nat.gcd_zero_left, Nat.div_self (Nat.two_pow_pos b), Nat.zero_div]
    rfl
  have hru : (⟨0, 1⟩ : Rational).round closer (2 ^ b) .up = some ⟨0, 2 ^ b⟩ := by
    have : ¬ ((0 : Int) = 2 ^ b) := fun h => hpowne h.symm
    have hw : wrap32 0 = 0 := by decide
    simp [Rational.round, Rational.roundUp, idiv, this, hw]
  have hbits : bitsNeeded 1 32 0 = some 0 := by decide
  have hc2 : chain_formula [] (0 : Int) = none := by decide
  refine ⟨?_, hsZ, ?_⟩
  · rw [g1]
    simp only [approx_weight, hs01, Option.bind_eq_bind, Option.some_bind, hnn, if_false,
      Int.toNat_ofNat, hshl, hru]
  · unfold reduce_dyadic_step
    rw [g1, g2, hs11, hs01]
    simp only [Option.bind_eq_bind, Option.some_bind]
    rw [if_neg (by decide), if_neg (by decide), if_neg (by decide), if_neg hnn, Int.toNat_ofNat,
      hshl]
    simp only [Option.some_bind, hru, hsZ, hbits]
    rw [if_neg (by decide)]
    simp [allocate_n, hc2]

/-- C25 fails on the code for the weights 1 and 0.  On the parsed input
`p cnf 1 0`, `w 1 1` (weights `1/1` and `0/1`, a probabilistic pair with
non-negative numerators) and rounding `down`, the rounded weight is
`2^b/2^b = 1/1`, no auxiliary variable is allocated, and the second call is
`chain_formula({}, 0)`, which reads `vars[0]` of an empty vector.  On `w 1 0`
with rounding `up` the rounded weight is `0/1` and already the first call is
`chain_formula({}, 0)`. -/
theorem C25_reduce_dyadic_empty_vars (closer : Rational → Rational → Rational → Bool)
    (b : Nat) (hb : b ≤ 30) :
    Formula.parse [.p true 1 0, .w true 1 "1"] .detect
      = ⟨1, 0, [.text "c detected weight format: cachet"], [], [(1, ⟨1, 1⟩), (-1, ⟨0, 1⟩)]⟩ ∧
    approx_weight closer b .down ⟨1, 1⟩ = some ⟨2 ^ b, 2 ^ b⟩ ∧
    (⟨2 ^ b, 2 ^ b⟩ : Rational).simplify = some ⟨1, 1⟩ ∧
    bitsNeeded (⟨1, 1⟩ : Rational).denom 32 0 = some 0 ∧
    chain_formula [] (⟨1, 1⟩ : Rational).num = some [] ∧
    chain_formula ([].map fun v => -v) (⟨1, 1⟩ : Rational).complement.num = none ∧
    reduce_dyadic closer (Formula.parse [.p true 1 0, .w true 1 "1"] .detect) b .down = none ∧
    Formula.parse [.p true 1 0, .w true 1 "0"] .detect
      = ⟨1, 0, [.text "c detected weight format: cachet"], [], [(1, ⟨0, 1⟩), (-1, ⟨1, 1⟩)]⟩ ∧
    approx_weight closer b .up ⟨0, 1⟩ = some ⟨0, 2 ^ b⟩ ∧
    (⟨0, 2 ^ b⟩ : Rational).simplify = some ⟨0, 1⟩ ∧
    chain_formula [] (⟨0, 1⟩ : Rational).num = none ∧
    reduce_dyadic closer (Formula.parse [.p true 1 0, .w true 1 "0"] .detect) b .up = none := by
  have hp1 : Formula.parse [.p true 1 0, .w true 1 "1"] .detect
      = ⟨1, 0, [.text "c detected weight format: cachet"], [], [(1, ⟨1, 1⟩), (-1, ⟨0, 1⟩)]⟩ := by
    decide
  have hp0 : Formula.parse [.p true 1 0, .w true 1 "0"] .detect
      = ⟨1, 0, [.text "c detected weight format: cachet"], [], [(1, ⟨0, 1⟩), (-1, ⟨1, 1⟩)]⟩ := by
    decide
  obtain ⟨a1, a2, a3⟩ := reduce_dyadic_step_one_down closer b hb
    ⟨1, 0, [.text "c detected weight format: cachet"], [], [(1, ⟨1, 1⟩), (-1, ⟨0, 1⟩)]⟩ 1 1
    (by decide) (by decide)
  obtain ⟨b1, b2, b3⟩ := reduce_dyadic_step_zero_up closer b hb
    ⟨1, 0, [.text "c detected weight format: cachet"], [], [(1, ⟨0, 1⟩), (-1, ⟨1, 1⟩)]⟩ 1 1
    (by decide) (by decide)
  refine ⟨hp1, a1, a2, by decide, by decide, by decide, ?_, hp0, b1, b2, by decide, ?_⟩
  · rw [hp1]
    have hfree : free_variables ⟨1, 0, [.text "c detected weight format: cachet"], [],
        [(1, ⟨1, 1⟩), (-1, ⟨0, 1⟩)]⟩ = [1] := by decide
    unfold reduce_dyadic
    rw [hfree]
    show (reduce_dyadic_step closer b .down _ 1 1).bind _ = none
    rw [a3]
    rfl
  · rw [hp0]
    have hfree : free_variables ⟨1, 0, [.text "c detected weight format: cachet"], [],
        [(1, ⟨0, 1⟩), (-1, ⟨1, 1⟩)]⟩ = [1] := by decide
    unfold reduce_dyadic
    rw [hfree]
    show (reduce_dyadic_step closer b .up _ 1 1).bind _ = none
    rw [b3]
    rfl

/-- Witness of C25: two bits per variable. -/
theorem C25_reduce_dyadic_empty_vars_witness :
    reduce_dyadic near_closer (Formula.parse [.p true 1 0, .w true 1 "1"] .detect) (2 : Nat)
      .down = none :=
  (C25_reduce_dyadic_empty_vars near_closer 2 (by decide)).2.2.2.2.2.2.1

/-- C26 fails on the code: the token `0/0` parses to the weight `0/0`, the
end-of-input finalisation gives the negative literal its complement `0/0`,
and `reduce` then divides by `std::__gcd(std::__gcd(0, 0), 0) = 0`.  The
division is undefined exactly when both counts and the denominator are 0. -/
theorem C26_reduce_divides_by_zero :
    Rational.parse "0/0" = ⟨0, 0⟩ ∧
    Formula.parse [.p true 1 0, .w true 1 "0/0"] .detect
      = ⟨1, 0, [.text "c detected weight format: cachet"], [], [(1, ⟨0, 0⟩), (-1, ⟨0, 0⟩)]⟩ ∧
    common_denom ⟨0, 0⟩ ⟨0, 0⟩ = (0, 0, 0) ∧
    std_gcd (std_gcd 0 0) 0 = 0 ∧
    idiv 0 (std_gcd (std_gcd 0 0) 0) = none ∧
    reduce (Formula.parse [.p true 1 0, .w true 1 "0/0"] .detect) = none ∧
    (∀ pos neg : Rational,
      reduced_counts pos neg = none ↔ common_denom pos neg = (0, 0, 0)) := by
  refine ⟨by decide, by decide, by decide, by decide, by decide, by decide, ?_⟩
  exact reduced_counts_none

theorem read_weights_support (tokens : Nat → String) : ∀ (L : List Nat) (f : Formula),
    (read_weights tokens L f).independent_support = f.independent_support := by
  intro L
  induction L with
  | nil => intro f; rfl
  | cons i L ih =>
    intro f
    simp only [read_weights]
    rw [ih, (set_weight_fields _ _ _).2, (set_weight_fields _ _ _).2]

theorem parse_w_support (f : Formula) (weights : WeightFormat) (ok : Bool) (literal : Int)
    (entry : String) :
    (parse_w f weights ok literal entry).formula.independent_support
      = f.independent_support := by
  unfold parse_w
  by_cases hok : ok = false
  · simp [hok, Step.formula, Formula.set_header]
  rw [if_neg hok]
  cases hs : w_switch weights with
  | none => simp [Step.formula, Formula.set_header]
  | some w1 =>
    simp only
    by_cases hv : f.is_valid_literal literal = false
    · simp [hv, Step.formula, Formula.set_header]
    rw [if_neg hv]
    have hneg : ∀ f2 w2, w_negative f w1 literal = some (f2, w2) →
        f2.independent_support = f.independent_support := by
      intro f2 w2 h
      unfold w_negative at h
      split_ifs at h <;> simp only [Option.some.injEq, Prod.mk.injEq] at h <;>
        obtain ⟨rfl, _⟩ := h <;> rfl
    cases hn : w_negative f w1 literal with
    | none => simp [Step.formula, Formula.set_header]
    | some r =>
      obtain ⟨f2, w2⟩ := r
      simp only
      rw [← hneg f2 w2 hn]
      unfold w_entry
      by_cases he : entry = "-1"
      · rw [if_pos he]
        cases w2 <;>
          simp [Step.formula, Formula.set_header, (set_weight_fields _ _ _).2,
            Formula.add_comment]
      · rw [if_neg he]
        simp [Step.formula, (set_weight_fields _ _ _).2]

/-- One round of the parser loop appends to the independent support the ids
that the line names for it, and nothing else. -/
theorem parse_line_support (f : Formula) (weights : WeightFormat) (line : InputLine) :
    (parse_line f weights line).formula.independent_support
      = f.independent_support ++ ind_ids_line line := by
  cases line with
  | p ok nv nc =>
    simp only [parse_line, ind_ids_line, List.append_nil]
    split <;> simp [Step.formula, Formula.set_header]
  | w ok literal entry =>
    simp only [parse_line, ind_ids_line, List.append_nil]
    exact parse_w_support _ _ _ _ _
  | c space entry ints tokens rest =>
    cases space with
    | false => simp [parse_line, parse_c, ind_ids_line, Step.formula]
    | true =>
      by_cases he : entry = "ind"
      · simp [parse_line, parse_c, ind_ids_line, he, Step.formula, read_ind_spec]
      · by_cases hw : entry = "weights" ∧ (weights = .detect ∨ weights = .minic2d)
        · obtain ⟨hw1, hw2⟩ := hw
          subst hw1
          have hne : ¬ ("weights" = "ind") := by decide
          simp only [parse_line, parse_c, ind_ids_line, hne, hw2, if_false, if_true,
            Bool.true_eq_false, Step.formula, List.append_nil, and_self]
          rw [read_weights_support]
          split <;> rfl
        · simp [parse_line, parse_c, ind_ids_line, he, hw, Step.formula]
  | other l => simp [parse_line, ind_ids_line, Step.formula]

theorem parse_lines_support : ∀ (input : List InputLine) (f g : Formula)
    (w w2 : WeightFormat), parse_lines input f w = .next g w2 →
    g.independent_support = f.independent_support ++ ind_ids input := by
  intro input
  induction input with
  | nil =>
    intro f g w w2 h
    simp only [parse_lines, Step.next.injEq] at h
    rw [← h.1]
    simp [ind_ids]
  | cons line rest ih =>
    intro f g w w2 h
    have hl := parse_line_support f w line
    unfold parse_lines at h
    cases hp : parse_line f w line with
    | next f2 w3 =>
      rw [hp] at h hl
      simp only at h
      rw [ih f2 g w3 w2 h]
      simp only [Step.formula] at hl
      rw [hl, ind_ids, List.append_assoc]
    | stop f2 w3 =>
      rw [hp] at h
      simp at h

theorem finalize_support (f : Formula) :
    (finalize f).independent_support = f.independent_support := by
  unfold finalize
  generalize List.range' 1 f.num_variables = L
  induction L generalizing f with
  | nil => rfl
  | cons i L ih =>
    simp only [List.foldl_cons]
    rw [ih]
    unfold finalize_var
    split
    · split
      · exact (set_weight_fields _ _ _).2
      · rfl
    · rw [(set_weight_fields _ _ _).2, (set_weight_fields _ _ _).2]

theorem parse_eof_support (f : Formula) (w : WeightFormat) :
    (parse_eof f w).1.independent_support = f.independent_support := by
  cases w <;> simp [parse_eof, finalize_support, Formula.add_comment]

/-- C27, as stated, fails: the line `c ind 1 1 0` stores the id 1 twice, and
a second line `c ind 2 1 0` stores it once more. -/
theorem C27_counterexample :
    (Formula.parse [.p true 2 0, .c true "ind" [1, 1, 0] (fun _ => "") "",
        .c true "ind" [2, 1, 0] (fun _ => "") ""] .detect).independent_support = [1, 1, 2, 1] ∧
    (Formula.parse [.p true 2 0, .c true "ind" [1, 1, 0] (fun _ => "") "",
        .c true "ind" [2, 1, 0] (fun _ => "") ""] .detect).num_variables = 2 ∧
    ¬ ([1, 1, 2, 1] : List Int).Nodup := by
  decide

/-- C27, amended: after every parse that does not abort, `independent_support`
is the sequence of the ids named on the `c ind` lines of the file (each line
up to its terminating 0), in file order and with every repetition; no id is
dropped or moved. -/
theorem C27_independent_support_sequence (input : List InputLine) (weights : WeightFormat)
    (h : (parse_lines input Formula.empty weights).stopped = false) :
    (Formula.parse input weights).independent_support = ind_ids input := by
  unfold Formula.parse parse_loop
  cases hp : parse_lines input Formula.empty weights with
  | next g w2 =>
    simp only
    rw [parse_eof_support, parse_lines_support input Formula.empty g weights w2 hp]
    rfl
  | stop g w2 =>
    rw [hp] at h
    simp [Step.stopped] at h

/-- Witness of C27: two `c ind` lines that repeat the id 1. -/
theorem C27_independent_support_sequence_witness :
    (Formula.parse [.p true 2 0, .c true "ind" [1, 1, 0] (fun _ => "") "",
        .c true "ind" [2, 1, 0] (fun _ => "") ""] .detect).independent_support
      = ind_ids [.p true 2 0, .c true "ind" [1, 1, 0] (fun _ => "") "",
        .c true "ind" [2, 1, 0] (fun _ => "") ""] :=
  C27_independent_support_sequence _ .detect (by decide)

theorem set_weight_keeps (f : Formula) (l : Int) (w : Rational) (k : Int) (v : Rational)
    (h : f.weights.lookup k = some v) : (f.set_weight l w).weights.lookup k = some v := by
  rw [lookup_set_weight, h]

theorem read_weights_keeps (tokens : Nat → String) (k : Int) (v : Rational) :
    ∀ (L : List Nat) (f : Formula), f.weights.lookup k = some v →
      (read_weights tokens L f).weights.lookup k = some v := by
  intro L
  induction L with
  | nil => intro f h; exact h
  | cons i L ih =>
    intro f h
    simp only [read_weights]
    exact ih _ (set_weight_keeps _ _ _ _ _ (set_weight_keeps _ _ _ _ _ h))

theorem parse_w_keeps (f : Formula) (weights : WeightFormat) (ok : Bool) (literal : Int)
    (entry : String) (k : Int) (v : Rational) (h : f.weights.lookup k = some v) :
    (parse_w f weights ok literal entry).formula.weights.lookup k = some v := by
  unfold parse_w
  by_cases hok : ok = false
  · simp [hok, Step.formula, Formula.set_header, h]
  rw [if_neg hok]
  cases hs : w_switch weights with
  | none => simp [Step.formula, Formula.set_header, h]
  | some w1 =>
    simp only
    by_cases hv : f.is_valid_literal literal = false
    · simp [hv, Step.formula, Formula.set_header, h]
    rw [if_neg hv]
    have hneg : ∀ f2 w2, w_negative f w1 literal = some (f2, w2) →
        f2.weights = f.weights := by
      intro f2 w2 h
      unfold w_negative at h
      split_ifs at h <;> simp only [Option.some.injEq, Prod.mk.injEq] at h <;>
        obtain ⟨rfl, _⟩ := h <;> rfl
    cases hn : w_negative f w1 literal with
    | none => simp [Step.formula, Formula.set_header, h]
    | some r =>
      obtain ⟨f2, w2⟩ := r
      simp only
      have h2 : f2.weights.lookup k = some v := by rw [hneg f2 w2 hn]; exact h
      unfold w_entry
      by_cases he : entry = "-1"
      · rw [if_pos he]
        cases w2 <;> simp only [Step.formula, Formula.set_header] <;>
          first
            | exact h2
            | exact set_weight_keeps _ _ _ _ _ (set_weight_keeps _ _ _ _ _ h2)
      · rw [if_neg he]
        exact set_weight_keeps _ _ _ _ _ h2

/-- A weight that is recorded for a literal survives every round of the parser
loop. -/
theorem parse_line_keeps (f : Formula) (weights : WeightFormat) (line : InputLine)
    (k : Int) (v : Rational) (h : f.weights.lookup k = some v) :
    (parse_line f weights line).formula.weights.lookup k = some v := by
  cases line with
  | p ok nv nc =>
    simp only [parse_line]
    split <;> simp [Step.formula, Formula.set_header, h]
  | w ok literal entry => exact parse_w_keeps _ _ _ _ _ _ _ h
  | c space entry ints tokens rest =>
    simp only [parse_line, parse_c]
    split
    · simp [Step.formula, h]
    · split
      · simp only [Step.formula, read_ind_weights]; exact h
      · split
        · simp only [Step.formula]
          apply read_weights_keeps
          split <;> exact h
        · simp [Step.formula, h]
  | other l => simp [parse_line, Step.formula, h]

theorem parse_lines_keeps (k : Int) (v : Rational) :
    ∀ (input : List InputLine) (f : Formula) (w : WeightFormat),
      f.weights.lookup k = some v →
      (parse_lines input f w).formula.weights.lookup k = some v := by
  intro input
  induction input with
  | nil => intro f w h; exact h
  | cons line rest ih =>
    intro f w h
    have hl := parse_line_keeps f w line k v h
    unfold parse_lines
    cases hp : parse_line f w line with
    | next f2 w2 =>
      rw [hp] at hl
      exact ih f2 w2 hl
    | stop f2 w2 =>
      rw [hp] at hl
      exact hl

theorem finalize_keeps (k : Int) (v : Rational) (f : Formula)
    (h : f.weights.lookup k = some v) : (finalize f).weights.lookup k = some v := by
  unfold finalize
  generalize List.range' 1 f.num_variables = L
  induction L generalizing f with
  | nil => exact h
  | cons i L ih =>
    simp only [List.foldl_cons]
    apply ih
    unfold finalize_var
    split
    · split
      · exact set_weight_keeps _ _ _ _ _ h
      · exact h
    · exact set_weight_keeps _ _ _ _ _ (set_weight_keeps _ _ _ _ _ h)

theorem parse_loop_keeps (k : Int) (v : Rational) (input : List InputLine) (f : Formula)
    (w : WeightFormat) (h : f.weights.lookup k = some v) :
    (parse_loop input f w).1.weights.lookup k = some v := by
  have hl := parse_lines_keeps k v input f w h
  unfold parse_loop
  cases hp : parse_lines input f w with
  | next f2 w2 =>
    rw [hp] at hl
    simp only [Step.formula] at hl
    simp only
    cases w2 with
    | detect => exact hl
    | minic2d => exact hl
    | mc20 => exact hl
    | cachet => exact finalize_keeps k v _ hl
    | cachet_or_mc20 =>
      exact finalize_keeps k v _ (show (f2.add_comment _).weights.lookup k = some v from hl)
  | stop f2 w2 =>
    rw [hp] at hl
    exact hl

/-- C29: `set_weight` never overwrites.  If a weight is recorded for the
literal, `set_weight` returns the formula unchanged; otherwise it records the
weight for that literal and changes the weight of no other literal.  So a
second `set_weight` on the same literal has no effect, and a weight recorded
for a literal survives every later line of the input and the end-of-input
finalisation: of several weight lines that name the same literal, `get_weight`
returns the weight of the first. -/
theorem C29_set_weight_never_overwrites :
    (∀ (f : Formula) (l : Int) (w v : Rational),
      f.weights.lookup l = some v → f.set_weight l w = f) ∧
    (∀ (f : Formula) (l : Int) (w : Rational), f.weights.lookup l = none →
      (f.set_weight l w).weights = f.weights ++ [(l, w)] ∧
      (f.set_weight l w).get_weight l = w ∧
      ∀ k : Int, k ≠ l → (f.set_weight l w).get_weight k = f.get_weight k) ∧
    (∀ (f : Formula) (l : Int) (w1 w2 : Rational), f.weights.lookup l = none →
      ((f.set_weight l w1).set_weight l w2).get_weight l = w1) ∧
    (∀ (f : Formula) (weights : WeightFormat) (l : Int) (entry : String)
        (later : List InputLine),
      0 < l → f.is_valid_literal l = true → weights ≠ .minic2d → entry ≠ "-1" →
      f.weights.lookup l = none →
      ∃ (g : Formula) (w2 : WeightFormat),
        parse_line f weights (.w true l entry) = .next g w2 ∧
        g.get_weight l = Rational.parse entry ∧
        (parse_loop later g w2).1.get_weight l = Rational.parse entry) := by
  refine ⟨?_, ?_, ?_, ?_⟩
  · intro f l w v h
    simp [Formula.set_weight, h]
  · intro f l w h
    refine ⟨by simp [Formula.set_weight, h], ?_, ?_⟩
    · have := lookup_set_weight f l w l
      rw [h] at this
      simp only [if_true] at this
      simp [Formula.get_weight, this]
    · intro k hk
      have := lookup_set_weight f l w k
      unfold Formula.get_weight
      rw [this]
      cases f.weights.lookup k with
      | none => simp [hk]
      | some v => rfl
  · intro f l w1 w2 h
    have h1 := lookup_set_weight f l w1 l
    rw [h] at h1
    simp only [if_true] at h1
    have h2 := set_weight_keeps (f.set_weight l w1) l w2 l w1 h1
    simp [Formula.get_weight, h2]
  · intro f weights l entry later hl hv hw he hnone
    have hneg : ¬ l < 0 := by omega
    obtain ⟨w1, hw1⟩ : ∃ w1, w_switch weights = some w1 := by
      cases weights <;> simp [w_switch] at hw ⊢
    have hline : parse_line f weights (.w true l entry)
        = .next (f.set_weight l (Rational.parse entry)) w1 := by
      simp [parse_line, parse_w, hw1, hv, w_negative, hneg, w_entry, he]
    have hlook : (f.set_weight l (Rational.parse entry)).weights.lookup l
        = some (Rational.parse entry) := by
      have := lookup_set_weight f l (Rational.parse entry) l
      rw [hnone] at this
      simpa using this
    refine ⟨_, _, hline, by simp [Formula.get_weight, hlook], ?_⟩
    have := parse_loop_keeps l (Rational.parse entry) later _ w1 hlook
    simp [Formula.get_weight, this]

/-- Witness of C29: the weight lines `w 1 0.3` and `w 1 0.5`. -/
theorem C29_set_weight_never_overwrites_witness :
    ∃ (g : Formula) (w2 : WeightFormat),
      parse_line ⟨1, 0, [], [], []⟩ .detect (.w true 1 "0.3") = .next g w2 ∧
      g.get_weight 1 = Rational.parse "0.3" ∧
      (parse_loop [.w true 1 "0.5"] g w2).1.get_weight 1 = Rational.parse "0.3" :=
  C29_set_weight_never_overwrites.2.2.2 ⟨1, 0, [], [], []⟩ .detect 1 "0.3" [.w true 1 "0.5"]
    (by decide) (by decide) (by decide) (by decide) (by decide)

theorem clause_count_append (a b : List BodyLine) :
    clause_count (a ++ b) = clause_count a + clause_count b := by
  simp [clause_count, List.filter_append]

theorem header_extended_refl (f : Formula) : header_extended f f :=
  ⟨le_refl _, [], by simp, by simp [clause_count]⟩

theorem header_extended_trans (f g h : Formula) (h1 : header_extended f g)
    (h2 : header_extended g h) : header_extended f h := by
  obtain ⟨a1, x, a2, a3⟩ := h1
  obtain ⟨b1, y, b2, b3⟩ := h2
  refine ⟨by omega, x ++ y, ?_, ?_⟩
  · rw [b2, a2, List.append_assoc]
  · rw [b3, a3, clause_count_append]; omega

theorem header_extended_of_eq (f g : Formula) (h1 : g.num_variables = f.num_variables)
    (h2 : g.body = f.body) (h3 : g.num_clauses = f.num_clauses) : header_extended f g :=
  ⟨by omega, [], by simp [h2], by simp [clause_count, h3]⟩

theorem add_clause_header (f : Formula) (c : Clause) : header_extended f (f.add_clause c) :=
  ⟨le_refl _, [BodyLine.clause c], rfl, by simp [Formula.add_clause, clause_count]⟩

theorem add_comment_header_extended (f : Formula) (s : String) :
    header_extended f (f.add_comment s) :=
  ⟨le_refl _, [BodyLine.text ("c " ++ s)], rfl, by simp [Formula.add_comment, clause_count]⟩

theorem alloc_one_header (f : Formula) (vars : List Int) :
    header_extended f (alloc_one f vars).1 := by
  obtain ⟨h1, h2, _, h4⟩ := alloc_one_fst f vars
  exact ⟨by omega, [], by simp [h2], by simp [clause_count, h4]⟩

/-- The allocation loop of `reduce` whenever it returns: the ids it appends are
the next ones, `num_variables + 1, ...`, up to the new `num_variables`. -/
theorem allocate_vars (p q : Int) : ∀ (fuel log : Nat) (f : Formula) (vars : List Int)
    (r : Formula × List Int), allocate p q fuel log f vars = some r →
    header_extended f r.1 ∧ r.1.body = f.body ∧ r.1.num_clauses = f.num_clauses ∧
    r.2 = vars ++ (List.range' (f.num_variables + 1)
      (r.1.num_variables - f.num_variables)).map Int.ofNat := by
  intro fuel
  induction fuel with
  | zero => intro log f vars r h; simp [allocate] at h
  | succ fuel ih =>
    intro log f vars r h
    unfold allocate at h
    cases hs : shl1 log with
    | none => simp [hs] at h
    | some s =>
      simp only [hs, Option.bind_eq_bind, Option.some_bind] at h
      by_cases hc : s < p ∨ s < q
      · rw [if_pos hc] at h
        obtain ⟨e1, e2, e3, e4⟩ := ih _ _ _ _ h
        obtain ⟨a1, a2, _, a4⟩ := alloc_one_fst f vars
        have a5 := alloc_one_snd f vars
        have hle := e1.1
        refine ⟨header_extended_trans _ _ _ (alloc_one_header f vars) e1, by rw [e2, a2],
          by rw [e3, a4], ?_⟩
        rw [e4, a5, a1, List.append_assoc]
        congr 1
        have hsplit : r.1.num_variables - f.num_variables
            = 1 + (r.1.num_variables - (f.num_variables + 1)) := by
          rw [a1] at hle; omega
        rw [hsplit, Nat.add_comm 1, List.range'_succ, List.map_cons]
        rfl
      · rw [if_neg hc] at h
        simp only [Option.pure_def, Option.some.injEq] at h
        subst h
        exact ⟨header_extended_refl _, rfl, rfl, by simp⟩

theorem allocate_n_header (k : Nat) (f : Formula) (vars : List Int) :
    header_extended f (allocate_n k f vars).1 := by
  obtain ⟨_, h2, h3, _, h5⟩ := allocate_n_spec k f vars
  exact ⟨by omega, [], by simp [h3], by simp [clause_count, h5]⟩

theorem add_guarded_header (guard : Int) : ∀ (cs : List Clause) (f : Formula),
    header_extended f (add_guarded guard cs f) := by
  intro cs
  induction cs with
  | nil => intro f; exact header_extended_refl f
  | cons c cs ih =>
    intro f
    exact header_extended_trans _ _ _ (add_clause_header f (guard :: c)) (ih _)

theorem reduce_branch_header (f : Formula) (guard : Int) (vars : List Int) (sol : Int)
    (g : Formula) (h : reduce_branch f guard vars sol = some g) : header_extended f g := by
  unfold reduce_branch at h
  by_cases hs : sol = 0
  · simp only [hs, if_true, Option.pure_def, Option.some.injEq] at h
    subst h
    exact add_clause_header _ _
  · simp only [hs, if_false, Option.bind_eq_bind, Option.pure_def, Option.bind_eq_some] at h
    obtain ⟨cs, _, h⟩ := h
    simp only [Option.some.injEq] at h
    subst h
    exact add_guarded_header _ _ _

theorem reduce_step_header (f : Formula) (net_denom : Int) (var : Int)
    (r : Formula × Int) (h : reduce_step f net_denom var = some r) :
    header_extended f r.1 := by
  unfold reduce_step at h
  simp only [Option.bind_eq_bind, Option.bind_eq_some] at h
  obtain ⟨⟨p, q, d⟩, _, h⟩ := h
  simp only at h
  by_cases hc : p < 0 ∨ q < 0
  · rw [if_pos hc] at h
    simp only [Option.pure_def, Option.some.injEq] at h
    subst h
    exact header_extended_refl _
  · rw [if_neg hc] at h
    simp only [Option.bind_eq_some, Option.pure_def] at h
    obtain ⟨⟨f1, vars⟩, ha, f2, hb, f3, hc3, h⟩ := h
    simp only [Option.some.injEq] at h
    subst h
    exact header_extended_trans _ _ _ (allocate_vars _ _ _ _ _ _ _ ha).1
      (header_extended_trans _ _ _ (reduce_branch_header _ _ _ _ _ hb)
        (reduce_branch_header _ _ _ _ _ hc3))

theorem reduce_loop_header : ∀ (vs : List Int) (f : Formula) (n : Int) (r : Formula × Int),
    reduce_loop vs f n = some r → header_extended f r.1 := by
  intro vs
  induction vs with
  | nil =>
    intro f n r h
    simp only [reduce_loop, Option.some.injEq] at h
    subst h
    exact header_extended_refl _
  | cons v vs ih =>
    intro f n r h
    simp only [reduce_loop, Option.bind_eq_bind, Option.bind_eq_some] at h
    obtain ⟨⟨f2, d2⟩, h1, h2⟩ := h
    exact header_extended_trans _ _ _ (reduce_step_header _ _ _ _ h1) (ih _ _ _ h2)

theorem reduce_dyadic_step_header (closer : Rational → Rational → Rational → Bool)
    (bits_per_var : Int) (rounding : RoundingStrategy) (f : Formula) (result : Int)
    (var : Int) (r : Formula × Int)
    (h : reduce_dyadic_step closer bits_per_var rounding f result var = some r) :
    header_extended f r.1 := by
  unfold reduce_dyadic_step at h
  simp only [Option.bind_eq_bind, Option.bind_eq_some] at h
  obtain ⟨pos, _, neg, _, h⟩ := h
  by_cases c1 : pos.denom ≠ neg.denom ∨ pos.num + neg.num ≠ pos.denom
  · rw [if_pos c1] at h
    simp only [Option.pure_def, Option.some.injEq] at h
    subst h; exact header_extended_refl _
  rw [if_neg c1] at h
  by_cases c2 : pos.num < 0 ∨ neg.num < 0
  · rw [if_pos c2] at h
    simp only [Option.pure_def, Option.some.injEq] at h
    subst h; exact header_extended_refl _
  rw [if_neg c2] at h
  by_cases c3 : pos.num = 1 ∧ neg.num = 1 ∧ pos.denom = 1
  · rw [if_pos c3] at h
    simp only [Option.pure_def, Option.some.injEq] at h
    subst h; exact header_extended_refl _
  rw [if_neg c3] at h
  by_cases c0 : bits_per_var < 0
  · rw [if_pos c0] at h
    simp at h
  rw [if_neg c0] at h
  simp only [Option.bind_eq_some] at h
  obtain ⟨nd, _, rounded, _, approx, _, bn, _, h⟩ := h
  by_cases c4 : approx.num = 1 ∧ approx.denom = 2
  · rw [if_pos c4] at h
    simp only [Option.pure_def, Option.some.injEq] at h
    subst h; exact add_comment_header_extended _ _
  rw [if_neg c4] at h
  cases hcs : chain_formula (allocate_n bn (f.add_comment
      ("adjust w " ++ toString var ++ " " ++ pos.to_string ++ " to " ++ approx.to_string))
      []).2 approx.num with
  | none => simp [hcs] at h
  | some cs =>
  cases hcs2 : chain_formula (List.map (fun v => -v) (allocate_n bn (f.add_comment
      ("adjust w " ++ toString var ++ " " ++ pos.to_string ++ " to " ++ approx.to_string))
      []).2) approx.complement.num with
  | none => simp [hcs, hcs2] at h
  | some cs2 =>
  simp only [hcs, hcs2, Option.some_bind, Option.pure_def, Option.some.injEq] at h
  subst h
  refine header_extended_trans _ _ _ (add_comment_header_extended f
    ("adjust w " ++ toString var ++ " " ++ pos.to_string ++ " to " ++ approx.to_string)) ?_
  refine header_extended_trans _ _ _ (allocate_n_header bn _ []) ?_
  exact header_extended_trans _ _ _ (add_guarded_header _ _ _) (add_guarded_header _ _ _)

theorem reduce_dyadic_loop_header (closer : Rational → Rational → Rational → Bool)
    (bits_per_var : Int) (rounding : RoundingStrategy) :
    ∀ (vs : List Int) (f : Formula) (n : Int) (r : Formula × Int),
    reduce_dyadic_loop closer bits_per_var rounding vs f n = some r →
    header_extended f r.1 := by
  intro vs
  induction vs with
  | nil =>
    intro f n r h
    simp only [reduce_dyadic_loop, Option.some.injEq] at h
    subst h
    exact header_extended_refl _
  | cons v vs ih =>
    intro f n r h
    simp only [reduce_dyadic_loop, Option.bind_eq_bind, Option.bind_eq_some] at h
    obtain ⟨⟨f2, d2⟩, h1, h2⟩ := h
    exact header_extended_trans _ _ _ (reduce_dyadic_step_header _ _ _ _ _ _ _ h1)
      (ih _ _ _ h2)

/-- C28: header consistency.  `add_variable` increases `num_variables` by
exactly 1 and returns the new value; `add_clause` increases `num_clauses` by
exactly 1 and `add_comment` changes neither count.  Each allocation of the
drivers returns the next ids `num_variables + 1, ...` up to the new
`num_variables` (pairwise distinct, each above every variable the formula had).
After `reduce` or `reduce_dyadic` on a formula with `V` variables and `C`
clauses, `num_variables = V'` with `V ≤ V'`, the body is the old body followed
by the lines appended, and `num_clauses` is `C` plus the number of clause lines
among them. -/
theorem C28_header_consistency :
    (∀ f : Formula, f.add_variable.1.num_variables = f.num_variables + 1 ∧
      f.add_variable.2 = f.num_variables + 1 ∧
      f.add_variable.1.num_clauses = f.num_clauses ∧ f.add_variable.1.body = f.body) ∧
    (∀ (f : Formula) (c : Clause), (f.add_clause c).num_clauses = f.num_clauses + 1 ∧
      (f.add_clause c).num_variables = f.num_variables ∧
      (f.add_clause c).body = f.body ++ [BodyLine.clause c]) ∧
    (∀ (f : Formula) (s : String), (f.add_comment s).num_clauses = f.num_clauses ∧
      (f.add_comment s).num_variables = f.num_variables) ∧
    (∀ (p q : Int) (f f1 : Formula) (vars : List Int),
      allocate p q 32 0 f [] = some (f1, vars) →
      vars = (List.range' (f.num_variables + 1)
          (f1.num_variables - f.num_variables)).map Int.ofNat ∧
      vars.Nodup ∧
      ∀ v ∈ vars, (f.num_variables : Int) < v ∧ v ≤ (f1.num_variables : Int)) ∧
    (∀ (k : Nat) (f : Formula),
      (allocate_n k f []).2 = (List.range' (f.num_variables + 1) k).map Int.ofNat ∧
      (allocate_n k f []).1.num_variables = f.num_variables + k ∧
      (allocate_n k f []).2.Nodup ∧
      ∀ v ∈ (allocate_n k f []).2,
        (f.num_variables : Int) < v ∧ v ≤ ((allocate_n k f []).1.num_variables : Int)) ∧
    (∀ (closer : Rational → Rational → Rational → Bool) (f f2 : Formula) (d : Int)
        (bits_per_var : Int) (rounding : RoundingStrategy),
      (reduce f = some (f2, d) ∨
        reduce_dyadic closer f bits_per_var rounding = some (f2, d)) →
      f.num_variables ≤ f2.num_variables ∧
      ∃ added : List BodyLine, f2.body = f.body ++ added ∧
        f2.num_clauses = f.num_clauses + clause_count added) := by
  have hrange : ∀ (n m : Nat), ((List.range' (n + 1) m).map Int.ofNat).Nodup ∧
      ∀ v ∈ (List.range' (n + 1) m).map Int.ofNat, (n : Int) < v ∧ v ≤ ((n + m : Nat) : Int) := by
    intro n m
    constructor
    · exact (List.nodup_range' _ _).map (fun a b h => Int.ofNat.inj h)
    · intro v hv
      simp only [List.mem_map, List.mem_range'_1] at hv
      obtain ⟨a, ⟨h1, h2⟩, rfl⟩ := hv
      constructor
      · show (n : Int) < (a : Int); omega
      · show (a : Int) ≤ ((n + m : Nat) : Int); omega
  refine ⟨fun f => ⟨rfl, rfl, rfl, rfl⟩, fun f c => ⟨rfl, rfl, rfl⟩, fun f s => ⟨rfl, rfl⟩,
    ?_, ?_, ?_⟩
  · intro p q f f1 vars h
    obtain ⟨e1, _, _, e4⟩ := allocate_vars p q 32 0 f [] (f1, vars) h
    simp only [List.nil_append] at e4
    have hle := e1.1
    simp only at hle
    obtain ⟨r1, r2⟩ := hrange f.num_variables (f1.num_variables - f.num_variables)
    refine ⟨e4, by rw [e4]; exact r1, ?_⟩
    intro v hv
    rw [e4] at hv
    have := r2 v hv
    have hsum : f.num_variables + (f1.num_variables - f.num_variables) = f1.num_variables := by
      omega
    rw [hsum] at this
    exact this
  · intro k f
    obtain ⟨h1, h2, _, _, _⟩ := allocate_n_spec k f []
    simp only [List.nil_append] at h1
    obtain ⟨r1, r2⟩ := hrange f.num_variables k
    refine ⟨h1, h2, by rw [h1]; exact r1, ?_⟩
    intro v hv
    rw [h1] at hv
    rw [h2]
    exact r2 v hv
  · intro closer f f2 d bits_per_var rounding h
    rcases h with h | h
    · exact reduce_loop_header _ _ _ _ h
    · exact reduce_dyadic_loop_header _ _ _ _ _ _ _ h

/-- Witness of C28: `reduce` on one variable with the weights 1/3 and 2/3
adds the variable 2 and one clause line. -/
theorem C28_header_consistency_witness :
    reduce ⟨1, 0, [], [], [(1, ⟨1, 3⟩), (-1, ⟨2, 3⟩)]⟩
      = some (⟨2, 1, [.clause [-1, 2]], [], [(1, ⟨1, 3⟩), (-1, ⟨2, 3⟩)]⟩, 3) ∧
    (1 ≤ 2 ∧ ∃ added : List BodyLine,
      [BodyLine.clause [-1, 2]] = ([] : List BodyLine) ++ added ∧
        1 = 0 + clause_count added) :=
  ⟨rfl, C28_header_consistency.2.2.2.2.2 (fun _ _ _ => true)
    ⟨1, 0, [], [], [(1, ⟨1, 3⟩), (-1, ⟨2, 3⟩)]⟩
    ⟨2, 1, [.clause [-1, 2]], [], [(1, ⟨1, 3⟩), (-1, ⟨2, 3⟩)]⟩ 3 0 .down (Or.inl rfl)⟩

theorem round_some_denom (closer : Rational → Rational → Rational → Bool) (pos : Rational)
    (N : Int) (rounding : RoundingStrategy) (r : Rational)
    (h : pos.round closer N rounding = some r) : r.denom = N := by
  have hu : ∀ u, pos.roundUp N = some u → u.denom = N := by
    intro u hu
    simp only [Rational.roundUp, Option.bind_eq_bind, Option.bind_eq_some, Option.pure_def,
      Option.some.injEq] at hu
    obtain ⟨q, _, hq⟩ := hu
    rw [← hq]
  have hd : ∀ l, pos.roundDown N = some l → l.denom = N := by
    intro l hl
    simp only [Rational.roundDown, Option.bind_eq_bind, Option.bind_eq_some, Option.pure_def,
      Option.some.injEq] at hl
    obtain ⟨q, _, hq⟩ := hl
    rw [← hq]
  cases rounding with
  | up => exact hu r h
  | down => exact hd r h
  | near =>
    simp only [Rational.round, Option.bind_eq_bind, Option.bind_eq_some, Option.pure_def,
      Option.some.injEq] at h
    obtain ⟨u, h1, l, h2, h3⟩ := h
    rw [← h3]
    split
    · exact hd l h2
    · exact hu u h1

/-- Simplifying a fraction over `2^b`, whatever the sign of the numerator: the
denominator of the result is `2^c` or `-2^c` with `c ≤ b` (`std::__gcd` can
be negative). -/
theorem simplify_pow2 (m : Int) (b : Nat) (approx : Rational)
    (h : Rational.simplify ⟨m, 2 ^ b⟩ = some approx) :
    ∃ c : Nat, c ≤ b ∧ (approx.denom = 2 ^ c ∨ approx.denom = -2 ^ c) := by
  have habs := std_gcd_natAbs m (2 ^ b)
  have hpow : ((2 : Int) ^ b).natAbs = 2 ^ b := by
    rw [Int.natAbs_pow]; rfl
  rw [hpow] at habs
  have hgd : Nat.gcd m.natAbs (2 ^ b) ∣ 2 ^ b := Nat.gcd_dvd_right _ _
  obtain ⟨t, ht, hg⟩ := (Nat.dvd_prime_pow Nat.prime_two).mp hgd
  rw [hg] at habs
  have hdiv : (2 : Int) ^ b = 2 ^ (b - t) * 2 ^ t := by
    rw [← pow_add]; congr 1; omega
  have hpos : (0 : Int) < 2 ^ t := by positivity
  simp only [Rational.simplify, Option.bind_eq_bind, Option.bind_eq_some, Option.pure_def,
    Option.some.injEq] at h
  obtain ⟨n, _, d, hd, hnd⟩ := h
  rw [← hnd]
  simp only
  have hgne : std_gcd m (2 ^ b) ≠ 0 := by
    intro h0
    rw [h0] at habs
    have : 0 < 2 ^ t := Nat.two_pow_pos t
    simp only [Int.natAbs_zero] at habs
    omega
  rw [idiv_of_ne hgne] at hd
  simp only [Option.some.injEq] at hd
  refine ⟨b - t, by omega, ?_⟩
  rcases Int.natAbs_eq (std_gcd m (2 ^ b)) with hs | hs
  · left
    rw [← hd, hs, habs, hdiv]
    push_cast
    rw [Int.mul_tdiv_cancel _ hpos.ne']
  · right
    rw [← hd, hs, habs, hdiv]
    push_cast
    rw [Int.tdiv_neg, Int.mul_tdiv_cancel _ hpos.ne']

/-- With no variable, `chain_formula` returns only for a count of at least 1:
for a count of 0 and for a negative count it reads `vars[bit]` of the empty
vector. -/
theorem chain_formula_nil (k : Int) (cs : List Clause) (h : chain_formula [] k = some cs) :
    1 ≤ k := by
  unfold chain_formula at h
  by_cases h0 : k = 0
  · rw [if_pos h0] at h; cases h
  rw [if_neg h0] at h
  have hshl : shl1 ([] : List Int).length = some 1 := by decide
  rw [hshl] at h
  simp only [Option.bind_eq_bind, Option.some_bind] at h
  by_cases h1 : k = 1
  · omega
  rw [if_neg h1] at h
  by_cases h2 : k ≥ 1
  · exact h2
  rw [if_neg h2] at h
  cases hs : skipZeroBits k 32 0 with
  | none => rw [hs] at h; cases h
  | some bit => rw [hs] at h; simp at h

theorem bitsNeeded_neg (d : Int) (hd : d < 0) : bitsNeeded d 32 0 = some 0 := by
  have hshl : shl1 0 = some 1 := by decide
  have : ¬ ((1 : Int) < d) := by omega
  simp only [bitsNeeded, hshl, Option.bind_eq_bind, Option.some_bind, this, if_false,
    Option.pure_def]

/-- One free variable of `reduce_dyadic`, whenever the step returns: either no
auxiliary variable is added and the factor is kept or doubled, or the variable
is encoded with exactly `c` auxiliary variables, where `2^c` (`c` at most
`bits_per_var`) is the denominator of the simplified rounded weight, and the
factor is multiplied by `2^c`.  Nothing is assumed on the rounded numerator, so
that the runs in which the product of `round` leaves the `int` range are
covered too. -/
theorem reduce_dyadic_step_factor (closer : Rational → Rational → Rational → Bool)
    (b : Nat) (hb : b ≤ 30) (rounding : RoundingStrategy) (f : Formula) (result var : Int)
    (r : Formula × Int)
    (h : reduce_dyadic_step closer b rounding f result var = some r) :
    (r.1.num_variables = f.num_variables ∧ (r.2 = result ∨ r.2 = result * 2)) ∨
    (∃ (rounded approx : Rational) (c : Nat),
      approx_weight closer b rounding (f.get_weight var) = some rounded ∧
      rounded.simplify = some approx ∧ approx.denom = 2 ^ c ∧ c ≤ b ∧
      r.1.num_variables = f.num_variables + c ∧ r.2 = result * 2 ^ c) := by
  have hshl : shl1 b = some (2 ^ b) := shl1_of_lt (by omega)
  have hnn : ¬ ((b : Int) < 0) := by omega
  unfold reduce_dyadic_step at h
  simp only [Option.bind_eq_bind, Option.bind_eq_some] at h
  obtain ⟨pos, hpos, neg, _, h⟩ := h
  by_cases c1 : pos.denom ≠ neg.denom ∨ pos.num + neg.num ≠ pos.denom
  · rw [if_pos c1] at h
    simp only [Option.pure_def, Option.some.injEq] at h
    subst h; exact Or.inl ⟨rfl, Or.inl rfl⟩
  rw [if_neg c1] at h
  by_cases c2 : pos.num < 0 ∨ neg.num < 0
  · rw [if_pos c2] at h
    simp only [Option.pure_def, Option.some.injEq] at h
    subst h; exact Or.inl ⟨rfl, Or.inl rfl⟩
  rw [if_neg c2] at h
  by_cases c3 : pos.num = 1 ∧ neg.num = 1 ∧ pos.denom = 1
  · rw [if_pos c3] at h
    simp only [Option.pure_def, Option.some.injEq] at h
    subst h; exact Or.inl ⟨rfl, Or.inr rfl⟩
  rw [if_neg c3, if_neg hnn, Int.toNat_ofNat, hshl] at h
  simp only [Option.some_bind, Option.bind_eq_some] at h
  obtain ⟨rounded, hround, approx, happrox, bn, hbn, h⟩ := h
  have happ : approx_weight closer b rounding (f.get_weight var) = some rounded := by
    simp only [approx_weight, hpos, Option.bind_eq_bind, Option.some_bind, hnn, if_false,
      Int.toNat_ofNat, hshl, hround]
  -- the rounded weight is a fraction over `2^b`
  have hrd := round_some_denom closer pos _ rounding rounded hround
  obtain ⟨m, rd⟩ := rounded
  simp only at hrd
  subst hrd
  obtain ⟨c, hc, hden⟩ := simplify_pow2 m b approx happrox
  by_cases c4 : approx.num = 1 ∧ approx.denom = 2
  · rw [if_pos c4] at h
    simp only [Option.pure_def, Option.some.injEq] at h
    subst h
    exact Or.inl ⟨rfl, Or.inr rfl⟩
  rw [if_neg c4] at h
  simp only [Option.bind_eq_some, Option.pure_def, Option.some.injEq] at h
  obtain ⟨cs, hcs, cs2, hcs2, h⟩ := h
  rcases hden with hden | hden
  · -- a positive denominator `2^c`: `c` auxiliary variables
    have hbits := bitsNeeded_pow c (by omega) 32 0 (Nat.zero_le _) (by omega)
    have hcast : (((2 ^ c : Nat) : Int)) = (2 : Int) ^ c := by push_cast; rfl
    rw [hden, ← hcast, hbits] at hbn
    simp only [Option.some.injEq] at hbn
    subst hbn
    subst h
    refine Or.inr ⟨_, _, c, happ, happrox, hden, hc, ?_, ?_⟩
    · simp only
      rw [(add_guarded_spec _ _ _).2.1, (add_guarded_spec _ _ _).2.1,
        (allocate_n_spec _ _ _).2.1]
      rfl
    · simp only [hden]
  · -- a negative denominator: no variable is allocated and one of the two
    -- calls of `chain_formula` has a count below 1
    have hneg : approx.denom < 0 := by
      rw [hden]
      have : (0 : Int) < 2 ^ c := by positivity
      omega
    rw [bitsNeeded_neg _ hneg] at hbn
    simp only [Option.some.injEq] at hbn
    subst hbn
    simp only [allocate_n, List.map_nil] at hcs hcs2
    have k1 := chain_formula_nil _ _ hcs
    have k2 := chain_formula_nil _ _ hcs2
    simp only [Rational.complement] at k2
    omega

theorem reduce_dyadic_loop_factor (closer : Rational → Rational → Rational → Bool)
    (b : Nat) (hb : b ≤ 30) (rounding : RoundingStrategy) :
    ∀ (vs : List Int) (f : Formula) (result : Int) (r : Formula × Int),
      reduce_dyadic_loop closer b rounding vs f result = some r →
      (∃ e : Nat, r.2 = result * 2 ^ e) ∧
      r.1.num_variables ≤ f.num_variables + vs.length * b := by
  intro vs
  induction vs with
  | nil =>
    intro f result r h
    simp only [reduce_dyadic_loop, Option.some.injEq] at h
    subst h
    exact ⟨⟨0, by simp⟩, by simp⟩
  | cons v vs ih =>
    intro f result r h
    simp only [reduce_dyadic_loop, Option.bind_eq_bind, Option.bind_eq_some] at h
    obtain ⟨⟨f2, r2⟩, h1, h2⟩ := h
    obtain ⟨⟨e, he⟩, hv⟩ := ih f2 r2 r h2
    have hstep := reduce_dyadic_step_factor closer b hb rounding f result v (f2, r2) h1
    simp only [List.length_cons, Nat.add_mul, Nat.one_mul]
    rcases hstep with ⟨s1, s2 | s2⟩ | ⟨_, _, c, _, _, _, hc, s1, s2⟩
    · simp only at s1 s2
      exact ⟨⟨e, by rw [he, s2]⟩, by omega⟩
    · simp only at s1 s2
      exact ⟨⟨e + 1, by rw [he, s2, pow_succ]; ring⟩, by omega⟩
    · simp only at s1 s2
      exact ⟨⟨c + e, by rw [he, s2, pow_add]; ring⟩, by omega⟩

-- The run on the weights 9/10 and 1/10 at 29 bits, in which `9 * 2^29` wraps.
set_option maxRecDepth 100000 in
theorem reduce_dyadic_wrapped_run :
    (reduce_dyadic (fun _ _ _ => true)
      ⟨1, 0, [], [], [(1, ⟨9, 10⟩), (-1, ⟨1, 10⟩)]⟩ ((29 : Nat) : Int) .down).map
        (fun r => (r.1.num_variables, r.2)) = some (30, 2 ^ 29) := by
  decide

/-- C30: whenever `reduce_dyadic` completes with `bits_per_var` in `0..30`, the
returned factor is a power of two, and each free variable receives at most
`bits_per_var` auxiliary variables: none when it is skipped or left at `1/2`,
and otherwise exactly `c`, where `2^c` is the denominator of the simplified
rounded weight (`c` is its base-2 logarithm), whose factor `2^c` multiplies the
result.  This holds for every weight, also when the product `num * 2^bits` of
`round` leaves the 32-bit `int` range and the rounded numerator is the wrapped
one. -/
theorem C30_reduce_dyadic_factor (closer : Rational → Rational → Rational → Bool)
    (f f2 : Formula) (d : Int) (bits_per_var : Nat) (hb : bits_per_var ≤ 30)
    (rounding : RoundingStrategy)
    (h : reduce_dyadic closer f bits_per_var rounding = some (f2, d)) :
    (∃ e : Nat, d = 2 ^ e) ∧
    f2.num_variables ≤ f.num_variables + (free_variables f).length * bits_per_var ∧
    ∀ (g : Formula) (result var : Int) (r : Formula × Int),
      reduce_dyadic_step closer bits_per_var rounding g result var = some r →
      (r.1.num_variables = g.num_variables ∧ (r.2 = result ∨ r.2 = result * 2)) ∨
      (∃ (rounded approx : Rational) (c : Nat),
        approx_weight closer bits_per_var rounding (g.get_weight var) = some rounded ∧
        rounded.simplify = some approx ∧ approx.denom = 2 ^ c ∧ c ≤ bits_per_var ∧
        r.1.num_variables = g.num_variables + c ∧ r.2 = result * 2 ^ c) := by
  obtain ⟨⟨e, he⟩, hv⟩ :=
    reduce_dyadic_loop_factor closer bits_per_var hb rounding (free_variables f) f 1 (f2, d) h
  refine ⟨⟨e, by simpa using he⟩, hv, ?_⟩
  intro g result var r hr
  exact reduce_dyadic_step_factor closer bits_per_var hb rounding g result var r hr

/-- Witness of C30.  One variable with the weights 1/4 and 3/4 at two bits: two
auxiliary variables and the factor 4.  And one variable with the weights 9/10
and 1/10 at 29 bits, where `9 * 2^29` leaves the `int` range: the product wraps
to `2^29`, the rounded weight is `53687091/2^29`, and the run completes with 29
auxiliary variables and the factor `2^29`. -/
theorem C30_reduce_dyadic_factor_witness :
    (reduce_dyadic (fun _ _ _ => true) ⟨1, 0, [], [], [(1, ⟨1, 4⟩), (-1, ⟨3, 4⟩)]⟩
        ((2 : Nat) : Int) .down
      = some (⟨3, 3, [.text "c adjust w 1 1/4 to 1/4", .clause [-1, 2], .clause [-1, 3],
          .clause [1, -2, -3]], [], [(1, ⟨1, 4⟩), (-1, ⟨3, 4⟩)]⟩, 4) ∧
    (∃ e : Nat, (4 : Int) = 2 ^ e) ∧
    3 ≤ 1 + (free_variables ⟨1, 0, [], [], [(1, ⟨1, 4⟩), (-1, ⟨3, 4⟩)]⟩).length * 2) ∧
    (approx_weight (fun _ _ _ => true) ((29 : Nat) : Int) .down ⟨9, 10⟩
      = some ⟨53687091, 2 ^ 29⟩ ∧
    ∃ f2 d, reduce_dyadic (fun _ _ _ => true) ⟨1, 0, [], [], [(1, ⟨9, 10⟩), (-1, ⟨1, 10⟩)]⟩
        ((29 : Nat) : Int) .down = some (f2, d) ∧
      f2.num_variables = 1 + 29 ∧ d = 2 ^ 29 ∧ (∃ e : Nat, d = 2 ^ e)) := by
  refine ⟨⟨by decide,
    (C30_reduce_dyadic_factor (fun _ _ _ => true) ⟨1, 0, [], [], [(1, ⟨1, 4⟩), (-1, ⟨3, 4⟩)]⟩
      ⟨3, 3, [.text "c adjust w 1 1/4 to 1/4", .clause [-1, 2], .clause [-1, 3],
        .clause [1, -2, -3]], [], [(1, ⟨1, 4⟩), (-1, ⟨3, 4⟩)]⟩ 4 2 (by decide) .down
      (by decide)).1,
    (C30_reduce_dyadic_factor (fun _ _ _ => true) ⟨1, 0, [], [], [(1, ⟨1, 4⟩), (-1, ⟨3, 4⟩)]⟩
      ⟨3, 3, [.text "c adjust w 1 1/4 to 1/4", .clause [-1, 2], .clause [-1, 3],
        .clause [1, -2, -3]], [], [(1, ⟨1, 4⟩), (-1, ⟨3, 4⟩)]⟩ 4 2 (by decide) .down
      (by decide)).2.1⟩, by decide, ?_⟩
  have hrun := reduce_dyadic_wrapped_run
  cases h : reduce_dyadic (fun _ _ _ => true)
      ⟨1, 0, [], [], [(1, ⟨9, 10⟩), (-1, ⟨1, 10⟩)]⟩ ((29 : Nat) : Int) .down with
  | none => rw [h] at hrun; cases hrun
  | some r =>
    obtain ⟨f2, d⟩ := r
    rw [h] at hrun
    simp only [Option.map_some', Option.some.injEq, Prod.mk.injEq] at hrun
    exact ⟨f2, d, rfl, hrun.1, hrun.2,
      (C30_reduce_dyadic_factor (fun _ _ _ => true) _ f2 d 29 (by decide) .down h).1⟩

theorem nat_land_two_pow (i j : Nat) : Nat.land i (2 ^ j) ≠ 0 ↔ i / 2 ^ j % 2 = 1 := by
  have h : Nat.land i (2 ^ j) = i &&& 2 ^ j := rfl
  rw [h, Nat.and_two_pow, Nat.toNat_testBit]
  have hp : 0 < 2 ^ j := Nat.two_pow_pos j
  have h2 : i / 2 ^ j % 2 = 0 ∨ i / 2 ^ j % 2 = 1 := by omega
  rcases h2 with h0 | h1
  · rw [h0]; simp
  · rw [h1]; simp

/-- The clause that the `x` case builds for the mask `i` is false under an
assignment exactly when the bits of `i` from position `j` on spell the truth
values of the literals. -/
theorem xor_clause_false (a : Nat → Bool) (i : Nat) :
    ∀ (lits : List Int) (j : Nat), (∀ l ∈ lits, l ≠ 0) →
      (clauseSat a (Dexor.xor_clause i j lits) = false
        ↔ i / 2 ^ j % 2 ^ lits.length = binValue a lits) := by
  intro lits
  induction lits with
  | nil =>
    intro j _
    simp [Dexor.xor_clause, clauseSat, binValue, Nat.mod_one]
  | cons l rest ih =>
    intro j hnz
    have hl : l ≠ 0 := hnz l (List.mem_cons_self _ _)
    have ih2 := ih (j + 1) (fun x hx => hnz x (List.mem_cons_of_mem _ hx))
    have hdiv : i / 2 ^ (j + 1) = i / 2 ^ j / 2 := by
      rw [pow_succ, Nat.div_div_eq_div_mul]
    have hb := binValue_lt a rest
    have hm : i / 2 ^ j / 2 % 2 ^ rest.length < 2 ^ rest.length :=
      Nat.mod_lt _ (Nat.two_pow_pos _)
    simp only [Dexor.xor_clause, clauseSat_cons, Bool.or_eq_false_iff, ih2, binValue,
      List.length_cons]
    rw [hdiv, show 2 ^ (rest.length + 1) = 2 * 2 ^ rest.length from pow_succ' _ _, Nat.mod_mul]
    have hbit := nat_land_two_pow i j
    by_cases hset : i / 2 ^ j % 2 = 1
    · have hland : Nat.land i (2 ^ j) ≠ 0 := hbit.mpr hset
      rw [if_pos hland, mul_neg_one, litTrue_neg a l hl, hset]
      cases litTrue a l <;> first | (simp; done) | (simp; omega)
    · have hland : ¬ Nat.land i (2 ^ j) ≠ 0 := fun h => hset (hbit.mp h)
      have h0 : i / 2 ^ j % 2 = 0 := by omega
      rw [if_neg hland, h0]
      cases litTrue a l <;> first | (simp; done) | (simp; omega)

theorem bitCount_binValue (a : Nat → Bool) : ∀ (lits : List Int) (fuel : Nat),
    lits.length ≤ fuel → bitCount fuel (binValue a lits) = trueCount a lits := by
  intro lits
  induction lits with
  | nil =>
    intro fuel _
    simp only [binValue, trueCount, List.countP_nil]
    induction fuel with
    | zero => rfl
    | succ n ih => simp [bitCount, ih]
  | cons l rest ih =>
    intro fuel h
    cases fuel with
    | zero => simp at h
    | succ fuel =>
      have h2 : rest.length ≤ fuel := by simp at h; omega
      have := ih fuel h2
      simp only [bitCount, binValue, trueCount, List.countP_cons] at this ⊢
      cases litTrue a l
      · simp only [Bool.false_eq_true, if_false, Nat.zero_add, Nat.mul_mod_right,
          Nat.add_zero]
        rw [Nat.mul_div_cancel_left _ (by norm_num : 0 < 2), this]
      · simp only [if_true]
        have e1 : (1 + 2 * binValue a rest) % 2 = 1 := by omega
        have e2 : (1 + 2 * binValue a rest) / 2 = binValue a rest := by omega
        rw [e1, e2, this]
        omega

theorem bitCount_double (fuel m : Nat) :
    bitCount (fuel + 1) (2 * m) = bitCount fuel m ∧
    bitCount (fuel + 1) (2 * m + 1) = bitCount fuel m + 1 := by
  have e1 : 2 * m % 2 = 0 := by omega
  have e2 : 2 * m / 2 = m := by omega
  have e3 : (2 * m + 1) % 2 = 1 := by omega
  have e4 : (2 * m + 1) / 2 = m := by omega
  simp only [bitCount, e1, e2, e3, e4]
  omega

/-- Of the masks `2m` and `2m + 1` exactly one has even parity, so half of the
masks below `2N` have. -/
theorem even_parity_count : ∀ N : Nat,
    ((List.range (2 * N)).filter fun i => decide (¬ builtin_parity i = 1)).length = N := by
  intro N
  induction N with
  | zero => rfl
  | succ N ih =>
    have hr : List.range (2 * (N + 1)) = List.range (2 * N) ++ [2 * N, 2 * N + 1] := by
      rw [show 2 * (N + 1) = 2 * N + 1 + 1 by ring, List.range_succ, List.range_succ]
      simp
    obtain ⟨d1, d2⟩ := bitCount_double 31 N
    rw [hr, List.filter_append, List.length_append, ih]
    have hpair : (List.filter (fun i => decide (¬ builtin_parity i = 1))
        [2 * N, 2 * N + 1]).length = 1 := by
      unfold builtin_parity
      simp only [List.filter_cons, List.filter_nil, d1, d2]
      by_cases hp : bitCount 31 N % 2 = 1
      · have : (bitCount 31 N + 1) % 2 ≠ 1 := by omega
        simp [hp, this]
      · have : (bitCount 31 N + 1) % 2 = 1 := by omega
        simp [hp, this]
    rw [hpair]

theorem add_xor_clauses_spec (lits : List Int) : ∀ (L : List Nat) (f : Dexor.Formula),
    (Dexor.add_xor_clauses lits L f).num_variables = f.num_variables ∧
    (Dexor.add_xor_clauses lits L f).body
      = f.body ++ ((L.filter fun i => decide (¬ builtin_parity i = 1)).map
          fun i => BodyLine.clause (Dexor.xor_clause i 0 lits)) ∧
    (Dexor.add_xor_clauses lits L f).num_clauses
      = f.num_clauses + (L.filter fun i => decide (¬ builtin_parity i = 1)).length := by
  intro L
  induction L with
  | nil => intro f; simp [Dexor.add_xor_clauses]
  | cons i L ih =>
    intro f
    by_cases hp : builtin_parity i = 1
    · simp only [Dexor.add_xor_clauses, hp, if_true]
      obtain ⟨h1, h2, h3⟩ := ih f
      refine ⟨h1, ?_, ?_⟩
      · rw [h2]; simp [hp]
      · rw [h3]; simp [hp]
    · simp only [Dexor.add_xor_clauses, hp, if_false]
      obtain ⟨h1, h2, h3⟩ := ih (f.add_clause (Dexor.xor_clause i 0 lits))
      refine ⟨by rw [h1]; rfl, ?_, ?_⟩
      · rw [h2]; simp [hp, Dexor.Formula.add_clause]
      · rw [h3]; simp [hp, Dexor.Formula.add_clause]; omega

/-- The clauses of an `x` line over `n ≤ 32` non-zero literals hold exactly
under the assignments that make an odd number of the literals true. -/
theorem xor_clauses_sem (a : Nat → Bool) (lits : List Int) (hnz : ∀ l ∈ lits, l ≠ 0)
    (hn : lits.length ≤ 32) :
    cnfSat a (((List.range (2 ^ lits.length)).filter
        fun i => decide (¬ builtin_parity i = 1)).map fun i => Dexor.xor_clause i 0 lits) = true
      ↔ trueCount a lits % 2 = 1 := by
  have hbv := binValue_lt a lits
  have hpar : builtin_parity (binValue a lits) = trueCount a lits % 2 := by
    unfold builtin_parity
    rw [bitCount_binValue a lits 32 hn]
  have hfalse : ∀ i, i < 2 ^ lits.length →
      (clauseSat a (Dexor.xor_clause i 0 lits) = false ↔ i = binValue a lits) := by
    intro i hi
    have := xor_clause_false a i lits 0 hnz
    rw [pow_zero, Nat.div_one, Nat.mod_eq_of_lt hi] at this
    exact this
  simp only [cnfSat, List.all_eq_true, List.mem_map, List.mem_filter, List.mem_range,
    decide_eq_true_eq]
  constructor
  · intro h
    by_contra hodd
    have hmem : clauseSat a (Dexor.xor_clause (binValue a lits) 0 lits) = true :=
      h _ ⟨binValue a lits, ⟨hbv, by rw [hpar]; exact hodd⟩, rfl⟩
    have := (hfalse _ hbv).mpr rfl
    rw [this] at hmem
    exact Bool.false_ne_true hmem
  · intro hodd c hc
    obtain ⟨i, ⟨hi, hpi⟩, rfl⟩ := hc
    by_contra hsat
    have hf : clauseSat a (Dexor.xor_clause i 0 lits) = false := by
      simpa using hsat
    have := (hfalse i hi).mp hf
    rw [this, hpar] at hpi
    exact hpi hodd

/-- C31: the XOR expansion of dexor is exact.  For a line `x l1 ... ln 0` with
`1 ≤ n ≤ 30` literals, the parser goes on to the next line with `2^(n-1)`
clauses appended to the body and nothing else changed there, the variable count
unchanged and the clause count of the header changed by `2^(n-1) - 1`; an
assignment satisfies all the appended clauses if and only if it makes an odd
number of `l1, ..., ln` true. -/
theorem C31_xor_expansion (f : Dexor.Formula) (lits more : List Int)
    (hnz : ∀ l ∈ lits, l ≠ 0) (h1 : 1 ≤ lits.length) (h30 : lits.length ≤ 30) :
    ∃ (g : Dexor.Formula) (added : List Clause),
      Dexor.parse_line f (.x true (lits ++ 0 :: more)) = some (.next g) ∧
      g.body = f.body ++ added.map BodyLine.clause ∧
      added.length = 2 ^ (lits.length - 1) ∧
      g.num_variables = f.num_variables ∧
      g.num_clauses = f.num_clauses + (2 ^ (lits.length - 1) - 1) ∧
      ∀ a : Nat → Bool, cnfSat a added = true ↔ trueCount a lits % 2 = 1 := by
  have htake : (lits ++ 0 :: more).takeWhile (fun lit => decide (lit ≠ 0)) = lits :=
    takeWhile_ids lits more hnz
  have hshl : shl1 lits.length = some (2 ^ lits.length) := shl1_of_lt (by omega)
  have hbound : ((2 : Int) ^ lits.length).toNat = 2 ^ lits.length := by
    have : ((2 : Int) ^ lits.length) = ((2 ^ lits.length : Nat) : Int) := by push_cast; rfl
    rw [this, Int.toNat_ofNat]
  obtain ⟨e1, e2, e3⟩ := add_xor_clauses_spec lits (List.range (2 ^ lits.length)) f
  have hhalf : 2 ^ lits.length = 2 * 2 ^ (lits.length - 1) := by
    rw [← pow_succ']
    congr 1
    omega
  have hcount : ((List.range (2 ^ lits.length)).filter
      fun i => decide (¬ builtin_parity i = 1)).length = 2 ^ (lits.length - 1) := by
    rw [hhalf]
    exact even_parity_count _
  have hpos : 0 < 2 ^ (lits.length - 1) := Nat.two_pow_pos _
  refine ⟨{ Dexor.add_xor_clauses lits (List.range (2 ^ lits.length)) f with
      num_clauses := (Dexor.add_xor_clauses lits (List.range (2 ^ lits.length)) f).num_clauses
        - 1 },
    ((List.range (2 ^ lits.length)).filter
      fun i => decide (¬ builtin_parity i = 1)).map fun i => Dexor.xor_clause i 0 lits, ?_, ?_, ?_,
    ?_, ?_, ?_⟩
  · simp only [Dexor.parse_line, Dexor.parse_x, Bool.true_eq_false, if_false, htake, hshl,
      hbound]
  · simp only [e2, List.map_map]
    rfl
  · rw [List.length_map, hcount]
  · exact e1
  · simp only [e3, hcount]
    omega
  · intro a
    exact xor_clauses_sem a lits hnz (by omega)

/-- Witness of C31: the line `x 1 -2 3 0` after the header `p cnf 3 2`. -/
theorem C31_xor_expansion_witness :
    ∃ (g : Dexor.Formula) (added : List Clause),
      Dexor.parse_line ⟨3, 2, []⟩ (.x true ([1, -2, 3] ++ 0 :: [])) = some (.next g) ∧
      g.body = ([] : List BodyLine) ++ added.map BodyLine.clause ∧
      added.length = 2 ^ (([1, -2, 3] : List Int).length - 1) ∧
      g.num_variables = 3 ∧
      g.num_clauses = 2 + (2 ^ (([1, -2, 3] : List Int).length - 1) - 1) ∧
      ∀ a : Nat → Bool, cnfSat a added = true ↔ trueCount a [1, -2, 3] % 2 = 1 :=
  C31_xor_expansion ⟨3, 2, []⟩ [1, -2, 3] [] (by decide) (by decide) (by decide)

/-- The loop of `chain_formula` that skips the low zero bits of `k`, for
`0 < k < 2^n` and `n ≤ 30`: it stops at the lowest set bit of `k`, a position
below `n`. -/
theorem skipZeroBits_bound (n k : Nat) (hn : n ≤ 30) (hk0 : 0 < k) (hk : k < 2 ^ n) :
    ∃ b, skipZeroBits (k : Int) 32 0 = some b ∧ b < n ∧
      k % 2 ^ b = 0 ∧ k / 2 ^ b % 2 = 1 := by
  have hlt31 : k < 2 ^ 31 :=
    lt_of_lt_of_le hk (Nat.pow_le_pow_right (by norm_num) (by omega))
  obtain ⟨b, hb1, hb2, hb3⟩ := skipZeroBits_spec k hk0 hlt31 32 0 (Nat.mod_one k) (by omega)
  refine ⟨b, hb1, ?_, hb2, hb3⟩
  by_contra hge
  have h1 : 2 ^ n ≤ 2 ^ b := Nat.pow_le_pow_right (by norm_num) (by omega)
  have h2 : k % 2 ^ b = k := Nat.mod_eq_of_lt (by omega)
  omega

/-- C32: `chain_formula` is total on its domain.  For a non-empty `vars` of
length `n ≤ 30` and `0 ≤ k ≤ 2^n` the function returns a clause set.  For
`k = 0` the entry read is `vars[0]`, which exists.  For `0 < k < 2^n` the loop
that skips the low zero bits of `k` stops at the lowest set bit `b` of `k`, a
position below `n`, so that `vars[b]` exists, and the loop after it reads
the entries of `vars` from position `b + 1` up to the last one and no other;
for `k = 2^n` no entry is read. -/
theorem C32_chain_formula_total (vars : List Int) (k : Int) (hne : vars ≠ [])
    (hn : vars.length ≤ 30) (hk0 : 0 ≤ k) (hk : k ≤ 2 ^ vars.length) :
    (∃ cs, chain_formula vars k = some cs) ∧
    (k = 0 → ∃ v, vars[0]? = some v ∧ chain_formula vars k = some [[v], [-v]]) ∧
    (k = 2 ^ vars.length → chain_formula vars k = some []) ∧
    (0 < k → k < 2 ^ vars.length →
      ∃ (b : Nat) (v : Int), skipZeroBits k 32 0 = some b ∧ b < vars.length ∧
        (∀ j, j < b → k.toNat.testBit j = false) ∧ k.toNat.testBit b = true ∧
        vars[b]? = some v ∧
        chain_formula vars k = chainLoop k (vars.drop (b + 1)) (b + 1) [[v]] ∧
        (b + 1) + (vars.drop (b + 1)).length = vars.length ∧
        ∃ cs, chainLoop k (vars.drop (b + 1)) (b + 1) [[v]] = some cs) := by
  lift k to Nat using hk0 with k0
  have hshl : shl1 vars.length = some (2 ^ vars.length) := shl1_of_lt (by omega)
  have hk2 : k0 ≤ 2 ^ vars.length := by exact_mod_cast hk
  have hzero : (k0 : Int) = 0 → ∃ v, vars[0]? = some v ∧
      chain_formula vars (k0 : Int) = some [[v], [-v]] := by
    intro hz
    cases vars with
    | nil => exact absurd rfl hne
    | cons v rest => exact ⟨v, by simp, by simp [chain_formula, hz]⟩
  have hfull : (k0 : Int) = 2 ^ vars.length → chain_formula vars (k0 : Int) = some [] := by
    intro hf
    have hpos : (0 : Int) < 2 ^ vars.length := by positivity
    have hkI : ¬ ((k0 : Int) = 0) := by omega
    simp [chain_formula, hkI, hshl, hf]
  have hmid : 0 < (k0 : Int) → (k0 : Int) < 2 ^ vars.length →
      ∃ (b : Nat) (v : Int), skipZeroBits (k0 : Int) 32 0 = some b ∧ b < vars.length ∧
        (∀ j, j < b → (k0 : Int).toNat.testBit j = false) ∧
        (k0 : Int).toNat.testBit b = true ∧
        vars[b]? = some v ∧
        chain_formula vars (k0 : Int) = chainLoop (k0 : Int) (vars.drop (b + 1)) (b + 1) [[v]] ∧
        (b + 1) + (vars.drop (b + 1)).length = vars.length ∧
        ∃ cs, chainLoop (k0 : Int) (vars.drop (b + 1)) (b + 1) [[v]] = some cs := by
    intro h0 h1
    have h0' : 0 < k0 := by exact_mod_cast h0
    have h1' : k0 < 2 ^ vars.length := by exact_mod_cast h1
    obtain ⟨b, hb1, hbn, hb2, hb3⟩ := skipZeroBits_bound vars.length k0 hn h0' h1'
    have hkI : ¬ ((k0 : Int) = 0) := by omega
    have hnfull : ¬ ((k0 : Int) = 2 ^ vars.length) := by omega
    have hnge : ¬ ((k0 : Int) ≥ 2 ^ vars.length) := by omega
    have hlen : (b + 1) + (vars.drop (b + 1)).length = vars.length := by
      rw [List.length_drop]; omega
    refine ⟨b, vars[b], hb1, hbn, ?_, ?_, List.getElem?_eq_getElem hbn, ?_, hlen,
      chainLoop_some (k0 : Int) _ _ _ (by omega)⟩
    · intro j hj
      have ht := Nat.testBit_mod_two_pow k0 b j
      rw [hb2] at ht
      simp only [Nat.zero_testBit, hj, decide_True, Bool.true_and] at ht
      simpa using ht.symm
    · rw [Int.toNat_ofNat]
      exact (testBit_iff_div_mod k0 b).mpr hb3
    · simp only [chain_formula, hkI, if_false, hshl, Option.bind_eq_bind, Option.some_bind,
        hnfull, hnge, hb1, List.getElem?_eq_getElem hbn, Option.pure_def]
  refine ⟨?_, hzero, hfull, hmid⟩
  by_cases hz : (k0 : Int) = 0
  · obtain ⟨v, _, h⟩ := hzero hz
    exact ⟨_, h⟩
  by_cases hf : (k0 : Int) = 2 ^ vars.length
  · exact ⟨_, hfull hf⟩
  have h0 : 0 < (k0 : Int) := by omega
  have h1 : (k0 : Int) < 2 ^ vars.length := by omega
  obtain ⟨b, v, _, _, _, _, _, heq, _, cs, hcs⟩ := hmid h0 h1
  exact ⟨cs, by rw [heq]; exact hcs⟩

/-- Witness of C32: `k = 4` over the variables 1, 2, 3; the skip loop stops
at bit 2. -/
theorem C32_chain_formula_total_witness :
    ∃ cs, chain_formula [1, 2, 3] 4 = some cs :=
  (C32_chain_formula_total [1, 2, 3] 4 (by decide) (by decide) (by decide) (by decide)).1

end Deweight
